import Mathlib

/-!
# CEFR text assessment (simp-lee/cefr): a shallow embedding

Modelling conventions used throughout.

* A Go `string` is its byte sequence: `GoString := List Nat`, every element a
  byte value.  Text literals of the source are written with `ascii`.
* A Go `float64` is modelled by a rational number: values are finite and the
  arithmetic is exact (no rounding, no NaN, no infinities).
* A Go `int` is an `Int` (or a `Nat` where the source value is a length or a
  count that cannot be negative).
* A Go `(Result, error)` pair is a pair `Result × Option String`, the error
  being identified with its message.
* The embedded data files of package `data` (word lists, stopwords,
  abbreviations, irregular forms) are not part of the sources; the parsed maps
  are fields of `Env`, a parameter of every function that reads them.
-/

namespace Cefr

/-! ## Go strings and the parts of the Go standard library the code uses -/

/-- A Go string: the sequence of its bytes. -/
abbrev GoString := List Nat

/-- The bytes of an ASCII literal of the source. -/
def ascii (s : String) : GoString := s.toList.map Char.toNat

/-- The replacement character U+FFFD (`utf8.RuneError`). -/
def RuneError : Nat := 0xFFFD

/-- A UTF-8 continuation byte, 0x80 to 0xBF. -/
def isCont (b : Nat) : Bool := 0x80 ≤ b && b ≤ 0xBF

/-- The lowest second byte accepted after the lead byte `b0` (Go table
`acceptRanges`). -/
def secondLo (b0 : Nat) : Nat :=
  if b0 = 0xE0 then 0xA0 else if b0 = 0xF0 then 0x90 else 0x80

/-- The highest second byte accepted after the lead byte `b0`. -/
def secondHi (b0 : Nat) : Nat :=
  if b0 = 0xED then 0x9F else if b0 = 0xF4 then 0x8F else 0xBF

/-- The decoding of a two-byte sequence with lead byte `b0` in C2..DF. -/
def decode2 (b0 : Nat) : GoString → Nat × Nat
  | b1 :: _ => if isCont b1 then ((b0 % 32) * 64 + b1 % 64, 2) else (RuneError, 1)
  | [] => (RuneError, 1)

/-- The decoding of a three-byte sequence with lead byte `b0` in E0..EF. -/
def decode3 (b0 : Nat) : GoString → Nat × Nat
  | b1 :: b2 :: _ =>
    if secondLo b0 ≤ b1 && b1 ≤ secondHi b0 && isCont b2 then
      ((b0 % 16) * 4096 + (b1 % 64) * 64 + b2 % 64, 3)
    else (RuneError, 1)
  | _ => (RuneError, 1)

/-- The decoding of a four-byte sequence with lead byte `b0` in F0..F4. -/
def decode4 (b0 : Nat) : GoString → Nat × Nat
  | b1 :: b2 :: b3 :: _ =>
    if secondLo b0 ≤ b1 && b1 ≤ secondHi b0 && isCont b2 && isCont b3 then
      ((b0 % 8) * 262144 + (b1 % 64) * 4096 + (b2 % 64) * 64 + b3 % 64, 4)
    else (RuneError, 1)
  | _ => (RuneError, 1)

/-- Go `utf8.DecodeRuneInString`: the first rune of the bytes and its width.
An invalid or incomplete encoding gives `(RuneError, 1)`, the empty string
`(RuneError, 0)`. -/
def decodeRune : GoString → Nat × Nat
  | [] => (RuneError, 0)
  | b0 :: rest =>
    if b0 < 0x80 then (b0, 1)
    else if 0xC2 ≤ b0 && b0 ≤ 0xDF then decode2 b0 rest
    else if 0xE0 ≤ b0 && b0 ≤ 0xEF then decode3 b0 rest
    else if 0xF0 ≤ b0 && b0 ≤ 0xF4 then decode4 b0 rest
    else (RuneError, 1)

/-- Go `utf8.DecodeLastRuneInString`: the last rune of the bytes and its width. -/
def decodeLastRune (s : GoString) : Nat × Nat :=
  let n := s.length
  if n = 0 then (RuneError, 0)
  else if s.getD (n - 1) 0 < 0x80 then (s.getD (n - 1) 0, 1)
  else
    let start : Option Nat :=
      if 2 ≤ n && !isCont (s.getD (n - 2) 0) then some (n - 2)
      else if 3 ≤ n && !isCont (s.getD (n - 3) 0) then some (n - 3)
      else if 4 ≤ n && !isCont (s.getD (n - 4) 0) then some (n - 4)
      else none
    match start with
    | none => (RuneError, 1)
    | some st =>
      let d := decodeRune (s.drop st)
      if st + d.2 = n then d else (RuneError, 1)

/-- Go `utf8.AppendRune`: the UTF-8 encoding of a rune, that of `RuneError`
for a surrogate or a value above U+10FFFF. -/
def encodeRune (r : Nat) : GoString :=
  if r < 0x80 then [r]
  else if r < 0x800 then [0xC0 + r / 64, 0x80 + r % 64]
  else if (0xD800 ≤ r && r ≤ 0xDFFF) || 0x10FFFF < r then [0xEF, 0xBF, 0xBD]
  else if r < 0x10000 then [0xE0 + r / 4096, 0x80 + (r / 64) % 64, 0x80 + r % 64]
  else [0xF0 + r / 262144, 0x80 + (r / 4096) % 64, 0x80 + (r / 64) % 64, 0x80 + r % 64]

/-- The runes of a string with the bytes each one was decoded from, in the
order of a Go `for _, r := range s` loop. -/
def runeChunksAux : Nat → GoString → List (Nat × GoString)
  | 0, _ => []
  | _, [] => []
  | fuel + 1, b :: rest =>
    let d := decodeRune (b :: rest)
    (d.1, (b :: rest).take d.2) :: runeChunksAux fuel ((b :: rest).drop d.2)

/-- The rune chunks of a string; its length is fuel enough. -/
def runeChunks (s : GoString) : List (Nat × GoString) := runeChunksAux s.length s

/-- Go `[]rune(s)`; also the values of `for _, r := range s`. -/
def runes (s : GoString) : List Nat := (runeChunks s).map Prod.fst

/-- Go `string(rs)` for a rune slice. -/
def runesToString (rs : List Nat) : GoString := rs.flatMap encodeRune

/-- Go `unicode.IsSpace`. -/
def unicodeIsSpace (r : Nat) : Bool :=
  (9 ≤ r && r ≤ 13) || r = 32 || r = 0x85 || r = 0xA0 || r = 0x1680 ||
  (0x2000 ≤ r && r ≤ 0x200A) || r = 0x2028 || r = 0x2029 || r = 0x202F ||
  r = 0x205F || r = 0x3000

/-- ASCII letters. -/
def isASCIILetter (r : Nat) : Bool := (97 ≤ r && r ≤ 122) || (65 ≤ r && r ≤ 90)

/-- ASCII upper-case letters. -/
def isASCIIUpper (r : Nat) : Bool := 65 ≤ r && r ≤ 90

/-- ASCII lower-casing of one byte. -/
def asciiLower (b : Nat) : Nat := if isASCIIUpper b then b + 32 else b

/-- Go `strings.TrimLeftFunc(s, unicode.IsSpace)`. -/
def trimLeftSpaceAux : Nat → GoString → GoString
  | 0, s => s
  | fuel + 1, s =>
    let d := decodeRune s
    if 0 < d.2 && unicodeIsSpace d.1 then trimLeftSpaceAux fuel (s.drop d.2) else s

/-- Go `strings.TrimRightFunc(s, unicode.IsSpace)`. -/
def trimRightSpaceAux : Nat → GoString → GoString
  | 0, s => s
  | fuel + 1, s =>
    let d := decodeLastRune s
    if 0 < d.2 && unicodeIsSpace d.1 then trimRightSpaceAux fuel (s.take (s.length - d.2)) else s

/-- Go `strings.TrimSpace`: leading and trailing Unicode white space removed. -/
def TrimSpace (s : GoString) : GoString :=
  let t := trimLeftSpaceAux s.length s
  trimRightSpaceAux t.length t

/-- The loop of Go `strings.FieldsFunc(s, unicode.IsSpace)` over the rune
chunks: `cur` is the field being read, if any. -/
def fieldsLoop : List (Nat × GoString) → Option GoString → List GoString
  | [], none => []
  | [], some cur => [cur]
  | (r, bs) :: rest, none =>
    if unicodeIsSpace r then fieldsLoop rest none else fieldsLoop rest (some bs)
  | (r, bs) :: rest, some cur =>
    if unicodeIsSpace r then cur :: fieldsLoop rest none else fieldsLoop rest (some (cur ++ bs))

/-- Go `strings.Fields`: the maximal runs of non-space runes. -/
def Fields (s : GoString) : List GoString := fieldsLoop (runeChunks s) none

/-- Go `strings.HasSuffix`. -/
def HasSuffix (s suffix : GoString) : Bool := suffix.isSuffixOf s

/-- The Go slice expression `s[a:b]`, of a string or of a slice. -/
def slice {α : Type} (s : List α) (a b : Nat) : List α := (s.take b).drop a

/-- Go `strings.Trim(s, cutset)` for a cutset of the single byte `c`. -/
def trimByte (c : Nat) (s : GoString) : GoString :=
  ((s.dropWhile (fun b => b == c)).reverse.dropWhile (fun b => b == c)).reverse

/-- The tables of Go package `unicode` outside ASCII, and the data of package
`data`: both lie outside the sources and are parameters of the model.
`isLetter`, `isUpper`, `toLower` are consulted for code points from 128 on
only. -/
structure Env where
  isLetter : Nat → Bool
  isUpper : Nat → Bool
  toLower : Nat → Nat
  oxford : GoString → Option Int
  ngsl : GoString → Option Int
  awl : GoString → Option Int
  irregulars : GoString → Option GoString
  irregularPP : GoString → Bool
  stopwords : GoString → Bool
  abbreviations : GoString → Bool
  initError : Option String

/-- Go `unicode.IsLetter`. -/
def unicodeIsLetter (env : Env) (r : Nat) : Bool :=
  if r < 128 then isASCIILetter r else env.isLetter r

/-- Go `unicode.IsUpper`. -/
def unicodeIsUpper (env : Env) (r : Nat) : Bool :=
  if r < 128 then isASCIIUpper r else env.isUpper r

/-- Go `unicode.ToLower`. -/
def unicodeToLower (env : Env) (r : Nat) : Nat :=
  if r < 128 then asciiLower r else env.toLower r

/-- Go `strings.ToLower`: byte-wise on an ASCII string, else rune by rune,
every invalid byte becoming the encoding of `RuneError`. -/
def ToLower (env : Env) (s : GoString) : GoString :=
  if s.all (fun b => b < 0x80) then s.map asciiLower
  else (runes s).flatMap (fun r => encodeRune (unicodeToLower env r))

/-! ## preprocess.go -/

/-- Token is a processed word of the input text. -/
structure Token where
  Original : GoString
  Lower : GoString
  IsFirst : Bool
  IsProper : Bool
  IsStopword : Bool
  IsFiltered : Bool
  deriving DecidableEq, Repr

/-- The replacement of `strings.NewReplacer` in normalizeAndFilterASCII for the
three bytes `E2 80 c`: curly quotes, dashes and the ellipsis. -/
def unicodePunct (c : Nat) : Option GoString :=
  if c = 0x99 then some [39]
  else if c = 0x98 then some [39]
  else if c = 0x9C then some [34]
  else if c = 0x9D then some [34]
  else if c = 0x94 then some [45]
  else if c = 0x93 then some [45]
  else if c = 0xA6 then some [46, 46, 46]
  else none

/-- The scan of `replacer.Replace(text)`; `skip` counts the bytes of a match
still to be passed over. -/
def replacePunct : Nat → GoString → GoString
  | _, [] => []
  | skip + 1, _ :: rest => replacePunct skip rest
  | 0, b :: rest =>
    match (if b = 0xE2 && rest.head? = some 0x80 then (rest.get? 1).bind unicodePunct
           else none) with
    | some r => r ++ replacePunct 2 rest
    | none => b :: replacePunct 0 rest

/-- normalizeAndFilterASCII maps common Unicode punctuation to ASCII and
removes the remaining non-ASCII characters. -/
def normalizeAndFilterASCII (text : GoString) : GoString :=
  (runes (replacePunct 0 text)).filter (fun r => r < 128)

/-- isWordByte reports whether b is an ASCII letter, digit, apostrophe or hyphen. -/
def isWordByte (b : Nat) : Bool :=
  (97 ≤ b && b ≤ 122) || (65 ≤ b && b ≤ 90) || (48 ≤ b && b ≤ 57) || b = 39 || b = 45

/-- splitSegments splits a raw token into alternating runs of word bytes and of
other bytes. -/
def splitSegments (s : GoString) : List GoString :=
  s.splitBy (fun a b => isWordByte a == isWordByte b)

/-- handleContraction strips English contractions and possessives. -/
def handleContraction (env : Env) (word : GoString) : GoString :=
  let lower := ToLower env word
  if lower = ascii "won't" then ascii "will"
  else if lower = ascii "can't" then ascii "can"
  else if lower = ascii "shan't" then ascii "shall"
  else if HasSuffix lower (ascii "n't") && word.length > 3 then word.take (word.length - 3)
  else if HasSuffix lower (ascii "'re") && word.length > 3 then word.take (word.length - 3)
  else if HasSuffix lower (ascii "'ve") && word.length > 3 then word.take (word.length - 3)
  else if HasSuffix lower (ascii "'ll") && word.length > 3 then word.take (word.length - 3)
  else if HasSuffix lower (ascii "'m") && word.length > 2 then word.take (word.length - 2)
  else if HasSuffix lower (ascii "'d") && word.length > 2 then word.take (word.length - 2)
  else if HasSuffix lower (ascii "'s") && word.length > 2 then word.take (word.length - 2)
  else word

/-- splitHyphens splits a word on hyphens, returning the non-empty parts. -/
def splitHyphens (word : GoString) : List GoString :=
  if !word.contains 45 then [word]
  else (word.splitOn 45).filter (fun p => p ≠ [])

/-- hasLetter reports whether s contains at least one letter. -/
def hasLetter (env : Env) (s : GoString) : Bool :=
  (runes s).any (unicodeIsLetter env)

/-- isAllUpper reports whether all characters of s are upper-case letters. -/
def isAllUpper (env : Env) (s : GoString) : Bool :=
  (runes s).all (unicodeIsUpper env)

/-- isUpperFirst reports whether the first byte of s is an upper-case letter. -/
def isUpperFirst (env : Env) (s : GoString) : Bool :=
  match s with
  | [] => false
  | b :: _ => unicodeIsUpper env b

/-- The tokens of the parts of one word segment (inner loop of processRawToken). -/
def wordTokens (env : Env) (parts : List GoString) : List Token :=
  parts.filterMap (fun p =>
    let p := trimByte 39 p
    if p = [] then none
    else some
      { Original := p
        Lower := ToLower env p
        IsFirst := false
        IsProper := false
        IsStopword := false
        IsFiltered := !hasLetter env p })

/-- processRawToken turns one whitespace-delimited token into Tokens. -/
def processRawToken (env : Env) (raw : GoString) : List Token :=
  (splitSegments raw).flatMap (fun seg =>
    match seg with
    | [] => []
    | b :: _ =>
      if !isWordByte b then
        [{ Original := seg, Lower := seg, IsFirst := false, IsProper := false,
           IsStopword := false, IsFiltered := true }]
      else wordTokens env (splitHyphens (handleContraction env seg)))

/-- isSentenceEnding reports whether the token contains `.`, `!` or `?`. -/
def isSentenceEnding (s : GoString) : Bool :=
  s.any (fun b => b = 46 || b = 33 || b = 63)

/-- The loop of markSentenceFirst, `expectFirst` being its state. -/
def markSentenceFirstLoop : Bool → List Token → List Token
  | _, [] => []
  | expectFirst, t :: rest =>
    if t.IsFiltered then
      t :: markSentenceFirstLoop (if isSentenceEnding t.Original then true else expectFirst) rest
    else if expectFirst then
      { t with IsFirst := true } :: markSentenceFirstLoop false rest
    else t :: markSentenceFirstLoop expectFirst rest

/-- markSentenceFirst marks the first word and every word after `.`, `!`, `?`. -/
def markSentenceFirst (tokens : List Token) : List Token :=
  markSentenceFirstLoop true tokens

/-- The stopword loop of tokenize (step 5). -/
def markStopwords (env : Env) (tokens : List Token) : List Token :=
  tokens.map (fun t => if !t.IsFiltered then { t with IsStopword := env.stopwords t.Lower } else t)

/-- The body of pass 1 of detectProperNouns for one token. -/
def properPass1 (env : Env) (t : Token) : Token :=
  if t.IsFiltered || t.IsStopword then t
  else if t.Original.length = 0 then t
  else if t.Original.length > 1 && isAllUpper env t.Original then { t with IsProper := true }
  else if !t.IsFirst && isUpperFirst env t.Original then { t with IsProper := true }
  else t

/-- The condition of the inner loop of pass 2: the token continues a run. -/
def inProperRun (env : Env) (t : Token) : Bool :=
  !t.IsFiltered && !t.IsStopword && !t.IsFirst && t.Original.length > 0 &&
    isUpperFirst env t.Original

/-- The outer loop of pass 2 of detectProperNouns, from index `i`. -/
def properPass2Loop (env : Env) : Nat → Nat → List Token → List Token
  | 0, _, tokens => tokens
  | fuel + 1, i, tokens =>
    match tokens.get? i with
    | none => tokens
    | some t =>
      if t.IsFiltered || t.IsStopword || t.IsFirst || !isUpperFirst env t.Original then
        properPass2Loop env fuel (i + 1) tokens
      else
        let start := i
        let i := start + ((tokens.drop start).takeWhile (inProperRun env)).length
        let tokens :=
          if i - start > 1 then
            tokens.enum.map (fun (j, tj) =>
              if start ≤ j && j < i then { tj with IsProper := true } else tj)
          else tokens
        properPass2Loop env fuel i tokens

/-- detectProperNouns marks tokens as proper nouns from their capitalisation. -/
def detectProperNouns (env : Env) (tokens : List Token) : List Token :=
  let tokens := tokens.map (properPass1 env)
  properPass2Loop env tokens.length 0 tokens

/-- tokenize splits raw English text into Tokens with their metadata. -/
def tokenize (env : Env) (text : GoString) : List Token :=
  let text := normalizeAndFilterASCII text
  let rawTokens := Fields text
  let tokens := rawTokens.flatMap (processRawToken env)
  let tokens := markSentenceFirst tokens
  let tokens := markStopwords env tokens
  detectProperNouns env tokens

/-- The bytes over which the abbreviation scans run: ASCII letters and dots. -/
def isLetterOrDot (c : Nat) : Bool :=
  (97 ≤ c && c ≤ 122) || (65 ≤ c && c ≤ 90) || c = 46

/-- The backward scan from `dotPos` over letters and dots: the new `start`. -/
def scanBack (text : GoString) (dotPos : Nat) : Nat :=
  dotPos - ((text.take dotPos).reverse.takeWhile isLetterOrDot).length

/-- The index after the run of bytes satisfying `p` that starts at `j`. -/
def skipWhile (p : Nat → Bool) (text : GoString) (j : Nat) : Nat :=
  j + ((text.drop j).takeWhile p).length

/-- sentenceIsAbbreviation checks whether the dot at dotPos ends a known
abbreviation. -/
def sentenceIsAbbreviation (env : Env) (text : GoString) (dotPos : Nat) : Bool :=
  let start := scanBack text dotPos
  if start = dotPos then false
  else
    let stop := skipWhile isLetterOrDot text (dotPos + 1)
    let fullWord := ToLower env (slice text start stop)
    if env.abbreviations fullWord then true
    else env.abbreviations (ToLower env (slice text start (dotPos + 1)))

/-- followedBySpaceUppercase: optional closing quotes, a space, an upper-case
ASCII letter. -/
def followedBySpaceUppercase (text : GoString) (pos : Nat) : Bool :=
  let j := skipWhile (fun c => c = 34) text (pos + 1)
  if j < text.length && text.getD j 0 = 32 then
    let j := j + 1
    j < text.length && 65 ≤ text.getD j 0 && text.getD j 0 ≤ 90
  else false

/-- abbreviationAtDot returns the lower-case abbreviation ending at dotPos. -/
def abbreviationAtDot (env : Env) (text : GoString) (dotPos : Nat) : GoString :=
  let start := scanBack text dotPos
  if start > dotPos then []
  else ToLower env (slice text start (dotPos + 1))

/-- isTitleAbbreviation reports the titles that stand before proper names. -/
def isTitleAbbreviation (abbr : GoString) : Bool :=
  abbr = ascii "mr." || abbr = ascii "mrs." || abbr = ascii "ms." ||
  abbr = ascii "dr." || abbr = ascii "prof." || abbr = ascii "sr." ||
  abbr = ascii "jr." || abbr = ascii "st."

/-- abbreviationEndsSentence reports whether the abbreviation dot at dotPos is
a sentence boundary. -/
def abbreviationEndsSentence (env : Env) (text : GoString) (dotPos : Nat) : Bool :=
  let abbr := abbreviationAtDot env text dotPos
  let j := skipWhile (fun c => c = 34) text (dotPos + 1)
  if j ≥ text.length then true
  else if text.getD j 0 = 10 || text.getD j 0 = 13 then true
  else if !unicodeIsSpace (text.getD j 0) then false
  else
    let ws := (text.drop j).takeWhile unicodeIsSpace
    if ws.any (fun c => c = 10 || c = 13) then true
    else
      let j := skipWhile (fun c => c = 34) text (j + ws.length)
      if j ≥ text.length then true
      else if !unicodeIsUpper env (decodeRune (text.drop j)).1 then false
      else !isTitleAbbreviation abbr

/-- The end of a sentence in splitSentences: the trimmed builder is appended
when it is not empty. -/
def flushSentence (current : GoString) (sentences : List GoString) : List GoString :=
  let s := TrimSpace current
  if s ≠ [] then sentences ++ [s] else sentences

/-- The main loop of splitSentences at index `i`, with the quote state, the
builder `current` and the sentences found so far. -/
def splitLoop (env : Env) (text : GoString) :
    Nat → Nat → Bool → GoString → List GoString → List GoString
  | 0, _, _, current, sentences => flushSentence current sentences
  | fuel + 1, i, inQuote, current, sentences =>
    if i < text.length then
      let ch := text.getD i 0
      if ch = 34 then
        splitLoop env text fuel (i + 1) (!inQuote) (current ++ [ch]) sentences
      else if ch = 46 && i + 2 < text.length && text.getD (i + 1) 0 = 46 &&
          text.getD (i + 2) 0 = 46 then
        splitLoop env text fuel (i + 3) inQuote []
          (flushSentence (current ++ [46, 46, 46]) sentences)
      else if ch = 46 || ch = 33 || ch = 63 then
        let current := current ++ [ch]
        if ch = 46 && sentenceIsAbbreviation env text i &&
            !abbreviationEndsSentence env text i then
          splitLoop env text fuel (i + 1) inQuote current sentences
        else if ch = 46 && inQuote && !followedBySpaceUppercase text i then
          splitLoop env text fuel (i + 1) inQuote current sentences
        else
          let punct := (text.drop (i + 1)).takeWhile (fun c => c = 33 || c = 63 || c = 46)
          let j := i + 1 + punct.length
          let quotes := (text.drop j).takeWhile (fun c => c = 34)
          let inQuote := if quotes.length % 2 = 1 then !inQuote else inQuote
          splitLoop env text fuel (j + quotes.length) inQuote []
            (flushSentence (current ++ punct ++ quotes) sentences)
      else splitLoop env text fuel (i + 1) inQuote (current ++ [ch]) sentences
    else flushSentence current sentences

/-- splitSentences splits English text into sentences. -/
def splitSentences (env : Env) (text : GoString) : List GoString :=
  let text := TrimSpace text
  if text = [] then []
  else splitLoop env text (text.length + 1) 0 false [] []

/-! ## level.go -/

/-- Level is a CEFR proficiency level as an integer. -/
abbrev Level := Int

def A1 : Level := 1
def A2 : Level := 2
def B1 : Level := 3
def B2 : Level := 4
def C1 : Level := 5
def C2 : Level := 6

/-- String returns the human-readable CEFR label for the level. -/
def Level.String (l : Level) : String :=
  if l = A1 then "A1"
  else if l = A2 then "A2"
  else if l = B1 then "B1"
  else if l = B2 then "B2"
  else if l = C1 then "C1"
  else if l = C2 then "C2"
  else "Unknown"

/-- clampScore constrains a score to the valid range [1.0, 6.0]. -/
def clampScore (score : ℚ) : ℚ :=
  if score < 1 then 1
  else if score > 6 then 6
  else score

/-- scoreToLevel maps a continuous score to a CEFR level label. -/
def scoreToLevel (score : ℚ) : String :=
  let score := clampScore score
  if score < 3/2 then Level.String A1
  else if score < 5/2 then Level.String A2
  else if score < 7/2 then Level.String B1
  else if score < 9/2 then Level.String B2
  else if score < 11/2 then Level.String C1
  else Level.String C2

/-- levelToBaseScore returns the base score for an integer level value. -/
def levelToBaseScore (level : Int) : ℚ :=
  if level < A1 then (A1 : Int)
  else if level > C2 then (C2 : Int)
  else level

/-! ## lemma.go -/

/-- isInVocab checks whether a word is in the Oxford 5000 or the NGSL list. -/
def isInVocab (env : Env) (word : GoString) : Bool :=
  (env.oxford word).isSome || (env.ngsl word).isSome

/-- isConsonant is true for the lower-case ASCII letters that are not vowels. -/
def isConsonant (b : Nat) : Bool :=
  if b = 97 || b = 101 || b = 105 || b = 111 || b = 117 || b = 121 then false
  else 97 ≤ b && b ≤ 122

/-- isDoubledConsonant checks whether a word ends with a doubled consonant. -/
def isDoubledConsonant (word : GoString) : Bool :=
  if word.length < 2 then false
  else
    let last := word.getD (word.length - 1) 0
    let prev := word.getD (word.length - 2) 0
    last = prev && isConsonant last

/-- tryStripIng handles the suffix -ing. -/
def tryStripIng (env : Env) (word : GoString) : Option GoString :=
  if !HasSuffix word (ascii "ing") || word.length < 5 then none
  else
    let stem := word.take (word.length - 3)
    if isDoubledConsonant stem && isInVocab env (stem.take (stem.length - 1)) then
      some (stem.take (stem.length - 1))
    else if isInVocab env (stem ++ ascii "e") then some (stem ++ ascii "e")
    else if isInVocab env stem then some stem
    else none

/-- tryStripEd handles the suffix -ed. -/
def tryStripEd (env : Env) (word : GoString) : Option GoString :=
  if !HasSuffix word (ascii "ed") || word.length < 4 then none
  else if HasSuffix word (ascii "ied") && word.length ≥ 5 &&
      isInVocab env (word.take (word.length - 3) ++ ascii "y") then
    some (word.take (word.length - 3) ++ ascii "y")
  else
    let stem := word.take (word.length - 2)
    if isDoubledConsonant stem && isInVocab env (stem.take (stem.length - 1)) then
      some (stem.take (stem.length - 1))
    else if isInVocab env (stem ++ ascii "e") then some (stem ++ ascii "e")
    else if isInVocab env stem then some stem
    else none

/-- tryStripEs handles the suffix -es. -/
def tryStripEs (env : Env) (word : GoString) : Option GoString :=
  if !HasSuffix word (ascii "es") || word.length < 4 then none
  else if HasSuffix word (ascii "ies") && word.length ≥ 5 &&
      isInVocab env (word.take (word.length - 3) ++ ascii "y") then
    some (word.take (word.length - 3) ++ ascii "y")
  else
    let stem := word.take (word.length - 2)
    if (HasSuffix stem (ascii "x") || HasSuffix stem (ascii "sh") ||
        HasSuffix stem (ascii "ch") || HasSuffix stem (ascii "ss") ||
        HasSuffix stem (ascii "z")) && isInVocab env stem then
      some stem
    else if isInVocab env (word.take (word.length - 1)) then
      some (word.take (word.length - 1))
    else none

/-- tryStripS handles the suffix -s. -/
def tryStripS (env : Env) (word : GoString) : Option GoString :=
  if !HasSuffix word (ascii "s") || word.length < 3 then none
  else if HasSuffix word (ascii "ss") then none
  else if isInVocab env (word.take (word.length - 1)) then
    some (word.take (word.length - 1))
  else none

/-- tryStripEr handles the suffix -er. -/
def tryStripEr (env : Env) (word : GoString) : Option GoString :=
  if !HasSuffix word (ascii "er") || word.length < 4 then none
  else if HasSuffix word (ascii "ier") && word.length ≥ 5 &&
      isInVocab env (word.take (word.length - 3) ++ ascii "y") then
    some (word.take (word.length - 3) ++ ascii "y")
  else
    let stem := word.take (word.length - 2)
    if isDoubledConsonant stem && isInVocab env (stem.take (stem.length - 1)) then
      some (stem.take (stem.length - 1))
    else if isInVocab env (stem ++ ascii "e") then some (stem ++ ascii "e")
    else if isInVocab env stem then some stem
    else none

/-- tryStripEst handles the suffix -est. -/
def tryStripEst (env : Env) (word : GoString) : Option GoString :=
  if !HasSuffix word (ascii "est") || word.length < 5 then none
  else if HasSuffix word (ascii "iest") && word.length ≥ 6 &&
      isInVocab env (word.take (word.length - 4) ++ ascii "y") then
    some (word.take (word.length - 4) ++ ascii "y")
  else
    let stem := word.take (word.length - 3)
    if isDoubledConsonant stem && isInVocab env (stem.take (stem.length - 1)) then
      some (stem.take (stem.length - 1))
    else if isInVocab env (stem ++ ascii "e") then some (stem ++ ascii "e")
    else if isInVocab env stem then some stem
    else none

/-- tryStripLy handles the suffix -ly. -/
def tryStripLy (env : Env) (word : GoString) : Option GoString :=
  if !HasSuffix word (ascii "ly") || word.length < 4 then none
  else if HasSuffix word (ascii "ily") && word.length ≥ 5 &&
      isInVocab env (word.take (word.length - 3) ++ ascii "y") then
    some (word.take (word.length - 3) ++ ascii "y")
  else if isInVocab env (word.take (word.length - 2)) then
    some (word.take (word.length - 2))
  else none

/-- lemmatize reduces a lower-case English word to its base form. -/
def lemmatize (env : Env) (word : GoString) : GoString :=
  if word = [] then word
  else
    match env.irregulars word with
    | some lem => lem
    | none =>
      if isInVocab env word then word
      else
        match tryStripIng env word with
        | some r => r
        | none =>
        match tryStripEd env word with
        | some r => r
        | none =>
        match tryStripEs env word with
        | some r => r
        | none =>
        match tryStripS env word with
        | some r => r
        | none =>
        match tryStripEr env word with
        | some r => r
        | none =>
        match tryStripEst env word with
        | some r => r
        | none =>
        match tryStripLy env word with
        | some r => r
        | none => word

/-! ## vocab.go -/

/-- VocabResult holds the vocabulary metrics.  The Go map `Distribution` is
the function from its keys to their values (`none` for an absent key). -/
structure VocabResult where
  Score : ℚ
  Distribution : String → Option ℚ
  UnknownRatio : ℚ
  ContentWords : Int

/-- lookupInLists checks one word form against Oxford 5000, AWL, then NGSL. -/
def lookupInLists (env : Env) (word : GoString) : Option Int :=
  match env.oxford word with
  | some level => some level
  | none =>
    match env.awl word with
    | some level => some level
    | none =>
      match env.ngsl word with
      | some level => some level
      | none => none

/-- lookupWordLevel returns the level of a word, trying the word itself and
then its lemma. -/
def lookupWordLevel (env : Env) (word : GoString) : Option Int :=
  if word = [] then none
  else
    match lookupInLists env word with
    | some level => some level
    | none =>
      let lem := lemmatize env word
      if lem ≠ word then lookupInLists env lem else none

/-- The loop of analyzeVocab over the tokens: `seen` is the set of lower-case
forms met, `levels` the levels collected, `unknownCount` the unknown words. -/
def vocabLoop (env : Env) : List Token → List GoString → List Int → Int → List Int × Int
  | [], _, levels, unknownCount => (levels, unknownCount)
  | tok :: rest, seen, levels, unknownCount =>
    if tok.IsStopword || tok.IsProper || tok.IsFiltered then
      vocabLoop env rest seen levels unknownCount
    else if seen.contains tok.Lower then vocabLoop env rest seen levels unknownCount
    else
      match lookupWordLevel env tok.Lower with
      | none => vocabLoop env rest (tok.Lower :: seen) (levels ++ [C1]) (unknownCount + 1)
      | some level => vocabLoop env rest (tok.Lower :: seen) (levels ++ [level]) unknownCount

/-- The six level labels over which computeDistribution builds its result. -/
def levelLabels : List String := ["A1", "A2", "B1", "B2", "C1", "C2"]

/-- computeDistribution gives the share of content words at each level and of
the unknown ones. -/
def computeDistribution (levels : List Int) (unknownCount total : Int) : String → Option ℚ :=
  fun label =>
    if levelLabels.contains label then
      let counted : Int := (levels.filter (fun l => Level.String l = label)).length
      let c : Int :=
        if unknownCount > 0 && label = Level.String C1 then counted - unknownCount else counted
      if c > 0 then some ((c : ℚ) / (total : ℚ)) else none
    else if label = "Unknown" && unknownCount > 0 then
      some ((unknownCount : ℚ) / (total : ℚ))
    else none

/-- The index of the 80th percentile, `int(float64(contentWords-1) * 0.8)`.
The product is never within rounding distance below an integer, so the
truncation equals the exact floor. -/
def p80Index (contentWords : Nat) : Nat :=
  (Rat.floor (((contentWords - 1 : Nat) : ℚ) * (4 / 5))).toNat

/-- analyzeVocab computes the vocabulary metrics of a token list. -/
def analyzeVocab (env : Env) (tokens : List Token) : VocabResult :=
  if tokens.length = 0 then
    { Score := 1, Distribution := fun _ => none, UnknownRatio := 0, ContentWords := 0 }
  else
    let collected := vocabLoop env tokens [] [] 0
    let levels := collected.1
    let unknownCount := collected.2
    let contentWords := levels.length
    if contentWords = 0 then
      { Score := 1, Distribution := fun _ => none, UnknownRatio := 0, ContentWords := 0 }
    else
      let unknownRatio : ℚ := (unknownCount : ℚ) / (contentWords : ℚ)
      let distribution := computeDistribution levels unknownCount contentWords
      let levels := levels.insertionSort (fun a b => a ≤ b)
      let score : ℚ :=
        if contentWords < 10 then ((levels.sum : Int) : ℚ) / (contentWords : ℚ)
        else ((levels.getD (p80Index contentWords) 0 : Int) : ℚ)
      let score := if unknownRatio > 3 / 10 then score + (unknownRatio - 3 / 10) * 2 else score
      { Score := clampScore score
        Distribution := distribution
        UnknownRatio := unknownRatio
        ContentWords := contentWords }

/-! ## syllable.go -/

/-- isVowel reports whether c is one of a, e, i, o, u, y. -/
def isVowel (c : Nat) : Bool :=
  c = 97 || c = 101 || c = 105 || c = 111 || c = 117 || c = 121

/-- The vowel-group count of countSyllables (step 1), `inVowel` its state. -/
def vowelGroups : Bool → GoString → Int
  | _, [] => 0
  | inVowel, c :: rest =>
    if isVowel c then (if !inVowel then 1 else 0) + vowelGroups true rest
    else vowelGroups false rest

/-- endsWithSibilant reports whether s ends in s, x, z, ch or sh. -/
def endsWithSibilant (s : GoString) : Bool :=
  if s.length = 0 then false
  else
    let last := s.getD (s.length - 1) 0
    if last = 115 || last = 120 || last = 122 then true
    else if s.length ≥ 2 then
      let pair := slice s (s.length - 2) s.length
      pair = ascii "ch" || pair = ascii "sh"
    else false

/-- countSyllables estimates the number of syllables of an English word. -/
def countSyllables (env : Env) (word : GoString) : Int :=
  let word := ToLower env (TrimSpace word)
  let n := word.length
  if n = 0 then 0
  else
    let count := vowelGroups false word
    let count :=
      if n ≥ 3 && slice word (n - 2) n = ascii "es" then
        (if !endsWithSibilant (word.take (n - 2)) then count - 1 else count)
      else if n ≥ 3 && slice word (n - 2) n = ascii "ed" then
        (if word.getD (n - 3) 0 ≠ 116 && word.getD (n - 3) 0 ≠ 100 then count - 1 else count)
      else if n ≥ 2 && word.getD (n - 1) 0 = 101 then
        (if n ≥ 3 && word.getD (n - 2) 0 = 108 && !isVowel (word.getD (n - 3) 0) then count
         else count - 1)
      else count
    if count < 1 then 1 else count

/-- countTotalSyllables sums the syllable counts of all words. -/
def countTotalSyllables (env : Env) (words : List GoString) : Int :=
  words.foldl (fun total w => total + countSyllables env w) 0

/-! ## readability.go -/

/-- ReadabilityResult holds the readability formula outputs. -/
structure ReadabilityResult where
  Score : ℚ
  FKGL : ℚ
  FRE : ℚ
  CLI : ℚ
  deriving DecidableEq

/-- calcFKGL computes the Flesch-Kincaid Grade Level. -/
def calcFKGL (wordCount sentenceCount syllableCount : Int) : ℚ :=
  let w : ℚ := wordCount
  let s : ℚ := sentenceCount
  let syl : ℚ := syllableCount
  39 / 100 * (w / s) + 118 / 10 * (syl / w) - 1559 / 100

/-- calcFRE computes the Flesch Reading Ease score. -/
def calcFRE (wordCount sentenceCount syllableCount : Int) : ℚ :=
  let w : ℚ := wordCount
  let s : ℚ := sentenceCount
  let syl : ℚ := syllableCount
  206835 / 1000 - 1015 / 1000 * (w / s) - 846 / 10 * (syl / w)

/-- calcCLI computes the Coleman-Liau Index. -/
def calcCLI (charCount wordCount sentenceCount : Int) : ℚ :=
  let w : ℚ := wordCount
  let l : ℚ := ((charCount : ℚ) / w) * 100
  let s : ℚ := ((sentenceCount : ℚ) / w) * 100
  588 / 10000 * l - 296 / 1000 * s - 158 / 10

/-- The grade-level anchors, used by fkglToScore and cliToScore. -/
def gradeAnchors : List (ℚ × ℚ) :=
  [(3 / 2, 1), (7 / 2, 2), (6, 3), (9, 4), (12, 5), (14, 6)]

/-- The loop of interpolateScore from the anchor after `prev`. -/
def interpolateLoop (value : ℚ) : ℚ × ℚ → List (ℚ × ℚ) → ℚ
  | prev, [] => prev.2
  | prev, a :: rest =>
    if value ≤ a.1 then prev.2 + (value - prev.1) / (a.1 - prev.1) * (a.2 - prev.2)
    else interpolateLoop value a rest

/-- interpolateScore interpolates linearly between the anchors and clamps
outside them.  On an empty table the Go code stops with an index error; the
model then gives 0, and no caller passes an empty table. -/
def interpolateScore (anchors : List (ℚ × ℚ)) (value : ℚ) : ℚ :=
  match anchors with
  | [] => 0
  | a0 :: rest => if value ≤ a0.1 then a0.2 else interpolateLoop value a0 rest

/-- fkglToScore maps a Flesch-Kincaid Grade Level to a score. -/
def fkglToScore (fkgl : ℚ) : ℚ := interpolateScore gradeAnchors fkgl

/-- cliToScore maps a Coleman-Liau Index to a score. -/
def cliToScore (cli : ℚ) : ℚ := interpolateScore gradeAnchors cli

/-- The Reading Ease anchors, ascending in FRE and descending in score. -/
def freAnchors : List (ℚ × ℚ) :=
  [(45, 6), (55, 5), (65, 4), (75, 3), (85, 2), (95, 1)]

/-- freToScore maps a Flesch Reading Ease value to a score. -/
def freToScore (fre : ℚ) : ℚ :=
  let first := freAnchors.headD (0, 0)
  let last := freAnchors.getLastD (0, 0)
  if fre ≥ last.1 then last.2
  else if fre ≤ first.1 then first.2
  else interpolateLoop fre first freAnchors.tail

/-- analyzeReadability computes the readability metrics and their score. -/
def analyzeReadability (wordCount sentenceCount syllableCount charCount : Int) :
    ReadabilityResult :=
  if wordCount = 0 || sentenceCount = 0 then { Score := 1, FKGL := 0, FRE := 0, CLI := 0 }
  else
    let fkgl := calcFKGL wordCount sentenceCount syllableCount
    let fre := calcFRE wordCount sentenceCount syllableCount
    let cli := calcCLI charCount wordCount sentenceCount
    let score := 1 / 2 * fkglToScore fkgl + 3 / 10 * freToScore fre + 1 / 5 * cliToScore cli
    { Score := score, FKGL := fkgl, FRE := fre, CLI := cli }

/-! ## syntax.go -/

/-- SyntaxResult holds the syntactic complexity metrics. -/
structure SyntaxResult where
  Score : ℚ
  AvgSentenceLength : ℚ
  SubordinationIndex : ℚ
  PassiveRate : ℚ
  ConnectorDiversity : Int
  deriving DecidableEq

/-- The subordinating conjunctions and relative pronouns. -/
def subordinators : List GoString :=
  [ascii "because", ascii "although", ascii "which", ascii "who",
   ascii "if", ascii "when", ascii "while", ascii "unless",
   ascii "though", ascii "since", ascii "that", ascii "where",
   ascii "whose", ascii "whom", ascii "whereas", ascii "whereby",
   ascii "whenever", ascii "wherever", ascii "however", ascii "whatever",
   ascii "whichever", ascii "whoever", ascii "after", ascii "before",
   ascii "until", ascii "as", ascii "once", ascii "provided",
   ascii "supposing", ascii "lest"]

/-- The forms of the verb be used for passive voice detection. -/
def beVerbs : List GoString :=
  [ascii "is", ascii "am", ascii "are", ascii "was",
   ascii "were", ascii "been", ascii "being", ascii "be"]

/-- The connector words with their semantic category. -/
def connectorTable : List (GoString × String) :=
  [(ascii "and", "addition"), (ascii "also", "addition"), (ascii "furthermore", "addition"),
   (ascii "moreover", "addition"), (ascii "besides", "addition"),
   (ascii "additionally", "addition"), (ascii "addition", "addition"),
   (ascii "too", "addition"), (ascii "likewise", "addition"),
   (ascii "similarly", "addition"), (ascii "equally", "addition"),
   (ascii "but", "contrast"), (ascii "however", "contrast"),
   (ascii "nevertheless", "contrast"), (ascii "nonetheless", "contrast"),
   (ascii "yet", "contrast"), (ascii "still", "contrast"),
   (ascii "conversely", "contrast"), (ascii "despite", "contrast"),
   (ascii "contrary", "contrast"),
   (ascii "because", "cause"), (ascii "therefore", "cause"),
   (ascii "consequently", "cause"), (ascii "thus", "cause"), (ascii "hence", "cause"),
   (ascii "so", "cause"), (ascii "accordingly", "cause"),
   (ascii "first", "sequence"), (ascii "second", "sequence"), (ascii "third", "sequence"),
   (ascii "finally", "sequence"), (ascii "then", "sequence"), (ascii "next", "sequence"),
   (ascii "subsequently", "sequence"), (ascii "previously", "sequence"),
   (ascii "meanwhile", "sequence"), (ascii "afterwards", "sequence"),
   (ascii "initially", "sequence"), (ascii "ultimately", "sequence"),
   (ascii "lastly", "sequence"),
   (ascii "conclusion", "summary"), (ascii "summary", "summary"),
   (ascii "overall", "summary"), (ascii "briefly", "summary"), (ascii "conclude", "summary")]

/-- The Go map lookup `connectorCategory[w]`: the empty string when absent. -/
def connectorCategory (w : GoString) : String :=
  match connectorTable.lookup w with
  | some c => c
  | none => ""

/-- isRegularPastParticiple: the word ends in -ed and not in -ing. -/
def isRegularPastParticiple (word : GoString) : Bool :=
  HasSuffix word (ascii "ed") && !HasSuffix word (ascii "ing")

/-- calcAvgSentenceLength returns the average number of words per sentence. -/
def calcAvgSentenceLength (wordCount sentenceCount : Int) : ℚ :=
  if sentenceCount = 0 then 0 else (wordCount : ℚ) / (sentenceCount : ℚ)

/-- The anchors of the average sentence length. -/
def aslAnchors : List (ℚ × ℚ) :=
  [(6, 1), (9, 2), (13, 3), (18, 4), (23, 5), (28, 6)]

/-- mapASLToScore maps an average sentence length to a score. -/
def mapASLToScore (asl : ℚ) : ℚ := interpolateScore aslAnchors asl

/-- calcSubordinationIndex returns the number of subordinators per sentence. -/
def calcSubordinationIndex (tokens : List Token) (sentenceCount : Int) : ℚ :=
  if sentenceCount = 0 then 0
  else
    let count : Int :=
      (tokens.filter (fun t => !t.IsFiltered && subordinators.contains t.Lower)).length
    (count : ℚ) / (sentenceCount : ℚ)

/-- The anchors of the subordination index. -/
def subordinationAnchors : List (ℚ × ℚ) :=
  [(0, 1), (3 / 10, 2), (6 / 10, 3), (1, 4), (3 / 2, 5), (2, 6)]

/-- mapSubordinationToScore maps a subordination index to a score. -/
def mapSubordinationToScore (index : ℚ) : ℚ := interpolateScore subordinationAnchors index

/-- stripNonAlpha removes leading and trailing non-letter characters. -/
def stripNonAlpha (env : Env) (s : GoString) : GoString :=
  let rs := runes s
  let notLetter := fun r => !unicodeIsLetter env r
  runesToString ((rs.dropWhile notLetter).reverse.dropWhile notLetter).reverse

/-- extractWords splits a sentence into lower-case words without the
punctuation around them. -/
def extractWords (env : Env) (sentence : GoString) : List GoString :=
  (Fields sentence).filterMap (fun f =>
    let w := stripNonAlpha env f
    if w ≠ [] then some (ToLower env w) else none)

/-- isPastParticiple checks the irregular table, then the regular -ed rule. -/
def isPastParticiple (word : GoString) (irregularPP : GoString → Bool) : Bool :=
  if irregularPP word then true else isRegularPastParticiple word

/-- The passive bigrams of one word list: a be-verb followed by a participle,
for `i` from 0 up to `len(words)-2`. -/
def passivePairs (irregularPP : GoString → Bool) : List GoString → Int
  | [] => 0
  | [_] => 0
  | a :: b :: rest =>
    (if beVerbs.contains a && isPastParticiple b irregularPP then 1 else 0) +
      passivePairs irregularPP (b :: rest)

/-- calcPassiveRate estimates the number of passive constructions per sentence. -/
def calcPassiveRate (env : Env) (sentences : List GoString) : ℚ :=
  if sentences.length = 0 then 0
  else
    let passiveCount : Int :=
      sentences.foldl (fun n sent => n + passivePairs env.irregularPP (extractWords env sent)) 0
    (passiveCount : ℚ) / (sentences.length : ℚ)

/-- The anchors of the passive rate. -/
def passiveAnchors : List (ℚ × ℚ) :=
  [(0, 1), (5 / 100, 2), (10 / 100, 3), (20 / 100, 4), (30 / 100, 5), (40 / 100, 6)]

/-- mapPassiveRateToScore maps a passive rate to a score. -/
def mapPassiveRateToScore (rate : ℚ) : ℚ := interpolateScore passiveAnchors rate

/-- The loop of calcConnectorDiversity: `seen` is the set of categories met. -/
def connectorLoop : List Token → List String → List String
  | [], seen => seen
  | t :: rest, seen =>
    if !t.IsFiltered && connectorCategory t.Lower ≠ "" &&
        !seen.contains (connectorCategory t.Lower) then
      connectorLoop rest (connectorCategory t.Lower :: seen)
    else connectorLoop rest seen

/-- calcConnectorDiversity counts the distinct connector categories. -/
def calcConnectorDiversity (tokens : List Token) : Int :=
  (connectorLoop tokens []).length

/-- The anchors of the connector diversity. -/
def connectorAnchors : List (ℚ × ℚ) :=
  [(2, 1), (5, 2), (10, 3), (15, 4), (20, 5), (25, 6)]

/-- mapConnectorDiversityToScore maps the connector count to a score. -/
def mapConnectorDiversityToScore (count : Int) : ℚ :=
  interpolateScore connectorAnchors (count : ℚ)

/-- analyzeSyntax computes the syntactic metrics and their combined score. -/
def analyzeSyntax (env : Env) (tokens : List Token) (sentences : List GoString) :
    SyntaxResult :=
  let sentenceCount : Int := sentences.length
  let wordCount : Int := (tokens.filter (fun t => !t.IsFiltered)).length
  if wordCount = 0 || sentenceCount = 0 then
    { Score := 1, AvgSentenceLength := 0, SubordinationIndex := 0, PassiveRate := 0,
      ConnectorDiversity := 0 }
  else
    let asl := calcAvgSentenceLength wordCount sentenceCount
    let subIdx := calcSubordinationIndex tokens sentenceCount
    let passive := calcPassiveRate env sentences
    let connDiv := calcConnectorDiversity tokens
    let aslScore := mapASLToScore asl
    let subScore := mapSubordinationToScore subIdx
    let passiveScore := mapPassiveRateToScore passive
    let connScore := mapConnectorDiversityToScore connDiv
    let score := 4 / 10 * aslScore + 3 / 10 * subScore + 15 / 100 * passiveScore +
      15 / 100 * connScore
    { Score := score
      AvgSentenceLength := asl
      SubordinationIndex := subIdx
      PassiveRate := passive
      ConnectorDiversity := connDiv }

/-! ## option.go -/

/-- The type config holds the internal parameters of an assessment. -/
structure config where
  vocabWeight : ℚ
  syntaxWeight : ℚ
  readabilityWeight : ℚ
  fullAnalysis : Bool
  samplingThreshold : Int
  deriving DecidableEq

/-- An AssessOption (Go `Option func(*config)`) updates a config. -/
abbrev AssessOption := config → config

/-- defaultConfig returns a config with default values. -/
def defaultConfig : config :=
  { vocabWeight := 1/2
    syntaxWeight := 3/10
    readabilityWeight := 1/5
    fullAnalysis := false
    samplingThreshold := 10000 }

/-- WithWeights sets custom weights; invalid weights leave the config as it is. -/
def WithWeights (vocab syn readability : ℚ) : AssessOption := fun c =>
  if vocab < 0 ∨ syn < 0 ∨ readability < 0 then c
  else if |vocab + syn + readability - 1| > 1/1000 then c
  else { c with vocabWeight := vocab, syntaxWeight := syn, readabilityWeight := readability }

/-- WithFullAnalysis forces full-text analysis instead of sampling. -/
def WithFullAnalysis : AssessOption := fun c =>
  { c with fullAnalysis := true }

/-- WithSamplingThreshold sets the sampling threshold when n is positive. -/
def WithSamplingThreshold (n : Int) : AssessOption := fun c =>
  if n > 0 then { c with samplingThreshold := n } else c

/-- The options a caller can build: the three constructors of option.go. -/
inductive BuiltOption : AssessOption → Prop
  | weights (v s r : ℚ) : BuiltOption (WithWeights v s r)
  | full : BuiltOption WithFullAnalysis
  | threshold (n : Int) : BuiltOption (WithSamplingThreshold n)

/-- The loop `for _, opt := range opts { opt(&cfg) }` of Assess. -/
def applyOptions (cfg : config) (opts : List AssessOption) : config :=
  opts.foldl (fun c opt => opt c) cfg

/-! ## cefr.go: confidence -/

/-- calcConfidence estimates reliability from text length and segment variance. -/
def calcConfidence (wordCount : Int) (_sentenceCount : Int) (sampledVariance : ℚ) : ℚ :=
  let lengthFactor : ℚ := (wordCount : ℚ) / 500
  let lengthFactor := if lengthFactor > 1 then 1 else lengthFactor
  let consistencyFactor : ℚ := 1 - sampledVariance
  let consistencyFactor := if consistencyFactor < 0 then 0 else consistencyFactor
  let confidence := lengthFactor * consistencyFactor
  let confidence := if confidence < 0 then 0 else confidence
  let confidence := if confidence > 1 then 1 else confidence
  confidence

/-- The confidence formula in the words of the specification. -/
def confidenceSpec (w : Int) (v : ℚ) : ℚ :=
  max 0 (min 1 (min 1 ((w : ℚ) / 500) * max 0 (1 - v)))

/-! ## cefr.go: results -/

/-- Result holds the complete CEFR assessment output for a text. -/
structure Result where
  Level : String
  Score : ℚ
  Confidence : ℚ
  Vocab : VocabResult
  Syntax : SyntaxResult
  Readability : ReadabilityResult
  WordCount : Int
  SentenceCount : Int

/-- The zero value `Result{}` (an absent map has no key). -/
def zeroResult : Result :=
  { Level := ""
    Score := 0
    Confidence := 0
    Vocab := { Score := 0, Distribution := fun _ => none, UnknownRatio := 0, ContentWords := 0 }
    Syntax := { Score := 0, AvgSentenceLength := 0, SubordinationIndex := 0, PassiveRate := 0,
                ConnectorDiversity := 0 }
    Readability := { Score := 0, FKGL := 0, FRE := 0, CLI := 0 }
    WordCount := 0
    SentenceCount := 0 }

/-! ## sampling.go -/

/-- shouldSample reports whether the text is long enough for sampling. -/
def shouldSample (wordCount threshold : Int) : Bool := wordCount > threshold

/-- The constant targetWords of sampleText. -/
def targetWords : Nat := 1000

/-- One step of the string builders of sampleText: a space unless the builder
is empty, then the sentence. -/
def appendSentence (b : GoString) (sentence : GoString) : GoString :=
  (if b.length > 0 then b ++ [32] else b) ++ sentence

/-- The forward collecting loop over the sentences from index `i` on: it stops
at the end of the list or once `target` words are collected; it returns the
builder and the next index. -/
def collectLoop (target : Nat) : List GoString → GoString → Nat → Nat → GoString × Nat
  | [], b, _, i => (b, i)
  | s :: rest, b, wordsCollected, i =>
    if wordsCollected < target then
      collectLoop target rest (appendSentence b s) (wordsCollected + (Fields s).length) (i + 1)
    else (b, i)

/-- The backward counting loops of sampleText over the sentences before an
index, last one first: the number of steps back until `target` words. -/
def backLoop (target : Nat) : List GoString → Nat → Nat
  | [], _ => 0
  | s :: rest, words =>
    if words < target then 1 + backLoop target rest (words + (Fields s).length) else 0

/-- The loop of uniqueSegments: trimmed candidates, empty and repeated ones
left out. -/
def uniqueLoop : List GoString → List GoString → List GoString
  | [], _ => []
  | seg :: rest, seen =>
    let trimmed := TrimSpace seg
    if trimmed = [] || seen.contains trimmed then uniqueLoop rest seen
    else trimmed :: uniqueLoop rest (trimmed :: seen)

/-- The closure uniqueSegments of sampleText. -/
def uniqueSegments (text : GoString) (candidates : List GoString) : List GoString :=
  let segments := uniqueLoop candidates []
  if segments.length = 0 then [text] else segments

/-- sampleText extracts up to three segments of about 1000 words (beginning,
middle, end) from a long text, cut at sentence boundaries. -/
def sampleText (env : Env) (text : GoString) (wordCount : Int) : List GoString :=
  if wordCount < 3000 then [text]
  else
    let sentences := splitSentences env text
    if sentences.length = 0 then [text]
    else
      let first := collectLoop targetWords sentences [] 0 0
      let seg1 := first.1
      let seg1End := first.2
      let seg3Start := sentences.length - backLoop targetWords sentences.reverse 0
      let seg3Start := if seg3Start < seg1End then seg1End else seg3Start
      let seg3 := (sentences.drop seg3Start).foldl appendSentence []
      let midSentences : Int := (seg3Start : Int) - (seg1End : Int)
      if midSentences ≤ 0 then uniqueSegments text [seg1, seg3]
      else
        let midStart := seg1End + (seg3Start - seg1End) / 2
        let halfTarget := targetWords / 2
        let adjustedStart :=
          midStart - backLoop halfTarget (slice sentences seg1End midStart).reverse 0
        let seg2 := (collectLoop targetWords (slice sentences adjustedStart seg3Start) [] 0
          adjustedStart).1
        if seg2 = [] then uniqueSegments text [seg1, seg3]
        else [seg1, seg2, seg3]

/-- A Go `int` on a 64-bit platform: the integer x reduced to the
two's-complement range from -2^63 to 2^63 - 1. -/
def wrapInt (x : Int) : Int := (x + 2 ^ 63) % 2 ^ 64 - 2 ^ 63

/-- The loop `for ... { sum += x }` over Go ints, starting from 0: every
addition wraps. -/
def sumInt (xs : List Int) : Int := xs.foldl (fun acc x => wrapInt (acc + x)) 0

/-- Go conversion `int(x)` of a float: truncation toward zero. -/
def truncToInt (x : ℚ) : Int :=
  if 0 ≤ x then Rat.floor x else -Rat.floor (-x)

/-- The map distAvg of mergeSampledResults: a key of some segment maps to the
sum of its values over the segments, divided by n. -/
def mergeDistribution (results : List Result) (n : ℚ) : String → Option ℚ :=
  fun k =>
    if results.any (fun r => (r.Vocab.Distribution k).isSome) then
      some ((results.map (fun r => (r.Vocab.Distribution k).getD 0)).sum / n)
    else none

/-- mergeSampledResults combines the results of the segments into one Result. -/
def mergeSampledResults (results : List Result) (cfg : config) : Result :=
  if results.length = 0 then zeroResult
  else if results.length = 1 then results.headD zeroResult
  else
    let n : ℚ := (results.length : ℚ)
    let vocabScoreSum := (results.map (fun r => r.Vocab.Score)).sum
    let unknownRatioSum := (results.map (fun r => r.Vocab.UnknownRatio)).sum
    let contentWordsSum := sumInt (results.map (fun r => r.Vocab.ContentWords))
    let distAvg := mergeDistribution results n
    let syntaxScoreSum := (results.map (fun r => r.Syntax.Score)).sum
    let aslSum := (results.map (fun r => r.Syntax.AvgSentenceLength)).sum
    let subIdxSum := (results.map (fun r => r.Syntax.SubordinationIndex)).sum
    let passiveSum := (results.map (fun r => r.Syntax.PassiveRate)).sum
    let connDivSum := sumInt (results.map (fun r => r.Syntax.ConnectorDiversity))
    let readScoreSum := (results.map (fun r => r.Readability.Score)).sum
    let fkglSum := (results.map (fun r => r.Readability.FKGL)).sum
    let freSum := (results.map (fun r => r.Readability.FRE)).sum
    let cliSum := (results.map (fun r => r.Readability.CLI)).sum
    let wordCountSum := sumInt (results.map (fun r => r.WordCount))
    let sentCountSum := sumInt (results.map (fun r => r.SentenceCount))
    let vocabScore := vocabScoreSum / n
    let syntaxScore := syntaxScoreSum / n
    let readScore := readScoreSum / n
    let score := cfg.vocabWeight * vocabScore + cfg.syntaxWeight * syntaxScore +
      cfg.readabilityWeight * readScore
    let score := clampScore score
    { Level := scoreToLevel score
      Score := score
      Confidence := 0
      Vocab :=
        { Score := vocabScore
          Distribution := distAvg
          UnknownRatio := unknownRatioSum / n
          ContentWords := contentWordsSum }
      Syntax :=
        { Score := syntaxScore
          AvgSentenceLength := aslSum / n
          SubordinationIndex := subIdxSum / n
          PassiveRate := passiveSum / n
          ConnectorDiversity := truncToInt ((connDivSum : ℚ) / n + 1 / 2) }
      Readability :=
        { Score := readScore
          FKGL := fkglSum / n
          FRE := freSum / n
          CLI := cliSum / n }
      WordCount := wordCountSum
      SentenceCount := sentCountSum }

/-- sampledVariance computes the population variance of the Score fields. -/
def sampledVariance (results : List Result) : ℚ :=
  if results.length ≤ 1 then 0
  else
    let n : ℚ := (results.length : ℚ)
    let sum := (results.map (fun r => r.Score)).sum
    let mean := sum / n
    let sqDiffSum := (results.map (fun r => (r.Score - mean) * (r.Score - mean))).sum
    sqDiffSum / n

/-- The population variance of a list of values, in the usual words: the mean
of the squared deviations from the mean. -/
def populationVariance (xs : List ℚ) : ℚ :=
  (xs.map (fun x => (x - xs.sum / xs.length) ^ 2)).sum / xs.length

/-! ## cefr.go: the assessment -/

/-- The content-word test of assessText for one token. -/
def isContent (tok : Token) : Bool :=
  !tok.IsFiltered && !tok.IsStopword && !tok.IsProper

/-- assessText performs the analysis of one text segment without sampling;
Confidence is left at 0. -/
def assessText (env : Env) (text : GoString) (cfg : config) : Result × Option String :=
  let sentences := splitSentences env text
  let tokens := tokenize env text
  let hasContent := tokens.any isContent
  if !hasContent then (zeroResult, some "no content words found in text")
  else
    let vocab := analyzeVocab env tokens
    let syn := analyzeSyntax env tokens sentences
    let words := (tokens.filter (fun tok => !tok.IsFiltered)).map (fun tok => tok.Lower)
    let charCount : Int := (words.map (fun w => (w.length : Int))).sum
    let wordCount : Int := words.length
    let syllableCount := countTotalSyllables env words
    let sentenceCount : Int := sentences.length
    let sentenceCount := if sentenceCount = 0 then 1 else sentenceCount
    let wordCount := if wordCount = 0 then 1 else wordCount
    let readability := analyzeReadability wordCount sentenceCount syllableCount charCount
    let score := vocab.Score * cfg.vocabWeight + syn.Score * cfg.syntaxWeight +
      readability.Score * cfg.readabilityWeight
    let score := clampScore score
    let level := scoreToLevel score
    ({ Level := level
       Score := score
       Confidence := 0
       Vocab := vocab
       Syntax := syn
       Readability := readability
       WordCount := wordCount
       SentenceCount := sentenceCount }, none)

/-- The segment loop of Assess: a segment whose assessment returns an error is
skipped, the result of any other is appended. -/
def assessSegments (env : Env) (cfg : config) : List GoString → List Result → List Result
  | [], results => results
  | seg :: rest, results =>
    if (assessText env seg cfg).2.isSome then assessSegments env cfg rest results
    else assessSegments env cfg rest (results ++ [(assessText env seg cfg).1])

/-- Step d of Assess, the sampling path: every segment is assessed, the failing
ones are skipped, the others merged. -/
def assessSampled (env : Env) (text : GoString) (cfg : config) (wordCount : Int) :
    Result × Option String :=
  let segments := sampleText env text wordCount
  let results := assessSegments env cfg segments []
  if results.length = 0 then (zeroResult, some "all sampled segments failed analysis")
  else
    let merged := mergeSampledResults results cfg
    let variance := sampledVariance results
    ({ merged with
        Confidence := calcConfidence merged.WordCount merged.SentenceCount variance }, none)

/-- Step e of Assess, the full analysis path. -/
def assessFull (env : Env) (text : GoString) (cfg : config) : Result × Option String :=
  match (assessText env text cfg).2 with
  | some err => (zeroResult, some err)
  | none =>
    ({ (assessText env text cfg).1 with
        Confidence := calcConfidence (assessText env text cfg).1.WordCount
          (assessText env text cfg).1.SentenceCount 0 }, none)

/-- Assess evaluates the CEFR difficulty level of an English text. -/
def Assess (env : Env) (text : GoString) (opts : List AssessOption) : Result × Option String :=
  let text := TrimSpace text
  if text = [] then (zeroResult, some "empty text")
  else
    let hasLetter := (runes text).any (fun r => unicodeIsLetter env r && r < 128)
    if !hasLetter then (zeroResult, some "no English content")
    else
      match env.initError with
      | some err => (zeroResult, some err)
      | none =>
        let cfg := applyOptions defaultConfig opts
        let wordCount : Int := (Fields text).length
        if shouldSample wordCount cfg.samplingThreshold && !cfg.fullAnalysis then
          assessSampled env text cfg wordCount
        else assessFull env text cfg

/-! ## A small environment for concrete evaluations -/

/-- An environment with a handful of entries, for evaluating the functions on
concrete texts: no letters outside ASCII, four Oxford words, seven stopwords. -/
def witnessEnv : Env :=
  { isLetter := fun _ => false
    isUpper := fun _ => false
    toLower := fun r => r
    oxford := fun w =>
      if w = ascii "cat" then some 1
      else if w = ascii "mat" then some 1
      else if w = ascii "study" then some 2
      else if w = ascii "examination" then some 4
      else none
    ngsl := fun _ => none
    awl := fun _ => none
    irregulars := fun w => if w = ascii "sat" then some (ascii "sit") else none
    irregularPP := fun _ => false
    stopwords := fun w =>
      [ascii "the", ascii "a", ascii "an", ascii "is", ascii "in", ascii "on",
        ascii "it"].contains w
    abbreviations := fun w => [ascii "mr.", ascii "e.g."].contains w
    initError := none }

/-- A short text of two sentences, for the sampling path. -/
def sampledText : GoString := ascii "The cat sat on the mat. It is a cat."

/-- An option list that sends `sampledText` down the sampling path. -/
def sampledOpts : List AssessOption := [WithSamplingThreshold 3]

/-- An environment whose tables are all empty. -/
def bareEnv : Env :=
  { isLetter := fun _ => false
    isUpper := fun _ => false
    toLower := fun r => r
    oxford := fun _ => none
    ngsl := fun _ => none
    awl := fun _ => none
    irregulars := fun _ => none
    irregularPP := fun _ => false
    stopwords := fun _ => false
    abbreviations := fun _ => false
    initError := none }

/-- The sentence "a a ... a a." of n + 1 one-letter words. -/
def wordsSentence : Nat → GoString
  | 0 => [97, 46]
  | n + 1 => 97 :: 32 :: wordsSentence n

/-- The sentences of sizes `ns`, each one preceded by a space. -/
def moreSentences : List Nat → GoString
  | [] => []
  | n :: ns => 32 :: (wordsSentence n ++ moreSentences ns)

/-- The text of the sentences of sizes `n :: ns`, separated by single spaces. -/
def sentencesText (n : Nat) (ns : List Nat) : GoString :=
  wordsSentence n ++ moreSentences ns

/-- A Result of an easy segment, for evaluating the merge. -/
def segmentResultA : Result :=
  { Level := "A2"
    Score := 2
    Confidence := 0
    Vocab := { Score := 2, Distribution := fun k => if k = "A1" then some 1 else none,
               UnknownRatio := 0, ContentWords := 4 }
    Syntax := { Score := 2, AvgSentenceLength := 8, SubordinationIndex := 0, PassiveRate := 0,
                ConnectorDiversity := 1 }
    Readability := { Score := 2, FKGL := 3, FRE := 90, CLI := 4 }
    WordCount := 40
    SentenceCount := 5 }

/-- A Result of a harder segment, for evaluating the merge. -/
def segmentResultB : Result :=
  { Level := "B2"
    Score := 4
    Confidence := 0
    Vocab := { Score := 4, Distribution := fun k => if k = "B2" then some 1 else none,
               UnknownRatio := 1 / 2, ContentWords := 6 }
    Syntax := { Score := 4, AvgSentenceLength := 20, SubordinationIndex := 1, PassiveRate := 1 / 4,
                ConnectorDiversity := 2 }
    Readability := { Score := 4, FKGL := 10, FRE := 50, CLI := 11 }
    WordCount := 60
    SentenceCount := 3 }

/-- A Result whose WordCount is the largest Go int, for evaluating the merge. -/
def segmentResultMax : Result :=
  { segmentResultA with WordCount := 2 ^ 63 - 1 }

/-- A Result with the connector count -1, for evaluating the merge. -/
def segmentResultNeg : Result :=
  { segmentResultA with
    Syntax := { Score := 2, AvgSentenceLength := 8, SubordinationIndex := 0, PassiveRate := 0,
                ConnectorDiversity := -1 } }
/-- A content token with the given lower-case form. -/
def contentToken (w : String) : Token :=
  { Original := ascii w, Lower := ascii w, IsFirst := false, IsProper := false,
    IsStopword := false, IsFiltered := false }

/-- Four content tokens and a stopword: two known words, one of them twice,
and an unknown word. -/
def sampleTokens : List Token :=
  [contentToken "cat", contentToken "study", contentToken "cat", contentToken "zzz",
    { contentToken "the" with IsStopword := true }]

/-- An environment whose vocabulary is the Oxford words it, run, hope, make
and walk, and whose irregular table has the single entry went → go. -/
def verbEnv : Env :=
  { bareEnv with
    oxford := fun w =>
      if w = ascii "it" ∨ w = ascii "run" ∨ w = ascii "hope" ∨ w = ascii "make" ∨
          w = ascii "walk" ∨ w = ascii "go" ∨ w = ascii "went" then some 1
      else none
    irregulars := fun w => if w = ascii "went" then some (ascii "go") else none }

/-- The text He said "I love N.Y. very much." of the package's tests. -/
def quotedPeriodText : GoString :=
  ascii "He said " ++ [34] ++ ascii "I love N.Y. very much." ++ [34]

/-- The text "a! b" with its double quotes: an exclamation mark inside an open
quotation, followed by a space and a lower-case letter. -/
def quotedExclamation : GoString := [34, 97, 33, 32, 98, 34]

/-- The text "e.g." B with its double quotes: an abbreviation dot directly
followed by a closing quote. -/
def quotedAbbreviation : GoString := [34, 101, 46, 103, 46, 34, 32, 66]

/-- An environment that knows the abbreviations mr., etc. and e.g. only. -/
def abbrevEnv : Env :=
  { bareEnv with
    abbreviations := fun w => [ascii "mr.", ascii "etc.", ascii "e.g."].contains w }

/-- An environment whose vocabulary is the two words "it" and "as". -/
def shortEnv : Env :=
  { bareEnv with
    oxford := fun w => if w = ascii "it" ∨ w = ascii "as" then some 1 else none }

/-! ## float64 values with NaN and the infinities

The development above holds float64 values as exact rationals, which covers
every finite argument. The definitions of this section repeat the guards of
option.go, the fusion and clamp steps, scoreToLevel and calcConfidence over
float64 values that may also be NaN or infinite. -/

/-- A float64 value as the comparisons and the arithmetic of Go treat it: NaN,
an infinity with its sign, or a number, which is held exactly (rounding is
left out). -/
inductive Float64 where
  | nan : Float64
  | inf (negative : Bool) : Float64
  | num (q : ℚ) : Float64
  deriving DecidableEq

/-- The negation `-x`. -/
def Float64.neg : Float64 → Float64
  | .nan => .nan
  | .inf s => .inf (!s)
  | .num q => .num (-q)

/-- The sum `x + y`: NaN when an operand is NaN or the operands are the two
opposite infinities. -/
def Float64.add : Float64 → Float64 → Float64
  | .num a, .num b => .num (a + b)
  | .inf s, .num _ => .inf s
  | .num _, .inf s => .inf s
  | .inf s, .inf s2 => if s = s2 then .inf s else .nan
  | .nan, _ => .nan
  | _, .nan => .nan

/-- The difference `x - y`. -/
def Float64.sub (x y : Float64) : Float64 := Float64.add x (Float64.neg y)

/-- The product `x * y`: NaN when an operand is NaN or the product is of zero
and an infinity. -/
def Float64.mul : Float64 → Float64 → Float64
  | .num a, .num b => .num (a * b)
  | .inf s, .num b => if b = 0 then .nan else .inf (s != decide (b < 0))
  | .num a, .inf s => if a = 0 then .nan else .inf (decide (a < 0) != s)
  | .inf s, .inf s2 => .inf (s != s2)
  | .nan, _ => .nan
  | _, .nan => .nan

/-- The absolute value math.Abs(x). -/
def Float64.abs : Float64 → Float64
  | .nan => .nan
  | .inf _ => .inf false
  | .num q => .num |q|

/-- The comparison `x < y` of Go: false when an operand is NaN. -/
def Float64.lt : Float64 → Float64 → Bool
  | .num a, .num b => decide (a < b)
  | .inf s, .num _ => s
  | .num _, .inf s => !s
  | .inf s, .inf s2 => s && !s2
  | .nan, _ => false
  | _, .nan => false

/-- The comparison `x <= y` of Go: false when an operand is NaN. -/
def Float64.le : Float64 → Float64 → Bool
  | .num a, .num b => decide (a ≤ b)
  | .inf s, .num _ => s
  | .num _, .inf s => !s
  | .inf s, .inf s2 => s || !s2
  | .nan, _ => false
  | _, .nan => false

/-- The type config of option.go with float64 weights. -/
structure F64.config where
  vocabWeight : Float64
  syntaxWeight : Float64
  readabilityWeight : Float64
  fullAnalysis : Bool
  samplingThreshold : Int
  deriving DecidableEq

/-- The config of the rational development as a config with float64 weights. -/
def config.toFloat64 (c : config) : F64.config :=
  { vocabWeight := .num c.vocabWeight
    syntaxWeight := .num c.syntaxWeight
    readabilityWeight := .num c.readabilityWeight
    fullAnalysis := c.fullAnalysis
    samplingThreshold := c.samplingThreshold }

/-- defaultConfig returns a config with default values. -/
def F64.defaultConfig : F64.config :=
  { vocabWeight := .num (1/2)
    syntaxWeight := .num (3/10)
    readabilityWeight := .num (1/5)
    fullAnalysis := false
    samplingThreshold := 10000 }

/-- WithWeights over float64 arguments: the two guards of option.go, with the
comparisons of Go. -/
def F64.WithWeights (vocab syn readability : Float64) : F64.config → F64.config := fun c =>
  if Float64.lt vocab (.num 0) || Float64.lt syn (.num 0) ||
      Float64.lt readability (.num 0) then c
  else if Float64.lt (.num (1/1000))
      (Float64.abs (Float64.sub (Float64.add (Float64.add vocab syn) readability) (.num 1)))
    then c
  else { c with vocabWeight := vocab, syntaxWeight := syn, readabilityWeight := readability }

/-- WithFullAnalysis forces full-text analysis instead of sampling. -/
def F64.WithFullAnalysis : F64.config → F64.config := fun c =>
  { c with fullAnalysis := true }

/-- WithSamplingThreshold sets the sampling threshold when n is positive. -/
def F64.WithSamplingThreshold (n : Int) : F64.config → F64.config := fun c =>
  if n > 0 then { c with samplingThreshold := n } else c

/-- The loop `for _, opt := range opts { opt(&cfg) }` of Assess. -/
def F64.applyOptions (cfg : F64.config) (opts : List (F64.config → F64.config)) : F64.config :=
  opts.foldl (fun c opt => opt c) cfg

/-- clampScore over float64 values, with the comparisons of Go. -/
def F64.clampScore (score : Float64) : Float64 :=
  if Float64.lt score (.num 1) then .num 1
  else if Float64.lt (.num 6) score then .num 6
  else score

/-- scoreToLevel over float64 values, with the comparisons of Go. -/
def F64.scoreToLevel (score : Float64) : String :=
  let score := F64.clampScore score
  if Float64.lt score (.num (3/2)) then Level.String A1
  else if Float64.lt score (.num (5/2)) then Level.String A2
  else if Float64.lt score (.num (7/2)) then Level.String B1
  else if Float64.lt score (.num (9/2)) then Level.String B2
  else if Float64.lt score (.num (11/2)) then Level.String C1
  else Level.String C2

/-- Result of cefr.go with a float64 Score and Confidence; the sub-results are
computed from the text alone and stay numbers. -/
structure F64.Result where
  Level : String
  Score : Float64
  Confidence : Float64
  Vocab : VocabResult
  Syntax : SyntaxResult
  Readability : ReadabilityResult
  WordCount : Int
  SentenceCount : Int

/-- The zero value `Result{}` with float64 fields. -/
def F64.zeroResult : F64.Result :=
  { Level := ""
    Score := .num 0
    Confidence := .num 0
    Vocab := Cefr.zeroResult.Vocab
    Syntax := Cefr.zeroResult.Syntax
    Readability := Cefr.zeroResult.Readability
    WordCount := 0
    SentenceCount := 0 }

/-- The Result of the rational development as a Result with float64 fields. -/
def Result.toFloat64 (r : Result) : F64.Result :=
  { Level := r.Level
    Score := .num r.Score
    Confidence := .num r.Confidence
    Vocab := r.Vocab
    Syntax := r.Syntax
    Readability := r.Readability
    WordCount := r.WordCount
    SentenceCount := r.SentenceCount }

/-- assessText with a config of float64 weights: steps a to f are those of
assessText, the fusion, the clamp and the level use the arithmetic and the
comparisons of Go. -/
def F64.assessText (env : Env) (text : GoString) (cfg : F64.config) :
    F64.Result × Option String :=
  let sentences := splitSentences env text
  let tokens := tokenize env text
  let hasContent := tokens.any isContent
  if !hasContent then (F64.zeroResult, some "no content words found in text")
  else
    let vocab := analyzeVocab env tokens
    let syn := analyzeSyntax env tokens sentences
    let words := (tokens.filter (fun tok => !tok.IsFiltered)).map (fun tok => tok.Lower)
    let charCount : Int := (words.map (fun w => (w.length : Int))).sum
    let wordCount : Int := words.length
    let syllableCount := countTotalSyllables env words
    let sentenceCount : Int := sentences.length
    let sentenceCount := if sentenceCount = 0 then 1 else sentenceCount
    let wordCount := if wordCount = 0 then 1 else wordCount
    let readability := analyzeReadability wordCount sentenceCount syllableCount charCount
    let score := Float64.add
      (Float64.add (Float64.mul (.num vocab.Score) cfg.vocabWeight)
        (Float64.mul (.num syn.Score) cfg.syntaxWeight))
      (Float64.mul (.num readability.Score) cfg.readabilityWeight)
    let score := F64.clampScore score
    let level := F64.scoreToLevel score
    ({ Level := level
       Score := score
       Confidence := .num 0
       Vocab := vocab
       Syntax := syn
       Readability := readability
       WordCount := wordCount
       SentenceCount := sentenceCount }, none)

/-- calcConfidence over a float64 variance, with the comparisons of Go. -/
def F64.calcConfidence (wordCount : Int) (_sentenceCount : Int) (sampledVariance : Float64) :
    Float64 :=
  let lengthFactor : Float64 := .num ((wordCount : ℚ) / 500)
  let lengthFactor := if Float64.lt (.num 1) lengthFactor then .num 1 else lengthFactor
  let consistencyFactor : Float64 := Float64.sub (.num 1) sampledVariance
  let consistencyFactor :=
    if Float64.lt consistencyFactor (.num 0) then .num 0 else consistencyFactor
  let confidence := Float64.mul lengthFactor consistencyFactor
  let confidence := if Float64.lt confidence (.num 0) then .num 0 else confidence
  let confidence := if Float64.lt (.num 1) confidence then .num 1 else confidence
  confidence

/-! ## Predicates used in the statements -/

/-- The invariant of the configurations a caller can reach, as the code keeps
it: weights in [0, 1.001], sum within 0.001 of 1, positive threshold. -/
def configOk (c : config) : Prop :=
  (0 ≤ c.vocabWeight ∧ c.vocabWeight ≤ 1001 / 1000) ∧
    (0 ≤ c.syntaxWeight ∧ c.syntaxWeight ≤ 1001 / 1000) ∧
    (0 ≤ c.readabilityWeight ∧ c.readabilityWeight ≤ 1001 / 1000) ∧
    |c.vocabWeight + c.syntaxWeight + c.readabilityWeight - 1| ≤ 1 / 1000 ∧
    0 < c.samplingThreshold

/-- The results of the segments whose assessment returns no error, in the
order of the segments. -/
def successfulResults (env : Env) (cfg : config) (segments : List GoString) : List Result :=
  segments.filterMap (fun seg =>
    if (assessText env seg cfg).2.isSome then none else some (assessText env seg cfg).1)

/-- The property of a Result that ties its level to its score: the score lies
in [1.0, 6.0] and the level is the label of the score. -/
def scoreLevelOk (r : Result) : Prop :=
  1 ≤ r.Score ∧ r.Score ≤ 6 ∧ r.Level = scoreToLevel r.Score

/-- Two outcomes of Assess agree: the same Result, and an error in the one
exactly when there is an error in the other. -/
def sameOutcome (a b : Result × Option String) : Prop :=
  a.1 = b.1 ∧ (a.2 = none ↔ b.2 = none)

/-- Two configs carry the same three weights. -/
def sameWeights (c d : config) : Prop :=
  c.vocabWeight = d.vocabWeight ∧ c.syntaxWeight = d.syntaxWeight ∧
    c.readabilityWeight = d.readabilityWeight
/-- The first rune of the string is not white space (so TrimLeftFunc removes
nothing). -/
def noLeadSpace (s : GoString) : Prop :=
  ¬ ((0 < (decodeRune s).2 && unicodeIsSpace (decodeRune s).1) = true)

/-- The last rune of the string is not white space (so TrimRightFunc removes
nothing). -/
def noTrailSpace (s : GoString) : Prop :=
  ¬ ((0 < (decodeLastRune s).2 && unicodeIsSpace (decodeLastRune s).1) = true)

/-- A non-empty string without white space at either end. -/
def trimmedNonempty (s : GoString) : Prop :=
  s ≠ [] ∧ noLeadSpace s ∧ noTrailSpace s
/-- The number of words of a list of sentences, as the loops of sampleText
count them: the sum of the numbers of fields. -/
def wordTotal (L : List GoString) : Nat :=
  (L.map (fun s => (Fields s).length)).sum
/-- The join of a list of strings with single spaces, Go
`strings.Join(run, " ")`. -/
def joinSentences : List GoString → GoString
  | [] => []
  | s :: rest => rest.foldl (fun acc t => acc ++ 32 :: t) s

/-- The segments are the joins of the runs `[r.1, r.2)` of the sentence list:
every run is non-empty and inside the list, the runs follow one another
without overlap, and the first one starts at sentence 0. -/
def segmentsAreRuns (S : List GoString) (segs : List GoString) (runs : List (Nat × Nat)) :
    Prop :=
  segs = runs.map (fun r => joinSentences (slice S r.1 r.2)) ∧
    (∀ r ∈ runs, r.1 < r.2 ∧ r.2 ≤ S.length) ∧
    runs.Pairwise (fun r r2 => r.2 ≤ r2.1) ∧
    (runs.map Prod.fst).head? = some 0

/-- The arithmetic mean of a list of values. -/
def mean (xs : List ℚ) : ℚ := xs.sum / xs.length

/-- The merge of at least two results in the words of the specification, with
the integer arithmetic of Go: means of the scores and metrics, bucket-wise
averaged distribution, the mean of the connector counts rounded to the nearest
integer when the counts are non-negative and their sum is below 2^63, the sums
of the counts as 64-bit Go ints, score recomputed from the mean sub-scores
with the weights of the config. -/
def mergedAsSpecified (results : List Result) (cfg : config) (m : Result) : Prop :=
  m.Vocab.Score = mean (results.map (fun r => r.Vocab.Score)) ∧
  m.Syntax.Score = mean (results.map (fun r => r.Syntax.Score)) ∧
  m.Readability.Score = mean (results.map (fun r => r.Readability.Score)) ∧
  m.Vocab.UnknownRatio = mean (results.map (fun r => r.Vocab.UnknownRatio)) ∧
  m.Syntax.AvgSentenceLength = mean (results.map (fun r => r.Syntax.AvgSentenceLength)) ∧
  m.Syntax.SubordinationIndex = mean (results.map (fun r => r.Syntax.SubordinationIndex)) ∧
  m.Syntax.PassiveRate = mean (results.map (fun r => r.Syntax.PassiveRate)) ∧
  m.Readability.FKGL = mean (results.map (fun r => r.Readability.FKGL)) ∧
  m.Readability.FRE = mean (results.map (fun r => r.Readability.FRE)) ∧
  m.Readability.CLI = mean (results.map (fun r => r.Readability.CLI)) ∧
  (∀ k : String,
    ((∃ r ∈ results, (r.Vocab.Distribution k).isSome) →
      m.Vocab.Distribution k =
        some ((results.map (fun r => (r.Vocab.Distribution k).getD 0)).sum / results.length)) ∧
    ((∀ r ∈ results, r.Vocab.Distribution k = none) → m.Vocab.Distribution k = none)) ∧
  ((∀ r ∈ results, 0 ≤ r.Syntax.ConnectorDiversity) →
    (results.map (fun r => r.Syntax.ConnectorDiversity)).sum < 2 ^ 63 →
    m.Syntax.ConnectorDiversity =
        ⌊mean (results.map (fun r => (r.Syntax.ConnectorDiversity : ℚ))) + 1 / 2⌋ ∧
      |(m.Syntax.ConnectorDiversity : ℚ) -
        mean (results.map (fun r => (r.Syntax.ConnectorDiversity : ℚ)))| ≤ 1 / 2) ∧
  m.WordCount = wrapInt (results.map (fun r => r.WordCount)).sum ∧
  m.SentenceCount = wrapInt (results.map (fun r => r.SentenceCount)).sum ∧
  m.Vocab.ContentWords = wrapInt (results.map (fun r => r.Vocab.ContentWords)).sum ∧
  m.Score = clampScore (cfg.vocabWeight * mean (results.map (fun r => r.Vocab.Score)) +
    cfg.syntaxWeight * mean (results.map (fun r => r.Syntax.Score)) +
    cfg.readabilityWeight * mean (results.map (fun r => r.Readability.Score))) ∧
  m.Level = scoreToLevel m.Score ∧
  m.Confidence = 0
/-- The lower-case forms of the content tokens (not filtered, not stopwords,
not proper nouns), in token order. -/
def contentLowers (tokens : List Token) : List GoString :=
  (tokens.filter isContent).map (fun t => t.Lower)

/-- The first occurrences of the words of a list that are not in `seen`. -/
def freshWords : List GoString → List GoString → List GoString
  | [], _ => []
  | w :: rest, seen =>
    if seen.contains w then freshWords rest seen else w :: freshWords rest (w :: seen)

/-- The level a word is scored at: its looked-up level, or 5 for a word found
in no list. -/
def scoringLevel (env : Env) (w : GoString) : Int :=
  match lookupWordLevel env w with
  | some l => l
  | none => 5

/-- The word is found in no list, neither itself nor its lemma. -/
def isUnknownWord (env : Env) (w : GoString) : Bool :=
  (lookupWordLevel env w).isNone

/-- The word is found, at the level with the given label. -/
def foundAt (env : Env) (label : String) (w : GoString) : Bool :=
  match lookupWordLevel env w with
  | some l => Level.String l = label
  | none => false

/-- The distribution in the words of the claims: the share of the unknown
words under "Unknown", the share of the words found at a level under the label
of the level, a bucket being absent when its count is 0. -/
def specDistribution (env : Env) (U : List GoString) : String → Option ℚ :=
  fun label =>
    if label = "Unknown" then
      if 0 < (U.filter (isUnknownWord env)).length then
        some (((U.filter (isUnknownWord env)).length : ℚ) / (U.length : ℚ))
      else none
    else if levelLabels.contains label then
      if 0 < (U.filter (foundAt env label)).length then
        some (((U.filter (foundAt env label)).length : ℚ) / (U.length : ℚ))
      else none
    else none

/-- The vocabulary result in the words of the claims, from the list `U` of the
unique content words. -/
def specVocab (env : Env) (U : List GoString) : VocabResult :=
  if U.length = 0 then
    { Score := 1, Distribution := fun _ => none, UnknownRatio := 0, ContentWords := 0 }
  else
    let L := U.map (scoringLevel env)
    let u : ℚ := ((U.filter (isUnknownWord env)).length : ℚ) / (U.length : ℚ)
    let base : ℚ :=
      if U.length < 10 then ((L.sum : Int) : ℚ) / (U.length : ℚ)
      else (((L.insertionSort (fun a b => a ≤ b)).getD
        (⌊((U.length : ℚ) - 1) * (4 / 5)⌋).toNat 0 : Int) : ℚ)
    { Score := clampScore (base + if u > 3 / 10 then (u - 3 / 10) * 2 else 0)
      Distribution := specDistribution env U
      UnknownRatio := u
      ContentWords := U.length }
/-- The unique content words of a token list: the distinct lower-case forms of
its content tokens. -/
def uniqueContentWords (tokens : List Token) : List GoString :=
  (contentLowers tokens).dedup

/-- The unknown ratio of a list of unique words: the share of the words found
in no list. -/
def unknownRatio (env : Env) (U : List GoString) : ℚ :=
  ((U.filter (isUnknownWord env)).length : ℚ) / (U.length : ℚ)

/-- The word lists return levels in 1..6 only. -/
def listsInRange (env : Env) : Prop :=
  (∀ w l, env.oxford w = some l → 1 ≤ l ∧ l ≤ 6) ∧
    (∀ w l, env.awl w = some l → 1 ≤ l ∧ l ≤ 6) ∧
    (∀ w l, env.ngsl w = some l → 1 ≤ l ∧ l ≤ 6)

/-- The result of the first suffix rule of lemmatize that succeeds, in the
order -ing, -ed, -es, -s, -er, -est, -ly. -/
def firstStrip (env : Env) (w : GoString) : Option GoString :=
  [tryStripIng env w, tryStripEd env w, tryStripEs env w, tryStripS env w, tryStripEr env w,
    tryStripEst env w, tryStripLy env w].findSome? id

/-- The suffix rules after -ing, in their order. -/
def laterStrip (env : Env) (w : GoString) : Option GoString :=
  [tryStripEd env w, tryStripEs env w, tryStripS env w, tryStripEr env w,
    tryStripEst env w, tryStripLy env w].findSome? id

/-- The anchor inputs are strictly ascending. -/
def ascendingAnchors (anchors : List (ℚ × ℚ)) : Prop :=
  anchors.Pairwise (fun a b => a.1 < b.1)

/-- The number of maximal runs of vowel letters of w, counted at the run ends. -/
def vowelRuns : GoString → Nat
  | [] => 0
  | [c] => if isVowel c then 1 else 0
  | c :: d :: rest => (if isVowel c && !isVowel d then 1 else 0) + vowelRuns (d :: rest)

/-- The ending of w is silent: -es after a non-sibilant, -ed after a letter
other than t and d, or a final -e that is not a syllabic consonant + le. -/
def silentEnding (w : GoString) : Bool :=
  let n := w.length
  let stem := w.take (n - 2)
  let es := decide (n ≥ 3) && HasSuffix w (ascii "es")
  let ed := decide (n ≥ 3) && HasSuffix w (ascii "ed")
  (es && !(HasSuffix stem (ascii "s") || HasSuffix stem (ascii "x") ||
      HasSuffix stem (ascii "z") || HasSuffix stem (ascii "ch") || HasSuffix stem (ascii "sh"))) ||
    (ed && decide (w.getD (n - 3) 0 ≠ 116) && decide (w.getD (n - 3) 0 ≠ 100)) ||
    (HasSuffix w (ascii "e") && !es && !ed && decide (n ≥ 2) &&
      !(decide (n ≥ 3) && decide (w.getD (n - 2) 0 = 108) && !isVowel (w.getD (n - 3) 0)))

/-- The words of a sentence as the specification describes them: the
whitespace-separated fields without the non-letters around them, lower-cased;
a field without a letter gives no word. -/
def sentenceWords (env : Env) (sentence : GoString) : List GoString :=
  (((Fields sentence).map (stripNonAlpha env)).filter (fun w => w ≠ [])).map (ToLower env)

/-- The number of adjacent pairs (a, b) of a word list with a a be-verb form
and b in the irregular past-participle set or ending in "ed". -/
def passiveBigrams (env : Env) (words : List GoString) : Nat :=
  ((words.zip words.tail).filter (fun p =>
    beVerbs.contains p.1 && (env.irregularPP p.2 || HasSuffix p.2 (ascii "ed")))).length

/-- The five connector categories. -/
def connectorCategories : List String :=
  ["addition", "contrast", "cause", "sequence", "summary"]

/-- The token can stand in a run of pass 2 as the specification describes it:
non-filtered, non-stopword, not sentence-first and capitalized. -/
def runToken (env : Env) (t : Token) : Bool :=
  !t.IsFiltered && !t.IsStopword && !t.IsFirst && isUpperFirst env t.Original

/-- The token at index i belongs to a maximal run, of more than one token, of
consecutive run tokens: the run is tokens[a..b). -/
def inLongRun (env : Env) (tokens : List Token) (i : Nat) : Prop :=
  ∃ a b, a ≤ i ∧ i < b ∧ b ≤ tokens.length ∧ a + 1 < b ∧
    (∀ j, a ≤ j → j < b → ∃ t, tokens.get? j = some t ∧ runToken env t = true) ∧
    (∀ t, a ≠ 0 → tokens.get? (a - 1) = some t → runToken env t = false) ∧
    (∀ t, tokens.get? b = some t → runToken env t = false)

/-- The condition of pass 1: an acronym, or a capitalized word that is not
sentence-first. -/
def properByPass1 (env : Env) (t : Token) : Bool :=
  (decide (t.Original.length > 1) && isAllUpper env t.Original) ||
    (!t.IsFirst && isUpperFirst env t.Original)

/-- The four tokens of "Visit New York today", the first one sentence-first. -/
def visitTokens : List Token :=
  [{ Original := ascii "Visit", Lower := ascii "visit", IsFirst := true, IsProper := false,
     IsStopword := false, IsFiltered := false },
   { Original := ascii "New", Lower := ascii "new", IsFirst := false, IsProper := false,
     IsStopword := false, IsFiltered := false },
   { Original := ascii "York", Lower := ascii "york", IsFirst := false, IsProper := false,
     IsStopword := false, IsFiltered := false },
   { Original := ascii "today", Lower := ascii "today", IsFirst := false, IsProper := false,
     IsStopword := false, IsFiltered := false }]

/-- The token at index i can be marked sentence-first according to the
specification: it is the first non-filtered token, or the first non-filtered
token after a filtered token that contains '.', '!' or '?'. -/
def firstPosition (tokens : List Token) (i : Nat) : Prop :=
  (∀ j u, j < i → tokens.get? j = some u → u.IsFiltered = true) ∨
    ∃ k u, k < i ∧ tokens.get? k = some u ∧ u.IsFiltered = true ∧
      isSentenceEnding u.Original = true ∧
      ∀ j v, k < j → j < i → tokens.get? j = some v → v.IsFiltered = true

/-- The properties of one token of tokenize. -/
def tokenWellFormed (env : Env) (t : Token) : Prop :=
  t.Original ≠ [] ∧ (∀ b ∈ t.Original, b < 128) ∧ t.Lower = ToLower env t.Original ∧
    (t.IsFiltered = true ↔ hasLetter env t.Original = false) ∧
    (t.IsFiltered = true → t.IsFirst = false ∧ t.IsStopword = false ∧ t.IsProper = false)

/-- The test of splitSentences for an ellipsis at index i: a dot followed by
two more dots. -/
def ellipsisAt (text : GoString) (i : Nat) : Bool :=
  decide (text.getD i 0 = 46) && decide (i + 2 < text.length) &&
    decide (text.getD (i + 1) 0 = 46) && decide (text.getD (i + 2) 0 = 46)

/-- The state in which splitSentences goes on after ending a sentence at the
mark at index i: the marks and the closing quotes that follow are taken into
the sentence, the builder is emptied. -/
def afterSentenceEnd (env : Env) (text : GoString) (fuel i : Nat) (inQuote : Bool)
    (current : GoString) (sentences : List GoString) : List GoString :=
  let punct := (text.drop (i + 1)).takeWhile (fun c => c = 33 || c = 63 || c = 46)
  let j := i + 1 + punct.length
  let quotes := (text.drop j).takeWhile (fun c => c = 34)
  splitLoop env text fuel (j + quotes.length)
    (if quotes.length % 2 = 1 then !inQuote else inQuote) []
    (flushSentence (current ++ [text.getD i 0] ++ punct ++ quotes) sentences)

/-- The decision for a dot that ends a known abbreviation, read from the text
after the dot as the specification describes it: closing quotes are passed
over; the end of the text ends the sentence; a character that is no white
space keeps the sentence going; white space with a line break ends it; after
other white space (and quotes) the end of the text ends it, a character that
is no upper-case letter keeps it going, and an upper-case letter ends it unless
the abbreviation is a title. -/
def dotEndsAfter (env : Env) (title : Bool) (after : GoString) : Bool :=
  match after.dropWhile (fun c => c = 34) with
  | [] => true
  | c :: r =>
    if !unicodeIsSpace c then false
    else if ((c :: r).takeWhile unicodeIsSpace).any (fun c => c = 10 || c = 13) then true
    else
      match ((c :: r).dropWhile unicodeIsSpace).dropWhile (fun c => c = 34) with
      | [] => true
      | b :: s => if unicodeIsUpper env (decodeRune (b :: s)).1 then !title else false

/-- The result r is fused: its Score is the weighted sum of its three
sub-scores, and lies between 1 and 6, so clamping did not take effect. -/
def fusedResult (cfg : config) (r : Result) : Prop :=
  r.Score = cfg.vocabWeight * r.Vocab.Score + cfg.syntaxWeight * r.Syntax.Score +
      cfg.readabilityWeight * r.Readability.Score ∧
    1 ≤ r.Score ∧ r.Score ≤ 6

/-- In the sentence s, three consecutive dots are followed only by dots,
exclamation marks, question marks and double quotes. -/
def endsAfterEllipsis (s : GoString) : Prop :=
  ∀ pre post, s = pre ++ [46, 46, 46] ++ post → ∀ c ∈ post, c = 46 ∨ c = 33 ∨ c = 63 ∨ c = 34

/-- No three consecutive dots of the text start inside the builder cur, rest
being the text after it. -/
def noEllipsisStart (cur rest : GoString) : Prop :=
  ∀ a b, cur = a ++ b → b ≠ [] → ¬ ([46, 46, 46] <+: b ++ rest)

/-- The string with all white space deleted: the bytes of the runes that are
no white space, in the order of a Go range loop over the string. -/
def deleteSpace (s : GoString) : GoString :=
  ((runeChunks s).filter (fun c => !unicodeIsSpace c.1)).flatMap Prod.snd

/-- The string is empty or ends in an ASCII byte. -/
def asciiEnd (s : GoString) : Prop :=
  s = [] ∨ ∃ s0 c, s = s0 ++ [c] ∧ c < 128

/-- The options a caller can build over float64 arguments, no weight argument
being NaN. -/
inductive F64.BuiltOption : (F64.config → F64.config) → Prop
  | weights (v s r : Float64) (hv : v ≠ .nan) (hs : s ≠ .nan) (hr : r ≠ .nan) :
    F64.BuiltOption (F64.WithWeights v s r)
  | full : F64.BuiltOption F64.WithFullAnalysis
  | threshold (n : Int) : F64.BuiltOption (F64.WithSamplingThreshold n)

/-- The weights of the config are numbers in [0, 1.001] whose sum is 1 within
0.001, and the sampling threshold is positive. -/
def float64ConfigOk (c : F64.config) : Prop :=
  ∃ v s r : ℚ, c.vocabWeight = .num v ∧ c.syntaxWeight = .num s ∧
    c.readabilityWeight = .num r ∧ (0 ≤ v ∧ v ≤ 1001 / 1000) ∧ (0 ≤ s ∧ s ≤ 1001 / 1000) ∧
    (0 ≤ r ∧ r ≤ 1001 / 1000) ∧ |v + s + r - 1| ≤ 1 / 1000 ∧ 0 < c.samplingThreshold

/-- A quotation is open at the end of s: s holds an odd number of double
quotes. -/
def quoteOpen (s : GoString) : Bool := decide (s.count 34 % 2 = 1)

/-- The marks and then the double quotes at the start of post: when a mark
ends a sentence, the marks and the closing quotes that directly follow it are
taken into the sentence. -/
def absorbedAfter (post : GoString) : GoString :=
  post.takeWhile (fun c => c = 33 || c = 63 || c = 46) ++
    (post.dropWhile (fun c => c = 33 || c = 63 || c = 46)).takeWhile (fun c => c = 34)

/-- The text post goes on, after optional double quotes, with a space and an
upper-case ASCII letter. -/
def spaceUppercaseAfter (post : GoString) : Bool :=
  match post.dropWhile (fun c => c = 34) with
  | s :: c :: _ => decide (s = 32) && decide (65 ≤ c) && decide (c ≤ 90)
  | _ => false

/-- The two tests of splitSentences that keep the sentence going at a dot: the
dot ends a known abbreviation that does not end the sentence, or it stands in
an open quotation and no space and upper-case letter follow. -/
def dotContinues (env : Env) (text : GoString) (i : Nat) (q : Bool) : Bool :=
  (sentenceIsAbbreviation env text i && !abbreviationEndsSentence env text i) ||
    (q && !followedBySpaceUppercase text i)

/-- The state of the scan of splitSentences at index i, started at index j
with an empty builder and no sentence: the text between j and i is the text
`done` of the sentences found, followed by the builder, and the sentences found
hold the text `done` when white space is deleted. -/
def scanFrom (text : GoString) (j i : Nat) (cur : GoString) (sents : List GoString) : Prop :=
  ∃ done, text.take i = text.take j ++ (done ++ cur) ∧ asciiEnd done ∧
    asciiEnd sents.flatten ∧ deleteSpace sents.flatten = deleteSpace done

/-- In the list L of sentences of the text pre ++ m :: post, the byte m stands
in the sentence that is the trimmed piece a ++ m :: b of the text, where a
ends pre and b starts post; the sentences before it hold the text before a,
those after it the text after b, white space deleted. -/
def sentenceThrough (L : List GoString) (pre : GoString) (m : Nat) (post b : GoString) : Prop :=
  ∃ L1 p0 a p1 L2, pre = p0 ++ a ∧ post = b ++ p1 ∧
    L = L1 ++ [TrimSpace (a ++ m :: b)] ++ L2 ∧
    deleteSpace L1.flatten = deleteSpace p0 ∧ deleteSpace L2.flatten = deleteSpace p1
/-- The letters and dots that stand directly before a dot: the longest run of
ASCII letters and dots at the end of pre. -/
def spanBefore (pre : GoString) : GoString := (pre.reverse.takeWhile isLetterOrDot).reverse

/-- The letters and dots that stand directly after a dot. -/
def spanAfter (post : GoString) : GoString := post.takeWhile isLetterOrDot

/-- The dot between pre and post terminates a known abbreviation: letters or
dots stand directly before it, and the table of abbreviations holds, in lower
case, the span of letters and dots around the dot or the span that ends at the
dot. -/
def knownAbbreviationDot (env : Env) (pre post : GoString) : Bool :=
  decide (spanBefore pre ≠ []) &&
    (env.abbreviations (ToLower env (spanBefore pre ++ 46 :: spanAfter post)) ||
      env.abbreviations (ToLower env (spanBefore pre ++ [46])))

/-- The abbreviation that ends at the dot after pre is one of the titles mr.,
mrs., ms., dr., prof., sr., jr., st. -/
def titleBefore (env : Env) (pre : GoString) : Bool :=
  isTitleAbbreviation (ToLower env (spanBefore pre ++ [46]))
/-- The text pre ends in one of the marks '.', '!' and '?'. -/
def endsInMark (pre : GoString) : Bool :=
  match pre.getLast? with
  | some c => decide (c = 46) || decide (c = 33) || decide (c = 63)
  | none => false

/-! ## Theorems -/

theorem clampScore_range (s : ℚ) : 1 ≤ clampScore s ∧ clampScore s ≤ 6 := by
  unfold clampScore
  split_ifs <;> constructor <;> linarith

theorem clampScore_of_mem (s : ℚ) (h1 : 1 ≤ s) (h6 : s ≤ 6) : clampScore s = s := by
  unfold clampScore
  split_ifs <;> linarith

theorem levelString_A1 : Level.String A1 = "A1" := by decide
theorem levelString_A2 : Level.String A2 = "A2" := by decide
theorem levelString_B1 : Level.String B1 = "B1" := by decide
theorem levelString_B2 : Level.String B2 = "B2" := by decide
theorem levelString_C1 : Level.String C1 = "C1" := by decide
theorem levelString_C2 : Level.String C2 = "C2" := by decide

theorem clampScore_lt_iff (s t : ℚ) (h1 : 1 < t) (h6 : t ≤ 6) : clampScore s < t ↔ s < t := by
  unfold clampScore
  split_ifs with ha hb
  · constructor <;> intro _ <;> linarith
  · constructor <;> intro _ <;> linarith
  · exact Iff.rfl

/-- C2: scoreToLevel maps every score to the label of its band, scores below
1.0 falling into A1 and scores above 6.0 into C2; the label is always one of
the six CEFR labels and never "Unknown". -/
theorem scoreToLevel_bands (s : ℚ) :
    scoreToLevel s =
        (if s < 3 / 2 then "A1"
         else if s < 5 / 2 then "A2"
         else if s < 7 / 2 then "B1"
         else if s < 9 / 2 then "B2"
         else if s < 11 / 2 then "C1"
         else "C2") ∧
      scoreToLevel s = scoreToLevel (clampScore s) ∧
      scoreToLevel s ∈ ["A1", "A2", "B1", "B2", "C1", "C2"] ∧
      scoreToLevel s ≠ "Unknown" := by
  have hband : scoreToLevel s =
      (if s < 3 / 2 then "A1"
       else if s < 5 / 2 then "A2"
       else if s < 7 / 2 then "B1"
       else if s < 9 / 2 then "B2"
       else if s < 11 / 2 then "C1"
       else "C2") := by
    unfold scoreToLevel
    rw [levelString_A1, levelString_A2, levelString_B1, levelString_B2, levelString_C1,
      levelString_C2]
    simp only [clampScore_lt_iff s (3 / 2) (by norm_num) (by norm_num),
      clampScore_lt_iff s (5 / 2) (by norm_num) (by norm_num),
      clampScore_lt_iff s (7 / 2) (by norm_num) (by norm_num),
      clampScore_lt_iff s (9 / 2) (by norm_num) (by norm_num),
      clampScore_lt_iff s (11 / 2) (by norm_num) (by norm_num)]
  have hclamp : clampScore (clampScore s) = clampScore s :=
    clampScore_of_mem _ (clampScore_range s).1 (clampScore_range s).2
  refine ⟨hband, ?_, ?_, ?_⟩
  · simp only [scoreToLevel, hclamp]
  · rw [hband]; split_ifs <;> simp
  · rw [hband]; split_ifs <;> decide

theorem calcConfidence_eq (w s : Int) (v : ℚ) :
    calcConfidence w s v = min 1 (max 0 (min 1 ((w : ℚ) / 500) * max 0 (1 - v))) := by
  have h1 : (if (w : ℚ) / 500 > 1 then (1 : ℚ) else (w : ℚ) / 500) = min 1 ((w : ℚ) / 500) := by
    rw [min_def]; split_ifs <;> first | rfl | linarith
  have h2 : (if 1 - v < 0 then (0 : ℚ) else 1 - v) = max 0 (1 - v) := by
    rw [max_def]; split_ifs <;> first | rfl | linarith
  have h3 : ∀ x : ℚ, (if (if x < 0 then 0 else x) > 1 then (1 : ℚ) else (if x < 0 then 0 else x))
      = min 1 (max 0 x) := by
    intro x
    rw [min_def, max_def]; split_ifs <;> first | rfl | linarith
  unfold calcConfidence
  simp only [h1, h2, h3]

theorem clamp01_comm (x : ℚ) : min 1 (max 0 x) = max 0 (min 1 x) := by
  rw [min_def, max_def, max_def, min_def]; split_ifs <;> first | rfl | linarith

/-- For a variance v that is a number, calcConfidence(w, s, v) is
clamp(min(1, w/500) * max(0, 1 - v), 0, 1); it does not depend on the sentence
count s, lies in [0, 1], and takes the values 0.02, 0.25, 0 and 1 at (10,1,0),
(250,15,0.5), (1000,50,1.0) and (500,25,-0.5). -/
theorem calcConfidence_formula (w s : Int) (v : ℚ) :
    calcConfidence w s v = confidenceSpec w v ∧
      (∀ s' : Int, calcConfidence w s' v = calcConfidence w s v) ∧
      0 ≤ calcConfidence w s v ∧ calcConfidence w s v ≤ 1 ∧
      calcConfidence 10 1 0 = 1 / 50 ∧
      calcConfidence 250 15 (1 / 2) = 1 / 4 ∧
      calcConfidence 1000 50 1 = 0 ∧
      calcConfidence 500 25 (-1 / 2) = 1 := by
  refine ⟨?_, ?_, ?_, ?_, ?_, ?_, ?_, ?_⟩
  · rw [calcConfidence_eq, clamp01_comm]; rfl
  · intro s'; rw [calcConfidence_eq, calcConfidence_eq]
  · rw [calcConfidence_eq, clamp01_comm]; exact le_max_left _ _
  · rw [calcConfidence_eq]; exact min_le_left _ _
  · norm_num [calcConfidence]
  · norm_num [calcConfidence]
  · norm_num [calcConfidence]
  · norm_num [calcConfidence]


theorem calcConfidence_mono_words (v : ℚ) (w1 w2 s1 s2 : Int) (h : w1 ≤ w2) :
    calcConfidence w1 s1 v ≤ calcConfidence w2 s2 v := by
  rw [calcConfidence_eq, calcConfidence_eq]
  have hw : (w1 : ℚ) / 500 ≤ (w2 : ℚ) / 500 := by
    have : (w1 : ℚ) ≤ (w2 : ℚ) := by exact_mod_cast h
    linarith
  have hl : min 1 ((w1 : ℚ) / 500) ≤ min 1 ((w2 : ℚ) / 500) := min_le_min le_rfl hw
  have hc : (0 : ℚ) ≤ max 0 (1 - v) := le_max_left _ _
  exact min_le_min le_rfl (max_le_max le_rfl (mul_le_mul_of_nonneg_right hl hc))

theorem calcConfidence_anti_variance (w s1 s2 : Int) (v1 v2 : ℚ) (h : v1 ≤ v2) :
    calcConfidence w s2 v2 ≤ calcConfidence w s1 v1 := by
  rw [calcConfidence_eq, calcConfidence_eq]
  have hc : max 0 (1 - v2) ≤ max 0 (1 - v1) := max_le_max le_rfl (by linarith)
  have hc0 : (0 : ℚ) ≤ max 0 (1 - v2) := le_max_left _ _
  by_cases hl : 0 ≤ min 1 ((w : ℚ) / 500)
  · exact min_le_min le_rfl (max_le_max le_rfl (mul_le_mul_of_nonneg_left hc hl))
  · have hneg : min 1 ((w : ℚ) / 500) < 0 := not_le.mp hl
    have hp : min 1 ((w : ℚ) / 500) * max 0 (1 - v2) ≤ 0 :=
      mul_nonpos_of_nonpos_of_nonneg hneg.le hc0
    rw [max_eq_left hp]
    exact le_min (by norm_num) (le_max_left _ _)

/-- For variances that are numbers, calcConfidence is non-decreasing in the
word count for a fixed variance (whatever the sentence counts) and
non-increasing in the variance for a fixed word count. -/
theorem calcConfidence_monotone (v : ℚ) (w1 w2 s1 s2 : Int) (w s3 s4 : Int) (v1 v2 : ℚ)
    (hw : w1 ≤ w2) (hv : v1 ≤ v2) :
    calcConfidence w1 s1 v ≤ calcConfidence w2 s2 v ∧
      calcConfidence w s4 v2 ≤ calcConfidence w s3 v1 :=
  ⟨calcConfidence_mono_words v w1 w2 s1 s2 hw, calcConfidence_anti_variance w s3 s4 v1 v2 hv⟩

theorem calcConfidence_monotone_witness :
    (10 : Int) ≤ 250 ∧ (0 : ℚ) ≤ 1 / 2 ∧
      calcConfidence 10 1 0 ≤ calcConfidence 250 15 0 ∧
      calcConfidence 250 15 (1 / 2) ≤ calcConfidence 250 15 0 :=
  ⟨by decide, by norm_num,
    calcConfidence_monotone 0 10 250 1 15 250 15 15 0 (1 / 2) (by decide) (by norm_num)⟩

theorem abs_sub_one_le (v s r : ℚ) (h : ¬ |v + s + r - 1| > 1 / 1000) :
    v + s + r ≤ 1001 / 1000 ∧ 999 / 1000 ≤ v + s + r := by
  have h2 := abs_le.mp (not_lt.mp h)
  constructor <;> linarith [h2.1, h2.2]

/-- C8: WithWeights(v, s, r) leaves the config entirely unchanged when a
weight is negative or |v + s + r - 1.0| > 0.001; otherwise it sets the three
weights to v, s, r and leaves fullAnalysis and samplingThreshold as they are. -/
theorem WithWeights_spec (c : config) (v s r : ℚ) :
    ((v < 0 ∨ s < 0 ∨ r < 0 ∨ |v + s + r - 1| > 1 / 1000) → WithWeights v s r c = c) ∧
      (¬ (v < 0 ∨ s < 0 ∨ r < 0 ∨ |v + s + r - 1| > 1 / 1000) →
        WithWeights v s r c =
          { vocabWeight := v, syntaxWeight := s, readabilityWeight := r,
            fullAnalysis := c.fullAnalysis, samplingThreshold := c.samplingThreshold }) := by
  constructor
  · intro h
    unfold WithWeights
    by_cases hneg : v < 0 ∨ s < 0 ∨ r < 0
    · rw [if_pos hneg]
    · rw [if_neg hneg]
      have habs : |v + s + r - 1| > 1 / 1000 := by
        rcases h with h | h | h | h
        · exact absurd (Or.inl h) hneg
        · exact absurd (Or.inr (Or.inl h)) hneg
        · exact absurd (Or.inr (Or.inr h)) hneg
        · exact h
      rw [if_pos habs]
  · intro h
    unfold WithWeights
    have hneg : ¬ (v < 0 ∨ s < 0 ∨ r < 0) := by
      intro h'
      apply h
      rcases h' with h' | h' | h'
      · exact Or.inl h'
      · exact Or.inr (Or.inl h')
      · exact Or.inr (Or.inr (Or.inl h'))
    have habs : ¬ |v + s + r - 1| > 1 / 1000 := fun h' => h (Or.inr (Or.inr (Or.inr h')))
    rw [if_neg hneg, if_neg habs]

theorem WithWeights_spec_witness :
    (((-1 : ℚ) < 0 ∨ (1 : ℚ) < 0 ∨ (1 : ℚ) < 0 ∨ |(-1 : ℚ) + 1 + 1 - 1| > 1 / 1000) ∧
        WithWeights (-1) 1 1 defaultConfig = defaultConfig) ∧
      (¬ ((3 / 5 : ℚ) < 0 ∨ (1 / 4 : ℚ) < 0 ∨ (3 / 20 : ℚ) < 0 ∨
            |(3 / 5 : ℚ) + 1 / 4 + 3 / 20 - 1| > 1 / 1000) ∧
        WithWeights (3 / 5) (1 / 4) (3 / 20) defaultConfig =
          { vocabWeight := 3 / 5, syntaxWeight := 1 / 4, readabilityWeight := 3 / 20,
            fullAnalysis := defaultConfig.fullAnalysis,
            samplingThreshold := defaultConfig.samplingThreshold }) :=
  ⟨⟨Or.inl (by norm_num),
      (WithWeights_spec defaultConfig (-1) 1 1).1 (Or.inl (by norm_num))⟩,
    ⟨by norm_num, (WithWeights_spec defaultConfig (3 / 5) (1 / 4) (3 / 20)).2 (by norm_num)⟩⟩

theorem configOk_default : configOk defaultConfig := by
  unfold configOk defaultConfig
  norm_num

theorem configOk_step (c : config) (o : AssessOption) (hc : configOk c) (ho : BuiltOption o) :
    configOk (o c) := by
  cases ho with
  | weights v s r =>
    unfold WithWeights
    by_cases hneg : v < 0 ∨ s < 0 ∨ r < 0
    · rw [if_pos hneg]; exact hc
    · rw [if_neg hneg]
      by_cases habs : |v + s + r - 1| > 1 / 1000
      · rw [if_pos habs]; exact hc
      · rw [if_neg habs]
        have hb := abs_sub_one_le v s r habs
        have hv : 0 ≤ v := not_lt.mp (fun h => hneg (Or.inl h))
        have hs : 0 ≤ s := not_lt.mp (fun h => hneg (Or.inr (Or.inl h)))
        have hr : 0 ≤ r := not_lt.mp (fun h => hneg (Or.inr (Or.inr h)))
        refine ⟨⟨hv, by linarith [hb.1]⟩, ⟨hs, by linarith [hb.1]⟩, ⟨hr, by linarith [hb.1]⟩,
          not_lt.mp habs, hc.2.2.2.2⟩
  | full => exact hc
  | threshold n =>
    unfold WithSamplingThreshold
    by_cases hn : n > 0
    · rw [if_pos hn]
      exact ⟨hc.1, hc.2.1, hc.2.2.1, hc.2.2.2.1, hn⟩
    · rw [if_neg hn]; exact hc

theorem configOk_applyOptions (opts : List AssessOption) (c : config) (hc : configOk c)
    (h : ∀ o ∈ opts, BuiltOption o) : configOk (applyOptions c opts) := by
  induction opts generalizing c with
  | nil => exact hc
  | cons o rest ih =>
    unfold applyOptions
    rw [List.foldl_cons]
    exact ih (o c) (configOk_step c o hc (h o (List.mem_cons_self o rest)))
      (fun o' ho' => h o' (List.mem_cons_of_mem o ho'))

/-- C9, as stated, fails: after WithWeights(1.0005, 0, 0), which the
validation accepts, the vocabulary weight is above 1. -/
theorem config_weight_above_one :
    (∀ o ∈ [WithWeights (2001 / 2000) 0 0], BuiltOption o) ∧
      ¬ ((applyOptions defaultConfig [WithWeights (2001 / 2000) 0 0]).vocabWeight ≤ 1) := by
  constructor
  · intro o ho
    rw [List.mem_singleton] at ho
    rw [ho]
    exact BuiltOption.weights _ _ _
  · have hneg : ¬ ((2001 / 2000 : ℚ) < 0 ∨ (0 : ℚ) < 0 ∨ (0 : ℚ) < 0) := by norm_num
    have habs : ¬ |(2001 / 2000 : ℚ) + 0 + 0 - 1| > 1 / 1000 := by
      rw [abs_of_nonneg (by norm_num)]; norm_num
    simp only [applyOptions, List.foldl_cons, List.foldl_nil, WithWeights, if_neg hneg,
      if_neg habs]
    norm_num

/-- For weight arguments that are numbers: in every config obtained from
defaultConfig() by a finite sequence of options WithWeights, WithFullAnalysis,
WithSamplingThreshold, each weight lies in [0, 1.001], the weights sum to 1.0
within 0.001, and samplingThreshold is positive. -/
theorem config_invariant (opts : List AssessOption) (h : ∀ o ∈ opts, BuiltOption o) :
    (0 ≤ (applyOptions defaultConfig opts).vocabWeight ∧
        (applyOptions defaultConfig opts).vocabWeight ≤ 1001 / 1000) ∧
      (0 ≤ (applyOptions defaultConfig opts).syntaxWeight ∧
        (applyOptions defaultConfig opts).syntaxWeight ≤ 1001 / 1000) ∧
      (0 ≤ (applyOptions defaultConfig opts).readabilityWeight ∧
        (applyOptions defaultConfig opts).readabilityWeight ≤ 1001 / 1000) ∧
      |(applyOptions defaultConfig opts).vocabWeight +
          (applyOptions defaultConfig opts).syntaxWeight +
          (applyOptions defaultConfig opts).readabilityWeight - 1| ≤ 1 / 1000 ∧
      0 < (applyOptions defaultConfig opts).samplingThreshold :=
  configOk_applyOptions opts defaultConfig configOk_default h

theorem config_invariant_witness :
    (∀ o ∈ [WithWeights (3 / 5) (1 / 4) (3 / 20), WithFullAnalysis, WithSamplingThreshold 10],
        BuiltOption o) ∧
      configOk (applyOptions defaultConfig
        [WithWeights (3 / 5) (1 / 4) (3 / 20), WithFullAnalysis, WithSamplingThreshold 10]) :=
  have hb : ∀ o ∈ [WithWeights (3 / 5) (1 / 4) (3 / 20), WithFullAnalysis,
      WithSamplingThreshold 10], BuiltOption o := by
    intro o ho
    simp only [List.mem_cons, List.mem_singleton, List.not_mem_nil, or_false] at ho
    rcases ho with h | h | h
    · rw [h]; exact BuiltOption.weights _ _ _
    · rw [h]; exact BuiltOption.full
    · rw [h]; exact BuiltOption.threshold _
  ⟨hb, config_invariant _ hb⟩

theorem interpolateLoop_range (value lo hi : ℚ) (rest : List (ℚ × ℚ)) :
    ∀ prev : ℚ × ℚ, prev.1 < value → lo ≤ prev.2 → prev.2 ≤ hi →
      (∀ a ∈ rest, lo ≤ a.2 ∧ a.2 ≤ hi) →
      lo ≤ interpolateLoop value prev rest ∧ interpolateLoop value prev rest ≤ hi := by
  induction rest with
  | nil =>
    intro prev _ h1 h2 _
    exact ⟨h1, h2⟩
  | cons a rest ih =>
    intro prev hlt h1 h2 hall
    have ha := hall a (List.mem_cons_self a rest)
    unfold interpolateLoop
    by_cases hv : value ≤ a.1
    · rw [if_pos hv]
      have hden : 0 < a.1 - prev.1 := by linarith
      have ht0 : 0 ≤ (value - prev.1) / (a.1 - prev.1) :=
        div_nonneg (by linarith) hden.le
      have ht1 : (value - prev.1) / (a.1 - prev.1) ≤ 1 := by
        rw [div_le_one hden]; linarith
      constructor
      · by_cases hd : 0 ≤ a.2 - prev.2
        · have := mul_nonneg ht0 hd
          linarith
        · have hd' : a.2 - prev.2 ≤ 0 := (not_le.mp hd).le
          have h3 : (value - prev.1) / (a.1 - prev.1) * (a.2 - prev.2) ≥ 1 * (a.2 - prev.2) :=
            mul_le_mul_of_nonpos_right ht1 hd'
          linarith [ha.1]
      · by_cases hd : 0 ≤ a.2 - prev.2
        · have h3 : (value - prev.1) / (a.1 - prev.1) * (a.2 - prev.2) ≤ 1 * (a.2 - prev.2) :=
            mul_le_mul_of_nonneg_right ht1 hd
          linarith [ha.2]
        · have hd' : a.2 - prev.2 ≤ 0 := (not_le.mp hd).le
          have := mul_nonpos_of_nonneg_of_nonpos ht0 hd'
          linarith
    · rw [if_neg hv]
      exact ih a (not_le.mp hv) ha.1 ha.2
        (fun b hb => hall b (List.mem_cons_of_mem a hb))

theorem interpolateScore_range (anchors : List (ℚ × ℚ)) (value lo hi : ℚ)
    (hne : anchors ≠ []) (hall : ∀ a ∈ anchors, lo ≤ a.2 ∧ a.2 ≤ hi) :
    lo ≤ interpolateScore anchors value ∧ interpolateScore anchors value ≤ hi := by
  cases anchors with
  | nil => exact absurd rfl hne
  | cons a0 rest =>
    have h0 := hall a0 (List.mem_cons_self a0 rest)
    unfold interpolateScore
    by_cases hv : value ≤ a0.1
    · simp only [if_pos hv]; exact h0
    · simp only [if_neg hv]
      exact interpolateLoop_range value lo hi rest a0 (not_le.mp hv) h0.1 h0.2
        (fun b hb => hall b (List.mem_cons_of_mem a0 hb))

theorem gradeAnchors_range : ∀ a ∈ gradeAnchors, (1 : ℚ) ≤ a.2 ∧ a.2 ≤ 6 := by
  intro a ha
  simp only [gradeAnchors, List.mem_cons, List.mem_singleton, List.not_mem_nil, or_false] at ha
  rcases ha with h | h | h | h | h | h <;> subst h <;> norm_num

theorem freAnchors_range : ∀ a ∈ freAnchors, (1 : ℚ) ≤ a.2 ∧ a.2 ≤ 6 := by
  intro a ha
  simp only [freAnchors, List.mem_cons, List.mem_singleton, List.not_mem_nil, or_false] at ha
  rcases ha with h | h | h | h | h | h <;> subst h <;> norm_num

theorem aslAnchors_range : ∀ a ∈ aslAnchors, (1 : ℚ) ≤ a.2 ∧ a.2 ≤ 6 := by
  intro a ha
  simp only [aslAnchors, List.mem_cons, List.mem_singleton, List.not_mem_nil, or_false] at ha
  rcases ha with h | h | h | h | h | h <;> subst h <;> norm_num

theorem subordinationAnchors_range :
    ∀ a ∈ subordinationAnchors, (1 : ℚ) ≤ a.2 ∧ a.2 ≤ 6 := by
  intro a ha
  simp only [subordinationAnchors, List.mem_cons, List.mem_singleton, List.not_mem_nil,
    or_false] at ha
  rcases ha with h | h | h | h | h | h <;> subst h <;> norm_num

theorem passiveAnchors_range : ∀ a ∈ passiveAnchors, (1 : ℚ) ≤ a.2 ∧ a.2 ≤ 6 := by
  intro a ha
  simp only [passiveAnchors, List.mem_cons, List.mem_singleton, List.not_mem_nil,
    or_false] at ha
  rcases ha with h | h | h | h | h | h <;> subst h <;> norm_num

theorem connectorAnchors_range : ∀ a ∈ connectorAnchors, (1 : ℚ) ≤ a.2 ∧ a.2 ≤ 6 := by
  intro a ha
  simp only [connectorAnchors, List.mem_cons, List.mem_singleton, List.not_mem_nil,
    or_false] at ha
  rcases ha with h | h | h | h | h | h <;> subst h <;> norm_num

theorem freToScore_range (fre : ℚ) : 1 ≤ freToScore fre ∧ freToScore fre ≤ 6 := by
  unfold freToScore
  have hfirst : freAnchors.headD (0, 0) = (45, 6) := rfl
  have hlast : freAnchors.getLastD (0, 0) = (95, 1) := rfl
  have htail : freAnchors.tail = [(55, 5), (65, 4), (75, 3), (85, 2), (95, 1)] := rfl
  rw [hfirst, hlast, htail]
  dsimp only
  by_cases h1 : fre ≥ 95
  · rw [if_pos h1]; norm_num
  · rw [if_neg h1]
    by_cases h2 : fre ≤ 45
    · rw [if_pos h2]; norm_num
    · rw [if_neg h2]
      apply interpolateLoop_range fre 1 6 _ (45, 6) (not_le.mp h2) (by norm_num) (by norm_num)
      intro a ha
      exact freAnchors_range a (by rw [freAnchors]; exact List.mem_cons_of_mem _ ha)

theorem analyzeVocab_range (env : Env) (tokens : List Token) :
    1 ≤ (analyzeVocab env tokens).Score ∧ (analyzeVocab env tokens).Score ≤ 6 := by
  unfold analyzeVocab
  dsimp only
  by_cases h1 : tokens.length = 0
  · rw [if_pos h1]; norm_num
  · rw [if_neg h1]
    by_cases h2 : (vocabLoop env tokens [] [] 0).1.length = 0
    · rw [if_pos h2]; norm_num
    · rw [if_neg h2]
      exact clampScore_range _

theorem analyzeSyntax_range (env : Env) (tokens : List Token) (sentences : List GoString) :
    1 ≤ (analyzeSyntax env tokens sentences).Score ∧
      (analyzeSyntax env tokens sentences).Score ≤ 6 := by
  unfold analyzeSyntax
  dsimp only
  split_ifs
  · norm_num
  · have ha := interpolateScore_range aslAnchors
      (calcAvgSentenceLength ((tokens.filter (fun t => !t.IsFiltered)).length : Int)
        (sentences.length : Int)) 1 6 (by decide) aslAnchors_range
    have hs := interpolateScore_range subordinationAnchors
      (calcSubordinationIndex tokens (sentences.length : Int)) 1 6 (by decide)
      subordinationAnchors_range
    have hp := interpolateScore_range passiveAnchors (calcPassiveRate env sentences) 1 6
      (by decide) passiveAnchors_range
    have hc := interpolateScore_range connectorAnchors
      ((calcConnectorDiversity tokens : Int) : ℚ) 1 6 (by decide) connectorAnchors_range
    simp only [mapASLToScore, mapSubordinationToScore, mapPassiveRateToScore,
      mapConnectorDiversityToScore]
    constructor <;> linarith [ha.1, ha.2, hs.1, hs.2, hp.1, hp.2, hc.1, hc.2]

theorem analyzeReadability_range (w s syl c : Int) :
    1 ≤ (analyzeReadability w s syl c).Score ∧ (analyzeReadability w s syl c).Score ≤ 6 := by
  unfold analyzeReadability
  dsimp only
  split_ifs
  · norm_num
  · have hf := interpolateScore_range gradeAnchors (calcFKGL w s syl) 1 6 (by decide)
      gradeAnchors_range
    have hr := freToScore_range (calcFRE w s syl)
    have hc := interpolateScore_range gradeAnchors (calcCLI c w s) 1 6 (by decide)
      gradeAnchors_range
    simp only [fkglToScore, cliToScore]
    constructor <;> linarith [hf.1, hf.2, hr.1, hr.2, hc.1, hc.2]

/-- C5: every sub-score lies in [1.0, 6.0]: the vocabulary score of every token
list, the syntax score of every token list and sentence list, and the
readability score of all integer counts, zero counts included. -/
theorem subscores_in_range (env : Env) (tokens : List Token) (sentences : List GoString)
    (w s syl c : Int) :
    (1 ≤ (analyzeVocab env tokens).Score ∧ (analyzeVocab env tokens).Score ≤ 6) ∧
      (1 ≤ (analyzeSyntax env tokens sentences).Score ∧
        (analyzeSyntax env tokens sentences).Score ≤ 6) ∧
      (1 ≤ (analyzeReadability w s syl c).Score ∧ (analyzeReadability w s syl c).Score ≤ 6) ∧
      (analyzeReadability 0 s syl c).Score = 1 ∧ (analyzeReadability w 0 syl c).Score = 1 :=
  ⟨analyzeVocab_range env tokens, analyzeSyntax_range env tokens sentences,
    analyzeReadability_range w s syl c, by simp [analyzeReadability],
    by simp [analyzeReadability]⟩

theorem decode2_props (b0 : Nat) (rest : GoString) (h : 0xC2 ≤ b0 ∧ b0 ≤ 0xDF) :
    128 ≤ (decode2 b0 rest).1 ∧ 1 ≤ (decode2 b0 rest).2 ∧
      ∀ b ∈ rest.take ((decode2 b0 rest).2 - 1), 128 ≤ b := by
  cases rest with
  | nil => simp [decode2, RuneError]
  | cons b1 r =>
    simp only [decode2]
    by_cases hc : isCont b1 = true
    · rw [if_pos hc]
      simp only [isCont, Bool.and_eq_true, decide_eq_true_eq] at hc
      refine ⟨by dsimp only; omega, by simp, ?_⟩
      intro b hb
      simp at hb
      omega
    · rw [if_neg hc]
      simp [RuneError]

theorem decode3_props (b0 : Nat) (rest : GoString) (h : 0xE0 ≤ b0 ∧ b0 ≤ 0xEF) :
    128 ≤ (decode3 b0 rest).1 ∧ 1 ≤ (decode3 b0 rest).2 ∧
      ∀ b ∈ rest.take ((decode3 b0 rest).2 - 1), 128 ≤ b := by
  match rest with
  | [] => simp [decode3, RuneError]
  | [_] => simp [decode3, RuneError]
  | b1 :: b2 :: r =>
    simp only [decode3]
    by_cases hc : (decide (secondLo b0 ≤ b1) && decide (b1 ≤ secondHi b0) && isCont b2) = true
    · rw [if_pos hc]
      simp only [isCont, Bool.and_eq_true, decide_eq_true_eq] at hc
      have hlo : (b0 = 0xE0 ∧ 0xA0 ≤ b1) ∨ (b0 ≠ 0xE0 ∧ 0x80 ≤ b1) := by
        unfold secondLo at hc
        by_cases h0 : b0 = 0xE0
        · left; rw [if_pos h0] at hc; exact ⟨h0, hc.1.1⟩
        · right; rw [if_neg h0, if_neg (by omega)] at hc; exact ⟨h0, hc.1.1⟩
      have hhi : b1 ≤ 0xBF := by
        have := hc.1.2
        unfold secondHi at this
        split_ifs at this <;> omega
      refine ⟨by dsimp only; omega, by simp, ?_⟩
      intro b hb
      simp at hb
      omega
    · rw [if_neg hc]
      simp [RuneError]

theorem decode4_props (b0 : Nat) (rest : GoString) (h : 0xF0 ≤ b0 ∧ b0 ≤ 0xF4) :
    128 ≤ (decode4 b0 rest).1 ∧ 1 ≤ (decode4 b0 rest).2 ∧
      ∀ b ∈ rest.take ((decode4 b0 rest).2 - 1), 128 ≤ b := by
  match rest with
  | [] => simp [decode4, RuneError]
  | [_] => simp [decode4, RuneError]
  | [_, _] => simp [decode4, RuneError]
  | b1 :: b2 :: b3 :: r =>
    simp only [decode4]
    by_cases hc : (decide (secondLo b0 ≤ b1) && decide (b1 ≤ secondHi b0) && isCont b2 &&
        isCont b3) = true
    · rw [if_pos hc]
      simp only [isCont, Bool.and_eq_true, decide_eq_true_eq] at hc
      have hlo : (b0 = 0xF0 ∧ 0x90 ≤ b1) ∨ (b0 ≠ 0xF0 ∧ 0x80 ≤ b1) := by
        unfold secondLo at hc
        by_cases h0 : b0 = 0xF0
        · left; rw [if_neg (by omega), if_pos h0] at hc; exact ⟨h0, hc.1.1.1⟩
        · right; rw [if_neg (by omega), if_neg h0] at hc; exact ⟨h0, hc.1.1.1⟩
      have hhi : b1 ≤ 0xBF := by
        have := hc.1.1.2
        unfold secondHi at this
        split_ifs at this <;> omega
      refine ⟨by dsimp only; omega, by simp, ?_⟩
      intro b hb
      simp at hb
      omega
    · rw [if_neg hc]
      simp [RuneError]

/-- The facts about one decoding step: an ASCII rune is the first byte itself,
the width is at least one, the bytes consumed after the first are not ASCII. -/
theorem decodeRune_props (b0 : Nat) (rest : GoString) :
    ((decodeRune (b0 :: rest)).1 < 128 → (decodeRune (b0 :: rest)).1 = b0) ∧
      1 ≤ (decodeRune (b0 :: rest)).2 ∧
      ∀ b ∈ rest.take ((decodeRune (b0 :: rest)).2 - 1), 128 ≤ b := by
  simp only [decodeRune]
  by_cases h0 : b0 < 0x80
  · rw [if_pos h0]; simp
  · rw [if_neg h0]
    by_cases h2 : (decide (0xC2 ≤ b0) && decide (b0 ≤ 0xDF)) = true
    · rw [if_pos h2]
      simp only [Bool.and_eq_true, decide_eq_true_eq] at h2
      have hp := decode2_props b0 rest h2
      exact ⟨fun hlt => absurd hlt (by omega), hp.2⟩
    · rw [if_neg h2]
      by_cases h3 : (decide (0xE0 ≤ b0) && decide (b0 ≤ 0xEF)) = true
      · rw [if_pos h3]
        simp only [Bool.and_eq_true, decide_eq_true_eq] at h3
        have hp := decode3_props b0 rest h3
        exact ⟨fun hlt => absurd hlt (by omega), hp.2⟩
      · rw [if_neg h3]
        by_cases h4 : (decide (0xF0 ≤ b0) && decide (b0 ≤ 0xF4)) = true
        · rw [if_pos h4]
          simp only [Bool.and_eq_true, decide_eq_true_eq] at h4
          have hp := decode4_props b0 rest h4
          exact ⟨fun hlt => absurd hlt (by omega), hp.2⟩
        · rw [if_neg h4]
          simp [RuneError]

theorem decodeRune_ascii (s : GoString) (h : (decodeRune s).1 < 128) :
    (decodeRune s).1 ∈ s := by
  cases s with
  | nil => simp [decodeRune, RuneError] at h
  | cons b0 rest =>
    rw [(decodeRune_props b0 rest).1 h]
    exact List.mem_cons_self _ _

theorem runeChunksAux_ascii (fuel : Nat) :
    ∀ (s : GoString) (c : Nat × GoString), c ∈ runeChunksAux fuel s → c.1 < 128 → c.1 ∈ s := by
  induction fuel with
  | zero => intro s c hc; simp [runeChunksAux] at hc
  | succ n ih =>
    intro s c hc hlt
    cases s with
    | nil => simp [runeChunksAux] at hc
    | cons b rest =>
      simp only [runeChunksAux, List.mem_cons] at hc
      rcases hc with hc | hc
      · subst hc
        exact decodeRune_ascii (b :: rest) hlt
      · exact List.mem_of_mem_drop (ih _ c hc hlt)

theorem runes_ascii (s : GoString) (r : Nat) (hr : r ∈ runes s) (hlt : r < 128) : r ∈ s := by
  unfold runes at hr
  rcases List.mem_map.mp hr with ⟨c, hc, rfl⟩
  exact runeChunksAux_ascii _ s c hc hlt

theorem trimLeftSpaceAux_subset (fuel : Nat) :
    ∀ (s : GoString) (b : Nat), b ∈ trimLeftSpaceAux fuel s → b ∈ s := by
  induction fuel with
  | zero => intro s b hb; exact hb
  | succ n ih =>
    intro s b hb
    unfold trimLeftSpaceAux at hb
    dsimp only at hb
    split_ifs at hb
    · exact List.mem_of_mem_drop (ih _ b hb)
    · exact hb

theorem trimRightSpaceAux_subset (fuel : Nat) :
    ∀ (s : GoString) (b : Nat), b ∈ trimRightSpaceAux fuel s → b ∈ s := by
  induction fuel with
  | zero => intro s b hb; exact hb
  | succ n ih =>
    intro s b hb
    unfold trimRightSpaceAux at hb
    dsimp only at hb
    split_ifs at hb
    · exact List.mem_of_mem_take (ih _ b hb)
    · exact hb

theorem TrimSpace_subset (s : GoString) (b : Nat) (hb : b ∈ TrimSpace s) : b ∈ s := by
  unfold TrimSpace at hb
  exact trimLeftSpaceAux_subset _ s b (trimRightSpaceAux_subset _ _ b hb)

theorem no_letter_of_bytes (env : Env) (s : GoString)
    (h : ∀ b ∈ s, isASCIILetter b = false) :
    (runes s).any (fun r => unicodeIsLetter env r && decide (r < 128)) = false := by
  rw [List.any_eq_false]
  intro r hr
  by_cases hlt : r < 128
  · have hmem := runes_ascii s r hr hlt
    simp [unicodeIsLetter, hlt, h r hmem]
  · simp [hlt]

/-- C3: for every text and option list, Assess fails with "empty text" when the
text is empty after trimming white space, and otherwise with "no English
content" when no byte of the text is an ASCII letter; in both cases the Result
returned with the error is the zero value. -/
theorem Assess_input_errors (env : Env) (text : GoString) (opts : List AssessOption) :
    (TrimSpace text = [] → Assess env text opts = (zeroResult, some "empty text")) ∧
      (TrimSpace text ≠ [] → (∀ b ∈ text, isASCIILetter b = false) →
        Assess env text opts = (zeroResult, some "no English content")) := by
  constructor
  · intro h
    unfold Assess
    simp only [h, if_true]
  · intro hne hno
    have hl := no_letter_of_bytes env (TrimSpace text)
      (fun b hb => hno b (TrimSpace_subset text b hb))
    unfold Assess
    simp only [if_neg hne, hl, Bool.not_false, if_true]

theorem Assess_input_errors_witness :
    (TrimSpace (ascii "  \n\t ") = [] ∧
        Assess witnessEnv (ascii "  \n\t ") [] = (zeroResult, some "empty text")) ∧
      (TrimSpace (ascii "100 200") ≠ [] ∧ (∀ b ∈ ascii "100 200", isASCIILetter b = false) ∧
        Assess witnessEnv (ascii "100 200") [WithFullAnalysis] =
          (zeroResult, some "no English content")) :=
  ⟨⟨by decide, (Assess_input_errors witnessEnv (ascii "  \n\t ") []).1 (by decide)⟩,
    ⟨by decide, by decide,
      (Assess_input_errors witnessEnv (ascii "100 200") [WithFullAnalysis]).2
        (by decide) (by decide)⟩⟩

theorem decodeRune_head_ascii (b0 : Nat) (rest : GoString) (h : b0 < 128) :
    decodeRune (b0 :: rest) = (b0, 1) := by
  simp only [decodeRune]
  rw [if_pos h]

theorem decodeRune_width_pos (b0 : Nat) (rest : GoString) :
    1 ≤ (decodeRune (b0 :: rest)).2 :=
  (decodeRune_props b0 rest).2.1

theorem decodeRune_tail_ge (b0 : Nat) (rest : GoString) (b : Nat)
    (hb : b ∈ rest.take ((decodeRune (b0 :: rest)).2 - 1)) : 128 ≤ b :=
  (decodeRune_props b0 rest).2.2 b hb

theorem runeChunksAux_has_ascii (fuel : Nat) :
    ∀ (s : GoString), s.length ≤ fuel → ∀ b ∈ s, b < 128 →
      b ∈ (runeChunksAux fuel s).map Prod.fst := by
  induction fuel with
  | zero =>
    intro s hlen b hb _
    have : s = [] := List.length_eq_zero.mp (Nat.le_zero.mp hlen)
    rw [this] at hb
    simp at hb
  | succ n ih =>
    intro s hlen b hb hlt
    cases s with
    | nil => simp at hb
    | cons b0 rest =>
      simp only [runeChunksAux, List.map_cons, List.mem_cons]
      have hw := decodeRune_width_pos b0 rest
      rcases List.mem_cons.mp hb with hb0 | hrest
      · left
        rw [hb0, decodeRune_head_ascii b0 rest (hb0 ▸ hlt)]
      · right
        have hsplit : rest = rest.take ((decodeRune (b0 :: rest)).2 - 1) ++
            rest.drop ((decodeRune (b0 :: rest)).2 - 1) := (List.take_append_drop _ _).symm
        rw [hsplit] at hrest
        rcases List.mem_append.mp hrest with ht | hd
        · exact absurd (decodeRune_tail_ge b0 rest b ht) (by omega)
        · have hdrop : (b0 :: rest).drop (decodeRune (b0 :: rest)).2 =
              rest.drop ((decodeRune (b0 :: rest)).2 - 1) := by
            obtain ⟨k, hk⟩ : ∃ k, (decodeRune (b0 :: rest)).2 = k + 1 :=
              ⟨(decodeRune (b0 :: rest)).2 - 1, by omega⟩
            rw [hk]; simp
          rw [hdrop]
          apply ih _ _ b hd hlt
          rw [List.length_drop]
          simp only [List.length_cons] at hlen
          omega

theorem letter_of_bytes (env : Env) (s : GoString) (b : Nat) (hb : b ∈ s)
    (hl : isASCIILetter b = true) :
    (runes s).any (fun r => unicodeIsLetter env r && decide (r < 128)) = true := by
  have hlt : b < 128 := by
    simp only [isASCIILetter, Bool.or_eq_true, Bool.and_eq_true, decide_eq_true_eq] at hl
    omega
  rw [List.any_eq_true]
  refine ⟨b, ?_, ?_⟩
  · exact runeChunksAux_has_ascii _ s (le_refl _) b hb hlt
  · simp [unicodeIsLetter, hlt, hl]

theorem assessText_fail (env : Env) (text : GoString) (cfg : config)
    (h : (tokenize env text).any isContent = false) :
    assessText env text cfg = (zeroResult, some "no content words found in text") := by
  unfold assessText
  simp only [h, Bool.not_false, if_true]

theorem assessText_ok (env : Env) (text : GoString) (cfg : config)
    (h : (tokenize env text).any isContent = true) :
    (assessText env text cfg).2 = none ∧
      (1 ≤ (assessText env text cfg).1.Score ∧ (assessText env text cfg).1.Score ≤ 6) ∧
      (assessText env text cfg).1.Level = scoreToLevel (assessText env text cfg).1.Score := by
  unfold assessText
  simp only [h, Bool.not_true]
  exact ⟨rfl, clampScore_range _, rfl⟩

theorem any_isContent_false_iff (tokens : List Token) :
    tokens.any isContent = false ↔
      ∀ t ∈ tokens, t.IsFiltered = true ∨ t.IsStopword = true ∨ t.IsProper = true := by
  rw [List.any_eq_false]
  constructor
  · intro h t ht
    have := h t ht
    simp only [isContent, Bool.and_eq_true, Bool.not_eq_true', not_and, Bool.not_eq_false] at this
    cases hf : t.IsFiltered
    · cases hs : t.IsStopword
      · right; right; exact this ⟨hf, hs⟩
      · right; left; rfl
    · left; rfl
  · intro h t ht
    rcases h t ht with h1 | h1 | h1 <;> simp [isContent, h1]

theorem assessText_error_iff (env : Env) (text : GoString) (cfg : config) :
    (assessText env text cfg).2 ≠ none ↔ (tokenize env text).any isContent = false := by
  cases h : (tokenize env text).any isContent
  · rw [assessText_fail env text cfg h]; simp
  · rw [(assessText_ok env text cfg h).1]; simp

theorem stopword_text_raw (env : Env) :
    markSentenceFirst
        ((Fields (normalizeAndFilterASCII (ascii "the a is in on"))).flatMap
          (processRawToken env)) =
      [{ Original := ascii "the", Lower := ascii "the", IsFirst := true, IsProper := false,
         IsStopword := false, IsFiltered := false },
       { Original := ascii "a", Lower := ascii "a", IsFirst := false, IsProper := false,
         IsStopword := false, IsFiltered := false },
       { Original := ascii "is", Lower := ascii "is", IsFirst := false, IsProper := false,
         IsStopword := false, IsFiltered := false },
       { Original := ascii "in", Lower := ascii "in", IsFirst := false, IsProper := false,
         IsStopword := false, IsFiltered := false },
       { Original := ascii "on", Lower := ascii "on", IsFirst := false, IsProper := false,
         IsStopword := false, IsFiltered := false }] := by
  rfl

theorem stopword_text_no_content (env : Env)
    (h1 : env.stopwords (ascii "the") = true) (h2 : env.stopwords (ascii "a") = true)
    (h3 : env.stopwords (ascii "is") = true) (h4 : env.stopwords (ascii "in") = true)
    (h5 : env.stopwords (ascii "on") = true) :
    (tokenize env (ascii "the a is in on")).any isContent = false := by
  have htok : tokenize env (ascii "the a is in on") =
      detectProperNouns env (markStopwords env (markSentenceFirst
        ((Fields (normalizeAndFilterASCII (ascii "the a is in on"))).flatMap
          (processRawToken env)))) := rfl
  rw [htok, stopword_text_raw env]
  simp only [markStopwords, List.map_cons, List.map_nil, Bool.not_false, if_true, h1, h2, h3,
    h4, h5]
  rfl

theorem Assess_full (env : Env) (text : GoString) (opts : List AssessOption)
    (hinit : env.initError = none) (hletter : ∃ b ∈ TrimSpace text, isASCIILetter b = true)
    (hmode : (shouldSample ((Fields (TrimSpace text)).length : Int)
        (applyOptions defaultConfig opts).samplingThreshold &&
      !(applyOptions defaultConfig opts).fullAnalysis) = false) :
    Assess env text opts = assessFull env (TrimSpace text) (applyOptions defaultConfig opts) := by
  obtain ⟨b, hb, hl⟩ := hletter
  have hne : TrimSpace text ≠ [] := List.ne_nil_of_mem hb
  have hhas := letter_of_bytes env (TrimSpace text) b hb hl
  have hm : ¬ ((shouldSample ((Fields (TrimSpace text)).length : Int)
        (applyOptions defaultConfig opts).samplingThreshold &&
      !(applyOptions defaultConfig opts).fullAnalysis) = true) := by
    rw [hmode]; exact Bool.false_ne_true
  unfold Assess
  simp only [if_neg hne, hhas, Bool.not_true, hinit, if_neg hm, Bool.false_eq_true, if_false]

theorem Assess_sampled (env : Env) (text : GoString) (opts : List AssessOption)
    (hinit : env.initError = none) (hletter : ∃ b ∈ TrimSpace text, isASCIILetter b = true)
    (hmode : (shouldSample ((Fields (TrimSpace text)).length : Int)
        (applyOptions defaultConfig opts).samplingThreshold &&
      !(applyOptions defaultConfig opts).fullAnalysis) = true) :
    Assess env text opts =
      assessSampled env (TrimSpace text) (applyOptions defaultConfig opts)
        ((Fields (TrimSpace text)).length : Int) := by
  obtain ⟨b, hb, hl⟩ := hletter
  have hne : TrimSpace text ≠ [] := List.ne_nil_of_mem hb
  have hhas := letter_of_bytes env (TrimSpace text) b hb hl
  unfold Assess
  simp only [if_neg hne, hhas, Bool.not_true, hinit, if_pos hmode, Bool.false_eq_true,
    if_false]

/-- C4: assessText fails exactly when every token of tokenize(text) is
filtered, a stopword or a proper noun, and then returns the zero Result with
the error "no content words found in text"; in non-sampled mode Assess returns
that failure, as it does for "the a is in on" when those five words are
stopwords. -/
theorem assessText_no_content (env : Env) (text : GoString) (cfg : config)
    (opts : List AssessOption) :
    ((assessText env text cfg).2 ≠ none ↔
        ∀ t ∈ tokenize env text,
          t.IsFiltered = true ∨ t.IsStopword = true ∨ t.IsProper = true) ∧
      ((assessText env text cfg).2 ≠ none →
        assessText env text cfg = (zeroResult, some "no content words found in text")) ∧
      (env.initError = none → (∃ b ∈ TrimSpace text, isASCIILetter b = true) →
        (shouldSample ((Fields (TrimSpace text)).length : Int)
            (applyOptions defaultConfig opts).samplingThreshold &&
          !(applyOptions defaultConfig opts).fullAnalysis) = false →
        (∀ t ∈ tokenize env (TrimSpace text),
          t.IsFiltered = true ∨ t.IsStopword = true ∨ t.IsProper = true) →
        Assess env text opts = (zeroResult, some "no content words found in text")) ∧
      (env.initError = none → env.stopwords (ascii "the") = true →
        env.stopwords (ascii "a") = true → env.stopwords (ascii "is") = true →
        env.stopwords (ascii "in") = true → env.stopwords (ascii "on") = true →
        Assess env (ascii "the a is in on") [] =
          (zeroResult, some "no content words found in text")) := by
  refine ⟨?_, ?_, ?_, ?_⟩
  · rw [assessText_error_iff, any_isContent_false_iff]
  · intro h
    exact assessText_fail env text cfg ((assessText_error_iff env text cfg).mp h)
  · intro hinit hletter hmode hall
    rw [Assess_full env text opts hinit hletter hmode]
    unfold assessFull
    rw [assessText_fail env (TrimSpace text) _ ((any_isContent_false_iff _).mpr hall)]
  · intro hinit h1 h2 h3 h4 h5
    have htrim : TrimSpace (ascii "the a is in on") = ascii "the a is in on" := by decide
    have hletter : ∃ b ∈ TrimSpace (ascii "the a is in on"), isASCIILetter b = true :=
      ⟨116, by decide, by decide⟩
    have hmode : (shouldSample ((Fields (TrimSpace (ascii "the a is in on"))).length : Int)
          (applyOptions defaultConfig []).samplingThreshold &&
        !(applyOptions defaultConfig []).fullAnalysis) = false := by decide
    have hfull := Assess_full env (ascii "the a is in on") [] hinit hletter hmode
    rw [hfull, htrim]
    unfold assessFull
    rw [assessText_fail env _ _ (stopword_text_no_content env h1 h2 h3 h4 h5)]

theorem assessText_no_content_witness :
    (witnessEnv.initError = none ∧ witnessEnv.stopwords (ascii "the") = true ∧
        witnessEnv.stopwords (ascii "a") = true ∧ witnessEnv.stopwords (ascii "is") = true ∧
        witnessEnv.stopwords (ascii "in") = true ∧ witnessEnv.stopwords (ascii "on") = true) ∧
      Assess witnessEnv (ascii "the a is in on") [] =
        (zeroResult, some "no content words found in text") :=
  ⟨⟨rfl, by decide, by decide, by decide, by decide, by decide⟩,
    (assessText_no_content witnessEnv [] defaultConfig []).2.2.2 rfl (by decide) (by decide)
      (by decide) (by decide) (by decide)⟩

theorem assessSegments_eq (env : Env) (cfg : config) (segments : List GoString) :
    ∀ acc : List Result,
      assessSegments env cfg segments acc = acc ++ successfulResults env cfg segments := by
  induction segments with
  | nil => intro acc; simp [assessSegments, successfulResults]
  | cons seg rest ih =>
    intro acc
    simp only [assessSegments, successfulResults, List.filterMap_cons]
    by_cases hA : (assessText env seg cfg).2.isSome = true
    · rw [if_pos hA, if_pos hA, ih]
      rfl
    · rw [if_neg hA, if_neg hA, ih]
      simp only [successfulResults, List.append_assoc, List.singleton_append]

theorem successfulResults_ok (env : Env) (cfg : config) (segments : List GoString) :
    ∀ r ∈ successfulResults env cfg segments, scoreLevelOk r := by
  intro r hr
  unfold successfulResults at hr
  rcases List.mem_filterMap.mp hr with ⟨seg, _, hseg⟩
  cases hc : (tokenize env seg).any isContent
  · rw [assessText_fail env seg cfg hc] at hseg
    simp at hseg
  · have hok := assessText_ok env seg cfg hc
    rw [hok.1] at hseg
    simp only [Option.isSome_none, Bool.false_eq_true, if_false, Option.some.injEq] at hseg
    rw [← hseg]
    exact ⟨hok.2.1.1, hok.2.1.2, hok.2.2⟩

theorem mergeSampledResults_ok (results : List Result) (cfg : config) (hne : results ≠ [])
    (hall : ∀ r ∈ results, scoreLevelOk r) : scoreLevelOk (mergeSampledResults results cfg) := by
  unfold mergeSampledResults
  have h0 : ¬ results.length = 0 := fun h => hne (List.length_eq_zero.mp h)
  rw [if_neg h0]
  by_cases h1 : results.length = 1
  · rw [if_pos h1]
    cases results with
    | nil => exact absurd rfl hne
    | cons r rest => exact hall r (List.mem_cons_self r rest)
  · rw [if_neg h1]
    exact ⟨(clampScore_range _).1, (clampScore_range _).2, rfl⟩

theorem Assess_cases (env : Env) (text : GoString) (opts : List AssessOption) :
    (∃ e, Assess env text opts = (zeroResult, some e)) ∨
      Assess env text opts =
        assessSampled env (TrimSpace text) (applyOptions defaultConfig opts)
          ((Fields (TrimSpace text)).length : Int) ∨
      Assess env text opts = assessFull env (TrimSpace text) (applyOptions defaultConfig opts) := by
  unfold Assess
  dsimp only
  by_cases h1 : TrimSpace text = []
  · left; exact ⟨_, by rw [if_pos h1]⟩
  · rw [if_neg h1]
    split_ifs with h2 h3
    · left; exact ⟨_, rfl⟩
    · cases hE : env.initError with
      | some err => left; exact ⟨err, rfl⟩
      | none => right; left; rfl
    · cases hE : env.initError with
      | some err => left; exact ⟨err, rfl⟩
      | none => right; right; rfl

theorem assessSampled_ok (env : Env) (text : GoString) (cfg : config) (wordCount : Int)
    (h : (assessSampled env text cfg wordCount).2 = none) :
    scoreLevelOk (assessSampled env text cfg wordCount).1 := by
  unfold assessSampled at h ⊢
  dsimp only at h ⊢
  rw [assessSegments_eq, List.nil_append] at h ⊢
  by_cases hlen : (successfulResults env cfg (sampleText env text wordCount)).length = 0
  · rw [if_pos hlen] at h; simp at h
  · rw [if_neg hlen]
    have hne : successfulResults env cfg (sampleText env text wordCount) ≠ [] :=
      fun h0 => hlen (by rw [h0]; rfl)
    have hm := mergeSampledResults_ok _ cfg hne (successfulResults_ok env cfg _)
    exact hm

theorem assessFull_ok (env : Env) (text : GoString) (cfg : config)
    (h : (assessFull env text cfg).2 = none) : scoreLevelOk (assessFull env text cfg).1 := by
  cases hc : (tokenize env text).any isContent
  · rw [assessFull, assessText_fail env _ _ hc] at h
    simp at h
  · have hok := assessText_ok env text cfg hc
    unfold assessFull
    generalize assessText env text cfg = out at hok
    obtain ⟨r, e⟩ := out
    obtain ⟨he, hr, hl⟩ := hok
    dsimp only at he hr hl ⊢
    subst he
    exact ⟨hr.1, hr.2, hl⟩

/-- For options whose weight arguments are numbers: whenever Assess returns no
error, on the full-analysis path and on the sampling path alike, the score of
the result lies in [1.0, 6.0] and its level is scoreToLevel of its score. -/
theorem Assess_score_level (env : Env) (text : GoString) (opts : List AssessOption)
    (h : (Assess env text opts).2 = none) :
    1 ≤ (Assess env text opts).1.Score ∧ (Assess env text opts).1.Score ≤ 6 ∧
      (Assess env text opts).1.Level = scoreToLevel (Assess env text opts).1.Score := by
  rcases Assess_cases env text opts with ⟨e, he⟩ | hs | hf
  · rw [he] at h; simp at h
  · rw [hs] at h ⊢
    exact assessSampled_ok env _ _ _ h
  · rw [hf] at h ⊢
    exact assessFull_ok env _ _ h

theorem Assess_score_level_witness :
    (Assess witnessEnv (ascii "The cat sat on the mat.") []).2 = none ∧
      1 ≤ (Assess witnessEnv (ascii "The cat sat on the mat.") []).1.Score ∧
      (Assess witnessEnv (ascii "The cat sat on the mat.") []).1.Score ≤ 6 ∧
      (Assess witnessEnv (ascii "The cat sat on the mat.") []).1.Level =
        scoreToLevel (Assess witnessEnv (ascii "The cat sat on the mat.") []).1.Score :=
  ⟨by decide, Assess_score_level witnessEnv (ascii "The cat sat on the mat.") [] (by decide)⟩

theorem sampledVariance_eq (results : List Result) :
    sampledVariance results = populationVariance (results.map (fun r => r.Score)) := by
  unfold sampledVariance populationVariance
  by_cases h : results.length ≤ 1
  · rw [if_pos h]
    match results, h with
    | [], _ => simp
    | [r], _ => simp
    | _ :: _ :: _, h => simp at h
  · rw [if_neg h]
    simp only [List.map_map, List.length_map]
    congr 2
    apply List.map_congr_left
    intro r _
    simp only [Function.comp]
    ring

theorem successfulResults_nil_iff (env : Env) (cfg : config) (segments : List GoString) :
    successfulResults env cfg segments = [] ↔
      ∀ seg ∈ segments, (assessText env seg cfg).2 ≠ none := by
  unfold successfulResults
  rw [List.filterMap_eq_nil_iff]
  constructor
  · intro h seg hseg
    have := h seg hseg
    intro hnone
    rw [hnone] at this
    simp at this
  · intro h seg hseg
    have := h seg hseg
    cases hA : (assessText env seg cfg).2 with
    | none => exact absurd hA this
    | some e => simp

/-- C10: on the sampling path Assess assesses every segment of sampleText,
keeps the results of the segments that succeed, fails with "all sampled
segments failed analysis" exactly when no segment succeeds, and otherwise
returns the merge of the successful results with Confidence computed from the
merged word count and the population variance of their scores. -/
theorem Assess_sampling_path (env : Env) (text : GoString) (opts : List AssessOption)
    (cfg : config) (segs : List GoString) (ok : List Result)
    (hcfg : cfg = applyOptions defaultConfig opts)
    (hsegs : segs = sampleText env (TrimSpace text) ((Fields (TrimSpace text)).length : Int))
    (hok : ok = successfulResults env cfg segs)
    (hinit : env.initError = none)
    (hletter : ∃ b ∈ TrimSpace text, isASCIILetter b = true)
    (hsample : ((Fields (TrimSpace text)).length : Int) > cfg.samplingThreshold)
    (hfull : cfg.fullAnalysis = false) :
    (ok = [] ↔ ∀ seg ∈ segs, (assessText env seg cfg).2 ≠ none) ∧
      ((Assess env text opts).2 = some "all sampled segments failed analysis" ↔
        ∀ seg ∈ segs, (assessText env seg cfg).2 ≠ none) ∧
      Assess env text opts =
        if ok.length = 0 then (zeroResult, some "all sampled segments failed analysis")
        else
          ({ mergeSampledResults ok cfg with
              Confidence := calcConfidence (mergeSampledResults ok cfg).WordCount
                (mergeSampledResults ok cfg).SentenceCount
                (populationVariance (ok.map (fun r => r.Score))) }, none) := by
  rw [hok, hsegs, hcfg]
  rw [hcfg] at hsample hfull
  have hmode : (shouldSample ((Fields (TrimSpace text)).length : Int)
        (applyOptions defaultConfig opts).samplingThreshold &&
      !(applyOptions defaultConfig opts).fullAnalysis) = true := by
    rw [hfull]
    simp only [shouldSample, Bool.not_false, Bool.and_true, decide_eq_true_eq]
    exact hsample
  have hA := Assess_sampled env text opts hinit hletter hmode
  unfold assessSampled at hA
  dsimp only at hA
  rw [assessSegments_eq, List.nil_append, sampledVariance_eq] at hA
  have hnil := successfulResults_nil_iff env (applyOptions defaultConfig opts)
    (sampleText env (TrimSpace text) ((Fields (TrimSpace text)).length : Int))
  refine ⟨hnil, ?_, hA⟩
  rw [hA, ← hnil]
  by_cases hlen : (successfulResults env (applyOptions defaultConfig opts)
      (sampleText env (TrimSpace text) ((Fields (TrimSpace text)).length : Int))).length = 0
  · rw [if_pos hlen]
    simp [List.length_eq_zero.mp hlen]
  · rw [if_neg hlen]
    constructor
    · intro h; simp at h
    · intro h; exact absurd (by rw [h]; rfl) hlen

theorem Assess_sampling_path_witness :
    (witnessEnv.initError = none ∧
        (∃ b ∈ TrimSpace sampledText, isASCIILetter b = true) ∧
        ((Fields (TrimSpace sampledText)).length : Int) >
          (applyOptions defaultConfig sampledOpts).samplingThreshold ∧
        (applyOptions defaultConfig sampledOpts).fullAnalysis = false) ∧
      ((successfulResults witnessEnv (applyOptions defaultConfig sampledOpts)
            (sampleText witnessEnv (TrimSpace sampledText)
              ((Fields (TrimSpace sampledText)).length : Int)) = [] ↔
          ∀ seg ∈ sampleText witnessEnv (TrimSpace sampledText)
              ((Fields (TrimSpace sampledText)).length : Int),
            (assessText witnessEnv seg (applyOptions defaultConfig sampledOpts)).2 ≠ none) ∧
        ((Assess witnessEnv sampledText sampledOpts).2 =
            some "all sampled segments failed analysis" ↔
          ∀ seg ∈ sampleText witnessEnv (TrimSpace sampledText)
              ((Fields (TrimSpace sampledText)).length : Int),
            (assessText witnessEnv seg (applyOptions defaultConfig sampledOpts)).2 ≠ none) ∧
        Assess witnessEnv sampledText sampledOpts =
          if (successfulResults witnessEnv (applyOptions defaultConfig sampledOpts)
              (sampleText witnessEnv (TrimSpace sampledText)
                ((Fields (TrimSpace sampledText)).length : Int))).length = 0
          then (zeroResult, some "all sampled segments failed analysis")
          else
            ({ mergeSampledResults
                  (successfulResults witnessEnv (applyOptions defaultConfig sampledOpts)
                    (sampleText witnessEnv (TrimSpace sampledText)
                      ((Fields (TrimSpace sampledText)).length : Int)))
                  (applyOptions defaultConfig sampledOpts) with
                Confidence := calcConfidence
                  (mergeSampledResults
                    (successfulResults witnessEnv (applyOptions defaultConfig sampledOpts)
                      (sampleText witnessEnv (TrimSpace sampledText)
                        ((Fields (TrimSpace sampledText)).length : Int)))
                    (applyOptions defaultConfig sampledOpts)).WordCount
                  (mergeSampledResults
                    (successfulResults witnessEnv (applyOptions defaultConfig sampledOpts)
                      (sampleText witnessEnv (TrimSpace sampledText)
                        ((Fields (TrimSpace sampledText)).length : Int)))
                    (applyOptions defaultConfig sampledOpts)).SentenceCount
                  (populationVariance
                    ((successfulResults witnessEnv (applyOptions defaultConfig sampledOpts)
                      (sampleText witnessEnv (TrimSpace sampledText)
                        ((Fields (TrimSpace sampledText)).length : Int))).map
                      (fun r => r.Score))) }, none)) :=
  ⟨⟨rfl, ⟨84, by decide, by decide⟩, by decide, by decide⟩,
    Assess_sampling_path witnessEnv sampledText sampledOpts _ _ _ rfl rfl rfl rfl
      ⟨84, by decide, by decide⟩ (by decide) (by decide)⟩

theorem getD_append_at (pre : List Nat) (c : Nat) (rest : List Nat) :
    (pre ++ c :: rest).getD pre.length 0 = c := by
  induction pre with
  | nil => rfl
  | cons a pre ih => simpa using ih

theorem getD_append_after (pre : List Nat) (c : Nat) (rest : List Nat) (k : Nat) :
    (pre ++ c :: rest).getD (pre.length + 1 + k) 0 = rest.getD k 0 := by
  induction pre with
  | nil => simp [List.getD_eq_getElem?_getD, Nat.add_comm]
  | cons a pre ih =>
    have : (a :: pre).length + 1 + k = (pre.length + 1 + k) + 1 := by simp; omega
    rw [this, List.cons_append, List.getD_cons_succ, ih]

theorem drop_append_after (pre : List Nat) (c : Nat) (rest : List Nat) :
    (pre ++ c :: rest).drop (pre.length + 1) = rest := by
  have : pre ++ c :: rest = (pre ++ [c]) ++ rest := by simp
  rw [this]
  have h2 : pre.length + 1 = (pre ++ [c]).length := by simp
  rw [h2, List.drop_left]

theorem runeChunksAux_of_ascii (fuel : Nat) :
    ∀ s : GoString, s.length ≤ fuel → (∀ b ∈ s, b < 128) →
      runeChunksAux fuel s = s.map (fun b => (b, [b])) := by
  induction fuel with
  | zero =>
    intro s hl _
    have : s = [] := List.length_eq_zero.mp (Nat.le_zero.mp hl)
    subst this; rfl
  | succ n ih =>
    intro s hl ha
    cases s with
    | nil => rfl
    | cons b rest =>
      have hb : b < 128 := ha b (List.mem_cons_self _ _)
      have hl2 : rest.length ≤ n := by simpa using hl
      simp only [runeChunksAux, decodeRune_head_ascii b rest hb, List.map_cons]
      simp only [List.take_succ_cons, List.take_zero, List.drop_succ_cons, List.drop_zero]
      rw [ih rest hl2 (fun c hc => ha c (List.mem_cons_of_mem _ hc))]

theorem Fields_of_ascii (s : GoString) (ha : ∀ b ∈ s, b < 128) :
    Fields s = fieldsLoop (s.map (fun b => (b, [b]))) none := by
  unfold Fields runeChunks
  rw [runeChunksAux_of_ascii _ s (le_refl _) ha]

theorem wordsSentence_ascii (n : Nat) : ∀ b ∈ wordsSentence n, b < 128 := by
  induction n with
  | zero => intro b hb; simp [wordsSentence] at hb; omega
  | succ n ih =>
    intro b hb
    simp only [wordsSentence, List.mem_cons] at hb
    rcases hb with h | h | h
    · omega
    · omega
    · exact ih b h

theorem Fields_wordsSentence (n : Nat) : (Fields (wordsSentence n)).length = n + 1 := by
  rw [Fields_of_ascii _ (wordsSentence_ascii n)]
  induction n with
  | zero => decide
  | succ n ih =>
    simp only [wordsSentence, List.map_cons, fieldsLoop]
    have h1 : unicodeIsSpace 97 = false := by decide
    have h2 : unicodeIsSpace 32 = true := by decide
    simp only [h1, h2, if_true, Bool.false_eq_true, if_false, List.length_cons, ih]
theorem splitLoop_plain_step (env : Env) (pre : GoString) (c : Nat) (rest : GoString)
    (fuel : Nat) (q : Bool) (cur : GoString) (sents : List GoString)
    (h34 : c ≠ 34) (h46 : c ≠ 46) (h33 : c ≠ 33) (h63 : c ≠ 63) :
    splitLoop env (pre ++ c :: rest) (fuel + 1) pre.length q cur sents =
      splitLoop env (pre ++ c :: rest) fuel (pre.length + 1) q (cur ++ [c]) sents := by
  have hlt : pre.length < (pre ++ c :: rest).length := by simp
  rw [splitLoop]
  simp only [hlt, if_true, getD_append_at, h34, h46, h33, h63, if_false, decide_False,
    Bool.false_and, Bool.or_self, Bool.false_eq_true]

theorem splitLoop_plain_run (env : Env) (q : Bool) (sents : List GoString) (rest : GoString) :
    ∀ (w pre cur : GoString) (fuel : Nat),
      (∀ c ∈ w, c ≠ 34 ∧ c ≠ 46 ∧ c ≠ 33 ∧ c ≠ 63) →
      splitLoop env (pre ++ (w ++ rest)) (fuel + w.length) pre.length q cur sents =
        splitLoop env (pre ++ (w ++ rest)) fuel (pre.length + w.length) q (cur ++ w) sents := by
  intro w
  induction w with
  | nil => intro pre cur fuel _; simp
  | cons c w ih =>
    intro pre cur fuel hw
    have hc := hw c (List.mem_cons_self _ _)
    have hstep := splitLoop_plain_step env pre c (w ++ rest) (fuel + w.length) q cur sents
      hc.1 hc.2.1 hc.2.2.1 hc.2.2.2
    have hih := ih (pre ++ [c]) (cur ++ [c]) fuel (fun d hd => hw d (List.mem_cons_of_mem _ hd))
    have e1 : pre ++ [c] ++ (w ++ rest) = pre ++ (c :: w ++ rest) := by simp
    have e2 : (pre ++ [c]).length = pre.length + 1 := by simp
    rw [e1, e2] at hih
    have e3 : fuel + (c :: w).length = fuel + w.length + 1 := by simp; omega
    have e4 : pre.length + (c :: w).length = pre.length + 1 + w.length := by simp; omega
    have e5 : cur ++ c :: w = cur ++ [c] ++ w := by simp
    rw [e3, e4, e5]
    exact hstep.trans hih

theorem splitLoop_dot_step (env : Env) (hab : ∀ w, env.abbreviations w = false)
    (pre rest : GoString) (fuel : Nat) (cur : GoString) (sents : List GoString)
    (hrest : rest = [] ∨ ∃ r, rest = 32 :: r) :
    splitLoop env (pre ++ 46 :: rest) (fuel + 1) pre.length false cur sents =
      splitLoop env (pre ++ 46 :: rest) fuel (pre.length + 1) false []
        (flushSentence (cur ++ [46]) sents) := by
  have hlt : pre.length < (pre ++ 46 :: rest).length := by simp
  have hnext : (pre ++ 46 :: rest).getD (pre.length + 1) 0 ≠ 46 := by
    have := getD_append_after pre 46 rest 0
    rw [Nat.add_zero] at this
    rw [this]
    rcases hrest with h | ⟨r, h⟩ <;> subst h <;> simp
  have habbr : sentenceIsAbbreviation env (pre ++ 46 :: rest) pre.length = false := by
    unfold sentenceIsAbbreviation
    simp [hab]
  have hpunct : ((pre ++ 46 :: rest).drop (pre.length + 1)).takeWhile
      (fun c => decide (c = 33) || decide (c = 63) || decide (c = 46)) = [] := by
    rw [drop_append_after]
    rcases hrest with h | ⟨r, h⟩ <;> subst h <;> simp
  have hquotes : ((pre ++ 46 :: rest).drop (pre.length + 1)).takeWhile
      (fun c => decide (c = 34)) = [] := by
    rw [drop_append_after]
    rcases hrest with h | ⟨r, h⟩ <;> subst h <;> simp
  rw [splitLoop]
  simp only [hlt, if_true, getD_append_at, hnext, habbr, hpunct, List.length_nil, Nat.add_zero,
    hquotes, List.append_nil]
  simp
theorem splitLoop_at_end (env : Env) (text : GoString) (fuel : Nat) (q : Bool)
    (cur : GoString) (sents : List GoString) :
    splitLoop env text fuel text.length q cur sents = flushSentence cur sents := by
  cases fuel with
  | zero => rfl
  | succ n => rw [splitLoop]; simp

theorem TrimSpace_space_cons (s : GoString) : TrimSpace (32 :: s) = TrimSpace s := by
  have h : trimLeftSpaceAux (32 :: s).length (32 :: s) = trimLeftSpaceAux s.length s := by
    rw [List.length_cons, trimLeftSpaceAux]
    have hd : decodeRune (32 :: s) = (32, 1) := decodeRune_head_ascii 32 s (by decide)
    have hs : unicodeIsSpace 32 = true := by decide
    simp [hd, hs]
  unfold TrimSpace
  rw [h]

theorem getD_last_append (pre : GoString) (z : Nat) :
    (pre ++ [z]).getD ((pre ++ [z]).length - 1) 0 = z := by
  have : (pre ++ [z]).length - 1 = pre.length := by simp
  rw [this, getD_append_at]

theorem TrimSpace_ascii_ends (a z : Nat) (mid : GoString) (ha : a < 128) (hz : z < 128)
    (hsa : unicodeIsSpace a = false) (hsz : unicodeIsSpace z = false) :
    TrimSpace (a :: (mid ++ [z])) = a :: (mid ++ [z]) := by
  have hl : trimLeftSpaceAux (a :: (mid ++ [z])).length (a :: (mid ++ [z])) =
      a :: (mid ++ [z]) := by
    rw [List.length_cons, trimLeftSpaceAux]
    simp [decodeRune_head_ascii a _ ha, hsa]
  have hlast : decodeLastRune (a :: (mid ++ [z])) = (z, 1) := by
    have e : a :: (mid ++ [z]) = (a :: mid) ++ [z] := by simp
    unfold decodeLastRune
    rw [e]
    simp only [getD_last_append]
    simp [hz]
  have hr : trimRightSpaceAux (a :: (mid ++ [z])).length (a :: (mid ++ [z])) =
      a :: (mid ++ [z]) := by
    rw [List.length_cons, trimRightSpaceAux]
    simp [hlast, hsz]
  unfold TrimSpace
  rw [hl, hr]

theorem wordsSentence_shape (n : Nat) : ∃ mid, wordsSentence n = 97 :: (mid ++ [46]) := by
  induction n with
  | zero => exact ⟨[], rfl⟩
  | succ n ih =>
    obtain ⟨mid, h⟩ := ih
    exact ⟨32 :: 97 :: mid, by simp [wordsSentence, h]⟩

/-- The words of wordsSentence without the final dot. -/
theorem wordsSentence_body (n : Nat) :
    ∃ w, wordsSentence n = w ++ [46] ∧ (∀ c ∈ w, c ≠ 34 ∧ c ≠ 46 ∧ c ≠ 33 ∧ c ≠ 63) := by
  induction n with
  | zero => exact ⟨[97], rfl, by simp⟩
  | succ n ih =>
    obtain ⟨w, h, hw⟩ := ih
    refine ⟨97 :: 32 :: w, by simp [wordsSentence, h], ?_⟩
    intro c hc
    simp only [List.mem_cons] at hc
    rcases hc with h1 | h1 | h1
    · subst h1; decide
    · subst h1; decide
    · exact hw c h1

theorem TrimSpace_wordsSentence (n : Nat) : TrimSpace (wordsSentence n) = wordsSentence n := by
  obtain ⟨mid, h⟩ := wordsSentence_shape n
  rw [h]
  exact TrimSpace_ascii_ends 97 46 mid (by decide) (by decide) (by decide) (by decide)

theorem splitLoop_sentence (env : Env) (hab : ∀ w, env.abbreviations w = false)
    (pre w rest : GoString) (fuel : Nat) (cur : GoString) (sents : List GoString)
    (hw : ∀ c ∈ w, c ≠ 34 ∧ c ≠ 46 ∧ c ≠ 33 ∧ c ≠ 63)
    (hrest : rest = [] ∨ ∃ r, rest = 32 :: r) :
    splitLoop env (pre ++ (w ++ 46 :: rest)) (fuel + 1 + w.length) pre.length false cur sents =
      splitLoop env (pre ++ (w ++ 46 :: rest)) fuel ((pre ++ (w ++ [46])).length) false []
        (flushSentence (cur ++ w ++ [46]) sents) := by
  rw [splitLoop_plain_run env false sents (46 :: rest) w pre cur (fuel + 1) hw]
  have e1 : pre ++ (w ++ 46 :: rest) = (pre ++ w) ++ 46 :: rest := by simp
  have e2 : pre.length + w.length = (pre ++ w).length := by simp
  have e3 : (pre ++ (w ++ [46])).length = (pre ++ w).length + 1 := by simp; omega
  rw [e1, e2, e3]
  exact splitLoop_dot_step env hab (pre ++ w) rest fuel (cur ++ w) sents hrest

theorem moreSentences_head (ns : List Nat) :
    moreSentences ns = [] ∨ ∃ r, moreSentences ns = 32 :: r := by
  cases ns with
  | nil => exact Or.inl rfl
  | cons n ns => exact Or.inr ⟨_, rfl⟩

theorem moreSentences_shape (ns : List Nat) :
    moreSentences ns = [] ∨ ∃ mid, moreSentences ns = mid ++ [46] := by
  induction ns with
  | nil => exact Or.inl rfl
  | cons n ns ih =>
    right
    rcases ih with h | ⟨mid, h⟩
    · obtain ⟨m1, h1⟩ := wordsSentence_shape n
      exact ⟨32 :: 97 :: m1, by simp [moreSentences, h, h1]⟩
    · exact ⟨32 :: (wordsSentence n ++ mid), by simp [moreSentences, h]⟩

theorem flushSentence_nil (sents : List GoString) : flushSentence [] sents = sents := by
  unfold flushSentence
  simp [TrimSpace, trimLeftSpaceAux, trimRightSpaceAux]

theorem flushSentence_wordsSentence (n : Nat) (sents : List GoString) :
    flushSentence (32 :: wordsSentence n) sents = sents ++ [wordsSentence n] ∧
      flushSentence (wordsSentence n) sents = sents ++ [wordsSentence n] := by
  obtain ⟨mid, hm⟩ := wordsSentence_shape n
  have hne : wordsSentence n ≠ [] := by rw [hm]; simp
  unfold flushSentence
  rw [TrimSpace_space_cons, TrimSpace_wordsSentence]
  simp [hne]

theorem splitLoop_moreSentences (env : Env) (hab : ∀ w, env.abbreviations w = false) :
    ∀ (ns : List Nat) (pre : GoString) (sents : List GoString) (fuel : Nat),
      (moreSentences ns).length + 1 ≤ fuel →
      splitLoop env (pre ++ moreSentences ns) fuel pre.length false [] sents =
        sents ++ ns.map wordsSentence := by
  intro ns
  induction ns with
  | nil =>
    intro pre sents fuel _
    simp only [moreSentences, List.append_nil, List.map_nil]
    rw [splitLoop_at_end, flushSentence_nil]
  | cons n ns ih =>
    intro pre sents fuel hfuel
    obtain ⟨w, hw, hplain⟩ := wordsSentence_body n
    have hsp : ∀ c ∈ (32 :: w), c ≠ 34 ∧ c ≠ 46 ∧ c ≠ 33 ∧ c ≠ 63 := by
      intro c hc
      rcases List.mem_cons.mp hc with h | h
      · subst h; decide
      · exact hplain c h
    have etext : moreSentences (n :: ns) = (32 :: w) ++ 46 :: moreSentences ns := by
      simp [moreSentences, hw]
    have elen : (moreSentences (n :: ns)).length =
        (moreSentences ns).length + 1 + (32 :: w).length := by
      rw [etext]; simp; omega
    obtain ⟨f, hf⟩ : ∃ f, fuel = f + 1 + (32 :: w).length := ⟨fuel - 1 - (32 :: w).length, by omega⟩
    have hf2 : (moreSentences ns).length + 1 ≤ f := by omega
    rw [hf, etext]
    rw [splitLoop_sentence env hab pre (32 :: w) (moreSentences ns) f [] sents hsp
      (moreSentences_head ns)]
    have e1 : pre ++ (32 :: w ++ 46 :: moreSentences ns) =
        (pre ++ (32 :: w ++ [46])) ++ moreSentences ns := by simp
    rw [e1, ih (pre ++ (32 :: w ++ [46])) _ f hf2]
    have e2 : [] ++ 32 :: w ++ [46] = 32 :: wordsSentence n := by simp [hw]
    rw [e2, (flushSentence_wordsSentence n sents).1]
    simp

theorem splitSentences_sentencesText (env : Env) (hab : ∀ w, env.abbreviations w = false)
    (n : Nat) (ns : List Nat) :
    splitSentences env (sentencesText n ns) = (n :: ns).map wordsSentence := by
  obtain ⟨w, hw, hplain⟩ := wordsSentence_body n
  obtain ⟨mid1, hm1⟩ := wordsSentence_shape n
  have htrim : TrimSpace (sentencesText n ns) = sentencesText n ns := by
    rcases moreSentences_shape ns with h | ⟨mid, h⟩
    · unfold sentencesText
      rw [h, List.append_nil]
      exact TrimSpace_wordsSentence n
    · have e : sentencesText n ns = 97 :: ((mid1 ++ 46 :: mid) ++ [46]) := by
        simp [sentencesText, hm1, h]
      rw [e]
      exact TrimSpace_ascii_ends 97 46 _ (by decide) (by decide) (by decide) (by decide)
  have hne : sentencesText n ns ≠ [] := by
    simp [sentencesText, hm1]
  unfold splitSentences
  simp only [htrim, hne, if_false]
  have etext : sentencesText n ns = [] ++ (w ++ 46 :: moreSentences ns) := by
    simp [sentencesText, hw]
  have elen : (sentencesText n ns).length + 1 = ((moreSentences ns).length + 1) + 1 + w.length := by
    rw [etext]; simp; omega
  rw [elen]
  have s1 := splitLoop_sentence env hab [] w (moreSentences ns) ((moreSentences ns).length + 1)
    [] [] hplain (moreSentences_head ns)
  have e1 : [] ++ (w ++ 46 :: moreSentences ns) = ([] ++ (w ++ [46])) ++ moreSentences ns := by
    simp
  rw [← etext] at s1
  refine s1.trans ?_
  rw [etext, e1, splitLoop_moreSentences env hab ns _ _ _ (le_refl _)]
  have e2 : [] ++ w ++ [46] = wordsSentence n := by simp [hw]
  rw [e2, (flushSentence_wordsSentence n []).2]
  simp

theorem fieldsLoop_wordsSentence_append (n : Nat) (r : GoString) :
    (fieldsLoop ((wordsSentence n ++ 32 :: r).map (fun b => (b, [b]))) none).length =
      n + 1 + (fieldsLoop (r.map (fun b => (b, [b]))) none).length := by
  have h1 : unicodeIsSpace 97 = false := by decide
  have h2 : unicodeIsSpace 32 = true := by decide
  have h3 : unicodeIsSpace 46 = false := by decide
  induction n with
  | zero =>
    simp only [wordsSentence, List.cons_append, List.nil_append, List.map_cons, fieldsLoop, h1,
      h2, h3, if_true, Bool.false_eq_true, if_false, List.length_cons]
    omega
  | succ n ih =>
    simp only [wordsSentence, List.cons_append, List.map_cons, fieldsLoop, h1, h2, if_true,
      Bool.false_eq_true, if_false, List.length_cons]
    have e : List.append (wordsSentence n) (32 :: r) = wordsSentence n ++ 32 :: r := rfl
    rw [e, ih]
    omega

theorem moreSentences_ascii (ns : List Nat) : ∀ b ∈ moreSentences ns, b < 128 := by
  induction ns with
  | nil => intro b hb; simp [moreSentences] at hb
  | cons n ns ih =>
    intro b hb
    simp only [moreSentences, List.mem_cons, List.mem_append] at hb
    rcases hb with h | h | h
    · omega
    · exact wordsSentence_ascii n b h
    · exact ih b h

theorem fieldsLoop_moreSentences (ns : List Nat) :
    (fieldsLoop ((moreSentences ns).map (fun b => (b, [b]))) none).length =
      (ns.map (fun n => n + 1)).sum := by
  have h2 : unicodeIsSpace 32 = true := by decide
  induction ns with
  | nil => rfl
  | cons n ns ih =>
    simp only [moreSentences, List.map_cons, fieldsLoop, h2, if_true, List.sum_cons]
    rcases moreSentences_head ns with h | ⟨r, h⟩
    · have hz : ns = [] := by
        cases ns with
        | nil => rfl
        | cons a l => simp [moreSentences] at h
      subst hz
      simp only [moreSentences, List.append_nil, List.map_nil, List.sum_nil, Nat.add_zero]
      have := Fields_wordsSentence n
      rw [Fields_of_ascii _ (wordsSentence_ascii n)] at this
      exact this
    · rw [h] at ih ⊢
      simp only [List.map_cons, fieldsLoop, h2, if_true] at ih
      rw [fieldsLoop_wordsSentence_append, ih]

theorem Fields_sentencesText (n : Nat) (ns : List Nat) :
    (Fields (sentencesText n ns)).length = ((n :: ns).map (fun n => n + 1)).sum := by
  have hascii : ∀ b ∈ sentencesText n ns, b < 128 := by
    intro b hb
    rcases List.mem_append.mp hb with h | h
    · exact wordsSentence_ascii n b h
    · exact moreSentences_ascii ns b h
  rw [Fields_of_ascii _ hascii]
  unfold sentencesText
  rcases moreSentences_head ns with h | ⟨r, h⟩
  · have hz : ns = [] := by
      cases ns with
      | nil => rfl
      | cons a l => simp [moreSentences] at h
    subst hz
    simp only [moreSentences, List.append_nil, List.map_cons, List.map_nil, List.sum_cons,
      List.sum_nil, Nat.add_zero]
    have := Fields_wordsSentence n
    rw [Fields_of_ascii _ (wordsSentence_ascii n)] at this
    exact this
  · have hm := fieldsLoop_moreSentences ns
    rw [h] at hm ⊢
    simp only [List.map_cons (f := fun b => (b, [b])) (a := 32), fieldsLoop] at hm
    have h2 : unicodeIsSpace 32 = true := by decide
    simp only [h2, if_true] at hm
    rw [fieldsLoop_wordsSentence_append, hm]
    simp
theorem sampleText_three (env : Env) (text s1 s2 s3 : GoString) (wc : Int) (hwc : 3000 ≤ wc)
    (hs : splitSentences env text = [s1, s2, s3])
    (h1 : 1000 ≤ (Fields s1).length) (h3 : 1000 ≤ (Fields s3).length) (hne2 : s2 ≠ []) :
    sampleText env text wc = [s1, s2, s3] := by
  have hwc2 : ¬ wc < 3000 := not_lt.mpr hwc
  have h1b : ¬ (Fields s1).length < 1000 := not_lt.mpr h1
  have h3b : ¬ (Fields s3).length < 1000 := not_lt.mpr h3
  unfold sampleText
  simp only [hs, if_neg hwc2]
  simp [collectLoop, backLoop, targetWords, appendSentence, slice, h1b, h3b, hne2]

theorem uniqueLoop_not_seen (cands : List GoString) :
    ∀ seen : List GoString, ∀ x ∈ uniqueLoop cands seen, x ∉ seen := by
  induction cands with
  | nil => intro seen x hx; simp [uniqueLoop] at hx
  | cons c rest ih =>
    intro seen x hx
    unfold uniqueLoop at hx
    dsimp only at hx
    split_ifs at hx with h
    · exact ih seen x hx
    · simp only [Bool.or_eq_true, decide_eq_true_eq, not_or] at h
      have h2 : TrimSpace c ∉ seen := by simpa using h.2
      rcases List.mem_cons.mp hx with hx | hx
      · rw [hx]; exact h2
      · exact fun hm => ih _ x hx (List.mem_cons_of_mem _ hm)

theorem uniqueLoop_nodup (cands : List GoString) :
    ∀ seen : List GoString, (uniqueLoop cands seen).Nodup := by
  induction cands with
  | nil => intro seen; simp [uniqueLoop]
  | cons c rest ih =>
    intro seen
    unfold uniqueLoop
    dsimp only
    split_ifs with h
    · exact ih seen
    · refine List.nodup_cons.mpr ⟨?_, ih _⟩
      intro hm
      exact uniqueLoop_not_seen rest _ _ hm (List.mem_cons_self _ _)

theorem uniqueSegments_nodup (text : GoString) (cands : List GoString) :
    (uniqueSegments text cands).Nodup := by
  unfold uniqueSegments
  dsimp only
  split_ifs
  · simp
  · exact uniqueLoop_nodup cands []

theorem sampleText_shape (env : Env) (text : GoString) (wc : Int) :
    sampleText env text wc = [text] ∨
      (∃ cands, cands.length = 2 ∧ sampleText env text wc = uniqueSegments text cands) ∨
      (∃ a b c, sampleText env text wc = [a, b, c]) := by
  unfold sampleText
  dsimp only
  by_cases h1 : wc < 3000
  · rw [if_pos h1]; exact Or.inl rfl
  rw [if_neg h1]
  by_cases h2 : (splitSentences env text).length = 0
  · rw [if_pos h2]; exact Or.inl rfl
  rw [if_neg h2]
  generalize collectLoop targetWords (splitSentences env text) [] 0 0 = first
  generalize (if (splitSentences env text).length -
      backLoop targetWords (splitSentences env text).reverse 0 < first.2 then first.2
    else (splitSentences env text).length -
      backLoop targetWords (splitSentences env text).reverse 0) = seg3Start
  by_cases h3 : (seg3Start : Int) - (first.2 : Int) ≤ 0
  · rw [if_pos h3]; exact Or.inr (Or.inl ⟨[_, _], rfl, rfl⟩)
  rw [if_neg h3]
  split_ifs
  · exact Or.inr (Or.inl ⟨[_, _], rfl, rfl⟩)
  · exact Or.inr (Or.inr ⟨_, _, _, rfl⟩)

theorem uniqueLoop_length_le (cands : List GoString) :
    ∀ seen : List GoString, (uniqueLoop cands seen).length ≤ cands.length := by
  induction cands with
  | nil => intro seen; simp [uniqueLoop]
  | cons c rest ih =>
    intro seen
    unfold uniqueLoop
    dsimp only
    split_ifs with h
    · exact Nat.le_succ_of_le (ih seen)
    · simp only [List.length_cons]
      exact Nat.succ_le_succ (ih _)

theorem sampleText_cases (env : Env) (text : GoString) (wc : Int) :
    ((sampleText env text wc).Nodup ∧ (sampleText env text wc).length ≤ 2) ∨
      (sampleText env text wc).length = 3 := by
  rcases sampleText_shape env text wc with h | ⟨cands, hl, h⟩ | ⟨a, b, c, h⟩
  · left; rw [h]; simp
  · left; rw [h]
    refine ⟨uniqueSegments_nodup _ _, ?_⟩
    unfold uniqueSegments
    dsimp only
    split_ifs
    · simp
    · rw [← hl]; exact uniqueLoop_length_le cands []
  · right; rw [h]; rfl

/-- C11 (the claim fails): on the text of three equal sentences of 1000 words,
with its word count 3000, sampleText returns three segments, all three the same
string. -/
theorem sampleText_repeats_segment :
    (Fields (sentencesText 999 [999, 999])).length = 3000 ∧
      sampleText bareEnv (sentencesText 999 [999, 999]) 3000 =
        [wordsSentence 999, wordsSentence 999, wordsSentence 999] ∧
      ¬ (sampleText bareEnv (sentencesText 999 [999, 999]) 3000).Nodup := by
  have hs := sampleText_three bareEnv (sentencesText 999 [999, 999]) (wordsSentence 999)
    (wordsSentence 999) (wordsSentence 999) 3000 (le_refl _)
    (splitSentences_sentencesText bareEnv (fun _ => rfl) 999 [999, 999])
    (by rw [Fields_wordsSentence]) (by rw [Fields_wordsSentence])
    (by obtain ⟨mid, h⟩ := wordsSentence_shape 999; rw [h]; simp)
  refine ⟨?_, hs, ?_⟩
  · rw [Fields_sentencesText]; rfl
  · rw [hs]; simp

/-- C11 (amended): whenever sampleText returns fewer than three segments, they
are pairwise distinct strings; it never returns more than three. -/
theorem sampleText_distinct (env : Env) (text : GoString) (wc : Int)
    (h : (sampleText env text wc).length ≠ 3) :
    (sampleText env text wc).Nodup ∧ (sampleText env text wc).length ≤ 3 := by
  rcases sampleText_cases env text wc with hn | h3
  · exact ⟨hn.1, by omega⟩
  · exact absurd h3 h
theorem sampleText_two (env : Env) (text s1 s2 : GoString) (wc : Int) (hwc : 3000 ≤ wc)
    (hs : splitSentences env text = [s1, s2]) (h1 : 1000 ≤ (Fields s1).length) :
    sampleText env text wc = uniqueSegments text [s1, s2] := by
  have hwc2 : ¬ wc < 3000 := not_lt.mpr hwc
  have h1b : ¬ (Fields s1).length < 1000 := not_lt.mpr h1
  unfold sampleText
  simp only [hs, if_neg hwc2]
  by_cases h2 : (Fields s2).length < 1000 <;>
    simp [collectLoop, backLoop, targetWords, appendSentence, h1b, h2]

theorem wordsSentence_length (n : Nat) : (wordsSentence n).length = 2 * n + 2 := by
  induction n with
  | zero => rfl
  | succ n ih => simp only [wordsSentence, List.length_cons, ih]; omega

theorem uniqueSegments_wordsSentences (text : GoString) (n m : Nat) (h : n ≠ m) :
    uniqueSegments text [wordsSentence n, wordsSentence m] =
      [wordsSentence n, wordsSentence m] := by
  have hne : ∀ k, wordsSentence k ≠ [] := by
    intro k hk
    have := wordsSentence_length k
    rw [hk] at this
    simp at this
  have hnm : wordsSentence m ≠ wordsSentence n := by
    intro e
    have := congrArg List.length e
    rw [wordsSentence_length, wordsSentence_length] at this
    omega
  simp [uniqueSegments, uniqueLoop, TrimSpace_wordsSentence, hne, hnm]

theorem sampleText_two_wordsSentences (n m : Nat) (wc : Int) (hwc : 3000 ≤ wc)
    (hn : 999 ≤ n) (h : n ≠ m) :
    sampleText bareEnv (sentencesText n [m]) wc = [wordsSentence n, wordsSentence m] := by
  rw [sampleText_two bareEnv _ (wordsSentence n) (wordsSentence m) wc hwc
    (splitSentences_sentencesText bareEnv (fun _ => rfl) n [m])
    (by rw [Fields_wordsSentence]; omega)]
  exact uniqueSegments_wordsSentences _ n m h

theorem sampleText_distinct_witness :
    (sampleText bareEnv (sentencesText 1599 [1600]) 3201).length ≠ 3 ∧
      (sampleText bareEnv (sentencesText 1599 [1600]) 3201).Nodup ∧
      (sampleText bareEnv (sentencesText 1599 [1600]) 3201).length ≤ 3 :=
  ⟨by rw [sampleText_two_wordsSentences 1599 1600 3201 (by decide) (by decide) (by decide)]
      decide,
    sampleText_distinct bareEnv (sentencesText 1599 [1600]) 3201
      (by rw [sampleText_two_wordsSentences 1599 1600 3201 (by decide) (by decide) (by decide)]
          decide)⟩

theorem assessText_congr (env : Env) (text : GoString) (c d : config) (h : sameWeights c d) :
    assessText env text c = assessText env text d := by
  obtain ⟨h1, h2, h3⟩ := h
  unfold assessText
  rw [h1, h2, h3]

theorem assessFull_congr (env : Env) (text : GoString) (c d : config) (h : sameWeights c d) :
    assessFull env text c = assessFull env text d := by
  unfold assessFull
  rw [assessText_congr env text c d h]

theorem mergeSampledResults_single (r : Result) (cfg : config) :
    mergeSampledResults [r] cfg = r := by
  unfold mergeSampledResults
  rw [if_neg (by simp), if_pos (by simp)]
  rfl

theorem sampledVariance_single (r : Result) : sampledVariance [r] = 0 := by
  unfold sampledVariance
  rw [if_pos (by simp)]

theorem successfulResults_single (env : Env) (cfg : config) (text : GoString) :
    successfulResults env cfg [text] =
      if (assessText env text cfg).2.isSome then [] else [(assessText env text cfg).1] := by
  unfold successfulResults
  rw [List.filterMap_cons, List.filterMap_nil]
  split_ifs <;> rfl

theorem assessFull_fail (env : Env) (text : GoString) (cfg : config) (err : String)
    (h : (assessText env text cfg).2 = some err) :
    assessFull env text cfg = (zeroResult, some err) := by
  unfold assessFull
  rw [h]

theorem assessFull_pass (env : Env) (text : GoString) (cfg : config)
    (h : (assessText env text cfg).2 = none) :
    assessFull env text cfg =
      ({ (assessText env text cfg).1 with
          Confidence := calcConfidence (assessText env text cfg).1.WordCount
            (assessText env text cfg).1.SentenceCount 0 }, none) := by
  unfold assessFull
  rw [h]

theorem assessSampled_short (env : Env) (text : GoString) (cfg : config) (wc : Int)
    (h : wc < 3000) :
    sameOutcome (assessSampled env text cfg wc) (assessFull env text cfg) := by
  have hs : sampleText env text wc = [text] := by
    unfold sampleText
    rw [if_pos h]
  unfold assessSampled
  dsimp only
  rw [hs, assessSegments_eq, List.nil_append, successfulResults_single]
  cases hA : (assessText env text cfg).2 with
  | some err =>
    rw [assessFull_fail env text cfg err hA]
    exact ⟨rfl, by simp⟩
  | none =>
    rw [assessFull_pass env text cfg hA]
    have e : (if (none : Option String).isSome = true then ([] : List Result)
        else [(assessText env text cfg).1]) = [(assessText env text cfg).1] := rfl
    rw [e, mergeSampledResults_single, sampledVariance_single, if_neg (by simp)]
    exact ⟨rfl, Iff.rfl⟩

theorem Assess_short_full (env : Env) (text : GoString)
    (hshort : ((Fields (TrimSpace text)).length : Int) < 3000) :
    (∃ e, ∀ opts, Assess env text opts = (zeroResult, some e)) ∨
      ∀ opts, sameOutcome (Assess env text opts)
        (assessFull env (TrimSpace text) (applyOptions defaultConfig opts)) := by
  by_cases h1 : TrimSpace text = []
  · left; refine ⟨"empty text", fun o => ?_⟩
    unfold Assess
    simp only [if_pos h1]
  · by_cases h2 : (!(runes (TrimSpace text)).any
        (fun r => unicodeIsLetter env r && decide (r < 128))) = true
    · left; refine ⟨"no English content", fun o => ?_⟩
      unfold Assess
      simp only [if_neg h1, if_pos h2]
    · cases hE : env.initError with
      | some err =>
        left; refine ⟨err, fun o => ?_⟩
        unfold Assess
        simp only [if_neg h1, if_neg h2, hE]
      | none =>
        right
        intro o
        unfold Assess
        simp only [if_neg h1, if_neg h2, hE]
        split_ifs
        · exact assessSampled_short env _ _ _ hshort
        · exact ⟨rfl, Iff.rfl⟩

/-- C12: for a text of fewer than 3000 words, the outcome of Assess does not
depend on whether the sampling path is taken: two option lists that leave the
same weights (whatever their sampling thresholds and full-analysis flags) give
the same Result, and an error in the one case exactly when in the other; a
successful Result is the one of the full analysis of the whole trimmed text. -/
theorem Assess_short_text_whole (env : Env) (text : GoString) (opts opts2 : List AssessOption)
    (hshort : ((Fields (TrimSpace text)).length : Int) < 3000)
    (hw : sameWeights (applyOptions defaultConfig opts) (applyOptions defaultConfig opts2)) :
    sameOutcome (Assess env text opts) (Assess env text opts2) ∧
      ((Assess env text opts).2 = none →
        sameOutcome (Assess env text opts)
          (assessFull env (TrimSpace text) (applyOptions defaultConfig opts))) := by
  rcases Assess_short_full env text hshort with ⟨e, h⟩ | h
  · rw [h opts, h opts2]
    exact ⟨⟨rfl, Iff.rfl⟩, fun hn => by simp at hn⟩
  · refine ⟨?_, fun _ => h opts⟩
    have h1 := h opts
    have h2 := h opts2
    rw [assessFull_congr env _ _ _ hw] at h1
    exact ⟨h1.1.trans h2.1.symm, h1.2.trans h2.2.symm⟩

theorem Assess_short_text_whole_witness :
    ((Fields (TrimSpace sampledText)).length : Int) < 3000 ∧
      sameWeights (applyOptions defaultConfig sampledOpts)
        (applyOptions defaultConfig [WithFullAnalysis]) ∧
      sameOutcome (Assess witnessEnv sampledText sampledOpts)
        (Assess witnessEnv sampledText [WithFullAnalysis]) ∧
      ((Assess witnessEnv sampledText sampledOpts).2 = none →
        sameOutcome (Assess witnessEnv sampledText sampledOpts)
          (assessFull witnessEnv (TrimSpace sampledText)
            (applyOptions defaultConfig sampledOpts))) :=
  ⟨by decide, ⟨rfl, rfl, rfl⟩,
    Assess_short_text_whole witnessEnv sampledText sampledOpts [WithFullAnalysis] (by decide)
      ⟨rfl, rfl, rfl⟩⟩
theorem secondLo_gt (b0 : Nat) : 32 < secondLo b0 := by
  unfold secondLo
  split_ifs <;> decide

theorem decode2_append_space (b0 : Nat) (r y : GoString) :
    decode2 b0 (r ++ 32 :: y) = decode2 b0 r := by
  cases r with
  | nil => simp [decode2, isCont]
  | cons b1 r => rfl

theorem decode3_append_space (b0 : Nat) (r y : GoString) :
    decode3 b0 (r ++ 32 :: y) = decode3 b0 r := by
  have hlo := secondLo_gt b0
  match r with
  | [] =>
    cases y with
    | nil => simp [decode3]
    | cons c y =>
      have : ¬ secondLo b0 ≤ 32 := by omega
      simp [decode3, this]
  | [b1] => simp [decode3, isCont]
  | b1 :: b2 :: r => rfl

theorem decode4_append_space (b0 : Nat) (r y : GoString) :
    decode4 b0 (r ++ 32 :: y) = decode4 b0 r := by
  have hlo := secondLo_gt b0
  have hno : ¬ secondLo b0 ≤ 32 := by omega
  match r with
  | [] =>
    match y with
    | [] => simp [decode4]
    | [_] => simp [decode4]
    | c :: d :: y => simp [decode4, hno]
  | [b1] =>
    cases y with
    | nil => simp [decode4]
    | cons c y => simp [decode4, isCont]
  | [b1, b2] => simp [decode4, isCont]
  | b1 :: b2 :: b3 :: r => rfl

theorem decodeRune_append_space (a y : GoString) (ha : a ≠ []) :
    decodeRune (a ++ 32 :: y) = decodeRune a := by
  cases a with
  | nil => exact absurd rfl ha
  | cons b0 r =>
    simp only [List.cons_append, decodeRune, decode2_append_space, decode3_append_space,
      decode4_append_space]

theorem decode2_width_le (b0 : Nat) (r : GoString) : (decode2 b0 r).2 ≤ r.length + 1 := by
  cases r with
  | nil => simp [decode2]
  | cons b1 r => simp only [decode2]; split_ifs <;> simp

theorem decode3_width_le (b0 : Nat) (r : GoString) : (decode3 b0 r).2 ≤ r.length + 1 := by
  match r with
  | [] => simp [decode3]
  | [_] => simp [decode3]
  | b1 :: b2 :: r => simp only [decode3]; split_ifs <;> simp

theorem decode4_width_le (b0 : Nat) (r : GoString) : (decode4 b0 r).2 ≤ r.length + 1 := by
  match r with
  | [] => simp [decode4]
  | [_] => simp [decode4]
  | [_, _] => simp [decode4]
  | b1 :: b2 :: b3 :: r => simp only [decode4]; split_ifs <;> simp

theorem decodeRune_width_le (a : GoString) : (decodeRune a).2 ≤ a.length := by
  cases a with
  | nil => simp [decodeRune]
  | cons b0 r =>
    simp only [decodeRune, List.length_cons]
    split_ifs
    · simp
    · exact decode2_width_le b0 r
    · exact decode3_width_le b0 r
    · exact decode4_width_le b0 r
    · simp

theorem runeChunksAux_nil (fuel : Nat) : runeChunksAux fuel [] = [] := by
  cases fuel <;> rfl

theorem runeChunksAux_fuel (f1 : Nat) :
    ∀ (f2 : Nat) (s : GoString), s.length ≤ f1 → s.length ≤ f2 →
      runeChunksAux f1 s = runeChunksAux f2 s := by
  induction f1 with
  | zero =>
    intro f2 s h1 _
    have : s = [] := List.length_eq_zero.mp (Nat.le_zero.mp h1)
    subst this
    rw [runeChunksAux_nil, runeChunksAux_nil]
  | succ n ih =>
    intro f2 s h1 h2
    cases s with
    | nil => rw [runeChunksAux_nil, runeChunksAux_nil]
    | cons b rest =>
      cases f2 with
      | zero => simp at h2
      | succ m =>
        simp only [runeChunksAux]
        have hw := decodeRune_width_pos b rest
        have hl : ((b :: rest).drop (decodeRune (b :: rest)).2).length ≤ rest.length := by
          rw [List.length_drop, List.length_cons]; omega
        simp only [List.length_cons] at h1 h2
        rw [ih m _ (by omega) (by omega)]

theorem runeChunks_cons (b : Nat) (rest : GoString) :
    runeChunks (b :: rest) =
      ((decodeRune (b :: rest)).1, (b :: rest).take (decodeRune (b :: rest)).2) ::
        runeChunks ((b :: rest).drop (decodeRune (b :: rest)).2) := by
  unfold runeChunks
  rw [List.length_cons, runeChunksAux]
  have hw := decodeRune_width_pos b rest
  have hl : ((b :: rest).drop (decodeRune (b :: rest)).2).length ≤ rest.length := by
    rw [List.length_drop, List.length_cons]; omega
  rw [runeChunksAux_fuel rest.length _ _ hl (le_refl _)]

theorem runeChunks_append_space (n : Nat) :
    ∀ (a y : GoString), a.length ≤ n →
      runeChunks (a ++ 32 :: y) = runeChunks a ++ (32, [32]) :: runeChunks y := by
  induction n with
  | zero =>
    intro a y h
    have : a = [] := List.length_eq_zero.mp (Nat.le_zero.mp h)
    subst this
    rw [List.nil_append, runeChunks_cons, decodeRune_head_ascii 32 y (by decide)]
    rfl
  | succ n ih =>
    intro a y h
    cases a with
    | nil =>
      rw [List.nil_append, runeChunks_cons, decodeRune_head_ascii 32 y (by decide)]
      rfl
    | cons b r =>
      have hd := decodeRune_append_space (b :: r) y (by simp)
      have hw := decodeRune_width_pos b r
      have hle := decodeRune_width_le (b :: r)
      rw [List.cons_append] at hd
      rw [List.cons_append, runeChunks_cons, hd, runeChunks_cons b r]
      have e1 : (b :: (r ++ 32 :: y)).take (decodeRune (b :: r)).2 =
          (b :: r).take (decodeRune (b :: r)).2 := by
        rw [← List.cons_append, List.take_append_of_le_length hle]
      have e2 : (b :: (r ++ 32 :: y)).drop (decodeRune (b :: r)).2 =
          (b :: r).drop (decodeRune (b :: r)).2 ++ 32 :: y := by
        rw [← List.cons_append, List.drop_append_of_le_length hle]
      rw [e1, e2, ih _ y (by rw [List.length_drop]; simp only [List.length_cons] at h ⊢; omega)]
      rfl

theorem fieldsLoop_append_space (A B : List (Nat × GoString)) (bs : GoString) :
    ∀ st : Option GoString,
      fieldsLoop (A ++ (32, bs) :: B) st = fieldsLoop A st ++ fieldsLoop B none := by
  have h2 : unicodeIsSpace 32 = true := by decide
  induction A with
  | nil =>
    intro st
    cases st <;> simp [fieldsLoop, h2]
  | cons c A ih =>
    intro st
    obtain ⟨r, cs⟩ := c
    cases st with
    | none =>
      simp only [List.cons_append, fieldsLoop]
      split_ifs <;> exact ih _
    | some cur =>
      simp only [List.cons_append, fieldsLoop]
      split_ifs
      · exact congrArg (fun l => cur :: l) (ih _)
      · exact ih _

theorem Fields_append_space (a y : GoString) :
    Fields (a ++ 32 :: y) = Fields a ++ Fields y := by
  unfold Fields
  rw [runeChunks_append_space a.length a y (le_refl _), fieldsLoop_append_space]

theorem Fields_nil : Fields [] = [] := rfl

theorem Fields_appendSentence (b s : GoString) :
    Fields (appendSentence b s) = Fields b ++ Fields s := by
  unfold appendSentence
  split_ifs with h
  · rw [List.append_assoc]
    exact Fields_append_space b s
  · have : b = [] := by
      cases b with
      | nil => rfl
      | cons x xs => simp at h
    subst this
    simp [Fields_nil]

theorem Fields_foldl_appendSentence (L : List GoString) :
    ∀ b : GoString, Fields (L.foldl appendSentence b) = Fields b ++ L.flatMap Fields := by
  induction L with
  | nil => intro b; simp
  | cons s L ih =>
    intro b
    rw [List.foldl_cons, ih, Fields_appendSentence]
    simp [List.flatMap_cons]
theorem trimLeftSpaceAux_fix (fuel : Nat) (s : GoString) (h : noLeadSpace s) :
    trimLeftSpaceAux fuel s = s := by
  cases fuel with
  | zero => rfl
  | succ n =>
    unfold noLeadSpace at h
    rw [trimLeftSpaceAux]
    rw [if_neg h]

theorem trimRightSpaceAux_fix (fuel : Nat) (s : GoString) (h : noTrailSpace s) :
    trimRightSpaceAux fuel s = s := by
  cases fuel with
  | zero => rfl
  | succ n =>
    unfold noTrailSpace at h
    rw [trimRightSpaceAux]
    rw [if_neg h]

theorem TrimSpace_fix (s : GoString) (hl : noLeadSpace s) (hr : noTrailSpace s) :
    TrimSpace s = s := by
  unfold TrimSpace
  dsimp only
  rw [trimLeftSpaceAux_fix _ s hl, trimRightSpaceAux_fix _ s hr]

theorem noLeadSpace_nil : noLeadSpace [] := by
  simp [noLeadSpace, decodeRune]

theorem noTrailSpace_nil : noTrailSpace [] := by
  simp [noTrailSpace, decodeLastRune]

theorem trimLeftSpaceAux_noLead (fuel : Nat) :
    ∀ s : GoString, s.length ≤ fuel → noLeadSpace (trimLeftSpaceAux fuel s) := by
  induction fuel with
  | zero =>
    intro s h
    have : s = [] := List.length_eq_zero.mp (Nat.le_zero.mp h)
    subst this
    exact noLeadSpace_nil
  | succ n ih =>
    intro s h
    rw [trimLeftSpaceAux]
    by_cases hc : (decide (0 < (decodeRune s).2) && unicodeIsSpace (decodeRune s).1) = true
    · rw [if_pos hc]
      apply ih
      have hpos : 0 < (decodeRune s).2 := by
        simp only [Bool.and_eq_true, decide_eq_true_eq] at hc
        exact hc.1
      have hle := decodeRune_width_le s
      rw [List.length_drop]
      omega
    · rw [if_neg hc]
      exact hc

theorem decodeLastRune_width_le (s : GoString) : (decodeLastRune s).2 ≤ s.length := by
  unfold decodeLastRune
  dsimp only
  by_cases h0 : s.length = 0
  · rw [if_pos h0]; simp
  · rw [if_neg h0]
    have hpos : 1 ≤ s.length := Nat.pos_of_ne_zero h0
    split_ifs
    · exact hpos
    · dsimp only
      split_ifs with h
      · omega
      · exact hpos
    · dsimp only
      split_ifs with h
      · omega
      · exact hpos
    · dsimp only
      split_ifs with h
      · omega
      · exact hpos
    · exact hpos

theorem trimRightSpaceAux_noTrail (fuel : Nat) :
    ∀ s : GoString, s.length ≤ fuel → noTrailSpace (trimRightSpaceAux fuel s) := by
  induction fuel with
  | zero =>
    intro s h
    have : s = [] := List.length_eq_zero.mp (Nat.le_zero.mp h)
    subst this
    exact noTrailSpace_nil
  | succ n ih =>
    intro s h
    rw [trimRightSpaceAux]
    by_cases hc : (decide (0 < (decodeLastRune s).2) &&
        unicodeIsSpace (decodeLastRune s).1) = true
    · rw [if_pos hc]
      apply ih
      have hpos : 0 < (decodeLastRune s).2 := by
        simp only [Bool.and_eq_true, decide_eq_true_eq] at hc
        exact hc.1
      have hle := decodeLastRune_width_le s
      rw [List.length_take]
      omega
    · rw [if_neg hc]
      exact hc
theorem decode2_take (b0 : Nat) (r : GoString) (k : Nat) :
    decode2 b0 (r.take k) = decode2 b0 r ∨ decode2 b0 (r.take k) = (RuneError, 1) := by
  match r, k with
  | _, 0 => right; simp [decode2]
  | [], _ + 1 => left; simp
  | b1 :: r, k + 1 => left; rfl

theorem decode3_take (b0 : Nat) (r : GoString) (k : Nat) :
    decode3 b0 (r.take k) = decode3 b0 r ∨ decode3 b0 (r.take k) = (RuneError, 1) := by
  match r, k with
  | _, 0 => right; simp [decode3]
  | [], _ + 1 => left; simp
  | [b1], _ + 1 => left; simp
  | b1 :: b2 :: r, 1 => right; simp [decode3]
  | b1 :: b2 :: r, k + 2 => left; rfl

theorem decode4_take (b0 : Nat) (r : GoString) (k : Nat) :
    decode4 b0 (r.take k) = decode4 b0 r ∨ decode4 b0 (r.take k) = (RuneError, 1) := by
  match r, k with
  | _, 0 => right; simp [decode4]
  | [], _ + 1 => left; simp
  | [b1], _ + 1 => left; simp
  | [b1, b2], 1 => right; simp [decode4]
  | [b1, b2], _ + 2 => left; simp
  | b1 :: b2 :: b3 :: r, 1 => right; simp [decode4]
  | b1 :: b2 :: b3 :: r, 2 => right; simp [decode4]
  | b1 :: b2 :: b3 :: r, k + 3 => left; rfl

theorem decodeRune_take (t : GoString) (k : Nat) (hk : 0 < k) :
    decodeRune (t.take k) = decodeRune t ∨ decodeRune (t.take k) = (RuneError, 1) := by
  match t, k with
  | [], _ => left; simp
  | b0 :: t, k + 1 =>
    simp only [List.take_succ_cons, decodeRune]
    split_ifs
    · left; rfl
    · exact decode2_take b0 t k
    · exact decode3_take b0 t k
    · exact decode4_take b0 t k
    · left; rfl

theorem noLeadSpace_take (t : GoString) (k : Nat) (h : noLeadSpace t) :
    noLeadSpace (t.take k) := by
  cases k with
  | zero => simpa using noLeadSpace_nil
  | succ k =>
    rcases decodeRune_take t (k + 1) (Nat.succ_pos k) with e | e
    · unfold noLeadSpace at h ⊢
      rw [e]; exact h
    · unfold noLeadSpace
      rw [e]
      have : unicodeIsSpace RuneError = false := by decide
      simp [this]

theorem trimRightSpaceAux_take (fuel : Nat) :
    ∀ s : GoString, ∃ k, trimRightSpaceAux fuel s = s.take k := by
  induction fuel with
  | zero => intro s; exact ⟨s.length, by simp [trimRightSpaceAux]⟩
  | succ n ih =>
    intro s
    rw [trimRightSpaceAux]
    split_ifs
    · obtain ⟨k, hk⟩ := ih (s.take (s.length - (decodeLastRune s).2))
      exact ⟨min k (s.length - (decodeLastRune s).2), by rw [hk, List.take_take]⟩
    · exact ⟨s.length, by simp⟩

theorem TrimSpace_trimmed (c : GoString) (h : TrimSpace c ≠ []) :
    trimmedNonempty (TrimSpace c) := by
  refine ⟨h, ?_, ?_⟩
  · unfold TrimSpace
    dsimp only
    obtain ⟨k, hk⟩ := trimRightSpaceAux_take (trimLeftSpaceAux c.length c).length
      (trimLeftSpaceAux c.length c)
    rw [hk]
    exact noLeadSpace_take _ k (trimLeftSpaceAux_noLead _ c (le_refl _))
  · unfold TrimSpace
    dsimp only
    exact trimRightSpaceAux_noTrail _ _ (le_refl _)
theorem getD_from_end (p l : List Nat) (k : Nat) (hkl : k ≤ l.length) :
    (p ++ l).getD ((p ++ l).length - k) 0 = l.getD (l.length - k) 0 := by
  induction p with
  | nil => rfl
  | cons a p ih =>
    have e : (a :: p ++ l).length - k = ((p ++ l).length - k) + 1 := by
      simp only [List.cons_append, List.length_cons, List.length_append]
      omega
    rw [e, List.cons_append, List.getD_cons_succ, ih]

theorem drop_from_end (p l : List Nat) (k : Nat) (hkl : k ≤ l.length) :
    (p ++ l).drop ((p ++ l).length - k) = l.drop (l.length - k) := by
  induction p with
  | nil => rfl
  | cons a p ih =>
    have e : (a :: p ++ l).length - k = ((p ++ l).length - k) + 1 := by
      simp only [List.cons_append, List.length_cons, List.length_append]
      omega
    rw [e, List.cons_append, List.drop_succ_cons, ih]

theorem decodeLastRune_window (p l : GoString) (hl : 4 ≤ l.length) :
    decodeLastRune (p ++ l) = decodeLastRune l := by
  have hn : 4 ≤ (p ++ l).length := by rw [List.length_append]; omega
  have e2 : ∀ w, ((p ++ l).length - 2 + w = (p ++ l).length) = (l.length - 2 + w = l.length) := by
    intro w; apply propext; omega
  have e3 : ∀ w, ((p ++ l).length - 3 + w = (p ++ l).length) = (l.length - 3 + w = l.length) := by
    intro w; apply propext; omega
  have e4 : ∀ w, ((p ++ l).length - 4 + w = (p ++ l).length) = (l.length - 4 + w = l.length) := by
    intro w; apply propext; omega
  have c0 : ((p ++ l).length = 0) = (l.length = 0) := by apply propext; omega
  have c2 : (2 ≤ (p ++ l).length) = (2 ≤ l.length) := by apply propext; omega
  have c3 : (3 ≤ (p ++ l).length) = (3 ≤ l.length) := by apply propext; omega
  have c4 : (4 ≤ (p ++ l).length) = (4 ≤ l.length) := by apply propext; omega
  unfold decodeLastRune
  simp only [getD_from_end p l 1 (by omega), getD_from_end p l 2 (by omega),
    getD_from_end p l 3 (by omega), getD_from_end p l 4 (by omega), c0, c2, c3, c4]
  by_cases h0 : l.length = 0
  · omega
  rw [if_neg h0, if_neg h0]
  by_cases hz : l.getD (l.length - 1) 0 < 128
  · rw [if_pos hz, if_pos hz]
  rw [if_neg hz, if_neg hz]
  by_cases h2 : (decide (2 ≤ l.length) && !isCont (l.getD (l.length - 2) 0)) = true
  · simp only [if_pos h2, drop_from_end p l 2 (by omega), e2]
  by_cases h3 : (decide (3 ≤ l.length) && !isCont (l.getD (l.length - 3) 0)) = true
  · simp only [if_neg h2, if_pos h3, drop_from_end p l 3 (by omega), e3]
  by_cases h4 : (decide (4 ≤ l.length) && !isCont (l.getD (l.length - 4) 0)) = true
  · simp only [if_neg h2, if_neg h3, if_pos h4, drop_from_end p l 4 (by omega), e4]
  simp only [if_neg h2, if_neg h3, if_neg h4]

theorem isCont_space : isCont 32 = false := by decide

theorem decodeRune_space_cons (r : GoString) : decodeRune (32 :: r) = (32, 1) :=
  decodeRune_head_ascii 32 r (by decide)

theorem decodeLastRune_space1 (z : Nat) :
    decodeLastRune [32, z] = decodeLastRune [z] := by
  by_cases hz : z < 128 <;> simp [decodeLastRune, decodeRune_space_cons, isCont_space, hz]

theorem decodeLastRune_space1a (c z : Nat) :
    decodeLastRune [c, 32, z] = decodeLastRune [z] := by
  by_cases hz : z < 128 <;> simp [decodeLastRune, decodeRune_space_cons, isCont_space, hz]

theorem decodeLastRune_space1b (c1 c z : Nat) :
    decodeLastRune [c1, c, 32, z] = decodeLastRune [z] := by
  by_cases hz : z < 128 <;> simp [decodeLastRune, decodeRune_space_cons, isCont_space, hz]

theorem decodeLastRune_space2 (a z : Nat) :
    decodeLastRune [32, a, z] = decodeLastRune [a, z] := by
  by_cases hz : z < 128
  · simp [decodeLastRune, hz]
  · cases ha : isCont a
    · simp [decodeLastRune, decodeRune_space_cons, hz, ha, isCont_space]
      split_ifs <;> first | rfl | (exfalso; omega)
    · simp [decodeLastRune, decodeRune_space_cons, hz, ha, isCont_space]

theorem decodeLastRune_space2a (c a z : Nat) :
    decodeLastRune [c, 32, a, z] = decodeLastRune [a, z] := by
  by_cases hz : z < 128
  · simp [decodeLastRune, hz]
  · cases ha : isCont a
    · simp [decodeLastRune, decodeRune_space_cons, hz, ha, isCont_space]
      split_ifs <;> first | rfl | (exfalso; omega)
    · simp [decodeLastRune, decodeRune_space_cons, hz, ha, isCont_space]

theorem decodeLastRune_space3 (a b z : Nat) :
    decodeLastRune [32, a, b, z] = decodeLastRune [a, b, z] := by
  by_cases hz : z < 128
  · simp [decodeLastRune, hz]
  · cases hb : isCont b
    · simp [decodeLastRune, decodeRune_space_cons, hz, hb, isCont_space]
      split_ifs <;> first | rfl | (exfalso; omega)
    · cases ha : isCont a
      · simp [decodeLastRune, decodeRune_space_cons, hz, ha, hb, isCont_space]
        split_ifs <;> first | rfl | (exfalso; omega)
      · simp [decodeLastRune, decodeRune_space_cons, hz, ha, hb, isCont_space]
theorem decodeLastRune_append_space (y s : GoString) (hs : s ≠ []) :
    decodeLastRune (y ++ 32 :: s) = decodeLastRune s := by
  match s, hs with
  | [z], _ =>
    rcases List.eq_nil_or_concat y with h | ⟨y1, c, h⟩
    · subst h; exact decodeLastRune_space1 z
    · subst h
      rcases List.eq_nil_or_concat y1 with h | ⟨y2, c1, h⟩
      · subst h; exact decodeLastRune_space1a c z
      · subst h
        have e : (y2.concat c1).concat c ++ [32, z] = y2 ++ [c1, c, 32, z] := by simp
        rw [e, decodeLastRune_window y2 [c1, c, 32, z] (by simp)]
        exact decodeLastRune_space1b c1 c z
  | [a, z], _ =>
    rcases List.eq_nil_or_concat y with h | ⟨y1, c, h⟩
    · subst h; exact decodeLastRune_space2 a z
    · subst h
      have e : y1.concat c ++ [32, a, z] = y1 ++ [c, 32, a, z] := by simp
      rw [e, decodeLastRune_window y1 [c, 32, a, z] (by simp)]
      exact decodeLastRune_space2a c a z
  | [a, b, z], _ =>
    rw [decodeLastRune_window y [32, a, b, z] (by simp)]
    exact decodeLastRune_space3 a b z
  | a :: b :: c :: d :: r, _ =>
    have e : y ++ 32 :: a :: b :: c :: d :: r = (y ++ [32]) ++ a :: b :: c :: d :: r := by simp
    rw [e, decodeLastRune_window (y ++ [32]) (a :: b :: c :: d :: r) (by simp)]

theorem noLeadSpace_append_space (a y : GoString) (ha : a ≠ []) (h : noLeadSpace a) :
    noLeadSpace (a ++ 32 :: y) := by
  unfold noLeadSpace at h ⊢
  rw [decodeRune_append_space a y ha]
  exact h

theorem noTrailSpace_append_space (y s : GoString) (hs : s ≠ []) (h : noTrailSpace s) :
    noTrailSpace (y ++ 32 :: s) := by
  unfold noTrailSpace at h ⊢
  rw [decodeLastRune_append_space y s hs]
  exact h

theorem trimmedNonempty_append_space (a s : GoString) (ha : trimmedNonempty a)
    (hs : trimmedNonempty s) : trimmedNonempty (a ++ 32 :: s) :=
  ⟨by simp, noLeadSpace_append_space a s ha.1 ha.2.1,
    noTrailSpace_append_space a s hs.1 hs.2.2⟩

theorem TrimSpace_of_trimmed (s : GoString) (h : trimmedNonempty s) : TrimSpace s = s :=
  TrimSpace_fix s h.2.1 h.2.2
theorem flushSentence_trimmed (cur : GoString) (sents : List GoString)
    (h : ∀ s ∈ sents, trimmedNonempty s) : ∀ s ∈ flushSentence cur sents, trimmedNonempty s := by
  intro s hs
  unfold flushSentence at hs
  dsimp only at hs
  split_ifs at hs with hne
  · rcases List.mem_append.mp hs with h1 | h1
    · exact h s h1
    · rw [List.mem_singleton.mp h1]
      exact TrimSpace_trimmed cur hne
  · exact h s hs

theorem splitLoop_trimmed (env : Env) (text : GoString) (fuel : Nat) :
    ∀ (i : Nat) (q : Bool) (cur : GoString) (sents : List GoString),
      (∀ s ∈ sents, trimmedNonempty s) →
      ∀ s ∈ splitLoop env text fuel i q cur sents, trimmedNonempty s := by
  induction fuel with
  | zero =>
    intro i q cur sents h
    rw [splitLoop]
    exact flushSentence_trimmed cur sents h
  | succ n ih =>
    intro i q cur sents h
    rw [splitLoop]
    dsimp only
    split_ifs
    · exact ih _ _ _ _ h
    · exact ih _ _ _ _ (flushSentence_trimmed _ _ h)
    · exact ih _ _ _ _ h
    · exact ih _ _ _ _ h
    · exact ih _ _ _ _ (flushSentence_trimmed _ _ h)
    · exact ih _ _ _ _ (flushSentence_trimmed _ _ h)
    · exact ih _ _ _ _ h
    · exact flushSentence_trimmed cur sents h

theorem splitSentences_trimmed (env : Env) (text : GoString) :
    ∀ s ∈ splitSentences env text, trimmedNonempty s := by
  unfold splitSentences
  dsimp only
  split_ifs
  · intro s hs; simp at hs
  · exact splitLoop_trimmed env _ _ 0 false [] [] (fun s hs => by simp at hs)
theorem wordTotal_cons (s : GoString) (L : List GoString) :
    wordTotal (s :: L) = (Fields s).length + wordTotal L := by
  simp [wordTotal]

theorem wordTotal_reverse (L : List GoString) : wordTotal L.reverse = wordTotal L := by
  unfold wordTotal
  rw [List.map_reverse, List.sum_reverse]

theorem Fields_foldl_length (L : List GoString) :
    ∀ b : GoString,
      (Fields (L.foldl appendSentence b)).length = (Fields b).length + wordTotal L := by
  induction L with
  | nil => intro b; simp [wordTotal]
  | cons s L ih =>
    intro b
    rw [List.foldl_cons, ih, Fields_appendSentence, List.length_append, wordTotal_cons]
    omega

theorem collectLoop_spec (t : Nat) :
    ∀ (L : List GoString) (b : GoString) (w i : Nat),
      ∃ k, k ≤ L.length ∧
        collectLoop t L b w i = ((L.take k).foldl appendSentence b, i + k) ∧
        (k < L.length → t ≤ w + wordTotal (L.take k)) ∧
        (L ≠ [] → w < t → 1 ≤ k) := by
  intro L
  induction L with
  | nil =>
    intro b w i
    exact ⟨0, le_refl _, rfl, fun h => absurd h (by simp), fun h => absurd rfl h⟩
  | cons s L ih =>
    intro b w i
    by_cases hw : w < t
    · obtain ⟨k, hk, he, hstop, _⟩ := ih (appendSentence b s) (w + (Fields s).length) (i + 1)
      refine ⟨k + 1, by simp only [List.length_cons]; omega, ?_, ?_, fun _ _ => by omega⟩
      · rw [collectLoop, if_pos hw, he]
        simp only [List.take_succ_cons, List.foldl_cons]
        congr 1
        omega
      · intro hlt
        simp only [List.length_cons] at hlt
        have := hstop (by omega)
        rw [List.take_succ_cons, wordTotal_cons]
        omega
    · refine ⟨0, Nat.zero_le _, ?_, ?_, fun _ h => absurd h hw⟩
      · rw [collectLoop, if_neg hw]
        rfl
      · intro _
        simp only [List.take_zero, wordTotal, List.map_nil, List.sum_nil]
        omega

theorem backLoop_spec (t : Nat) :
    ∀ (R : List GoString) (w : Nat),
      backLoop t R w ≤ R.length ∧
        (backLoop t R w < R.length → t ≤ w + wordTotal (R.take (backLoop t R w))) ∧
        (R ≠ [] → w < t → 1 ≤ backLoop t R w) := by
  intro R
  induction R with
  | nil =>
    intro w
    exact ⟨le_refl _, fun h => absurd h (by simp [backLoop]), fun h => absurd rfl h⟩
  | cons s R ih =>
    intro w
    by_cases hw : w < t
    · obtain ⟨hk, hstop, _⟩ := ih (w + (Fields s).length)
      rw [backLoop, if_pos hw]
      refine ⟨by simp only [List.length_cons]; omega, ?_, fun _ _ => by omega⟩
      intro hlt
      simp only [List.length_cons] at hlt
      have := hstop (by omega)
      have e : 1 + backLoop t R (w + (Fields s).length) =
          backLoop t R (w + (Fields s).length) + 1 := by omega
      rw [e, List.take_succ_cons, wordTotal_cons]
      omega
    · rw [backLoop, if_neg hw]
      refine ⟨Nat.zero_le _, ?_, fun _ h => absurd h hw⟩
      intro _
      simp only [List.take_zero, wordTotal, List.map_nil, List.sum_nil]
      omega
theorem slice_length {α : Type} (S : List α) (a b : Nat) (hb : b ≤ S.length) :
    (slice S a b).length = b - a := by
  unfold slice
  rw [List.length_drop, List.length_take, Nat.min_eq_left hb]

theorem slice_take {α : Type} (S : List α) (a b k : Nat) (h : a + k ≤ b) :
    (slice S a b).take k = slice S a (a + k) := by
  unfold slice
  rw [List.take_drop, List.take_take, Nat.min_eq_left h]

theorem sampleText_structure (env : Env) (text : GoString) (wc : Int) (hwc : 3000 ≤ wc)
    (hS : splitSentences env text ≠ []) :
    ∃ k1 s3 : Nat, 1 ≤ k1 ∧ k1 ≤ s3 ∧ s3 ≤ (splitSentences env text).length ∧
      (sampleText env text wc =
          uniqueSegments text [((splitSentences env text).take k1).foldl appendSentence [],
            ((splitSentences env text).drop s3).foldl appendSentence []] ∨
        ∃ a b, k1 ≤ a ∧ a < b ∧ b ≤ s3 ∧ s3 < (splitSentences env text).length ∧
          1000 ≤ wordTotal ((splitSentences env text).take k1) ∧
          1000 ≤ wordTotal ((splitSentences env text).drop s3) ∧
          (slice (splitSentences env text) a b).foldl appendSentence [] ≠ [] ∧
          sampleText env text wc =
            [((splitSentences env text).take k1).foldl appendSentence [],
              (slice (splitSentences env text) a b).foldl appendSentence [],
              ((splitSentences env text).drop s3).foldl appendSentence []]) := by
  have hlen0 : ¬ (splitSentences env text).length = 0 :=
    fun h => hS (List.length_eq_zero.mp h)
  unfold sampleText
  rw [if_neg (not_lt.mpr hwc)]
  dsimp only
  rw [if_neg hlen0]
  generalize splitSentences env text = S at hS hlen0 ⊢
  obtain ⟨k1, hk1, he1, hstop1, hpos1⟩ := collectLoop_spec targetWords S [] 0 0
  have hk1pos : 1 ≤ k1 := hpos1 hS (by decide)
  obtain ⟨hk3, hstop3, hpos3⟩ := backLoop_spec targetWords S.reverse 0
  have hk3pos : 1 ≤ backLoop targetWords S.reverse 0 :=
    hpos3 (by simpa using hS) (by decide)
  rw [List.length_reverse] at hk3 hstop3
  rw [he1, Nat.zero_add]
  dsimp only
  generalize backLoop targetWords S.reverse 0 = k3 at hk3 hstop3 hk3pos ⊢
  by_cases hclamp : S.length - k3 < k1
  · rw [if_pos hclamp]
    refine ⟨k1, k1, hk1pos, le_refl _, hk1, Or.inl ?_⟩
    rw [if_pos (by omega)]
  · rw [if_neg hclamp]
    by_cases hmid : ((S.length - k3 : Nat) : Int) - (k1 : Int) ≤ 0
    · rw [if_pos hmid]
      exact ⟨k1, S.length - k3, hk1pos, by omega, by omega, Or.inl rfl⟩
    · rw [if_neg hmid]
      have hlt : k1 < S.length - k3 := by omega
      obtain ⟨hkm, _, _⟩ := backLoop_spec (targetWords / 2)
        (slice S k1 (k1 + (S.length - k3 - k1) / 2)).reverse 0
      rw [List.length_reverse, slice_length S _ _ (by omega)] at hkm
      generalize backLoop (targetWords / 2)
        (slice S k1 (k1 + (S.length - k3 - k1) / 2)).reverse 0 = km at hkm ⊢
      obtain ⟨k2, hk2, he2, _, _⟩ := collectLoop_spec targetWords
        (slice S (k1 + (S.length - k3 - k1) / 2 - km) (S.length - k3)) [] 0
        (k1 + (S.length - k3 - k1) / 2 - km)
      rw [slice_length S _ _ (by omega)] at hk2
      rw [he2]
      dsimp only
      by_cases hseg2 : List.foldl appendSentence []
          (List.take k2 (slice S (k1 + (S.length - k3 - k1) / 2 - km) (S.length - k3))) = []
      · rw [if_pos hseg2]
        exact ⟨k1, S.length - k3, hk1pos, by omega, by omega, Or.inl rfl⟩
      · rw [if_neg hseg2]
        have hk2pos : 1 ≤ k2 := by
          rcases Nat.eq_zero_or_pos k2 with h0 | h0
          · exfalso; apply hseg2; rw [h0]; rfl
          · exact h0
        refine ⟨k1, S.length - k3, hk1pos, by omega, by omega, Or.inr
          ⟨k1 + (S.length - k3 - k1) / 2 - km, k1 + (S.length - k3 - k1) / 2 - km + k2,
            by omega, by omega, by omega, by omega, ?_, ?_, ?_, ?_⟩⟩
        · have := hstop1 (by omega)
          simpa [targetWords] using this
        · have := hstop3 (by omega)
          rw [List.take_reverse, wordTotal_reverse] at this
          simpa [targetWords] using this
        · have e := slice_take S (k1 + (S.length - k3 - k1) / 2 - km) (S.length - k3) k2
            (by omega)
          rw [← e]
          exact hseg2
        · rw [slice_take S _ _ k2 (by omega)]
theorem uniqueSegments_length_le (text : GoString) (cands : List GoString) :
    (uniqueSegments text cands).length ≤ max 1 cands.length := by
  unfold uniqueSegments
  dsimp only
  split_ifs
  · simp
  · exact le_trans (uniqueLoop_length_le cands []) (le_max_right _ _)

/-- C13 (the claim fails): the text of a 1500-word sentence, the sentence "a."
and another 1500-word sentence has 3001 words; sampleText returns three
segments, and the middle one has a single word. -/
theorem sampleText_short_middle :
    (Fields (sentencesText 1499 [0, 1499])).length = 3001 ∧
      sampleText bareEnv (sentencesText 1499 [0, 1499]) 3001 =
        [wordsSentence 1499, wordsSentence 0, wordsSentence 1499] ∧
      (Fields (wordsSentence 0)).length = 1 := by
  refine ⟨by rw [Fields_sentencesText]; rfl, ?_, by rw [Fields_wordsSentence]⟩
  exact sampleText_three bareEnv _ (wordsSentence 1499) (wordsSentence 0) (wordsSentence 1499)
    3001 (by decide) (splitSentences_sentencesText bareEnv (fun _ => rfl) 1499 [0, 1499])
    (by rw [Fields_wordsSentence]; omega) (by rw [Fields_wordsSentence]; omega) (by decide)

/-- C13 (amended): whenever sampleText returns three segments, the first and
the last one each contain at least 1000 words, and the middle one is not
empty. -/
theorem sampleText_outer_segments (env : Env) (text : GoString) (wc : Int)
    (h : (sampleText env text wc).length = 3) :
    ∃ a b c, sampleText env text wc = [a, b, c] ∧ 1000 ≤ (Fields a).length ∧
      1000 ≤ (Fields c).length ∧ b ≠ [] := by
  have hwc : 3000 ≤ wc := by
    by_contra hlt
    have : sampleText env text wc = [text] := by
      unfold sampleText
      rw [if_pos (not_le.mp hlt)]
    rw [this] at h
    simp at h
  have hS : splitSentences env text ≠ [] := by
    intro h0
    have : sampleText env text wc = [text] := by
      unfold sampleText
      rw [if_neg (not_lt.mpr hwc)]
      dsimp only
      rw [if_pos (by rw [h0]; rfl)]
    rw [this] at h
    simp at h
  obtain ⟨k1, s3, _, _, _, h2 | ⟨a, b, _, _, _, _, hw1, hw3, hne, h3⟩⟩ :=
    sampleText_structure env text wc hwc hS
  · have := uniqueSegments_length_le text
      [((splitSentences env text).take k1).foldl appendSentence [],
        ((splitSentences env text).drop s3).foldl appendSentence []]
    rw [← h2, h] at this
    simp at this
  · refine ⟨_, _, _, h3, ?_, ?_, hne⟩
    · rw [Fields_foldl_length]; simpa [Fields_nil] using hw1
    · rw [Fields_foldl_length]; simpa [Fields_nil] using hw3

theorem sampleText_three_length (n m k : Nat) (wc : Int) (hwc : 3000 ≤ wc) (hn : 999 ≤ n)
    (hk : 999 ≤ k) : (sampleText bareEnv (sentencesText n [m, k]) wc).length = 3 := by
  rw [sampleText_three bareEnv _ (wordsSentence n) (wordsSentence m) (wordsSentence k) wc hwc
    (splitSentences_sentencesText bareEnv (fun _ => rfl) n [m, k])
    (by rw [Fields_wordsSentence]; omega) (by rw [Fields_wordsSentence]; omega)
    (by obtain ⟨mid, h⟩ := wordsSentence_shape m; rw [h]; simp)]
  rfl

theorem sampleText_outer_segments_witness :
    (sampleText bareEnv (sentencesText 1200 [700, 1300]) 3203).length = 3 ∧
      ∃ a b c, sampleText bareEnv (sentencesText 1200 [700, 1300]) 3203 = [a, b, c] ∧
        1000 ≤ (Fields a).length ∧ 1000 ≤ (Fields c).length ∧ b ≠ [] :=
  ⟨sampleText_three_length 1200 700 1300 3203 (by decide) (by decide) (by decide),
    sampleText_outer_segments bareEnv (sentencesText 1200 [700, 1300]) 3203
      (sampleText_three_length 1200 700 1300 3203 (by decide) (by decide) (by decide))⟩
theorem foldl_appendSentence_nonempty (L : List GoString) :
    ∀ acc : GoString, acc ≠ [] →
      L.foldl appendSentence acc = L.foldl (fun a t => a ++ 32 :: t) acc := by
  induction L with
  | nil => intro acc _; rfl
  | cons s L ih =>
    intro acc hacc
    have hpos : acc.length > 0 := List.length_pos.mpr hacc
    have e : appendSentence acc s = acc ++ 32 :: s := by
      unfold appendSentence
      rw [if_pos hpos]
      simp
    rw [List.foldl_cons, List.foldl_cons, e]
    exact ih _ (by simp)

theorem foldl_appendSentence_join (L : List GoString) (h : ∀ s ∈ L, s ≠ []) :
    L.foldl appendSentence [] = joinSentences L := by
  cases L with
  | nil => rfl
  | cons s L =>
    have e : appendSentence [] s = s := by simp [appendSentence]
    rw [List.foldl_cons, e, joinSentences]
    exact foldl_appendSentence_nonempty L s (h s (List.mem_cons_self _ _))

theorem foldl_join_trimmed (L : List GoString) (h : ∀ s ∈ L, trimmedNonempty s) :
    ∀ acc : GoString, trimmedNonempty acc →
      trimmedNonempty (L.foldl (fun a t => a ++ 32 :: t) acc) := by
  induction L with
  | nil => intro acc hacc; exact hacc
  | cons s L ih =>
    intro acc hacc
    rw [List.foldl_cons]
    exact ih (fun t ht => h t (List.mem_cons_of_mem _ ht)) _
      (trimmedNonempty_append_space acc s hacc (h s (List.mem_cons_self _ _)))

theorem joinSentences_trimmed (L : List GoString) (hne : L ≠ [])
    (h : ∀ s ∈ L, trimmedNonempty s) : trimmedNonempty (joinSentences L) := by
  cases L with
  | nil => exact absurd rfl hne
  | cons s L =>
    rw [joinSentences]
    exact foldl_join_trimmed L (fun t ht => h t (List.mem_cons_of_mem _ ht)) s
      (h s (List.mem_cons_self _ _))

theorem slice_subset {α : Type} (S : List α) (a b : Nat) : ∀ x ∈ slice S a b, x ∈ S := by
  intro x hx
  unfold slice at hx
  exact List.mem_of_mem_take (List.mem_of_mem_drop hx)

theorem slice_zero {α : Type} (S : List α) (b : Nat) : slice S 0 b = S.take b := by
  simp [slice]

theorem slice_to_end {α : Type} (S : List α) (a : Nat) : slice S a S.length = S.drop a := by
  simp [slice]

theorem uniqueSegments_pair (text x y : GoString) (hx : trimmedNonempty x)
    (hy : y = [] ∨ trimmedNonempty y) :
    uniqueSegments text [x, y] = if y = [] ∨ y = x then [x] else [x, y] := by
  have hxne := hx.1
  have hxt := TrimSpace_of_trimmed x hx
  rcases hy with hy | hy
  · subst hy
    have : TrimSpace [] = ([] : GoString) := rfl
    simp [uniqueSegments, uniqueLoop, hxt, hxne, this]
  · have hyt := TrimSpace_of_trimmed y hy
    have hyne := hy.1
    by_cases hxy : y = x
    · subst hxy
      simp [uniqueSegments, uniqueLoop, hyt, hyne]
    · simp [uniqueSegments, uniqueLoop, hxt, hyt, hxne, hyne, hxy]

/-- C14: for a word count of at least 3000 and a non-empty sentence list S of
the text, the segments of sampleText are the single-space joins of contiguous
non-empty runs of sentences of S; the runs follow one another in text order
without overlap, and the first one starts at sentence 0. -/
theorem sampleText_segments_are_runs (env : Env) (text : GoString) (wc : Int) (hwc : 3000 ≤ wc)
    (hS : splitSentences env text ≠ []) :
    ∃ runs : List (Nat × Nat),
      segmentsAreRuns (splitSentences env text) (sampleText env text wc) runs := by
  have htr := splitSentences_trimmed env text
  obtain ⟨k1, s3, hk1, h13, h3n, h2 | ⟨a, b, hka, hab, hb3, h3lt, _, _, _, h3⟩⟩ :=
    sampleText_structure env text wc hwc hS
  · rw [h2]
    generalize splitSentences env text = S at hS htr h3n ⊢
    have hne1 : S.take k1 ≠ [] := by
      intro h0
      have := congrArg List.length h0
      rw [List.length_take] at this
      have hpos : 0 < S.length := List.length_pos.mpr hS
      simp only [List.length_nil] at this
      omega
    have hx : trimmedNonempty ((S.take k1).foldl appendSentence []) := by
      rw [foldl_appendSentence_join _ (fun s hs => (htr s (List.mem_of_mem_take hs)).1)]
      exact joinSentences_trimmed _ hne1 (fun s hs => htr s (List.mem_of_mem_take hs))
    have e1 : (S.take k1).foldl appendSentence [] = joinSentences (slice S 0 k1) := by
      rw [slice_zero, foldl_appendSentence_join _
        (fun s hs => (htr s (List.mem_of_mem_take hs)).1)]
    have e3 : (S.drop s3).foldl appendSentence [] = joinSentences (slice S s3 S.length) := by
      rw [slice_to_end, foldl_appendSentence_join _
        (fun s hs => (htr s (List.mem_of_mem_drop hs)).1)]
    have hy : (S.drop s3).foldl appendSentence [] = [] ∨
        trimmedNonempty ((S.drop s3).foldl appendSentence []) := by
      by_cases hd : S.drop s3 = []
      · left; rw [hd]; rfl
      · right
        rw [foldl_appendSentence_join _ (fun s hs => (htr s (List.mem_of_mem_drop hs)).1)]
        exact joinSentences_trimmed _ hd (fun s hs => htr s (List.mem_of_mem_drop hs))
    rw [uniqueSegments_pair text _ _ hx hy]
    have hk1n : k1 ≤ S.length := le_trans h13 h3n
    split_ifs with hc
    · refine ⟨[(0, k1)], ?_, ?_, ?_, ?_⟩
      · simp [e1]
      · intro r hr
        simp only [List.mem_singleton] at hr
        subst hr
        exact ⟨hk1, hk1n⟩
      · simp
      · rfl
    · have hs3 : s3 < S.length := by
        by_contra hge
        apply hc
        left
        rw [List.drop_of_length_le (by omega)]
        rfl
      refine ⟨[(0, k1), (s3, S.length)], ?_, ?_, ?_, ?_⟩
      · simp [e1, e3]
      · intro r hr
        simp only [List.mem_cons, List.mem_singleton, List.not_mem_nil, or_false] at hr
        rcases hr with hr | hr <;> subst hr
        · exact ⟨hk1, hk1n⟩
        · exact ⟨hs3, le_refl _⟩
      · simp [h13]
      · rfl
  · rw [h3]
    generalize splitSentences env text = S at hS htr h3n h3lt ⊢
    have e1 : (S.take k1).foldl appendSentence [] = joinSentences (slice S 0 k1) := by
      rw [slice_zero, foldl_appendSentence_join _
        (fun s hs => (htr s (List.mem_of_mem_take hs)).1)]
    have e2 : (slice S a b).foldl appendSentence [] = joinSentences (slice S a b) :=
      foldl_appendSentence_join _ (fun s hs => (htr s (slice_subset S a b s hs)).1)
    have e3 : (S.drop s3).foldl appendSentence [] = joinSentences (slice S s3 S.length) := by
      rw [slice_to_end, foldl_appendSentence_join _
        (fun s hs => (htr s (List.mem_of_mem_drop hs)).1)]
    refine ⟨[(0, k1), (a, b), (s3, S.length)], ?_, ?_, ?_, ?_⟩
    · simp [e1, e2, e3]
    · intro r hr
      simp only [List.mem_cons, List.mem_singleton, List.not_mem_nil, or_false] at hr
      rcases hr with hr | hr | hr <;> subst hr
      · exact ⟨hk1, by omega⟩
      · exact ⟨hab, by omega⟩
      · exact ⟨h3lt, le_refl _⟩
    · simp only [List.pairwise_cons, List.mem_cons, List.mem_singleton, List.not_mem_nil,
        or_false, forall_eq_or_imp, forall_eq, List.Pairwise.nil, and_true, IsEmpty.forall_iff,
        implies_true]
      omega
    · rfl

theorem sampleText_segments_are_runs_witness :
    (3000 : Int) ≤ 3201 ∧ splitSentences bareEnv (sentencesText 1599 [1600]) ≠ [] ∧
      ∃ runs : List (Nat × Nat),
        segmentsAreRuns (splitSentences bareEnv (sentencesText 1599 [1600]))
          (sampleText bareEnv (sentencesText 1599 [1600]) 3201) runs :=
  ⟨by decide,
    by rw [splitSentences_sentencesText bareEnv (fun _ => rfl) 1599 [1600]]; simp,
    sampleText_segments_are_runs bareEnv (sentencesText 1599 [1600]) 3201 (by decide)
      (by rw [splitSentences_sentencesText bareEnv (fun _ => rfl) 1599 [1600]]; simp)⟩

theorem truncToInt_of_nonneg (x : ℚ) (h : 0 ≤ x) : truncToInt x = ⌊x⌋ := by
  unfold truncToInt
  rw [if_pos h]
  rfl

theorem sum_cast_int (xs : List Int) : ((xs.sum : Int) : ℚ) = (xs.map (fun (x : Int) => (x : ℚ))).sum := by
  induction xs with
  | nil => simp
  | cons a xs ih => simp [ih]

theorem sum_nonneg_int (xs : List Int) (h : ∀ x ∈ xs, 0 ≤ x) : 0 ≤ xs.sum := by
  induction xs with
  | nil => simp
  | cons a xs ih =>
    rw [List.sum_cons]
    have h1 := h a (List.mem_cons_self _ _)
    have h2 := ih (fun x hx => h x (List.mem_cons_of_mem _ hx))
    omega

theorem wrapInt_of_range (x : Int) (h1 : -2 ^ 63 ≤ x) (h2 : x < 2 ^ 63) : wrapInt x = x := by
  unfold wrapInt
  omega

theorem wrapInt_add_wrapInt (a x : Int) : wrapInt (wrapInt a + x) = wrapInt (a + x) := by
  unfold wrapInt
  omega

theorem foldl_wrapInt (xs : List Int) :
    ∀ acc : Int, xs.foldl (fun acc x => wrapInt (acc + x)) (wrapInt acc) =
      wrapInt (acc + xs.sum) := by
  induction xs with
  | nil => intro acc; simp
  | cons x xs ih =>
    intro acc
    rw [List.foldl_cons, wrapInt_add_wrapInt, ih, List.sum_cons, Int.add_assoc]

theorem sumInt_eq_wrap (xs : List Int) : sumInt xs = wrapInt xs.sum := by
  unfold sumInt
  have h := foldl_wrapInt xs 0
  rw [wrapInt_of_range 0 (by norm_num) (by norm_num), Int.zero_add] at h
  exact h

/-- C15 (the claim fails): the word counts 2^63 - 1 and 40 of two results are
added as Go ints, and the merged WordCount is the negative number 39 - 2^63
instead of their sum; and for two results with the connector count -1 the
merged count is 0, while their mean -1 is an integer. -/
theorem mergeSampledResults_sum_wraps :
    2 ≤ [segmentResultMax, segmentResultA].length ∧
      (mergeSampledResults [segmentResultMax, segmentResultA] defaultConfig).WordCount =
        39 - 2 ^ 63 ∧
      ([segmentResultMax, segmentResultA].map (fun r => r.WordCount)).sum = 2 ^ 63 + 39 ∧
      (mergeSampledResults [segmentResultNeg, segmentResultNeg] defaultConfig).Syntax.ConnectorDiversity
        = 0 ∧
      mean ([segmentResultNeg, segmentResultNeg].map
        (fun r => (r.Syntax.ConnectorDiversity : ℚ))) = -1 := by
  refine ⟨by decide, ?_, ?_, ?_, ?_⟩
  · show sumInt [2 ^ 63 - 1, 40] = 39 - 2 ^ 63
    rw [sumInt_eq_wrap]
    unfold wrapInt
    norm_num
  · show ([2 ^ 63 - 1, 40] : List Int).sum = 2 ^ 63 + 39
    norm_num
  · show truncToInt (((sumInt [-1, -1] : Int) : ℚ) / ((2 : Nat) : ℚ) + 1 / 2) = 0
    rw [sumInt_eq_wrap]
    have e : wrapInt ([-1, -1] : List Int).sum = -2 := by
      rw [wrapInt_of_range _ (by norm_num) (by norm_num)]
      norm_num
    rw [e]
    unfold truncToInt
    rw [if_neg (by norm_num)]
    have hf : Rat.floor (-(((-2 : Int) : ℚ) / ((2 : Nat) : ℚ) + 1 / 2)) = 0 := by
      show ⌊(-(((-2 : Int) : ℚ) / ((2 : Nat) : ℚ) + 1 / 2) : ℚ)⌋ = 0
      rw [Int.floor_eq_iff]
      norm_num
    rw [hf]
    rfl
  · show mean [((-1 : Int) : ℚ), ((-1 : Int) : ℚ)] = -1
    unfold mean
    norm_num

/-- C15 (amended): the merge of at least two results is as specified (means,
averaged distribution, the mean connector count rounded to the nearest integer
when the counts are non-negative and their sum is below 2^63, the counts
summed as 64-bit Go ints, score recomputed with the weights of the config and
clamped, level of that score, confidence 0); a Go int sum is the exact sum
when that lies between -2^63 and 2^63 - 1; a single result is returned
unchanged and the empty list gives the zero Result. -/
theorem mergeSampledResults_spec (results : List Result) (cfg : config) (r : Result) :
    (2 ≤ results.length → mergedAsSpecified results cfg (mergeSampledResults results cfg)) ∧
      (∀ x : Int, -2 ^ 63 ≤ x → x < 2 ^ 63 → wrapInt x = x) ∧
      mergeSampledResults [r] cfg = r ∧ mergeSampledResults [] cfg = zeroResult := by
  refine ⟨?_, wrapInt_of_range, mergeSampledResults_single r cfg, rfl⟩
  intro hn
  have h0 : ¬ results.length = 0 := by omega
  have h1 : ¬ results.length = 1 := by omega
  have hpos : (0 : ℚ) < (results.length : ℚ) := by
    have : 0 < results.length := by omega
    exact_mod_cast this
  unfold mergeSampledResults mergedAsSpecified
  rw [if_neg h0, if_neg h1]
  dsimp only
  refine ⟨?_, ?_, ?_, ?_, ?_, ?_, ?_, ?_, ?_, ?_, ?_, ?_, sumInt_eq_wrap _, sumInt_eq_wrap _,
    sumInt_eq_wrap _, ?_, rfl, rfl⟩
  · simp [mean]
  · simp [mean]
  · simp [mean]
  · simp [mean]
  · simp [mean]
  · simp [mean]
  · simp [mean]
  · simp [mean]
  · simp [mean]
  · simp [mean]
  · intro k
    unfold mergeDistribution
    constructor
    · intro hex
      have : results.any (fun r => (r.Vocab.Distribution k).isSome) = true := by
        rw [List.any_eq_true]
        exact hex
      rw [if_pos this]
    · intro hall
      have : ¬ results.any (fun r => (r.Vocab.Distribution k).isSome) = true := by
        rw [List.any_eq_true]
        rintro ⟨r, hr, hs⟩
        rw [hall r hr] at hs
        simp at hs
      rw [if_neg this]
  · intro hc hlt
    have hsum : 0 ≤ (results.map (fun r => r.Syntax.ConnectorDiversity)).sum := by
      apply sum_nonneg_int
      intro x hx
      rcases List.mem_map.mp hx with ⟨r, hr, rfl⟩
      exact hc r hr
    rw [sumInt_eq_wrap, wrapInt_of_range _ (by omega) hlt]
    have hmean : (((results.map (fun r => r.Syntax.ConnectorDiversity)).sum : Int) : ℚ) /
        (results.length : ℚ) =
        mean (results.map (fun r => (r.Syntax.ConnectorDiversity : ℚ))) := by
      rw [sum_cast_int, List.map_map]
      simp only [mean, List.length_map]
      rfl
    have hnn : (0 : ℚ) ≤ (((results.map (fun r => r.Syntax.ConnectorDiversity)).sum : Int) : ℚ) /
        (results.length : ℚ) + 1 / 2 := by
      have : (0 : ℚ) ≤ (((results.map (fun r => r.Syntax.ConnectorDiversity)).sum : Int) : ℚ) := by
        exact_mod_cast hsum
      have := div_nonneg this hpos.le
      linarith
    rw [truncToInt_of_nonneg _ hnn, hmean]
    refine ⟨rfl, ?_⟩
    have hf1 := Int.floor_le (mean (results.map (fun r => (r.Syntax.ConnectorDiversity : ℚ))) +
      1 / 2)
    have hf2 := Int.lt_floor_add_one
      (mean (results.map (fun r => (r.Syntax.ConnectorDiversity : ℚ))) + 1 / 2)
    rw [abs_le]
    constructor <;> linarith
  · simp [mean]

theorem mergeSampledResults_spec_witness :
    2 ≤ [segmentResultA, segmentResultB].length ∧
      mergedAsSpecified [segmentResultA, segmentResultB] defaultConfig
        (mergeSampledResults [segmentResultA, segmentResultB] defaultConfig) :=
  ⟨by decide,
    (mergeSampledResults_spec [segmentResultA, segmentResultB] defaultConfig zeroResult).1
      (by decide)⟩

theorem contentLowers_cons (tok : Token) (rest : List Token) :
    contentLowers (tok :: rest) =
      if isContent tok then tok.Lower :: contentLowers rest else contentLowers rest := by
  unfold contentLowers
  rw [List.filter_cons]
  split_ifs <;> rfl

theorem isContent_iff (tok : Token) :
    (tok.IsStopword || tok.IsProper || tok.IsFiltered) = !isContent tok := by
  unfold isContent
  cases tok.IsStopword <;> cases tok.IsProper <;> cases tok.IsFiltered <;> rfl

theorem vocabLoop_eq (env : Env) (tokens : List Token) :
    ∀ (seen : List GoString) (levels : List Int) (unk : Int),
      vocabLoop env tokens seen levels unk =
        (levels ++ (freshWords (contentLowers tokens) seen).map (scoringLevel env),
          unk + (((freshWords (contentLowers tokens) seen).filter (isUnknownWord env)).length :
            Int)) := by
  induction tokens with
  | nil => intro seen levels unk; simp [vocabLoop, contentLowers, freshWords]
  | cons tok rest ih =>
    intro seen levels unk
    rw [vocabLoop, isContent_iff, contentLowers_cons]
    cases hc : isContent tok
    · simp only [Bool.not_false, if_true, Bool.false_eq_true, if_false]
      exact ih seen levels unk
    · simp only [Bool.not_true, Bool.false_eq_true, if_false, if_true, freshWords]
      by_cases hs : seen.contains tok.Lower = true
      · rw [if_pos hs, if_pos hs]
        exact ih seen levels unk
      · rw [if_neg hs, if_neg hs]
        cases hl : lookupWordLevel env tok.Lower with
        | none =>
          simp only [ih, C1, List.map_cons, List.filter_cons, isUnknownWord, scoringLevel, hl,
            Option.isNone_none, if_true, List.length_cons, List.append_assoc,
            List.singleton_append]
          congr 1
          push_cast
          ring
        | some l =>
          simp only [ih, List.map_cons, List.filter_cons, isUnknownWord, scoringLevel, hl,
            Option.isNone_some, Bool.false_eq_true, if_false, List.append_assoc,
            List.singleton_append]
theorem levelString_five : Level.String 5 = "C1" := by decide

theorem countLevel_eq (env : Env) (label : String) (F : List GoString) :
    ((F.map (scoringLevel env)).filter (fun l => Level.String l = label)).length =
      (F.filter (foundAt env label)).length +
        (if label = "C1" then (F.filter (isUnknownWord env)).length else 0) := by
  induction F with
  | nil => simp
  | cons w F ih =>
    rw [List.map_cons, List.filter_cons, List.filter_cons, List.filter_cons]
    cases hl : lookupWordLevel env w with
    | none =>
      have h1 : scoringLevel env w = 5 := by simp [scoringLevel, hl]
      have h2 : foundAt env label w = false := by simp [foundAt, hl]
      have h3 : isUnknownWord env w = true := by simp [isUnknownWord, hl]
      rw [h1, h2, h3, levelString_five]
      by_cases hlab : label = "C1"
      · subst hlab
        simp only [decide_True, if_true, List.length_cons, ih, Bool.false_eq_true, if_false]
        omega
      · have hne : ¬ ("C1" : String) = label := fun h => hlab h.symm
        rw [if_neg (by simpa using hne), if_neg (by decide), if_neg hlab, ih, if_neg hlab]
    | some l =>
      have h1 : scoringLevel env w = l := by simp [scoringLevel, hl]
      have h2 : foundAt env label w = decide (Level.String l = label) := by simp [foundAt, hl]
      have h3 : isUnknownWord env w = false := by simp [isUnknownWord, hl]
      rw [h1, h2, h3]
      by_cases hs : Level.String l = label
      · simp only [hs, decide_True, if_true, List.length_cons, ih, Bool.false_eq_true, if_false]
        omega
      · simp only [hs, decide_False, Bool.false_eq_true, if_false, ih]

theorem computeDistribution_eq (env : Env) (F : List GoString) (label : String) :
    computeDistribution (F.map (scoringLevel env))
        (((F.filter (isUnknownWord env)).length : Nat) : Int) ((F.length : Nat) : Int) label =
      specDistribution env F label := by
  unfold computeDistribution specDistribution
  dsimp only
  by_cases hlab : levelLabels.contains label = true
  · have hnu : ¬ label = "Unknown" := by
      intro h
      rw [h] at hlab
      exact absurd hlab (by decide)
    rw [if_pos hlab, if_neg hnu, if_pos hlab, countLevel_eq]
    have hc1 : Level.String C1 = "C1" := by decide
    rw [hc1]
    by_cases hC : label = "C1"
    · simp only [hC, if_true, decide_True, Bool.and_true]
      by_cases hk : (0 : Int) < (((F.filter (isUnknownWord env)).length : Nat) : Int)
      · simp only [gt_iff_lt, hk, decide_True, if_true]
        push_cast
        simp only [add_sub_cancel_right, Nat.cast_pos]
      · have hk0 : (F.filter (isUnknownWord env)).length = 0 := by omega
        simp only [gt_iff_lt, hk, decide_False, Bool.false_eq_true, if_false, hk0,
          Nat.add_zero, Nat.cast_pos]
        simp
    · simp only [hC, if_false, decide_False, Bool.and_false, Bool.false_eq_true, Nat.add_zero,
        gt_iff_lt, Nat.cast_pos]
      simp
  · rw [if_neg hlab, if_neg hlab]
    by_cases hu : label = "Unknown"
    · simp only [hu, decide_True, Bool.true_and, gt_iff_lt, Nat.cast_pos, decide_eq_true_eq,
        if_true]
      split_ifs <;> simp
    · simp [hu]

theorem p80Index_eq (n : Nat) (hn : n ≠ 0) :
    p80Index n = (⌊((n : ℚ) - 1) * (4 / 5)⌋).toNat := by
  unfold p80Index
  have : (((n - 1 : Nat) : ℚ)) = (n : ℚ) - 1 := by
    rw [Nat.cast_sub (Nat.one_le_iff_ne_zero.mpr hn)]
    simp
  rw [this]
  rfl

theorem analyzeVocab_eq_fresh (env : Env) (tokens : List Token) :
    analyzeVocab env tokens = specVocab env (freshWords (contentLowers tokens) []) := by
  unfold analyzeVocab specVocab
  by_cases ht : tokens.length = 0
  · have : tokens = [] := List.length_eq_zero.mp ht
    subst this
    rfl
  · rw [if_neg ht, vocabLoop_eq]
    dsimp only
    simp only [List.nil_append, List.length_map, Int.zero_add]
    by_cases hn : (freshWords (contentLowers tokens) []).length = 0
    · rw [if_pos hn, if_pos hn]
    · rw [if_neg hn, if_neg hn]
      have hd : computeDistribution ((freshWords (contentLowers tokens) []).map (scoringLevel env))
          ((((freshWords (contentLowers tokens) []).filter (isUnknownWord env)).length : Nat) :
            Int) (((freshWords (contentLowers tokens) []).length : Nat) : Int) =
          specDistribution env (freshWords (contentLowers tokens) []) :=
        funext (computeDistribution_eq env _)
      rw [hd, p80Index_eq _ hn,
        (List.perm_insertionSort (fun a b : Int => a ≤ b)
          ((freshWords (contentLowers tokens) []).map (scoringLevel env))).sum_eq]
      simp only [Int.cast_natCast]
      congr 1
      split_ifs <;> simp
theorem freshWords_mem (ws : List GoString) :
    ∀ (seen : List GoString) (x : GoString),
      x ∈ freshWords ws seen ↔ x ∈ ws ∧ x ∉ seen := by
  induction ws with
  | nil => intro seen x; simp [freshWords]
  | cons w ws ih =>
    intro seen x
    rw [freshWords]
    by_cases hs : seen.contains w = true
    · rw [if_pos hs, ih]
      have hw : w ∈ seen := by simpa using hs
      constructor
      · rintro ⟨h1, h2⟩
        exact ⟨List.mem_cons_of_mem _ h1, h2⟩
      · rintro ⟨h1, h2⟩
        rcases List.mem_cons.mp h1 with h | h
        · exact absurd (h ▸ hw) h2
        · exact ⟨h, h2⟩
    · rw [if_neg hs, List.mem_cons, ih]
      have hw : w ∉ seen := by simpa using hs
      constructor
      · rintro (h | ⟨h1, h2⟩)
        · exact ⟨h ▸ List.mem_cons_self _ _, h ▸ hw⟩
        · exact ⟨List.mem_cons_of_mem _ h1, fun h => h2 (List.mem_cons_of_mem _ h)⟩
      · rintro ⟨h1, h2⟩
        by_cases hx : x = w
        · exact Or.inl hx
        · right
          rcases List.mem_cons.mp h1 with h | h
          · exact absurd h hx
          · refine ⟨h, ?_⟩
            intro h3
            rcases List.mem_cons.mp h3 with h4 | h4
            · exact hx h4
            · exact h2 h4

theorem freshWords_nodup (ws : List GoString) :
    ∀ seen : List GoString, (freshWords ws seen).Nodup := by
  induction ws with
  | nil => intro seen; simp [freshWords]
  | cons w ws ih =>
    intro seen
    rw [freshWords]
    split_ifs with hs
    · exact ih seen
    · refine List.nodup_cons.mpr ⟨?_, ih _⟩
      intro h
      exact ((freshWords_mem ws _ w).mp h).2 (List.mem_cons_self _ _)

theorem freshWords_perm_of_mem (ws vs : List GoString) (h : ∀ x, x ∈ ws ↔ x ∈ vs) :
    (freshWords ws []).Perm vs.dedup := by
  rw [List.perm_ext_iff_of_nodup (freshWords_nodup ws []) (List.nodup_dedup vs)]
  intro x
  rw [freshWords_mem, List.mem_dedup, h]
  simp

theorem specVocab_perm (env : Env) (U V : List GoString) (h : U.Perm V) :
    specVocab env U = specVocab env V := by
  have hlen : U.length = V.length := h.length_eq
  have hk : (U.filter (isUnknownWord env)).length = (V.filter (isUnknownWord env)).length :=
    (h.filter _).length_eq
  have hsum : (U.map (scoringLevel env)).sum = (V.map (scoringLevel env)).sum :=
    (h.map _).sum_eq
  have hsort : (U.map (scoringLevel env)).insertionSort (fun a b => a ≤ b) =
      (V.map (scoringLevel env)).insertionSort (fun a b => a ≤ b) := by
    apply List.eq_of_perm_of_sorted (r := fun a b : Int => a ≤ b)
    · exact (List.perm_insertionSort _ _).trans ((h.map _).trans
        (List.perm_insertionSort _ _).symm)
    · exact List.sorted_insertionSort _ _
    · exact List.sorted_insertionSort _ _
  have hdist : specDistribution env U = specDistribution env V := by
    funext label
    unfold specDistribution
    rw [hlen, hk, (h.filter (foundAt env label)).length_eq]
  unfold specVocab
  dsimp only
  rw [hlen, hk, hsum, hsort, hdist]

theorem analyzeVocab_eq_spec (env : Env) (tokens : List Token) :
    analyzeVocab env tokens = specVocab env (uniqueContentWords tokens) := by
  rw [analyzeVocab_eq_fresh]
  exact specVocab_perm env _ _ (freshWords_perm_of_mem _ _ (fun _ => Iff.rfl))

/-- C16: with U the unique content words of the tokens, analyzeVocab gives
score 1.0, an empty distribution and zero counts when U is empty; otherwise
ContentWords is the size n of U, UnknownRatio the share u of the unknown words,
and the score clamp(base + (u - 0.3) * 2 if u > 0.3), where base is the mean of
the levels (5 for an unknown word) if n < 10, else the element at index
floor((n - 1) * 0.8) of the ascending levels. -/
theorem analyzeVocab_score_formula (env : Env) (tokens : List Token) :
    (uniqueContentWords tokens = [] →
        (analyzeVocab env tokens).Score = 1 ∧
        (∀ k, (analyzeVocab env tokens).Distribution k = none) ∧
        (analyzeVocab env tokens).ContentWords = 0 ∧
        (analyzeVocab env tokens).UnknownRatio = 0) ∧
      (uniqueContentWords tokens ≠ [] →
        (analyzeVocab env tokens).ContentWords = (uniqueContentWords tokens).length ∧
        (analyzeVocab env tokens).UnknownRatio = unknownRatio env (uniqueContentWords tokens) ∧
        (analyzeVocab env tokens).Score =
          clampScore
            ((if (uniqueContentWords tokens).length < 10 then
                mean ((uniqueContentWords tokens).map (fun w => (scoringLevel env w : ℚ)))
              else
                ((((uniqueContentWords tokens).map (scoringLevel env)).insertionSort
                  (fun a b => a ≤ b)).getD
                    (⌊(((uniqueContentWords tokens).length : ℚ) - 1) * (4 / 5)⌋).toNat 0 : Int)) +
              (if unknownRatio env (uniqueContentWords tokens) > 3 / 10 then
                (unknownRatio env (uniqueContentWords tokens) - 3 / 10) * 2
              else 0))) := by
  rw [analyzeVocab_eq_spec]
  generalize uniqueContentWords tokens = U
  constructor
  · intro h
    subst h
    exact ⟨rfl, fun _ => rfl, rfl, rfl⟩
  · intro h
    have hn : ¬ U.length = 0 := fun h0 => h (List.length_eq_zero.mp h0)
    unfold specVocab
    rw [if_neg hn]
    dsimp only
    refine ⟨rfl, rfl, ?_⟩
    have hm : (((U.map (scoringLevel env)).sum : Int) : ℚ) / (U.length : ℚ) =
        mean (U.map (fun w => (scoringLevel env w : ℚ))) := by
      rw [sum_cast_int, List.map_map]
      simp only [mean, List.length_map]
      rfl
    rw [hm]
    rfl

theorem analyzeVocab_score_formula_witness :
    (uniqueContentWords [] = [] ∧ (analyzeVocab witnessEnv []).Score = 1) ∧
      uniqueContentWords sampleTokens ≠ [] ∧
      (analyzeVocab witnessEnv sampleTokens).ContentWords =
        (uniqueContentWords sampleTokens).length :=
  ⟨⟨rfl, ((analyzeVocab_score_formula witnessEnv []).1 rfl).1⟩, by decide,
    ((analyzeVocab_score_formula witnessEnv sampleTokens).2 (by decide)).1⟩
theorem lookupInLists_range (env : Env) (h : listsInRange env) (w : GoString) (l : Int)
    (hl : lookupInLists env w = some l) : 1 ≤ l ∧ l ≤ 6 := by
  unfold lookupInLists at hl
  cases ho : env.oxford w with
  | some a =>
    rw [ho] at hl
    simp only [Option.some.injEq] at hl
    exact hl ▸ h.1 w a ho
  | none =>
    rw [ho] at hl
    cases ha : env.awl w with
    | some a =>
      rw [ha] at hl
      simp only [Option.some.injEq] at hl
      exact hl ▸ h.2.1 w a ha
    | none =>
      rw [ha] at hl
      cases hn : env.ngsl w with
      | some a =>
        rw [hn] at hl
        simp only [Option.some.injEq] at hl
        exact hl ▸ h.2.2 w a hn
      | none =>
        rw [hn] at hl
        simp at hl

theorem lookupWordLevel_range (env : Env) (h : listsInRange env) (w : GoString) (l : Int)
    (hl : lookupWordLevel env w = some l) : 1 ≤ l ∧ l ≤ 6 := by
  unfold lookupWordLevel at hl
  split_ifs at hl with h0
  cases h1 : lookupInLists env w with
  | some a =>
    rw [h1] at hl
    simp only [Option.some.injEq] at hl
    exact hl ▸ lookupInLists_range env h w a h1
  | none =>
    rw [h1] at hl
    dsimp only at hl
    split_ifs at hl with h2
    exact lookupInLists_range env h _ l hl

theorem levelString_cases (m : Int) :
    (m = 1 ∧ Level.String m = "A1") ∨ (m = 2 ∧ Level.String m = "A2") ∨
      (m = 3 ∧ Level.String m = "B1") ∨ (m = 4 ∧ Level.String m = "B2") ∨
      (m = 5 ∧ Level.String m = "C1") ∨ (m = 6 ∧ Level.String m = "C2") ∨
      ((m < 1 ∨ 6 < m) ∧ Level.String m = "Unknown") := by
  unfold Level.String A1 A2 B1 B2 C1 C2
  split_ifs with h1 h2 h3 h4 h5 h6
  · exact Or.inl ⟨h1, rfl⟩
  · exact Or.inr (Or.inl ⟨h2, rfl⟩)
  · exact Or.inr (Or.inr (Or.inl ⟨h3, rfl⟩))
  · exact Or.inr (Or.inr (Or.inr (Or.inl ⟨h4, rfl⟩)))
  · exact Or.inr (Or.inr (Or.inr (Or.inr (Or.inl ⟨h5, rfl⟩))))
  · exact Or.inr (Or.inr (Or.inr (Or.inr (Or.inr (Or.inl ⟨h6, rfl⟩)))))
  · have g1 : m ≠ (1 : Int) := h1
    have g2 : m ≠ (2 : Int) := h2
    have g3 : m ≠ (3 : Int) := h3
    have g4 : m ≠ (4 : Int) := h4
    have g5 : m ≠ (5 : Int) := h5
    have g6 : m ≠ (6 : Int) := h6
    exact Or.inr (Or.inr (Or.inr (Or.inr (Or.inr (Or.inr ⟨by omega, rfl⟩)))))

theorem levelString_eq_iff (l m : Int) (hl : 1 ≤ l ∧ l ≤ 6) :
    Level.String m = Level.String l ↔ m = l := by
  constructor
  · intro h
    rcases levelString_cases l with ⟨e, hs⟩ | ⟨e, hs⟩ | ⟨e, hs⟩ | ⟨e, hs⟩ | ⟨e, hs⟩ | ⟨e, hs⟩ |
        ⟨e, hs⟩ <;>
      rcases levelString_cases m with ⟨e2, hs2⟩ | ⟨e2, hs2⟩ | ⟨e2, hs2⟩ | ⟨e2, hs2⟩ |
        ⟨e2, hs2⟩ | ⟨e2, hs2⟩ | ⟨e2, hs2⟩ <;>
      first
        | omega
        | (rw [hs, hs2] at h; exact absurd h (by decide))
  · intro h; rw [h]

theorem foundAt_level (env : Env) (l : Int) (hl : 1 ≤ l ∧ l ≤ 6) (w : GoString) :
    foundAt env (Level.String l) w = decide (lookupWordLevel env w = some l) := by
  unfold foundAt
  cases h : lookupWordLevel env w with
  | none => simp
  | some m =>
    simp only [Option.some.injEq]
    rw [decide_eq_decide]
    exact levelString_eq_iff l m hl
theorem bucket_count (env : Env) (h : listsInRange env) (U : List GoString) :
    (U.filter (foundAt env "A1")).length + (U.filter (foundAt env "A2")).length +
      (U.filter (foundAt env "B1")).length + (U.filter (foundAt env "B2")).length +
      (U.filter (foundAt env "C1")).length + (U.filter (foundAt env "C2")).length +
      (U.filter (isUnknownWord env)).length = U.length := by
  induction U with
  | nil => rfl
  | cons w U ih =>
    have key : (if foundAt env "A1" w then (1 : Nat) else 0) + (if foundAt env "A2" w then 1 else 0) +
        (if foundAt env "B1" w then 1 else 0) + (if foundAt env "B2" w then 1 else 0) +
        (if foundAt env "C1" w then 1 else 0) + (if foundAt env "C2" w then 1 else 0) +
        (if isUnknownWord env w then 1 else 0) = (1 : Nat) := by
      unfold foundAt isUnknownWord
      cases hl : lookupWordLevel env w with
      | none => simp
      | some l =>
        have hr := lookupWordLevel_range env h w l hl
        rcases levelString_cases l with ⟨_, hs⟩ | ⟨_, hs⟩ | ⟨_, hs⟩ | ⟨_, hs⟩ | ⟨_, hs⟩ |
          ⟨_, hs⟩ | ⟨ho, _⟩
        · simp [hs]
        · simp [hs]
        · simp [hs]
        · simp [hs]
        · simp [hs]
        · simp [hs]
        · omega
    simp only [← List.countP_eq_length_filter, List.countP_cons, List.length_cons] at ih ⊢
    omega

theorem bucket_value (c n : Nat) :
    (if 0 < c then some ((c : ℚ) / (n : ℚ)) else none).getD 0 = (c : ℚ) / (n : ℚ) := by
  by_cases h : 0 < c
  · rw [if_pos h]; rfl
  · have : c = 0 := by omega
    subst this
    simp

theorem specDistribution_label (env : Env) (U : List GoString) (label : String)
    (hl : levelLabels.contains label = true) :
    specDistribution env U label =
      if 0 < (U.filter (foundAt env label)).length then
        some (((U.filter (foundAt env label)).length : ℚ) / (U.length : ℚ))
      else none := by
  have hnu : ¬ label = "Unknown" := by
    intro h
    rw [h] at hl
    exact absurd hl (by decide)
  unfold specDistribution
  rw [if_neg hnu, if_pos hl]

theorem specDistribution_unknown (env : Env) (U : List GoString) :
    specDistribution env U "Unknown" =
      if 0 < (U.filter (isUnknownWord env)).length then
        some (((U.filter (isUnknownWord env)).length : ℚ) / (U.length : ℚ))
      else none := by
  unfold specDistribution
  rw [if_pos rfl]

theorem specVocab_distribution (env : Env) (U : List GoString) (h : U ≠ []) :
    (specVocab env U).Distribution = specDistribution env U := by
  have hn : ¬ U.length = 0 := fun h0 => h (List.length_eq_zero.mp h0)
  unfold specVocab
  rw [if_neg hn]

/-- C17: when the word lists return levels in 1..6 only and the token list has
at least one content word, the values of the distribution of analyzeVocab, over
its seven possible keys, sum to 1; no other key is present. -/
theorem analyzeVocab_distribution_sum (env : Env) (tokens : List Token)
    (hrange : listsInRange env) (hne : uniqueContentWords tokens ≠ []) :
    ((levelLabels ++ ["Unknown"]).map
        (fun k => ((analyzeVocab env tokens).Distribution k).getD 0)).sum = 1 ∧
      ∀ k, k ∉ levelLabels ++ ["Unknown"] → (analyzeVocab env tokens).Distribution k = none := by
  rw [analyzeVocab_eq_spec, specVocab_distribution env _ hne]
  generalize uniqueContentWords tokens = U at hne
  have hn : (U.length : ℚ) ≠ 0 := by
    have : U.length ≠ 0 := fun h0 => hne (List.length_eq_zero.mp h0)
    exact_mod_cast this
  constructor
  · have hc := bucket_count env hrange U
    simp only [levelLabels, List.cons_append, List.nil_append, List.map_cons, List.map_nil,
      List.sum_cons, List.sum_nil, add_zero]
    rw [specDistribution_label env U "A1" (by decide), specDistribution_label env U "A2" (by decide),
      specDistribution_label env U "B1" (by decide), specDistribution_label env U "B2" (by decide),
      specDistribution_label env U "C1" (by decide), specDistribution_label env U "C2" (by decide),
      specDistribution_unknown]
    simp only [bucket_value]
    have hq : ((U.filter (foundAt env "A1")).length : ℚ) + (U.filter (foundAt env "A2")).length +
        (U.filter (foundAt env "B1")).length + (U.filter (foundAt env "B2")).length +
        (U.filter (foundAt env "C1")).length + (U.filter (foundAt env "C2")).length +
        (U.filter (isUnknownWord env)).length = (U.length : ℚ) := by
      exact_mod_cast hc
    field_simp
    linarith
  · intro k hk
    have h1 : ¬ k = "Unknown" := fun h => hk (by rw [h]; decide)
    have h2 : ¬ levelLabels.contains k = true := by
      intro h
      apply hk
      have : k ∈ levelLabels := by simpa using h
      exact List.mem_append_left _ this
    unfold specDistribution
    rw [if_neg h1, if_neg h2]

theorem listsInRange_witnessEnv : listsInRange witnessEnv := by
  refine ⟨?_, ?_, ?_⟩
  · intro w l h
    simp only [witnessEnv] at h
    split_ifs at h <;> simp at h <;> omega
  · intro w l h; simp [witnessEnv] at h
  · intro w l h; simp [witnessEnv] at h

theorem analyzeVocab_distribution_sum_witness :
    listsInRange witnessEnv ∧ uniqueContentWords sampleTokens ≠ [] ∧
      ((levelLabels ++ ["Unknown"]).map
        (fun k => ((analyzeVocab witnessEnv sampleTokens).Distribution k).getD 0)).sum = 1 ∧
      ∀ k, k ∉ levelLabels ++ ["Unknown"] →
        (analyzeVocab witnessEnv sampleTokens).Distribution k = none :=
  ⟨listsInRange_witnessEnv, by decide,
    analyzeVocab_distribution_sum witnessEnv sampleTokens listsInRange_witnessEnv (by decide)⟩
/-- C18: for a token list with at least one content word, with U its unique
content words and n their number: the bucket "Unknown" holds the share of the
words found in no list, and the bucket of each level 1..6 (in particular "C1")
the share of the words actually found at that level; a bucket whose count is 0
is absent.  The unknown words, scored as level 5, are not in the "C1" bucket. -/
theorem analyzeVocab_distribution_buckets (env : Env) (tokens : List Token)
    (hne : uniqueContentWords tokens ≠ []) :
    (analyzeVocab env tokens).Distribution "Unknown" =
        (if 0 < ((uniqueContentWords tokens).filter (isUnknownWord env)).length then
          some ((((uniqueContentWords tokens).filter (isUnknownWord env)).length : ℚ) /
            ((uniqueContentWords tokens).length : ℚ))
        else none) ∧
      (analyzeVocab env tokens).Distribution "C1" =
        (if 0 < ((uniqueContentWords tokens).filter
            (fun w => lookupWordLevel env w = some 5)).length then
          some ((((uniqueContentWords tokens).filter
              (fun w => lookupWordLevel env w = some 5)).length : ℚ) /
            ((uniqueContentWords tokens).length : ℚ))
        else none) ∧
      ∀ l : Int, 1 ≤ l → l ≤ 6 →
        (analyzeVocab env tokens).Distribution (Level.String l) =
          (if 0 < ((uniqueContentWords tokens).filter
              (fun w => lookupWordLevel env w = some l)).length then
            some ((((uniqueContentWords tokens).filter
                (fun w => lookupWordLevel env w = some l)).length : ℚ) /
              ((uniqueContentWords tokens).length : ℚ))
          else none) := by
  rw [analyzeVocab_eq_spec, specVocab_distribution env _ hne]
  generalize uniqueContentWords tokens = U
  have hlevel : ∀ l : Int, 1 ≤ l → l ≤ 6 →
      specDistribution env U (Level.String l) =
        (if 0 < (U.filter (fun w => lookupWordLevel env w = some l)).length then
          some (((U.filter (fun w => lookupWordLevel env w = some l)).length : ℚ) /
            (U.length : ℚ))
        else none) := by
    intro l h1 h6
    have hc : levelLabels.contains (Level.String l) = true := by
      rcases levelString_cases l with ⟨_, hs⟩ | ⟨_, hs⟩ | ⟨_, hs⟩ | ⟨_, hs⟩ | ⟨_, hs⟩ |
        ⟨_, hs⟩ | ⟨ho, _⟩
      · rw [hs]; decide
      · rw [hs]; decide
      · rw [hs]; decide
      · rw [hs]; decide
      · rw [hs]; decide
      · rw [hs]; decide
      · omega
    have hf : U.filter (foundAt env (Level.String l)) =
        U.filter (fun w => lookupWordLevel env w = some l) :=
      List.filter_congr (fun w _ => foundAt_level env l ⟨h1, h6⟩ w)
    rw [specDistribution_label env U _ hc, hf]
  refine ⟨specDistribution_unknown env U, ?_, hlevel⟩
  have := hlevel 5 (by decide) (by decide)
  rw [levelString_five] at this
  exact this

theorem analyzeVocab_distribution_buckets_witness :
    uniqueContentWords sampleTokens ≠ [] ∧
      (analyzeVocab witnessEnv sampleTokens).Distribution "Unknown" =
        (if 0 < ((uniqueContentWords sampleTokens).filter (isUnknownWord witnessEnv)).length then
          some ((((uniqueContentWords sampleTokens).filter
              (isUnknownWord witnessEnv)).length : ℚ) /
            ((uniqueContentWords sampleTokens).length : ℚ))
        else none) :=
  ⟨by decide, (analyzeVocab_distribution_buckets witnessEnv sampleTokens (by decide)).1⟩

theorem contentLowers_mem (tokens : List Token) (w : GoString) :
    w ∈ contentLowers tokens ↔ ∃ t ∈ tokens, isContent t = true ∧ t.Lower = w := by
  unfold contentLowers
  simp only [List.mem_map, List.mem_filter]
  constructor
  · rintro ⟨t, ⟨h1, h2⟩, h3⟩; exact ⟨t, h1, h2, h3⟩
  · rintro ⟨t, h1, h2, h3⟩; exact ⟨t, ⟨h1, h2⟩, h3⟩

theorem analyzeVocab_of_same_words (env : Env) (tokens tokens2 : List Token)
    (h : ∀ w, w ∈ contentLowers tokens ↔ w ∈ contentLowers tokens2) :
    analyzeVocab env tokens2 = analyzeVocab env tokens := by
  rw [analyzeVocab_eq_spec, analyzeVocab_eq_spec]
  apply specVocab_perm
  unfold uniqueContentWords
  rw [List.perm_ext_iff_of_nodup (List.nodup_dedup _) (List.nodup_dedup _)]
  intro w
  rw [List.mem_dedup, List.mem_dedup, h]

/-- C19: analyzeVocab has set semantics: ContentWords is the number of distinct
lower-case forms of the content tokens, and the whole result is the same for
two token lists with the same set of content words, in particular when the
list is permuted and when a token of the list is repeated anywhere in it. -/
theorem analyzeVocab_set_semantics (env : Env) (tokens : List Token) :
    (analyzeVocab env tokens).ContentWords = ((contentLowers tokens).dedup.length : Int) ∧
      (∀ tokens2, (∀ w, w ∈ contentLowers tokens ↔ w ∈ contentLowers tokens2) →
        analyzeVocab env tokens2 = analyzeVocab env tokens) ∧
      (∀ tokens2, tokens.Perm tokens2 → analyzeVocab env tokens2 = analyzeVocab env tokens) ∧
      (∀ (pre post : List Token) (t : Token), tokens = pre ++ post → t ∈ tokens →
        analyzeVocab env (pre ++ t :: post) = analyzeVocab env tokens) := by
  refine ⟨?_, analyzeVocab_of_same_words env tokens, ?_, ?_⟩
  · rw [analyzeVocab_eq_spec]
    unfold specVocab uniqueContentWords
    by_cases h0 : (contentLowers tokens).dedup.length = 0
    · rw [if_pos h0, h0]; rfl
    · rw [if_neg h0]
  · intro tokens2 hp
    apply analyzeVocab_of_same_words
    intro w
    rw [contentLowers_mem, contentLowers_mem]
    constructor
    · rintro ⟨t, h1, h2⟩; exact ⟨t, hp.mem_iff.mp h1, h2⟩
    · rintro ⟨t, h1, h2⟩; exact ⟨t, hp.mem_iff.mpr h1, h2⟩
  · intro pre post t he ht
    apply analyzeVocab_of_same_words
    intro w
    rw [contentLowers_mem, contentLowers_mem, he]
    constructor
    · rintro ⟨s, h1, h2⟩
      refine ⟨s, ?_, h2⟩
      rcases List.mem_append.mp h1 with h | h
      · exact List.mem_append_left _ h
      · exact List.mem_append_right _ (List.mem_cons_of_mem _ h)
    · rintro ⟨s, h1, h2⟩
      rcases List.mem_append.mp h1 with h | h
      · exact ⟨s, List.mem_append_left _ h, h2⟩
      · rcases List.mem_cons.mp h with h3 | h3
        · exact ⟨s, by rw [h3, ← he]; exact ht, h2⟩
        · exact ⟨s, List.mem_append_right _ h3, h2⟩

theorem analyzeVocab_set_semantics_witness :
    sampleTokens.Perm sampleTokens.reverse ∧
      analyzeVocab witnessEnv sampleTokens.reverse = analyzeVocab witnessEnv sampleTokens ∧
      sampleTokens = [] ++ sampleTokens ∧ contentToken "cat" ∈ sampleTokens ∧
      analyzeVocab witnessEnv ([] ++ contentToken "cat" :: sampleTokens) =
        analyzeVocab witnessEnv sampleTokens :=
  ⟨(List.reverse_perm _).symm,
    (analyzeVocab_set_semantics witnessEnv sampleTokens).2.2.1 _ (List.reverse_perm _).symm,
    rfl, by decide,
    (analyzeVocab_set_semantics witnessEnv sampleTokens).2.2.2 [] sampleTokens
      (contentToken "cat") rfl (by decide)⟩

/-- C20: lookupWordLevel of a non-empty word is its level in the first of the
lists Oxford, AWL, NGSL that contains it; when no list contains the word and
its lemma differs from it, the level of the lemma in the first list that
contains the lemma; otherwise nothing.  The empty word has no level. -/
theorem lookupWordLevel_spec (env : Env) (w : GoString) (hw : w ≠ []) :
    (∀ l, env.oxford w = some l → lookupWordLevel env w = some l) ∧
      (∀ l, env.oxford w = none → env.awl w = some l → lookupWordLevel env w = some l) ∧
      (∀ l, env.oxford w = none → env.awl w = none → env.ngsl w = some l →
        lookupWordLevel env w = some l) ∧
      (env.oxford w = none → env.awl w = none → env.ngsl w = none →
        (lemmatize env w ≠ w →
          (∀ l, env.oxford (lemmatize env w) = some l → lookupWordLevel env w = some l) ∧
          (∀ l, env.oxford (lemmatize env w) = none → env.awl (lemmatize env w) = some l →
            lookupWordLevel env w = some l) ∧
          (∀ l, env.oxford (lemmatize env w) = none → env.awl (lemmatize env w) = none →
            env.ngsl (lemmatize env w) = some l → lookupWordLevel env w = some l) ∧
          (env.oxford (lemmatize env w) = none → env.awl (lemmatize env w) = none →
            env.ngsl (lemmatize env w) = none → lookupWordLevel env w = none)) ∧
        (lemmatize env w = w → lookupWordLevel env w = none)) ∧
      lookupWordLevel env [] = none := by
  refine ⟨?_, ?_, ?_, ?_, by simp [lookupWordLevel]⟩
  · intro l h
    simp [lookupWordLevel, lookupInLists, hw, h]
  · intro l h1 h2
    simp [lookupWordLevel, lookupInLists, hw, h1, h2]
  · intro l h1 h2 h3
    simp [lookupWordLevel, lookupInLists, hw, h1, h2, h3]
  · intro h1 h2 h3
    have hnone : lookupInLists env w = none := by simp [lookupInLists, h1, h2, h3]
    constructor
    · intro hl
      refine ⟨?_, ?_, ?_, ?_⟩
      · intro l g1
        simp [lookupWordLevel, hw, hl, lookupInLists, h1, h2, h3, g1]
      · intro l g1 g2
        simp [lookupWordLevel, hw, hl, lookupInLists, h1, h2, h3, g1, g2]
      · intro l g1 g2 g3
        simp [lookupWordLevel, hw, hl, lookupInLists, h1, h2, h3, g1, g2, g3]
      · intro g1 g2 g3
        simp [lookupWordLevel, hw, hl, lookupInLists, h1, h2, h3, g1, g2, g3]
    · intro hl
      simp [lookupWordLevel, hw, hnone, hl]

theorem lookupWordLevel_spec_witness :
    ascii "cat" ≠ [] ∧ witnessEnv.oxford (ascii "cat") = some 1 ∧
      lookupWordLevel witnessEnv (ascii "cat") = some 1 :=
  ⟨by decide, by decide,
    (lookupWordLevel_spec witnessEnv (ascii "cat") (by decide)).1 1 (by decide)⟩

theorem ascii_e : ascii "e" = [101] := rfl
theorem ascii_y : ascii "y" = [121] := rfl

theorem lemmatize_regular (env : Env) (w : GoString) (hw : w ≠ [])
    (hirr : env.irregulars w = none) (hv : isInVocab env w = false) :
    lemmatize env w = (firstStrip env w).getD w := by
  unfold lemmatize firstStrip
  rw [if_neg hw, hirr]
  simp only [hv, Bool.false_eq_true, if_false]
  cases h1 : tryStripIng env w with
  | some r => simp [List.findSome?]
  | none =>
  cases h2 : tryStripEd env w with
  | some r => simp [List.findSome?]
  | none =>
  cases h3 : tryStripEs env w with
  | some r => simp [List.findSome?]
  | none =>
  cases h4 : tryStripS env w with
  | some r => simp [List.findSome?]
  | none =>
  cases h5 : tryStripEr env w with
  | some r => simp [List.findSome?]
  | none =>
  cases h6 : tryStripEst env w with
  | some r => simp [List.findSome?]
  | none =>
  cases h7 : tryStripLy env w with
  | some r => simp [List.findSome?]
  | none => simp [List.findSome?]

theorem tryStripIng_sound (env : Env) (w r : GoString) (h : tryStripIng env w = some r) :
    isInVocab env r = true ∧ r.length < w.length := by
  unfold tryStripIng at h
  dsimp only at h
  split_ifs at h with h0 h1 h2 h3
  all_goals simp only [Option.some.injEq] at h
  all_goals simp only [Bool.or_eq_true, Bool.not_eq_true', decide_eq_true_eq, not_or,
    Bool.not_eq_false, not_lt] at h0
  · subst h
    simp only [Bool.and_eq_true] at h1
    exact ⟨h1.2, by simp only [List.length_take]; omega⟩
  · subst h
    exact ⟨h2, by simp only [List.length_append, List.length_take, ascii_e, List.length_singleton]; omega⟩
  · subst h
    exact ⟨h3, by simp only [List.length_take]; omega⟩

theorem tryStripEd_sound (env : Env) (w r : GoString) (h : tryStripEd env w = some r) :
    isInVocab env r = true ∧ r.length < w.length := by
  unfold tryStripEd at h
  dsimp only at h
  split_ifs at h with h0 h1 h2 h3 h4
  all_goals simp only [Option.some.injEq] at h
  all_goals simp only [Bool.or_eq_true, Bool.not_eq_true', decide_eq_true_eq, not_or,
    Bool.not_eq_false, not_lt] at h0
  · subst h
    simp only [Bool.and_eq_true, decide_eq_true_eq] at h1
    exact ⟨h1.2, by simp only [List.length_append, List.length_take, ascii_y, List.length_singleton]; omega⟩
  · subst h
    simp only [Bool.and_eq_true] at h2
    exact ⟨h2.2, by simp only [List.length_take]; omega⟩
  · subst h
    exact ⟨h3, by simp only [List.length_append, List.length_take, ascii_e, List.length_singleton]; omega⟩
  · subst h
    exact ⟨h4, by simp only [List.length_take]; omega⟩

theorem tryStripEs_sound (env : Env) (w r : GoString) (h : tryStripEs env w = some r) :
    isInVocab env r = true ∧ r.length < w.length := by
  unfold tryStripEs at h
  dsimp only at h
  split_ifs at h with h0 h1 h2 h3
  all_goals simp only [Option.some.injEq] at h
  all_goals simp only [Bool.or_eq_true, Bool.not_eq_true', decide_eq_true_eq, not_or,
    Bool.not_eq_false, not_lt] at h0
  · subst h
    simp only [Bool.and_eq_true, decide_eq_true_eq] at h1
    exact ⟨h1.2, by simp only [List.length_append, List.length_take, ascii_y, List.length_singleton]; omega⟩
  · subst h
    simp only [Bool.and_eq_true] at h2
    exact ⟨h2.2, by simp only [List.length_take]; omega⟩
  · subst h
    exact ⟨h3, by simp only [List.length_take]; omega⟩

theorem tryStripS_sound (env : Env) (w r : GoString) (h : tryStripS env w = some r) :
    isInVocab env r = true ∧ r.length < w.length := by
  unfold tryStripS at h
  split_ifs at h with h0 h1 h2
  simp only [Option.some.injEq] at h
  simp only [Bool.or_eq_true, Bool.not_eq_true', decide_eq_true_eq, not_or,
    Bool.not_eq_false, not_lt] at h0
  subst h
  exact ⟨h2, by simp only [List.length_take]; omega⟩

theorem tryStripEr_sound (env : Env) (w r : GoString) (h : tryStripEr env w = some r) :
    isInVocab env r = true ∧ r.length < w.length := by
  unfold tryStripEr at h
  dsimp only at h
  split_ifs at h with h0 h1 h2 h3 h4
  all_goals simp only [Option.some.injEq] at h
  all_goals simp only [Bool.or_eq_true, Bool.not_eq_true', decide_eq_true_eq, not_or,
    Bool.not_eq_false, not_lt] at h0
  · subst h
    simp only [Bool.and_eq_true, decide_eq_true_eq] at h1
    exact ⟨h1.2, by simp only [List.length_append, List.length_take, ascii_y, List.length_singleton]; omega⟩
  · subst h
    simp only [Bool.and_eq_true] at h2
    exact ⟨h2.2, by simp only [List.length_take]; omega⟩
  · subst h
    exact ⟨h3, by simp only [List.length_append, List.length_take, ascii_e, List.length_singleton]; omega⟩
  · subst h
    exact ⟨h4, by simp only [List.length_take]; omega⟩

theorem tryStripEst_sound (env : Env) (w r : GoString) (h : tryStripEst env w = some r) :
    isInVocab env r = true ∧ r.length < w.length := by
  unfold tryStripEst at h
  dsimp only at h
  split_ifs at h with h0 h1 h2 h3 h4
  all_goals simp only [Option.some.injEq] at h
  all_goals simp only [Bool.or_eq_true, Bool.not_eq_true', decide_eq_true_eq, not_or,
    Bool.not_eq_false, not_lt] at h0
  · subst h
    simp only [Bool.and_eq_true, decide_eq_true_eq] at h1
    exact ⟨h1.2, by simp only [List.length_append, List.length_take, ascii_y, List.length_singleton]; omega⟩
  · subst h
    simp only [Bool.and_eq_true] at h2
    exact ⟨h2.2, by simp only [List.length_take]; omega⟩
  · subst h
    exact ⟨h3, by simp only [List.length_append, List.length_take, ascii_e, List.length_singleton]; omega⟩
  · subst h
    exact ⟨h4, by simp only [List.length_take]; omega⟩

theorem tryStripLy_sound (env : Env) (w r : GoString) (h : tryStripLy env w = some r) :
    isInVocab env r = true ∧ r.length < w.length := by
  unfold tryStripLy at h
  split_ifs at h with h0 h1 h2
  all_goals simp only [Option.some.injEq] at h
  all_goals simp only [Bool.or_eq_true, Bool.not_eq_true', decide_eq_true_eq, not_or,
    Bool.not_eq_false, not_lt] at h0
  · subst h
    simp only [Bool.and_eq_true, decide_eq_true_eq] at h1
    exact ⟨h1.2, by simp only [List.length_append, List.length_take, ascii_y, List.length_singleton]; omega⟩
  · subst h
    exact ⟨h2, by simp only [List.length_take]; omega⟩

theorem firstStrip_sound (env : Env) (w r : GoString) (h : firstStrip env w = some r) :
    isInVocab env r = true ∧ r.length < w.length := by
  unfold firstStrip at h
  rcases List.exists_of_findSome?_eq_some h with ⟨o, ho, he⟩
  simp only [id] at he
  simp only [List.mem_cons, List.mem_singleton, List.not_mem_nil, or_false] at ho
  rcases ho with ho | ho | ho | ho | ho | ho | ho <;> rw [ho] at he
  · exact tryStripIng_sound env w r he
  · exact tryStripEd_sound env w r he
  · exact tryStripEs_sound env w r he
  · exact tryStripS_sound env w r he
  · exact tryStripEr_sound env w r he
  · exact tryStripEst_sound env w r he
  · exact tryStripLy_sound env w r he

theorem lemmatize_irregular (env : Env) (w lem : GoString) (hw : w ≠ [])
    (h : env.irregulars w = some lem) : lemmatize env w = lem := by
  unfold lemmatize
  rw [if_neg hw, h]

theorem lemmatize_in_vocab (env : Env) (w : GoString) (hirr : env.irregulars w = none)
    (hv : isInVocab env w = true) : lemmatize env w = w := by
  unfold lemmatize
  by_cases hw : w = []
  · rw [if_pos hw]
  · rw [if_neg hw, hirr]
    simp only [hv, if_true]

theorem lemmatize_nil (env : Env) : lemmatize env [] = [] := by
  unfold lemmatize
  rw [if_pos rfl]

theorem lemmatize_cases (env : Env) (w : GoString) (hirr : env.irregulars w = none) :
    lemmatize env w = w ∨ firstStrip env w = some (lemmatize env w) := by
  by_cases hw : w = []
  · left; rw [hw]; exact lemmatize_nil env
  · cases hv : isInVocab env w
    · rw [lemmatize_regular env w hw hirr hv]
      cases hf : firstStrip env w with
      | none => left; rfl
      | some r => right; rfl
    · left; exact lemmatize_in_vocab env w hirr hv

/-- C21: for a non-empty word, the irregular table comes first: a key of the
table is mapped to its stored lemma, whether or not the word is in the
vocabulary; a word that is no key and is in the Oxford or the NGSL list is
returned unchanged; the empty word is returned unchanged. -/
theorem lemmatize_order (env : Env) (w : GoString) (hw : w ≠ []) :
    (∀ lem, env.irregulars w = some lem → lemmatize env w = lem) ∧
      (env.irregulars w = none → ((env.oxford w).isSome ∨ (env.ngsl w).isSome) →
        lemmatize env w = w) ∧
      lemmatize env [] = [] := by
  refine ⟨fun lem h => lemmatize_irregular env w lem hw h, ?_, lemmatize_nil env⟩
  intro hirr hv
  apply lemmatize_in_vocab env w hirr
  unfold isInVocab
  rcases hv with h | h <;> simp [h]

theorem lemmatize_order_witness :
    ascii "went" ≠ [] ∧
      (verbEnv.irregulars (ascii "went") = some (ascii "go") ∧
        (verbEnv.oxford (ascii "went")).isSome ∧
        lemmatize verbEnv (ascii "went") = ascii "go") ∧
      (verbEnv.irregulars (ascii "walk") = none ∧
        ((verbEnv.oxford (ascii "walk")).isSome ∨ (verbEnv.ngsl (ascii "walk")).isSome) ∧
        lemmatize verbEnv (ascii "walk") = ascii "walk") :=
  ⟨by decide,
    ⟨by decide, by decide,
      (lemmatize_order verbEnv (ascii "went") (by decide)).1 (ascii "go") (by decide)⟩,
    ⟨by decide, Or.inl (by decide),
      (lemmatize_order verbEnv (ascii "walk") (by decide)).2.1 (by decide)
        (Or.inl (by decide))⟩⟩

/-- C22: lemmatize is idempotent on a word that is no key of the irregular
table and whose lemma is no key either. -/
theorem lemmatize_idempotent (env : Env) (w : GoString) (h1 : env.irregulars w = none)
    (h2 : env.irregulars (lemmatize env w) = none) :
    lemmatize env (lemmatize env w) = lemmatize env w := by
  rcases lemmatize_cases env w h1 with h | h
  · rw [h, h]
  · exact lemmatize_in_vocab env _ h2 (firstStrip_sound env w _ h).1

theorem lemmatize_idempotent_witness :
    verbEnv.irregulars (ascii "running") = none ∧
      verbEnv.irregulars (lemmatize verbEnv (ascii "running")) = none ∧
      lemmatize verbEnv (ascii "running") = ascii "run" ∧
      lemmatize verbEnv (lemmatize verbEnv (ascii "running")) =
        lemmatize verbEnv (ascii "running") :=
  ⟨by decide, by decide, by decide,
    lemmatize_idempotent verbEnv (ascii "running") (by decide) (by decide)⟩

/-- C29: the lemma of a word that is no key of the irregular table is the word
itself or a vocabulary word strictly shorter than the word; when no suffix rule
succeeds it is the word itself. -/
theorem lemmatize_result (env : Env) (w : GoString) (hirr : env.irregulars w = none) :
    (lemmatize env w = w ∨
        (isInVocab env (lemmatize env w) = true ∧ (lemmatize env w).length < w.length)) ∧
      (firstStrip env w = none → lemmatize env w = w) := by
  constructor
  · rcases lemmatize_cases env w hirr with h | h
    · exact Or.inl h
    · exact Or.inr (firstStrip_sound env w _ h)
  · intro hn
    rcases lemmatize_cases env w hirr with h | h
    · exact h
    · rw [hn] at h; simp at h

theorem lemmatize_result_witness :
    verbEnv.irregulars (ascii "xyzabc") = none ∧ firstStrip verbEnv (ascii "xyzabc") = none ∧
      (lemmatize verbEnv (ascii "xyzabc") = ascii "xyzabc" ∨
        (isInVocab verbEnv (lemmatize verbEnv (ascii "xyzabc")) = true ∧
          (lemmatize verbEnv (ascii "xyzabc")).length < (ascii "xyzabc").length)) ∧
      lemmatize verbEnv (ascii "xyzabc") = ascii "xyzabc" :=
  ⟨by decide, by decide, (lemmatize_result verbEnv (ascii "xyzabc") (by decide)).1,
    (lemmatize_result verbEnv (ascii "xyzabc") (by decide)).2 (by decide)⟩

/-- C28 (the claim fails): with "it" in the vocabulary and "its" neither in
the vocabulary nor in the irregular table, the three-letter word "its" is
stripped to "it" by the -s rule. -/
theorem lemmatize_strips_three_letters :
    (ascii "its").length = 3 ∧ verbEnv.irregulars (ascii "its") = none ∧
      lemmatize verbEnv (ascii "its") = ascii "it" := by
  decide

/-- C28 (amended): a word of at most two letters that is no key of the
irregular table is returned unchanged; a three-letter word that is no key is
changed only by the -s rule: its lemma is its first two letters when it is not
in the vocabulary, ends in "s" but not in "ss", and its first two letters are
in the vocabulary, and the word itself in every other case. -/
theorem lemmatize_short (env : Env) (w : GoString) (hirr : env.irregulars w = none) :
    (w.length ≤ 2 → lemmatize env w = w) ∧
      (w.length = 3 →
        lemmatize env w =
          if isInVocab env w = false ∧ HasSuffix w (ascii "s") = true ∧
              HasSuffix w (ascii "ss") = false ∧ isInVocab env (w.take 2) = true then
            w.take 2
          else w) := by
  have hother : w.length ≤ 3 → firstStrip env w = tryStripS env w := by
    intro hl
    have e1 : tryStripIng env w = none := by
      unfold tryStripIng
      rw [if_pos (by simp; omega)]
    have e2 : tryStripEd env w = none := by
      unfold tryStripEd
      rw [if_pos (by simp; omega)]
    have e3 : tryStripEs env w = none := by
      unfold tryStripEs
      rw [if_pos (by simp; omega)]
    have e5 : tryStripEr env w = none := by
      unfold tryStripEr
      rw [if_pos (by simp; omega)]
    have e6 : tryStripEst env w = none := by
      unfold tryStripEst
      rw [if_pos (by simp; omega)]
    have e7 : tryStripLy env w = none := by
      unfold tryStripLy
      rw [if_pos (by simp; omega)]
    unfold firstStrip
    rw [e1, e2, e3, e5, e6, e7]
    cases tryStripS env w <;> simp [List.findSome?]
  constructor
  · intro hl
    rcases lemmatize_cases env w hirr with h | h
    · exact h
    · rw [hother (by omega)] at h
      unfold tryStripS at h
      rw [if_pos (by simp; omega)] at h
      simp at h
  · intro hl
    have hw : w ≠ [] := by
      intro h
      rw [h] at hl
      exact absurd hl (by decide)
    cases hv : isInVocab env w
    · rw [lemmatize_regular env w hw hirr hv, hother (by omega)]
      unfold tryStripS
      rw [hl]
      cases h1 : HasSuffix w (ascii "s") <;> cases h2 : HasSuffix w (ascii "ss") <;>
        cases h3 : isInVocab env (w.take 2) <;> simp [h3]
    · rw [lemmatize_in_vocab env w hirr hv]
      simp

theorem lemmatize_short_witness :
    verbEnv.irregulars (ascii "as") = none ∧ (ascii "as").length ≤ 2 ∧
      lemmatize verbEnv (ascii "as") = ascii "as" ∧
      verbEnv.irregulars (ascii "its") = none ∧ (ascii "its").length = 3 ∧
      lemmatize verbEnv (ascii "its") = ascii "it" ∧
      shortEnv.irregulars (ascii "ass") = none ∧ (ascii "ass").length = 3 ∧
      isInVocab shortEnv (ascii "as") = true ∧ lemmatize shortEnv (ascii "ass") = ascii "ass" :=
  ⟨by decide, by decide, (lemmatize_short verbEnv (ascii "as") (by decide)).1 (by decide),
    by decide, by decide,
    ((lemmatize_short verbEnv (ascii "its") (by decide)).2 (by decide)).trans (by decide),
    by decide, by decide, by decide,
    ((lemmatize_short shortEnv (ascii "ass") (by decide)).2 (by decide)).trans (by decide)⟩

/-- C30: for a word of at least five letters ending in "ing" that is neither a
key of the irregular table nor in the vocabulary, with s the word without
"ing": the lemma is s without its last letter when s ends in a doubled
consonant and that form is in the vocabulary; otherwise s followed by "e" when
that is in the vocabulary; otherwise s when s is in the vocabulary; otherwise
the result of the later rules. -/
theorem lemmatize_ing (env : Env) (w : GoString) (hs : HasSuffix w (ascii "ing") = true)
    (hl : 5 ≤ w.length) (hirr : env.irregulars w = none) (hv : isInVocab env w = false) :
    (isDoubledConsonant (w.take (w.length - 3)) = true →
        isInVocab env (w.take (w.length - 3)).dropLast = true →
        lemmatize env w = (w.take (w.length - 3)).dropLast) ∧
      (¬ (isDoubledConsonant (w.take (w.length - 3)) = true ∧
            isInVocab env (w.take (w.length - 3)).dropLast = true) →
        (isInVocab env (w.take (w.length - 3) ++ ascii "e") = true →
          lemmatize env w = w.take (w.length - 3) ++ ascii "e") ∧
        (isInVocab env (w.take (w.length - 3) ++ ascii "e") = false →
          (isInVocab env (w.take (w.length - 3)) = true →
            lemmatize env w = w.take (w.length - 3)) ∧
          (isInVocab env (w.take (w.length - 3)) = false →
            lemmatize env w = (laterStrip env w).getD w))) := by
  have hw : w ≠ [] := by
    intro h
    rw [h] at hl
    simp at hl
  have hguard : ¬ ((!HasSuffix w (ascii "ing") || decide (w.length < 5)) = true) := by
    simp [hs]; omega
  have hlem := lemmatize_regular env w hw hirr hv
  have hfirst : firstStrip env w = (tryStripIng env w).orElse (fun _ => laterStrip env w) := by
    unfold firstStrip laterStrip
    cases tryStripIng env w <;> simp [List.findSome?]
  rw [hlem, hfirst]
  unfold tryStripIng
  rw [if_neg hguard]
  dsimp only
  rw [List.dropLast_eq_take]
  constructor
  · intro h1 h2
    rw [if_pos (by rw [h1, h2]; rfl)]
    rfl
  · intro hn
    have hn2 : ¬ ((isDoubledConsonant (w.take (w.length - 3)) &&
        isInVocab env ((w.take (w.length - 3)).take ((w.take (w.length - 3)).length - 1))) =
          true) := by
      simpa using hn
    rw [if_neg hn2]
    constructor
    · intro h3
      simp [h3]
    · intro h3
      constructor
      · intro h4
        simp [h3, h4]
      · intro h4
        simp [h3, h4]

theorem lemmatize_ing_witness :
    HasSuffix (ascii "running") (ascii "ing") = true ∧ 5 ≤ (ascii "running").length ∧
      verbEnv.irregulars (ascii "running") = none ∧ isInVocab verbEnv (ascii "running") = false ∧
      isDoubledConsonant ((ascii "running").take ((ascii "running").length - 3)) = true ∧
      isInVocab verbEnv ((ascii "running").take ((ascii "running").length - 3)).dropLast = true ∧
      lemmatize verbEnv (ascii "running") =
        ((ascii "running").take ((ascii "running").length - 3)).dropLast ∧
      lemmatize verbEnv (ascii "running") = ascii "run" ∧
      lemmatize verbEnv (ascii "hoping") = ascii "hope" ∧
      lemmatize verbEnv (ascii "making") = ascii "make" ∧
      lemmatize verbEnv (ascii "walking") = ascii "walk" :=
  ⟨by decide, by decide, by decide, by decide, by decide, by decide,
    (lemmatize_ing verbEnv (ascii "running") (by decide) (by decide) (by decide) (by decide)).1
      (by decide) (by decide),
    by decide, by decide, by decide, by decide⟩

/-- C23: for non-zero word and sentence counts analyzeReadability returns the
three formulas and the weighted score 0.50/0.30/0.20 of their mapped scores;
for a zero word or sentence count it returns score 1.0 and the three metrics 0;
(100, 5, 150, 400) gives FKGL 9.91, FRE 59.635 and CLI 6.24. -/
theorem analyzeReadability_formulas (w s syl c : Int) :
    (w ≠ 0 → s ≠ 0 →
        (analyzeReadability w s syl c).FKGL =
          39 / 100 * ((w : ℚ) / s) + 118 / 10 * ((syl : ℚ) / w) - 1559 / 100 ∧
        (analyzeReadability w s syl c).FRE =
          206835 / 1000 - 1015 / 1000 * ((w : ℚ) / s) - 846 / 10 * ((syl : ℚ) / w) ∧
        (analyzeReadability w s syl c).CLI =
          588 / 10000 * (100 * (c : ℚ) / w) - 296 / 1000 * (100 * (s : ℚ) / w) - 158 / 10 ∧
        (analyzeReadability w s syl c).Score =
          1 / 2 * fkglToScore (analyzeReadability w s syl c).FKGL +
            3 / 10 * freToScore (analyzeReadability w s syl c).FRE +
            1 / 5 * cliToScore (analyzeReadability w s syl c).CLI) ∧
      ((w = 0 ∨ s = 0) →
        (analyzeReadability w s syl c).Score = 1 ∧ (analyzeReadability w s syl c).FKGL = 0 ∧
        (analyzeReadability w s syl c).FRE = 0 ∧ (analyzeReadability w s syl c).CLI = 0) ∧
      (analyzeReadability 100 5 150 400).FKGL = 991 / 100 ∧
      (analyzeReadability 100 5 150 400).FRE = 59635 / 1000 ∧
      (analyzeReadability 100 5 150 400).CLI = 624 / 100 := by
  refine ⟨?_, ?_, ?_, ?_, ?_⟩
  · intro hw hs
    have hc : ¬ ((decide (w = 0) || decide (s = 0)) = true) := by simp [hw, hs]
    unfold analyzeReadability
    rw [if_neg hc]
    dsimp only
    refine ⟨rfl, rfl, ?_, rfl⟩
    unfold calcCLI
    dsimp only
    ring
  · intro h
    have hc : (decide (w = 0) || decide (s = 0)) = true := by
      rcases h with h | h <;> simp [h]
    unfold analyzeReadability
    rw [if_pos hc]
    exact ⟨rfl, rfl, rfl, rfl⟩
  · norm_num [analyzeReadability, calcFKGL]
  · norm_num [analyzeReadability, calcFRE]
  · norm_num [analyzeReadability, calcCLI]

theorem analyzeReadability_formulas_witness :
    (100 : Int) ≠ 0 ∧ (5 : Int) ≠ 0 ∧
      (analyzeReadability 100 5 150 400).FKGL =
        39 / 100 * (((100 : Int) : ℚ) / (5 : Int)) + 118 / 10 * (((150 : Int) : ℚ) / (100 : Int)) -
          1559 / 100 ∧
      ((0 : Int) = 0 ∨ (5 : Int) = 0) ∧ (analyzeReadability 0 5 150 400).Score = 1 :=
  ⟨by decide, by decide,
    ((analyzeReadability_formulas 100 5 150 400).1 (by decide) (by decide)).1,
    Or.inl rfl, ((analyzeReadability_formulas 0 5 150 400).2.1 (Or.inl rfl)).1⟩

/-- C24: with at least one non-filtered token and at least one sentence,
analyzeSyntax returns the average sentence length (non-filtered tokens per
sentence), the subordination index (non-filtered subordinator tokens per
sentence) and the score 0.40/0.30/0.15/0.15 of the four mapped metrics; with no
non-filtered token or no sentence it returns score 1.0 and all metrics 0. -/
theorem analyzeSyntax_metrics (env : Env) (tokens : List Token) (sentences : List GoString) :
    ((tokens.filter (fun t => !t.IsFiltered)).length ≠ 0 → sentences.length ≠ 0 →
        (analyzeSyntax env tokens sentences).AvgSentenceLength =
          ((tokens.filter (fun t => !t.IsFiltered)).length : ℚ) / (sentences.length : ℚ) ∧
        (analyzeSyntax env tokens sentences).SubordinationIndex =
          ((tokens.filter
              (fun t => !t.IsFiltered && subordinators.contains t.Lower)).length : ℚ) /
            (sentences.length : ℚ) ∧
        (analyzeSyntax env tokens sentences).PassiveRate = calcPassiveRate env sentences ∧
        (analyzeSyntax env tokens sentences).ConnectorDiversity =
          calcConnectorDiversity tokens ∧
        (analyzeSyntax env tokens sentences).Score =
          4 / 10 * mapASLToScore (analyzeSyntax env tokens sentences).AvgSentenceLength +
            3 / 10 *
              mapSubordinationToScore (analyzeSyntax env tokens sentences).SubordinationIndex +
            15 / 100 * mapPassiveRateToScore (analyzeSyntax env tokens sentences).PassiveRate +
            15 / 100 *
              mapConnectorDiversityToScore
                (analyzeSyntax env tokens sentences).ConnectorDiversity) ∧
      (((tokens.filter (fun t => !t.IsFiltered)).length = 0 ∨ sentences.length = 0) →
        (analyzeSyntax env tokens sentences).Score = 1 ∧
        (analyzeSyntax env tokens sentences).AvgSentenceLength = 0 ∧
        (analyzeSyntax env tokens sentences).SubordinationIndex = 0 ∧
        (analyzeSyntax env tokens sentences).PassiveRate = 0 ∧
        (analyzeSyntax env tokens sentences).ConnectorDiversity = 0) := by
  constructor
  · intro hw hs
    have hc : ¬ ((decide (((tokens.filter (fun t => !t.IsFiltered)).length : Int) = 0) ||
        decide ((sentences.length : Int) = 0)) = true) := by
      simp only [Bool.or_eq_true, decide_eq_true_eq, not_or]
      exact ⟨by exact_mod_cast hw, by exact_mod_cast hs⟩
    have hs2 : ¬ ((sentences.length : Int) = 0) := by exact_mod_cast hs
    unfold analyzeSyntax
    dsimp only
    rw [if_neg hc]
    dsimp only
    refine ⟨?_, ?_, rfl, rfl, rfl⟩
    · unfold calcAvgSentenceLength
      rw [if_neg hs2]
      simp
    · unfold calcSubordinationIndex
      rw [if_neg hs2]
      simp
  · intro h
    have hc : (decide (((tokens.filter (fun t => !t.IsFiltered)).length : Int) = 0) ||
        decide ((sentences.length : Int) = 0)) = true := by
      simp only [Bool.or_eq_true, decide_eq_true_eq]
      rcases h with h | h
      · left; exact_mod_cast h
      · right; exact_mod_cast h
    unfold analyzeSyntax
    dsimp only
    rw [if_pos hc]
    exact ⟨rfl, rfl, rfl, rfl, rfl⟩

theorem analyzeSyntax_metrics_witness :
    (sampleTokens.filter (fun t => !t.IsFiltered)).length ≠ 0 ∧
      [ascii "The cat."].length ≠ 0 ∧
      (analyzeSyntax witnessEnv sampleTokens [ascii "The cat."]).AvgSentenceLength =
        ((sampleTokens.filter (fun t => !t.IsFiltered)).length : ℚ) /
          ([ascii "The cat."].length : ℚ) ∧
      ((([] : List Token).filter (fun t => !t.IsFiltered)).length = 0 ∨
        [ascii "The cat."].length = 0) ∧
      (analyzeSyntax witnessEnv [] [ascii "The cat."]).Score = 1 :=
  ⟨by decide, by decide,
    ((analyzeSyntax_metrics witnessEnv sampleTokens [ascii "The cat."]).1 (by decide)
      (by decide)).1,
    Or.inl rfl, ((analyzeSyntax_metrics witnessEnv [] [ascii "The cat."]).2 (Or.inl rfl)).1⟩

theorem interpolateLoop_skip (v : ℚ) (mid rest : List (ℚ × ℚ)) :
    ∀ prev : ℚ × ℚ, (∀ a ∈ mid, a.1 < v) →
      interpolateLoop v prev (mid ++ rest) = interpolateLoop v (mid.getLastD prev) rest := by
  induction mid with
  | nil => intro prev _; rfl
  | cons m mid ih =>
    intro prev h
    have hm : ¬ v ≤ m.1 := not_le.mpr (h m (List.mem_cons_self _ _))
    rw [List.cons_append, interpolateLoop, if_neg hm,
      ih m (fun a ha => h a (List.mem_cons_of_mem _ ha))]
    cases mid <;> rfl

theorem ascendingAnchors_before (pre : List (ℚ × ℚ)) (p : ℚ × ℚ) (post : List (ℚ × ℚ))
    (h : ascendingAnchors (pre ++ p :: post)) : ∀ a ∈ pre, a.1 < p.1 := by
  intro a ha
  unfold ascendingAnchors at h
  rw [List.pairwise_append] at h
  exact h.2.2 a ha p (List.mem_cons_self _ _)

theorem interpolateScore_bracket (pre post : List (ℚ × ℚ)) (p0 p1 : ℚ × ℚ) (v : ℚ)
    (hasc : ascendingAnchors (pre ++ p0 :: p1 :: post)) (h0 : p0.1 < v) (h1 : v ≤ p1.1) :
    interpolateScore (pre ++ p0 :: p1 :: post) v =
      p0.2 + (v - p0.1) / (p1.1 - p0.1) * (p1.2 - p0.2) := by
  have hpre := ascendingAnchors_before pre p0 (p1 :: post) hasc
  cases pre with
  | nil =>
    rw [List.nil_append, interpolateScore, if_neg (not_le.mpr h0), interpolateLoop, if_pos h1]
  | cons a0 pre =>
    have ha0 : a0.1 < v := lt_trans (hpre a0 (List.mem_cons_self _ _)) h0
    have e : pre ++ p0 :: p1 :: post = (pre ++ [p0]) ++ p1 :: post := by simp
    rw [List.cons_append, interpolateScore, if_neg (not_le.mpr ha0), e,
      interpolateLoop_skip v (pre ++ [p0]) (p1 :: post) a0, interpolateLoop, if_pos h1]
    · simp
    · intro a ha
      rcases List.mem_append.mp ha with ha | ha
      · exact lt_trans (hpre a (List.mem_cons_of_mem _ ha)) h0
      · rw [List.mem_singleton.mp ha]; exact h0

theorem interpolateScore_above (anchors : List (ℚ × ℚ)) (v : ℚ) (hne : anchors ≠ [])
    (hasc : ascendingAnchors anchors) (h : (anchors.getLastD (0, 0)).1 < v) :
    interpolateScore anchors v = (anchors.getLastD (0, 0)).2 := by
  rcases List.eq_nil_or_concat anchors with h0 | ⟨init, z, h0⟩
  · exact absurd h0 hne
  · subst h0
    rw [List.concat_eq_append] at hasc h ⊢
    have hz : (init ++ [z]).getLastD (0, 0) = z := by simp
    rw [hz] at h ⊢
    have hinit := ascendingAnchors_before init z [] hasc
    cases init with
    | nil => rw [List.nil_append, interpolateScore, if_neg (not_le.mpr h)]; rfl
    | cons a0 init =>
      have ha0 : a0.1 < v := lt_trans (hinit a0 (List.mem_cons_self _ _)) h
      have e : a0 :: init ++ [z] = a0 :: ((init ++ [z]) ++ []) := by simp
      rw [e, interpolateScore, if_neg (not_le.mpr ha0),
        interpolateLoop_skip v (init ++ [z]) [] a0, interpolateLoop]
      · simp
      · intro a ha
        rcases List.mem_append.mp ha with ha | ha
        · exact lt_trans (hinit a (List.mem_cons_of_mem _ ha)) h
        · rw [List.mem_singleton.mp ha]; exact h

/-- C25: on a non-empty table with strictly ascending inputs interpolateScore
returns the first score for v up to the first input, the last score for v above
the last input, the linear interpolation between the bracketing anchors
(whose inputs differ, so the division is by a non-zero number) otherwise, and
the anchor score at every anchor input; fkglToScore(2.5) = 1.5 and
mapASLToScore(15.5) = 3.5. -/
theorem interpolateScore_spec (anchors : List (ℚ × ℚ)) (v : ℚ) (hne : anchors ≠ [])
    (hasc : ascendingAnchors anchors) :
    (v ≤ (anchors.headD (0, 0)).1 → interpolateScore anchors v = (anchors.headD (0, 0)).2) ∧
      ((anchors.getLastD (0, 0)).1 < v →
        interpolateScore anchors v = (anchors.getLastD (0, 0)).2) ∧
      (∀ pre post p0 p1, anchors = pre ++ p0 :: p1 :: post → p0.1 < v → v ≤ p1.1 →
        p1.1 - p0.1 ≠ 0 ∧
          interpolateScore anchors v = p0.2 + (v - p0.1) / (p1.1 - p0.1) * (p1.2 - p0.2)) ∧
      (∀ a ∈ anchors, interpolateScore anchors a.1 = a.2) ∧
      ((anchors.headD (0, 0)).1 < v → v ≤ (anchors.getLastD (0, 0)).1 →
        ∃ pre post p0 p1, anchors = pre ++ p0 :: p1 :: post ∧ p0.1 < v ∧ v ≤ p1.1) ∧
      fkglToScore (5 / 2) = 3 / 2 ∧ mapASLToScore (31 / 2) = 7 / 2 := by
  refine ⟨?_, interpolateScore_above anchors v hne hasc, ?_, ?_, ?_, ?_, ?_⟩
  · intro h
    cases anchors with
    | nil => exact absurd rfl hne
    | cons a0 rest => exact if_pos h
  · intro pre post p0 p1 he h0 h1
    subst he
    refine ⟨?_, interpolateScore_bracket pre post p0 p1 v hasc h0 h1⟩
    have : p0.1 < p1.1 := lt_of_lt_of_le h0 h1
    exact sub_ne_zero.mpr (ne_of_gt this)
  · intro a ha
    obtain ⟨s, t, he⟩ := List.append_of_mem ha
    subst he
    rcases List.eq_nil_or_concat s with hs | ⟨pre, p0, hs⟩
    · subst hs
      exact if_pos (le_refl _)
    · subst hs
      rw [List.concat_eq_append] at hasc ⊢
      have e : pre ++ [p0] ++ a :: t = pre ++ p0 :: a :: t := by simp
      rw [e] at hasc ⊢
      have hlt : p0.1 < a.1 := by
        have h2 : ascendingAnchors ((pre ++ [p0]) ++ a :: t) := by rw [e]; exact hasc
        exact ascendingAnchors_before (pre ++ [p0]) a t h2 p0 (by simp)
      rw [interpolateScore_bracket pre t p0 a a.1 hasc hlt (le_refl _)]
      have hne0 : a.1 - p0.1 ≠ 0 := sub_ne_zero.mpr (ne_of_gt hlt)
      rw [div_self hne0]
      ring
  · clear hasc
    intro hlo hhi
    cases anchors with
    | nil => exact absurd rfl hne
    | cons a0 rest =>
      have key : ∀ (rest : List (ℚ × ℚ)) (a0 : ℚ × ℚ), a0.1 < v →
          v ≤ ((a0 :: rest).getLastD (0, 0)).1 →
          ∃ pre post p0 p1, a0 :: rest = pre ++ p0 :: p1 :: post ∧ p0.1 < v ∧ v ≤ p1.1 := by
        intro rest
        induction rest with
        | nil =>
          intro a0 h1 h2
          exact absurd h2 (not_le.mpr h1)
        | cons a1 rest ih =>
          intro a0 h1 h2
          by_cases h3 : v ≤ a1.1
          · exact ⟨[], rest, a0, a1, rfl, h1, h3⟩
          · obtain ⟨pre, post, p0, p1, he, h4, h5⟩ := ih a1 (not_le.mp h3) (by simpa using h2)
            exact ⟨a0 :: pre, post, p0, p1, by rw [he]; rfl, h4, h5⟩
      exact key rest a0 hlo hhi
  · norm_num [fkglToScore, gradeAnchors, interpolateScore, interpolateLoop]
  · norm_num [mapASLToScore, aslAnchors, interpolateScore, interpolateLoop]

theorem interpolateScore_spec_witness :
    gradeAnchors ≠ [] ∧ ascendingAnchors gradeAnchors ∧
      ((5 / 2 : ℚ) ≤ (gradeAnchors.headD (0, 0)).1 →
        interpolateScore gradeAnchors (5 / 2) = (gradeAnchors.headD (0, 0)).2) ∧
      (∀ a ∈ gradeAnchors, interpolateScore gradeAnchors a.1 = a.2) :=
  ⟨by simp [gradeAnchors], by simp [ascendingAnchors, gradeAnchors]; norm_num,
    (interpolateScore_spec gradeAnchors (5 / 2) (by simp [gradeAnchors])
      (by simp [ascendingAnchors, gradeAnchors]; norm_num)).1,
    (interpolateScore_spec gradeAnchors (5 / 2) (by simp [gradeAnchors])
      (by simp [ascendingAnchors, gradeAnchors]; norm_num)).2.2.2.1⟩

theorem freToScore_closed (x : ℚ) :
    freToScore x = if 95 ≤ x then 1 else if x ≤ 45 then 6 else (105 - x) / 10 := by
  unfold freToScore
  have hfirst : freAnchors.headD (0, 0) = (45, 6) := rfl
  have hlast : freAnchors.getLastD (0, 0) = (95, 1) := rfl
  have htail : freAnchors.tail = [(55, 5), (65, 4), (75, 3), (85, 2), (95, 1)] := rfl
  rw [hfirst, hlast, htail]
  dsimp only
  by_cases h1 : (95 : ℚ) ≤ x
  · rw [if_pos h1, if_pos h1]
  · rw [if_neg h1, if_neg h1]
    by_cases h2 : x ≤ 45
    · rw [if_pos h2, if_pos h2]
    · rw [if_neg h2, if_neg h2]
      have h5 : x ≤ 95 := le_of_lt (not_le.mp h1)
      simp only [interpolateLoop]
      split_ifs with h6 h7 h8 h9
      · norm_num; ring
      · norm_num; ring
      · norm_num; ring
      · norm_num; ring
      · norm_num; ring

/-- C26: freToScore is antitone, equals 6 for every value up to 45 and 1 for
every value from 95 on, and maps 45, 55, 65, 75, 85, 95 to 6, 5, 4, 3, 2, 1. -/
theorem freToScore_antitone :
    (∀ a b : ℚ, a ≤ b → freToScore b ≤ freToScore a) ∧
      (∀ x : ℚ, x ≤ 45 → freToScore x = 6) ∧ (∀ x : ℚ, 95 ≤ x → freToScore x = 1) ∧
      freToScore 45 = 6 ∧ freToScore 55 = 5 ∧ freToScore 65 = 4 ∧ freToScore 75 = 3 ∧
      freToScore 85 = 2 ∧ freToScore 95 = 1 := by
  refine ⟨?_, ?_, ?_, ?_, ?_, ?_, ?_, ?_, ?_⟩
  · intro a b hab
    rw [freToScore_closed a, freToScore_closed b]
    split_ifs <;> linarith
  · intro x hx
    rw [freToScore_closed x, if_neg (by linarith), if_pos hx]
  · intro x hx
    rw [freToScore_closed x, if_pos hx]
  all_goals (rw [freToScore_closed]; norm_num)

theorem freToScore_antitone_witness :
    (50 : ℚ) ≤ 60 ∧ freToScore 60 ≤ freToScore 50 ∧ freToScore 40 = 6 ∧ freToScore 100 = 1 :=
  ⟨by norm_num, freToScore_antitone.1 50 60 (by norm_num),
    freToScore_antitone.2.1 40 (by norm_num), freToScore_antitone.2.2.1 100 (by norm_num)⟩

theorem vowelGroups_eq_runs (w : GoString) :
    vowelGroups false w = (vowelRuns w : Int) ∧
      vowelGroups true w = (vowelRuns w : Int) - (if isVowel (w.headD 0) then 1 else 0) +
        (if w = [] ∧ isVowel 0 then 1 else 0) := by
  induction w with
  | nil => simp [vowelGroups, vowelRuns, isVowel]
  | cons c rest ih =>
    cases rest with
    | nil =>
      by_cases hc : isVowel c = true <;> simp [vowelGroups, vowelRuns, hc]
    | cons d rest =>
      obtain ⟨ih1, ih2⟩ := ih
      have hd : (d :: rest).headD 0 = d := rfl
      rw [hd] at ih2
      by_cases hc : isVowel c = true
      · by_cases hd2 : isVowel d = true
        · simp [vowelGroups, vowelRuns, hc, hd2] at ih1 ih2 ⊢
          constructor <;> linarith
        · simp [vowelGroups, vowelRuns, hc, hd2] at ih1 ih2 ⊢
          exact ih1
      · by_cases hd2 : isVowel d = true
        · simp [vowelGroups, vowelRuns, hc, hd2] at ih1 ih2 ⊢
          linarith
        · simp [vowelGroups, vowelRuns, hc, hd2] at ih1 ih2 ⊢
          linarith

theorem slice_suffix_iff (w s : GoString) :
    slice w (w.length - s.length) w.length = s ↔ HasSuffix w s = true := by
  rw [slice_to_end]
  unfold HasSuffix
  rw [List.isSuffixOf_iff_suffix, List.suffix_iff_eq_drop]
  exact eq_comm

theorem last_suffix_iff (w : GoString) (c : Nat) (h : 1 ≤ w.length) :
    w.getD (w.length - 1) 0 = c ↔ HasSuffix w [c] = true := by
  rw [← slice_suffix_iff w [c]]
  rcases List.eq_nil_or_concat w with h0 | ⟨init, z, h0⟩
  · subst h0; simp at h
  · subst h0
    rw [slice_to_end]
    simp

theorem suffix_too_long (s t : GoString) (h : s.length < t.length) : HasSuffix s t = false := by
  cases hh : HasSuffix s t
  · rfl
  · exfalso
    unfold HasSuffix at hh
    rw [List.isSuffixOf_iff_suffix] at hh
    have := hh.length_le
    omega

theorem decide_last_suffix (w : GoString) (c : Nat) (h : 1 ≤ w.length) :
    decide (w.getD (w.length - 1) 0 = c) = HasSuffix w [c] := by
  rw [Bool.eq_iff_iff, decide_eq_true_eq]
  exact last_suffix_iff w c h

theorem decide_slice_suffix (w s : GoString) :
    decide (slice w (w.length - s.length) w.length = s) = HasSuffix w s := by
  rw [Bool.eq_iff_iff, decide_eq_true_eq]
  exact slice_suffix_iff w s

theorem endsWithSibilant_eq (s : GoString) :
    endsWithSibilant s = (HasSuffix s (ascii "s") || HasSuffix s (ascii "x") ||
      HasSuffix s (ascii "z") || HasSuffix s (ascii "ch") || HasSuffix s (ascii "sh")) := by
  have e1 : ascii "s" = [115] := rfl
  have e2 : ascii "x" = [120] := rfl
  have e3 : ascii "z" = [122] := rfl
  by_cases h0 : s.length = 0
  · have : s = [] := List.length_eq_zero.mp h0
    subst this
    rfl
  · have h1 : 1 ≤ s.length := Nat.one_le_iff_ne_zero.mpr h0
    unfold endsWithSibilant
    rw [if_neg h0]
    dsimp only
    rw [decide_last_suffix s 115 h1, decide_last_suffix s 120 h1, decide_last_suffix s 122 h1,
      e1, e2, e3]
    by_cases h2 : s.length ≥ 2
    · have b1 := decide_slice_suffix s (ascii "ch")
      have b2 := decide_slice_suffix s (ascii "sh")
      have l1 : (ascii "ch").length = 2 := rfl
      have l2 : (ascii "sh").length = 2 := rfl
      rw [l1] at b1
      rw [l2] at b2
      rw [if_pos h2, b1, b2]
      cases HasSuffix s [115] <;> cases HasSuffix s [120] <;> cases HasSuffix s [122] <;> rfl
    · rw [if_neg h2, suffix_too_long s (ascii "ch") (by have l1 : (ascii "ch").length = 2 := rfl; omega),
        suffix_too_long s (ascii "sh") (by have l1 : (ascii "sh").length = 2 := rfl; omega)]
      cases HasSuffix s [115] <;> cases HasSuffix s [120] <;> cases HasSuffix s [122] <;> rfl

theorem suffix_exclusive (w : GoString) (c a b : Nat) (hcb : c ≠ b)
    (h : HasSuffix w [c] = true) : HasSuffix w [a, b] = false := by
  cases hh : HasSuffix w [a, b]
  · rfl
  · exfalso
    unfold HasSuffix at h hh
    rw [List.isSuffixOf_iff_suffix] at h hh
    have h3 := List.suffix_of_suffix_length_le h hh (by simp)
    rw [List.suffix_iff_eq_drop] at h3
    simp at h3
    exact hcb h3

theorem suffix_same_length (w s t : GoString) (hl : s.length = t.length) (hne : s ≠ t)
    (h : HasSuffix w s = true) : HasSuffix w t = false := by
  cases hh : HasSuffix w t
  · rfl
  · exfalso
    unfold HasSuffix at h hh
    rw [List.isSuffixOf_iff_suffix] at h hh
    have h3 := List.suffix_of_suffix_length_le h hh (le_of_eq hl)
    exact hne (h3.eq_of_length hl)

theorem countSyllables_eq (env : Env) (word : GoString)
    (h : (ToLower env (TrimSpace word)).length ≠ 0) :
    countSyllables env word =
      max 1 ((vowelRuns (ToLower env (TrimSpace word)) : Int) -
        (if silentEnding (ToLower env (TrimSpace word)) then 1 else 0)) := by
  unfold countSyllables
  dsimp only
  rw [if_neg h]
  generalize ToLower env (TrimSpace word) = w at h ⊢
  have h1 : 1 ≤ w.length := Nat.one_le_iff_ne_zero.mpr h
  have les : (ascii "es").length = 2 := rfl
  have led : (ascii "ed").length = 2 := rfl
  have b1 := decide_slice_suffix w (ascii "es")
  have b2 := decide_slice_suffix w (ascii "ed")
  rw [les] at b1
  rw [led] at b2
  have b3 : decide (w.getD (w.length - 1) 0 = 101) = HasSuffix w (ascii "e") :=
    decide_last_suffix w 101 h1
  have hex : HasSuffix w (ascii "e") = true → HasSuffix w (ascii "es") = false ∧
      HasSuffix w (ascii "ed") = false := fun he =>
    ⟨suffix_exclusive w 101 101 115 (by decide) he, suffix_exclusive w 101 101 100 (by decide) he⟩
  have hes : HasSuffix w (ascii "es") = true → HasSuffix w (ascii "ed") = false :=
    suffix_same_length w (ascii "es") (ascii "ed") rfl (by decide)
  rw [(vowelGroups_eq_runs w).1, b1, b2, b3, endsWithSibilant_eq]
  unfold silentEnding
  dsimp only
  generalize (vowelRuns w : Int) = g
  generalize (HasSuffix (w.take (w.length - 2)) (ascii "s") ||
    HasSuffix (w.take (w.length - 2)) (ascii "x") ||
    HasSuffix (w.take (w.length - 2)) (ascii "z") ||
    HasSuffix (w.take (w.length - 2)) (ascii "ch") ||
    HasSuffix (w.take (w.length - 2)) (ascii "sh")) = sib
  generalize decide (w.length ≥ 3) = n3
  generalize decide (w.length ≥ 2) = n2
  generalize decide (w.getD (w.length - 2) 0 = 108) = el
  generalize isVowel (w.getD (w.length - 3) 0) = vw
  have t1 : (w.getD (w.length - 3) 0 ≠ 116 && w.getD (w.length - 3) 0 ≠ 100) =
      (decide (w.getD (w.length - 3) 0 ≠ 116) && decide (w.getD (w.length - 3) 0 ≠ 100)) := by
    simp
  generalize decide (w.getD (w.length - 3) 0 ≠ 116) = nt at t1 ⊢
  generalize decide (w.getD (w.length - 3) 0 ≠ 100) = nd at t1 ⊢
  generalize HasSuffix w (ascii "es") = es at hex hes ⊢
  generalize HasSuffix w (ascii "ed") = ed at hex hes ⊢
  generalize HasSuffix w (ascii "e") = e at hex ⊢
  rw [max_def]
  cases e
  · cases es
    · cases ed <;> cases n3 <;> cases n2 <;> cases nt <;> cases nd <;>
        simp <;> split_ifs <;> omega
    · have x1 := hes rfl
      subst x1
      cases n3 <;> cases n2 <;> cases sib <;> simp <;> split_ifs <;> omega
  · obtain ⟨x1, x2⟩ := hex rfl
    subst x1
    subst x2
    cases n3 <;> cases n2 <;> cases el <;> cases vw <;> simp <;> split_ifs <;> omega

/-- C27: with w the trimmed and lowercased word, countSyllables is 0 when w is
empty and otherwise the larger of 1 and g - d, g the number of maximal vowel
runs of w and d = 1 exactly for a silent ending; so it is at least 1 for every
non-blank word. -/
theorem countSyllables_spec (env : Env) (word : GoString) :
    ((ToLower env (TrimSpace word)).length = 0 → countSyllables env word = 0) ∧
      ((ToLower env (TrimSpace word)).length ≠ 0 →
        countSyllables env word =
          max 1 ((vowelRuns (ToLower env (TrimSpace word)) : Int) -
            (if silentEnding (ToLower env (TrimSpace word)) then 1 else 0)) ∧
        1 ≤ countSyllables env word) := by
  constructor
  · intro h
    unfold countSyllables
    dsimp only
    rw [if_pos h]
  · intro h
    refine ⟨countSyllables_eq env word h, ?_⟩
    rw [countSyllables_eq env word h]
    exact le_max_left _ _

theorem countSyllables_spec_witness :
    (ToLower witnessEnv (TrimSpace (ascii " Makes "))).length ≠ 0 ∧
      countSyllables witnessEnv (ascii " Makes ") = 1 ∧
      (ToLower witnessEnv (TrimSpace (ascii "  "))).length = 0 ∧
      countSyllables witnessEnv (ascii "  ") = 0 :=
  ⟨by decide,
    ((countSyllables_spec witnessEnv (ascii " Makes ")).2 (by decide)).1.trans (by decide),
    by decide, (countSyllables_spec witnessEnv (ascii "  ")).1 (by decide)⟩

theorem isPastParticiple_eq (env : Env) (w : GoString) :
    isPastParticiple w env.irregularPP = (env.irregularPP w || HasSuffix w (ascii "ed")) := by
  unfold isPastParticiple isRegularPastParticiple
  cases h1 : env.irregularPP w
  · cases h2 : HasSuffix w (ascii "ed")
    · simp
    · have h3 : HasSuffix w (ascii "ing") = false := by
        cases hh : HasSuffix w (ascii "ing")
        · rfl
        · exfalso
          unfold HasSuffix at h2 hh
          rw [List.isSuffixOf_iff_suffix] at h2 hh
          have h4 := List.suffix_of_suffix_length_le h2 hh (by decide)
          revert h4
          decide
      simp [h3]
  · simp

theorem passivePairs_eq (env : Env) (words : List GoString) :
    passivePairs env.irregularPP words = (passiveBigrams env words : Int) := by
  induction words with
  | nil => rfl
  | cons a rest ih =>
    cases rest with
    | nil => rfl
    | cons b rest =>
      rw [passivePairs, ih, isPastParticiple_eq]
      unfold passiveBigrams
      simp only [List.tail_cons, List.zip_cons_cons, List.filter_cons]
      by_cases h : (beVerbs.contains a && (env.irregularPP b || HasSuffix b (ascii "ed"))) = true
      · rw [if_pos h, if_pos h, List.length_cons]
        push_cast
        ring
      · rw [if_neg h, if_neg h]
        simp

theorem extractWords_eq (env : Env) (sentence : GoString) :
    extractWords env sentence = sentenceWords env sentence := by
  unfold extractWords sentenceWords
  generalize Fields sentence = fs
  induction fs with
  | nil => rfl
  | cons f fs ih =>
    simp only [ne_eq, ite_not, List.map_cons] at ih ⊢
    by_cases h : stripNonAlpha env f = []
    · simp only [List.filterMap_cons, h, if_true, ih]
      simp
    · simp only [List.filterMap_cons, h, if_false, ih]
      simp [h]

theorem foldl_passive_sum (env : Env) (sentences : List GoString) :
    ∀ n : Int, sentences.foldl
        (fun n sent => n + passivePairs env.irregularPP (extractWords env sent)) n =
      n + (((sentences.map (fun s => passiveBigrams env (sentenceWords env s))).sum : Nat) : Int) := by
  induction sentences with
  | nil => intro n; simp
  | cons s rest ih =>
    intro n
    rw [List.foldl_cons, ih, passivePairs_eq, extractWords_eq]
    simp only [List.map_cons, List.sum_cons]
    push_cast
    ring

/-- C31: calcPassiveRate is the total number of adjacent (be-verb,
participle-shaped word) pairs inside the sentences divided by the number of
sentences; every pair counts, so one sentence with two passives gives 2; the
rate of the empty list is 0. -/
theorem calcPassiveRate_spec (env : Env) (sentences : List GoString) :
    calcPassiveRate env sentences =
        (((sentences.map (fun s => passiveBigrams env (sentenceWords env s))).sum : Nat) : ℚ) /
          (sentences.length : ℚ) ∧
      calcPassiveRate env [] = 0 ∧
      calcPassiveRate witnessEnv [ascii "It was used and is liked."] = 2 := by
  refine ⟨?_, rfl, ?_⟩
  · unfold calcPassiveRate
    by_cases h : sentences.length = 0
    · rw [if_pos h, h]
      simp
    · rw [if_neg h]
      dsimp only
      rw [foldl_passive_sum, zero_add, Int.cast_natCast]
  · unfold calcPassiveRate
    rw [if_neg (by decide)]
    dsimp only
    have e : extractWords witnessEnv (ascii "It was used and is liked.") =
        [ascii "it", ascii "was", ascii "used", ascii "and", ascii "is", ascii "liked"] := by
      decide
    simp only [List.foldl_cons, List.foldl_nil, e]
    have e2 : passivePairs witnessEnv.irregularPP
        [ascii "it", ascii "was", ascii "used", ascii "and", ascii "is", ascii "liked"] = 2 := by
      decide
    rw [e2]
    norm_num

theorem lookup_mem_snd {α β : Type} [BEq α] (l : List (α × β)) (w : α) (c : β)
    (h : l.lookup w = some c) : c ∈ l.map Prod.snd := by
  induction l with
  | nil => simp [List.lookup] at h
  | cons p rest ih =>
    obtain ⟨a, b⟩ := p
    rw [List.lookup] at h
    cases hw : (w == a)
    · rw [hw] at h
      exact List.mem_cons_of_mem _ (ih h)
    · rw [hw] at h
      simp only [Option.some.injEq] at h
      rw [← h]
      exact List.mem_cons_self _ _

theorem connectorCategory_mem (w : GoString) :
    connectorCategory w = "" ∨ connectorCategory w ∈ connectorCategories := by
  unfold connectorCategory
  cases h : connectorTable.lookup w with
  | none => exact Or.inl rfl
  | some c =>
    right
    have h1 := lookup_mem_snd connectorTable w c h
    have h2 : ∀ x ∈ connectorTable.map Prod.snd, x ∈ connectorCategories := by decide
    exact h2 c h1

theorem connectorLoop_inv (tokens : List Token) :
    ∀ seen : List String, seen.Nodup → (∀ c ∈ seen, c ∈ connectorCategories) →
      (connectorLoop tokens seen).Nodup ∧
        ∀ c ∈ connectorLoop tokens seen, c ∈ connectorCategories := by
  induction tokens with
  | nil => intro seen h1 h2; exact ⟨h1, h2⟩
  | cons t rest ih =>
    intro seen h1 h2
    rw [connectorLoop]
    split_ifs with h
    · simp only [Bool.and_eq_true, Bool.not_eq_true', decide_eq_true_eq, ne_eq] at h
      obtain ⟨⟨_, hne⟩, hns⟩ := h
      apply ih
      · refine List.nodup_cons.mpr ⟨?_, h1⟩
        intro hm
        have : seen.contains (connectorCategory t.Lower) = true := by simpa using hm
        rw [this] at hns
        exact Bool.noConfusion hns
      · intro c hc
        rcases List.mem_cons.mp hc with hc | hc
        · rw [hc]
          rcases connectorCategory_mem t.Lower with h0 | h0
          · exact absurd h0 hne
          · exact h0
        · exact h2 c hc
    · exact ih seen h1 h2

theorem calcConnectorDiversity_le (tokens : List Token) :
    0 ≤ calcConnectorDiversity tokens ∧ calcConnectorDiversity tokens ≤ 5 := by
  unfold calcConnectorDiversity
  obtain ⟨h1, h2⟩ := connectorLoop_inv tokens [] List.nodup_nil (by simp)
  have h3 : (connectorLoop tokens []).length ≤ connectorCategories.length :=
    (List.Nodup.subperm h1 h2).length_le
  have h4 : connectorCategories.length = 5 := rfl
  constructor
  · exact Int.natCast_nonneg _
  · rw [h4] at h3
    exact_mod_cast h3

theorem mapConnectorDiversityToScore_le (c : Int) (h : c ≤ 5) :
    mapConnectorDiversityToScore c ≤ 2 := by
  have hc : (c : ℚ) ≤ 5 := by exact_mod_cast h
  unfold mapConnectorDiversityToScore connectorAnchors
  rw [interpolateScore]
  split_ifs with h1
  · norm_num
  · rw [interpolateLoop, if_pos hc]
    norm_num
    linarith

/-- C38: calcConnectorDiversity is at most 5, so its mapped score is at most
2.0 and the syntax score is at most 0.40*6 + 0.30*6 + 0.15*6 + 0.15*2 = 5.4 for
every input. -/
theorem analyzeSyntax_score_below_six (env : Env) (tokens : List Token)
    (sentences : List GoString) :
    calcConnectorDiversity tokens ≤ 5 ∧
      mapConnectorDiversityToScore (calcConnectorDiversity tokens) ≤ 2 ∧
      (analyzeSyntax env tokens sentences).Score ≤ 54 / 10 ∧
      (analyzeSyntax env tokens sentences).Score < 6 := by
  have hc := mapConnectorDiversityToScore_le (calcConnectorDiversity tokens)
    (calcConnectorDiversity_le tokens).2
  have key : (analyzeSyntax env tokens sentences).Score ≤ 54 / 10 := by
    unfold analyzeSyntax
    dsimp only
    split_ifs
    · norm_num
    · have ha := interpolateScore_range aslAnchors
        (calcAvgSentenceLength ((tokens.filter (fun t => !t.IsFiltered)).length : Int)
          (sentences.length : Int)) 1 6 (by decide) aslAnchors_range
      have hs := interpolateScore_range subordinationAnchors
        (calcSubordinationIndex tokens (sentences.length : Int)) 1 6 (by decide)
        subordinationAnchors_range
      have hp := interpolateScore_range passiveAnchors (calcPassiveRate env sentences) 1 6
        (by decide) passiveAnchors_range
      simp only [mapASLToScore, mapSubordinationToScore, mapPassiveRateToScore]
      linarith [ha.2, hs.2, hp.2, hc]
  exact ⟨(calcConnectorDiversity_le tokens).2, hc, key, lt_of_le_of_lt key (by norm_num)⟩

theorem isUpperFirst_nonempty (env : Env) (s : GoString) (h : isUpperFirst env s = true) :
    s.length ≠ 0 := by
  cases s with
  | nil => simp [isUpperFirst] at h
  | cons b rest => simp

theorem properPass1_fields (env : Env) (t : Token) :
    (properPass1 env t).Original = t.Original ∧ (properPass1 env t).Lower = t.Lower ∧
      (properPass1 env t).IsFirst = t.IsFirst ∧ (properPass1 env t).IsStopword = t.IsStopword ∧
      (properPass1 env t).IsFiltered = t.IsFiltered := by
  unfold properPass1
  split_ifs <;> exact ⟨rfl, rfl, rfl, rfl, rfl⟩

theorem properPass1_run (env : Env) (t : Token) (h : inProperRun env (properPass1 env t) = true) :
    (properPass1 env t).IsProper = true := by
  obtain ⟨f1, _, f3, f4, f5⟩ := properPass1_fields env t
  unfold inProperRun at h
  rw [f1, f3, f4, f5] at h
  simp only [Bool.and_eq_true, Bool.not_eq_true', decide_eq_true_eq] at h
  obtain ⟨⟨⟨⟨h1, h2⟩, h3⟩, h4⟩, h5⟩ := h
  unfold properPass1
  rw [if_neg (by simp [h1, h2]), if_neg (by omega)]
  split_ifs with h6 h7
  · rfl
  · rfl
  · simp [h3, h5] at h7

theorem enum_map_id {α : Type} (l : List α) (f : Nat × α → α)
    (h : ∀ j x, l.get? j = some x → f (j, x) = x) : l.enum.map f = l := by
  apply List.ext_get?
  intro j
  rw [List.get?_map, List.enum_get?]
  cases hj : l.get? j with
  | none => rfl
  | some x => simp [h j x hj]

theorem takeWhile_get {α : Type} (p : α → Bool) (l : List α) :
    ∀ (start k : Nat) (x : α), k < ((l.drop start).takeWhile p).length →
      l.get? (start + k) = some x → p x = true := by
  intro start k x hk hx
  have h1 : ((l.drop start).takeWhile p).get? k = some x := by
    have h2 : (l.drop start).get? k = some x := by
      rw [List.get?_drop]; exact hx
    have h3 := List.takeWhile_prefix (p := p) (l := l.drop start)
    obtain ⟨r, hr⟩ := h3
    have h4 : (l.drop start).get? k = ((l.drop start).takeWhile p ++ r).get? k := by rw [hr]
    rw [List.get?_append hk] at h4
    rw [← h4, h2]
  have h5 : x ∈ (l.drop start).takeWhile p := List.get?_mem h1
  exact (List.mem_takeWhile_imp h5)

theorem properPass2Loop_id (env : Env) (tokens : List Token)
    (h : ∀ t ∈ tokens, inProperRun env t = true → t.IsProper = true) :
    ∀ fuel i, properPass2Loop env fuel i tokens = tokens := by
  intro fuel
  induction fuel with
  | zero => intro i; rfl
  | succ fuel ih =>
    intro i
    rw [properPass2Loop]
    cases hi : tokens.get? i with
    | none => rfl
    | some t =>
      dsimp only
      split_ifs with h1 h2
      · exact ih _
      · rw [enum_map_id, ih]
        intro j x hx
        dsimp only
        split_ifs with h3
        · simp only [Bool.and_eq_true, decide_eq_true_eq] at h3
          have hj : j = i + (j - i) := by omega
          have hp : inProperRun env x = true := by
            apply takeWhile_get (inProperRun env) tokens i (j - i) x (by omega)
            rw [← hj]; exact hx
          have := h x (List.get?_mem hx) hp
          cases x
          simp only at this
          simp [this]
        · rfl
      · exact ih _

theorem detectProperNouns_eq_pass1 (env : Env) (tokens : List Token) :
    detectProperNouns env tokens = tokens.map (properPass1 env) := by
  unfold detectProperNouns
  dsimp only
  apply properPass2Loop_id
  intro t ht hp
  obtain ⟨t0, _, rfl⟩ := List.mem_map.mp ht
  exact properPass1_run env t0 hp

/-- C37: the second pass of detectProperNouns is redundant: for every token
list the result is the list after the first pass alone, because every token
that can stand in a run of pass 2 is already proper after pass 1. -/
theorem detectProperNouns_second_pass_redundant (env : Env) (tokens : List Token) :
    detectProperNouns env tokens = tokens.map (properPass1 env) ∧
      (∀ fuel i, properPass2Loop env fuel i (tokens.map (properPass1 env)) =
        tokens.map (properPass1 env)) ∧
      ∀ t ∈ tokens, inProperRun env (properPass1 env t) = true →
        (properPass1 env t).IsProper = true :=
  ⟨detectProperNouns_eq_pass1 env tokens,
    properPass2Loop_id env _ (fun t ht hp => by
      obtain ⟨t0, _, rfl⟩ := List.mem_map.mp ht
      exact properPass1_run env t0 hp),
    fun t _ hp => properPass1_run env t hp⟩

theorem properPass1_proper (env : Env) (t : Token) (h0 : t.IsProper = false) :
    (properPass1 env t).IsProper = true ↔
      (t.IsFiltered = false ∧ t.IsStopword = false ∧ properByPass1 env t = true) := by
  unfold properPass1 properByPass1
  cases h1 : t.IsFiltered
  · cases h2 : t.IsStopword
    · simp only [Bool.or_self, Bool.false_eq_true, if_false, true_and]
      by_cases h3 : t.Original.length = 0
      · rw [if_pos h3, h0]
        have h4 : isUpperFirst env t.Original = false := by
          cases h5 : isUpperFirst env t.Original
          · rfl
          · exact absurd h3 (isUpperFirst_nonempty env _ h5)
        simp [h3, h4]
      · rw [if_neg h3]
        by_cases h4 : (decide (t.Original.length > 1) && isAllUpper env t.Original) = true
        · rw [if_pos h4, h4]
          simp
        · rw [if_neg h4]
          rw [Bool.not_eq_true] at h4
          rw [h4, Bool.false_or]
          by_cases h5 : (!t.IsFirst && isUpperFirst env t.Original) = true
          · rw [if_pos h5, h5]
          · rw [if_neg h5]
            rw [Bool.not_eq_true] at h5
            rw [h5, h0]
    · simp [h0]
  · simp [h0]

theorem inLongRun_pass1 (env : Env) (tokens : List Token) (i : Nat) (t : Token)
    (ht : tokens.get? i = some t) (h : inLongRun env tokens i) :
    t.IsFiltered = false ∧ t.IsStopword = false ∧ properByPass1 env t = true := by
  obtain ⟨a, b, h1, h2, _, _, h5, _, _⟩ := h
  obtain ⟨t2, e, hr⟩ := h5 i h1 h2
  rw [ht] at e
  cases e
  unfold runToken at hr
  simp only [Bool.and_eq_true, Bool.not_eq_true'] at hr
  obtain ⟨⟨⟨r1, r2⟩, r3⟩, r4⟩ := hr
  refine ⟨r1, r2, ?_⟩
  unfold properByPass1
  simp [r3, r4]

/-- C35: on a token list whose IsProper flags are all false, detectProperNouns
keeps the number of tokens and every other field, and marks a token proper
exactly when it is non-filtered, non-stopword and either satisfies the
condition of pass 1 or lies in a maximal run of more than one run token;
filtered tokens and stopwords are never proper. -/
theorem detectProperNouns_spec (env : Env) (tokens : List Token)
    (hinit : ∀ t ∈ tokens, t.IsProper = false) :
    (detectProperNouns env tokens).length = tokens.length ∧
      ∀ i t, tokens.get? i = some t →
        ∃ r, (detectProperNouns env tokens).get? i = some r ∧
          r.Original = t.Original ∧ r.Lower = t.Lower ∧ r.IsFirst = t.IsFirst ∧
          r.IsStopword = t.IsStopword ∧ r.IsFiltered = t.IsFiltered ∧
          (r.IsProper = true ↔
            (t.IsFiltered = false ∧ t.IsStopword = false ∧
              (properByPass1 env t = true ∨ inLongRun env tokens i))) ∧
          ((t.IsFiltered = true ∨ t.IsStopword = true) → r.IsProper = false) := by
  rw [detectProperNouns_eq_pass1]
  refine ⟨List.length_map _ _, ?_⟩
  intro i t ht
  refine ⟨properPass1 env t, ?_, ?_⟩
  · rw [List.get?_map, ht]; rfl
  · obtain ⟨f1, f2, f3, f4, f5⟩ := properPass1_fields env t
    have h0 := hinit t (List.get?_mem ht)
    have hp := properPass1_proper env t h0
    refine ⟨f1, f2, f3, f4, f5, ?_, ?_⟩
    · rw [hp]
      constructor
      · rintro ⟨a, b, c⟩
        exact ⟨a, b, Or.inl c⟩
      · rintro ⟨a, b, c | c⟩
        · exact ⟨a, b, c⟩
        · exact inLongRun_pass1 env tokens i t ht c
    · intro hfs
      cases hq : (properPass1 env t).IsProper
      · rfl
      · exfalso
        obtain ⟨a, b, _⟩ := hp.mp hq
        rcases hfs with h | h
        · rw [a] at h; exact Bool.noConfusion h
        · rw [b] at h; exact Bool.noConfusion h

theorem detectProperNouns_spec_witness :
    (∀ t ∈ visitTokens, t.IsProper = false) ∧
      (detectProperNouns witnessEnv visitTokens).length = visitTokens.length ∧
      (detectProperNouns witnessEnv visitTokens).map (fun t => t.IsProper) =
        [false, true, true, false] ∧
      inLongRun witnessEnv visitTokens 1 :=
  ⟨by decide, (detectProperNouns_spec witnessEnv visitTokens (by decide)).1, by decide,
    ⟨1, 3, by decide, by decide, by decide, by decide,
      by
        intro j h1 h2
        have : j = 1 ∨ j = 2 := by omega
        rcases this with h | h <;> subst h
        · exact ⟨_, rfl, by decide⟩
        · exact ⟨_, rfl, by decide⟩,
      by
        intro t _ ht
        have : t = visitTokens.get ⟨0, by decide⟩ := by
          simp only [Nat.sub_self] at ht
          exact (Option.some.inj ht).symm
        subst this
        decide,
      by
        intro t ht
        have : t = visitTokens.get ⟨3, by decide⟩ := (Option.some.inj ht).symm
        subst this
        decide⟩⟩

theorem runes_of_ascii (s : GoString) (ha : ∀ b ∈ s, b < 128) : runes s = s := by
  unfold runes runeChunks
  rw [runeChunksAux_of_ascii _ s (le_refl _) ha, List.map_map]
  exact List.map_id _

theorem fieldsLoop_bytes (chunks : List (Nat × GoString)) :
    ∀ (cur : Option GoString) (f : GoString), f ∈ fieldsLoop chunks cur → ∀ b ∈ f,
      (∃ c, cur = some c ∧ b ∈ c) ∨ ∃ ch ∈ chunks, b ∈ ch.2 := by
  induction chunks with
  | nil =>
    intro cur f hf b hb
    cases cur with
    | none => simp [fieldsLoop] at hf
    | some c =>
      simp only [fieldsLoop, List.mem_singleton] at hf
      subst hf
      exact Or.inl ⟨f, rfl, hb⟩
  | cons ch rest ih =>
    intro cur f hf b hb
    obtain ⟨r, bs⟩ := ch
    cases cur with
    | none =>
      rw [fieldsLoop] at hf
      split_ifs at hf
      · rcases ih none f hf b hb with ⟨c, h1, _⟩ | ⟨x, hx, hbx⟩
        · cases h1
        · exact Or.inr ⟨x, List.mem_cons_of_mem _ hx, hbx⟩
      · rcases ih (some bs) f hf b hb with ⟨c, h1, h2⟩ | ⟨x, hx, hbx⟩
        · cases h1
          exact Or.inr ⟨(r, bs), List.mem_cons_self _ _, h2⟩
        · exact Or.inr ⟨x, List.mem_cons_of_mem _ hx, hbx⟩
    | some c =>
      rw [fieldsLoop] at hf
      split_ifs at hf
      · rcases List.mem_cons.mp hf with h | h
        · subst h
          exact Or.inl ⟨f, rfl, hb⟩
        · rcases ih none f h b hb with ⟨c2, h1, _⟩ | ⟨x, hx, hbx⟩
          · cases h1
          · exact Or.inr ⟨x, List.mem_cons_of_mem _ hx, hbx⟩
      · rcases ih (some (c ++ bs)) f hf b hb with ⟨c2, h1, h2⟩ | ⟨x, hx, hbx⟩
        · cases h1
          rcases List.mem_append.mp h2 with h3 | h3
          · exact Or.inl ⟨c, rfl, h3⟩
          · exact Or.inr ⟨(r, bs), List.mem_cons_self _ _, h3⟩
        · exact Or.inr ⟨x, List.mem_cons_of_mem _ hx, hbx⟩

theorem Fields_ascii_bytes (s : GoString) (ha : ∀ b ∈ s, b < 128) (f : GoString)
    (hf : f ∈ Fields s) : ∀ b ∈ f, b < 128 := by
  intro b hb
  rw [Fields_of_ascii s ha] at hf
  rcases fieldsLoop_bytes _ none f hf b hb with ⟨c, h1, _⟩ | ⟨x, hx, hbx⟩
  · cases h1
  · obtain ⟨y, hy, rfl⟩ := List.mem_map.mp hx
    simp only [List.mem_singleton] at hbx
    rw [hbx]
    exact ha y hy

theorem normalizeAndFilterASCII_ascii (text : GoString) :
    ∀ b ∈ normalizeAndFilterASCII text, b < 128 := by
  intro b hb
  unfold normalizeAndFilterASCII at hb
  have := (List.mem_filter.mp hb).2
  simpa using this

theorem chain_same_class (p : Nat → Bool) :
    ∀ (a : Nat) (l : List Nat), List.Chain (fun x y => (p x == p y) = true) a l →
      ∀ b ∈ l, p b = p a := by
  intro a l
  induction l generalizing a with
  | nil => intro _ b hb; simp at hb
  | cons c rest ih =>
    intro h b hb
    rw [List.chain_cons] at h
    have hc : p c = p a := by
      have := h.1
      simp only [beq_iff_eq] at this
      exact this.symm
    rcases List.mem_cons.mp hb with h1 | h1
    · rw [h1]; exact hc
    · rw [ih c h.2 b h1]; exact hc

theorem splitSegments_props (raw seg : GoString) (h : seg ∈ splitSegments raw) :
    seg ≠ [] ∧ (∀ b ∈ seg, b ∈ raw) ∧ ∀ b ∈ seg, isWordByte b = isWordByte (seg.headD 0) := by
  unfold splitSegments at h
  refine ⟨List.ne_nil_of_mem_splitBy _ h, ?_, ?_⟩
  · intro b hb
    have := List.flatten_splitBy (fun a b => isWordByte a == isWordByte b) raw
    rw [← this]
    exact List.mem_flatten.mpr ⟨seg, h, hb⟩
  · have hc := List.chain'_of_mem_splitBy h
    cases seg with
    | nil => intro b hb; simp at hb
    | cons a rest =>
      intro b hb
      rcases List.mem_cons.mp hb with h1 | h1
      · rw [h1]; rfl
      · exact chain_same_class isWordByte a rest hc b h1

theorem handleContraction_ascii (env : Env) (word : GoString) (ha : ∀ b ∈ word, b < 128) :
    ∀ b ∈ handleContraction env word, b < 128 := by
  have c1 : ∀ b ∈ ascii "will", b < 128 := by
    intro b hb
    have e : ascii "will" = [119, 105, 108, 108] := rfl
    rw [e] at hb
    simp only [List.mem_cons, List.mem_singleton, List.not_mem_nil, or_false] at hb
    omega
  have c2 : ∀ b ∈ ascii "can", b < 128 := by
    intro b hb
    have e : ascii "can" = [99, 97, 110] := rfl
    rw [e] at hb
    simp only [List.mem_cons, List.mem_singleton, List.not_mem_nil, or_false] at hb
    omega
  have c3 : ∀ b ∈ ascii "shall", b < 128 := by
    intro b hb
    have e : ascii "shall" = [115, 104, 97, 108, 108] := rfl
    rw [e] at hb
    simp only [List.mem_cons, List.mem_singleton, List.not_mem_nil, or_false] at hb
    omega
  have ht : ∀ n, ∀ b ∈ word.take n, b < 128 := fun n b hb => ha b (List.mem_of_mem_take hb)
  unfold handleContraction
  dsimp only
  by_cases h1 : ToLower env word = ascii "won't"
  · rw [if_pos h1]; exact c1
  rw [if_neg h1]
  by_cases h2 : ToLower env word = ascii "can't"
  · rw [if_pos h2]; exact c2
  rw [if_neg h2]
  by_cases h3 : ToLower env word = ascii "shan't"
  · rw [if_pos h3]; exact c3
  rw [if_neg h3]
  split
  · exact ht _
  split
  · exact ht _
  split
  · exact ht _
  split
  · exact ht _
  split
  · exact ht _
  split
  · exact ht _
  split
  · exact ht _
  exact ha

theorem splitOnP_bytes (p : Nat → Bool) (l : GoString) :
    ∀ part ∈ l.splitOnP p, ∀ b ∈ part, b ∈ l := by
  induction l with
  | nil =>
    intro part hp b hb
    rw [List.splitOnP_nil] at hp
    rw [List.mem_singleton.mp hp] at hb
    exact hb
  | cons x xs ih =>
    intro part hp b hb
    rw [List.splitOnP_cons] at hp
    split_ifs at hp
    · rcases List.mem_cons.mp hp with h | h
      · rw [h] at hb; simp at hb
      · exact List.mem_cons_of_mem _ (ih part h b hb)
    · cases hs : xs.splitOnP p with
      | nil =>
        rw [hs] at hp
        simp at hp
      | cons q qs =>
        rw [hs] at hp ih
        simp only [List.modifyHead_cons, List.mem_cons] at hp
        rcases hp with h | h
        · rw [h] at hb
          rcases List.mem_cons.mp hb with h2 | h2
          · rw [h2]; exact List.mem_cons_self _ _
          · exact List.mem_cons_of_mem _ (ih q (List.mem_cons_self _ _) b h2)
        · exact List.mem_cons_of_mem _ (ih part (List.mem_cons_of_mem _ h) b hb)

theorem splitHyphens_bytes (word part : GoString) (h : part ∈ splitHyphens word) :
    ∀ b ∈ part, b ∈ word := by
  unfold splitHyphens at h
  split_ifs at h
  · rw [List.mem_singleton.mp h]
    exact fun b hb => hb
  · exact splitOnP_bytes _ word part (List.mem_filter.mp h).1

theorem trimByte_bytes (c : Nat) (s : GoString) : ∀ b ∈ trimByte c s, b ∈ s := by
  intro b hb
  unfold trimByte at hb
  have h1 := List.mem_reverse.mp hb
  have h2 := (List.dropWhile_sublist _).subset h1
  have h3 := List.mem_reverse.mp h2
  exact (List.dropWhile_sublist _).subset h3

theorem hasLetter_nonword (env : Env) (s : GoString) (ha : ∀ b ∈ s, b < 128)
    (hw : ∀ b ∈ s, isWordByte b = false) : hasLetter env s = false ∧ ToLower env s = s := by
  constructor
  · unfold hasLetter
    rw [runes_of_ascii s ha, List.any_eq_false]
    intro b hb
    have h1 := ha b hb
    have h2 := hw b hb
    unfold unicodeIsLetter
    rw [if_pos h1]
    unfold isWordByte at h2
    unfold isASCIILetter
    simp only [Bool.or_eq_false_iff] at h2
    simp [h2.1.1.1.1, h2.1.1.1.2]
  · unfold ToLower
    have h0 : s.all (fun b => decide (b < 0x80)) = true := by
      rw [List.all_eq_true]
      intro b hb
      simpa using ha b hb
    rw [if_pos h0]
    have h3 : ∀ b ∈ s, asciiLower b = b := by
      intro b hb
      have h2 := hw b hb
      unfold isWordByte at h2
      simp only [Bool.or_eq_false_iff] at h2
      unfold asciiLower isASCIIUpper
      rw [if_neg]
      rw [h2.1.1.1.2]
      exact Bool.false_ne_true
    calc s.map asciiLower = s.map id := List.map_congr_left h3
      _ = s := List.map_id s

theorem processRawToken_wellFormed (env : Env) (raw : GoString) (ha : ∀ b ∈ raw, b < 128)
    (t : Token) (ht : t ∈ processRawToken env raw) :
    tokenWellFormed env t ∧ t.IsFirst = false ∧ t.IsStopword = false ∧ t.IsProper = false := by
  unfold processRawToken at ht
  obtain ⟨seg, hseg, hts⟩ := List.mem_flatMap.mp ht
  obtain ⟨hne, hsub, hcls⟩ := splitSegments_props raw seg hseg
  have hsa : ∀ b ∈ seg, b < 128 := fun b hb => ha b (hsub b hb)
  cases seg with
  | nil => exact absurd rfl hne
  | cons b0 rest =>
    dsimp only at hts
    split_ifs at hts with hw
    · rw [List.mem_singleton] at hts
      subst hts
      have hw2 : ∀ b ∈ b0 :: rest, isWordByte b = false := by
        intro b hb
        rw [hcls b hb]
        simpa using hw
      obtain ⟨g1, g2⟩ := hasLetter_nonword env (b0 :: rest) hsa hw2
      exact ⟨⟨hne, hsa, g2.symm, by simp [g1], fun _ => ⟨rfl, rfl, rfl⟩⟩, rfl, rfl, rfl⟩
    · unfold wordTokens at hts
      obtain ⟨part, hpart, hpt⟩ := List.mem_filterMap.mp hts
      dsimp only at hpt
      split_ifs at hpt with hp
      simp only [Option.some.injEq] at hpt
      subst hpt
      have hpa : ∀ b ∈ trimByte 39 part, b < 128 := by
        intro b hb
        exact handleContraction_ascii env _ hsa b
          (splitHyphens_bytes _ part hpart b (trimByte_bytes 39 part b hb))
      refine ⟨⟨hp, hpa, rfl, ?_, ?_⟩, rfl, rfl, rfl⟩
      · dsimp only
        cases hasLetter env (trimByte 39 part) <;> simp
      · intro _
        exact ⟨rfl, rfl, rfl⟩

theorem firstPosition_cons_filtered (t : Token) (rest : List Token) (i : Nat) (e : Bool)
    (hf : t.IsFiltered = true)
    (h : ((if isSentenceEnding t.Original then true else e) = true ∧
          ∀ j u, j < i → rest.get? j = some u → u.IsFiltered = true) ∨
        ∃ k u, k < i ∧ rest.get? k = some u ∧ u.IsFiltered = true ∧
          isSentenceEnding u.Original = true ∧
          ∀ j v, k < j → j < i → rest.get? j = some v → v.IsFiltered = true) :
    (e = true ∧ ∀ j u, j < i + 1 → (t :: rest).get? j = some u → u.IsFiltered = true) ∨
      ∃ k u, k < i + 1 ∧ (t :: rest).get? k = some u ∧ u.IsFiltered = true ∧
        isSentenceEnding u.Original = true ∧
        ∀ j v, k < j → j < i + 1 → (t :: rest).get? j = some v → v.IsFiltered = true := by
  have shift : ∀ j u, j < i + 1 → (∀ j u, j < i → rest.get? j = some u → u.IsFiltered = true) →
      (t :: rest).get? j = some u → u.IsFiltered = true := by
    intro j u hj hall hu
    cases j with
    | zero =>
      simp only [List.get?_cons_zero, Option.some.injEq] at hu
      rw [← hu]; exact hf
    | succ j => exact hall j u (by omega) hu
  rcases h with ⟨he, hall⟩ | ⟨k, u, hk, hu, h1, h2, h3⟩
  · by_cases hend : isSentenceEnding t.Original = true
    · right
      refine ⟨0, t, by omega, rfl, hf, hend, ?_⟩
      intro j v hj1 hj2 hv
      cases j with
      | zero => omega
      | succ j => exact hall j v (by omega) hv
    · left
      rw [if_neg hend] at he
      exact ⟨he, fun j u hj hu => shift j u hj hall hu⟩
  · right
    refine ⟨k + 1, u, by omega, hu, h1, h2, ?_⟩
    intro j v hj1 hj2 hv
    cases j with
    | zero => omega
    | succ j => exact h3 j v (by omega) (by omega) hv

theorem firstPosition_cons_word (t : Token) (rest : List Token) (i : Nat)
    (h : ((false = true) ∧ ∀ j u, j < i → rest.get? j = some u → u.IsFiltered = true) ∨
      ∃ k u, k < i ∧ rest.get? k = some u ∧ u.IsFiltered = true ∧
        isSentenceEnding u.Original = true ∧
        ∀ j v, k < j → j < i → rest.get? j = some v → v.IsFiltered = true) :
    ∃ k u, k < i + 1 ∧ (t :: rest).get? k = some u ∧ u.IsFiltered = true ∧
      isSentenceEnding u.Original = true ∧
      ∀ j v, k < j → j < i + 1 → (t :: rest).get? j = some v → v.IsFiltered = true := by
  rcases h with ⟨he, _⟩ | ⟨k, u, hk, hu, h1, h2, h3⟩
  · exact absurd he Bool.false_ne_true
  · refine ⟨k + 1, u, by omega, hu, h1, h2, ?_⟩
    intro j v hj1 hj2 hv
    cases j with
    | zero => omega
    | succ j => exact h3 j v (by omega) (by omega) hv

theorem markSentenceFirstLoop_get (L : List Token) (h0 : ∀ t ∈ L, t.IsFirst = false) :
    ∀ (e : Bool) (i : Nat) (t : Token), L.get? i = some t →
      ∃ r, (markSentenceFirstLoop e L).get? i = some r ∧
        r.Original = t.Original ∧ r.Lower = t.Lower ∧ r.IsFiltered = t.IsFiltered ∧
        r.IsStopword = t.IsStopword ∧ r.IsProper = t.IsProper ∧
        (t.IsFiltered = true → r.IsFirst = false) ∧
        (r.IsFirst = true →
          (e = true ∧ ∀ j u, j < i → L.get? j = some u → u.IsFiltered = true) ∨
            ∃ k u, k < i ∧ L.get? k = some u ∧ u.IsFiltered = true ∧
              isSentenceEnding u.Original = true ∧
              ∀ j v, k < j → j < i → L.get? j = some v → v.IsFiltered = true) := by
  induction L with
  | nil => intro e i t ht; simp at ht
  | cons t0 rest ih =>
    have h0r : ∀ t ∈ rest, t.IsFirst = false := fun t ht => h0 t (List.mem_cons_of_mem _ ht)
    have h00 : t0.IsFirst = false := h0 t0 (List.mem_cons_self _ _)
    intro e i t ht
    rw [markSentenceFirstLoop]
    by_cases hf : t0.IsFiltered = true
    · rw [if_pos hf]
      cases i with
      | zero =>
        simp only [List.get?_cons_zero, Option.some.injEq] at ht
        subst ht
        refine ⟨t0, rfl, rfl, rfl, rfl, rfl, rfl, fun _ => h00, ?_⟩
        intro hr
        rw [h00] at hr
        exact absurd hr Bool.false_ne_true
      | succ i =>
        obtain ⟨r, g1, g2, g3, g4, g5, g6, g7, g8⟩ :=
          ih h0r (if isSentenceEnding t0.Original then true else e) i t ht
        refine ⟨r, g1, g2, g3, g4, g5, g6, g7, ?_⟩
        intro hr
        exact firstPosition_cons_filtered t0 rest i e hf (g8 hr)
    · rw [if_neg hf]
      by_cases he : e = true
      · rw [if_pos he]
        cases i with
        | zero =>
          simp only [List.get?_cons_zero, Option.some.injEq] at ht
          subst ht
          refine ⟨_, rfl, rfl, rfl, rfl, rfl, rfl, fun h => absurd h hf, ?_⟩
          intro _
          exact Or.inl ⟨he, fun j u hj _ => absurd hj (Nat.not_lt_zero j)⟩
        | succ i =>
          obtain ⟨r, g1, g2, g3, g4, g5, g6, g7, g8⟩ := ih h0r false i t ht
          refine ⟨r, g1, g2, g3, g4, g5, g6, g7, ?_⟩
          intro hr
          exact Or.inr (firstPosition_cons_word t0 rest i (g8 hr))
      · rw [if_neg he]
        have he2 : e = false := by simpa using he
        cases i with
        | zero =>
          simp only [List.get?_cons_zero, Option.some.injEq] at ht
          subst ht
          refine ⟨t0, rfl, rfl, rfl, rfl, rfl, rfl, fun _ => h00, ?_⟩
          intro hr
          rw [h00] at hr
          exact absurd hr Bool.false_ne_true
        | succ i =>
          subst he2
          obtain ⟨r, g1, g2, g3, g4, g5, g6, g7, g8⟩ := ih h0r false i t ht
          refine ⟨r, g1, g2, g3, g4, g5, g6, g7, ?_⟩
          intro hr
          exact Or.inr (firstPosition_cons_word t0 rest i (g8 hr))

theorem markSentenceFirstLoop_length (L : List Token) :
    ∀ e, (markSentenceFirstLoop e L).length = L.length := by
  induction L with
  | nil => intro e; rfl
  | cons t rest ih =>
    intro e
    rw [markSentenceFirstLoop]
    split_ifs <;> simp [ih]

/-- The stopword step and the first pass of detectProperNouns on one token. -/
theorem stopword_pass1_fields (env : Env) (t : Token) :
    let r := properPass1 env
      (if !t.IsFiltered then { t with IsStopword := env.stopwords t.Lower } else t)
    r.Original = t.Original ∧ r.Lower = t.Lower ∧ r.IsFiltered = t.IsFiltered ∧
      r.IsFirst = t.IsFirst ∧
      (t.IsFiltered = true → r.IsStopword = t.IsStopword ∧ r.IsProper = t.IsProper) := by
  intro r
  obtain ⟨f1, f2, f3, f4, f5⟩ := properPass1_fields env
    (if !t.IsFiltered then { t with IsStopword := env.stopwords t.Lower } else t)
  cases hf : t.IsFiltered
  · refine ⟨?_, ?_, ?_, ?_, ?_⟩
    · show r.Original = _
      rw [f1, hf]; rfl
    · show r.Lower = _
      rw [f2, hf]; rfl
    · show r.IsFiltered = _
      rw [f5, hf]; simp [hf]
    · show r.IsFirst = _
      rw [f3, hf]; rfl
    · intro h; exact absurd h Bool.false_ne_true
  · have e : (if !t.IsFiltered then { t with IsStopword := env.stopwords t.Lower } else t) = t := by
      rw [hf]; rfl
    have hr : r = properPass1 env t := by
      show properPass1 env _ = _
      rw [e]
    have hp : properPass1 env t = t := by
      unfold properPass1
      rw [hf]; rfl
    rw [hr, hp]
    exact ⟨rfl, rfl, hf, rfl, fun _ => ⟨rfl, rfl⟩⟩

theorem tokenize_eq (env : Env) (text : GoString) :
    tokenize env text =
      (markSentenceFirstLoop true
        ((Fields (normalizeAndFilterASCII text)).flatMap (processRawToken env))).map
        (fun t => properPass1 env
          (if !t.IsFiltered then { t with IsStopword := env.stopwords t.Lower } else t)) := by
  unfold tokenize
  dsimp only
  rw [detectProperNouns_eq_pass1]
  unfold markStopwords markSentenceFirst
  rw [List.map_map]
  rfl

theorem tokenize_get (env : Env) (text : GoString) (i : Nat) (r : Token)
    (hr : (tokenize env text).get? i = some r) :
    ∃ t, ((Fields (normalizeAndFilterASCII text)).flatMap (processRawToken env)).get? i =
        some t ∧
      r.Original = t.Original ∧ r.Lower = t.Lower ∧ r.IsFiltered = t.IsFiltered ∧
      (t.IsFiltered = true → r.IsFirst = false ∧ r.IsStopword = false ∧ r.IsProper = false) ∧
      (r.IsFirst = true →
        (∀ j u, j < i →
          ((Fields (normalizeAndFilterASCII text)).flatMap (processRawToken env)).get? j =
            some u → u.IsFiltered = true) ∨
        ∃ k u, k < i ∧
          ((Fields (normalizeAndFilterASCII text)).flatMap (processRawToken env)).get? k =
            some u ∧ u.IsFiltered = true ∧ isSentenceEnding u.Original = true ∧
          ∀ j v, k < j → j < i →
            ((Fields (normalizeAndFilterASCII text)).flatMap (processRawToken env)).get? j =
              some v → v.IsFiltered = true) := by
  rw [tokenize_eq] at hr
  generalize hT : (Fields (normalizeAndFilterASCII text)).flatMap (processRawToken env) = T0
    at hr ⊢
  have hT0 : ∀ t ∈ T0, t.IsFirst = false ∧ t.IsStopword = false ∧ t.IsProper = false := by
    intro t ht
    rw [← hT] at ht
    obtain ⟨raw, hraw, htr⟩ := List.mem_flatMap.mp ht
    exact (processRawToken_wellFormed env raw
      (Fields_ascii_bytes _ (normalizeAndFilterASCII_ascii text) raw hraw) t htr).2
  rw [List.get?_map] at hr
  cases hm : (markSentenceFirstLoop true T0).get? i with
  | none => rw [hm] at hr; simp at hr
  | some m =>
    rw [hm] at hr
    simp only [Option.map_some', Option.some.injEq] at hr
    have hi : i < T0.length := by
      have := List.get?_eq_some.mp hm
      obtain ⟨h1, _⟩ := this
      rwa [markSentenceFirstLoop_length] at h1
    obtain ⟨r1, g1, g2, g3, g4, g5, g6, g7, g8⟩ :=
      markSentenceFirstLoop_get T0 (fun t ht => (hT0 t ht).1) true i (T0.get ⟨i, hi⟩)
        (List.get?_eq_get hi)
    rw [hm] at g1
    cases g1
    obtain ⟨s1, s2, s3, s4, s5⟩ := stopword_pass1_fields env m
    rw [hr] at s1 s2 s3 s4 s5
    have hz := hT0 (T0.get ⟨i, hi⟩) (List.get_mem T0 i hi)
    refine ⟨T0.get ⟨i, hi⟩, List.get?_eq_get hi, s1.trans g2, s2.trans g3, s3.trans g4, ?_, ?_⟩
    · intro hf
      have hmf : m.IsFiltered = true := g4.trans hf
      obtain ⟨q1, q2⟩ := s5 hmf
      exact ⟨s4.trans (g7 hf), q1.trans (g5.trans hz.2.1), q2.trans (g6.trans hz.2.2)⟩
    · intro hfirst
      rcases g8 (s4.symm.trans hfirst) with ⟨_, h⟩ | h
      · exact Or.inl h
      · exact Or.inr h

/-- C36: every token of tokenize has a non-empty Original of ASCII bytes, its
Lower is the lower-cased Original, it is filtered exactly when the Original
has no letter, a filtered token is never sentence-first, stopword or proper,
and a token marked sentence-first is non-filtered and is the first non-filtered
token or the first one after a filtered token containing '.', '!' or '?'. -/
theorem tokenize_invariants (env : Env) (text : GoString) :
    (∀ t ∈ tokenize env text, tokenWellFormed env t) ∧
      (∀ i t, (tokenize env text).get? i = some t → t.IsFirst = true →
        t.IsFiltered = false ∧ firstPosition (tokenize env text) i) ∧
      (tokenize witnessEnv (ascii "It is. Go on!")).map (fun t => (t.Original, t.IsFirst)) =
        [(ascii "It", true), (ascii "is", false), (ascii ".", false), (ascii "Go", true),
          (ascii "on", false), (ascii "!", false)] := by
  have back : ∀ j u, (tokenize env text).get? j = some u →
      ∃ u0, ((Fields (normalizeAndFilterASCII text)).flatMap (processRawToken env)).get? j =
          some u0 ∧ u.Original = u0.Original ∧ u.IsFiltered = u0.IsFiltered := by
    intro j u hu
    obtain ⟨u0, h1, h2, _, h4, _, _⟩ := tokenize_get env text j u hu
    exact ⟨u0, h1, h2, h4⟩
  refine ⟨?_, ?_, ?_⟩
  · intro t ht
    obtain ⟨i, hi⟩ := List.get?_of_mem ht
    obtain ⟨t0, h1, h2, h3, h4, h5, _⟩ := tokenize_get env text i t hi
    obtain ⟨raw, hraw, htr⟩ := List.mem_flatMap.mp (List.get?_mem h1)
    obtain ⟨⟨w1, w2, w3, w4, _⟩, _⟩ := processRawToken_wellFormed env raw
      (Fields_ascii_bytes _ (normalizeAndFilterASCII_ascii text) raw hraw) t0 htr
    refine ⟨?_, ?_, ?_, ?_, ?_⟩
    · rw [h2]; exact w1
    · rw [h2]; exact w2
    · rw [h2, h3]; exact w3
    · rw [h2, h4]; exact w4
    · intro hf
      exact h5 (h4.symm.trans hf)
  · intro i t hi hfirst
    obtain ⟨t0, h1, _, _, h4, h5, h6⟩ := tokenize_get env text i t hi
    have hlen : i < (tokenize env text).length := (List.get?_eq_some.mp hi).1
    constructor
    · cases hf : t.IsFiltered
      · rfl
      · have := (h5 (h4.symm.trans hf)).1
        rw [hfirst] at this
        exact absurd this (by decide)
    · rcases h6 hfirst with h | ⟨k, u0, hk, hu0, g1, g2, g3⟩
      · left
        intro j u hj hu
        obtain ⟨u0, e1, _, e3⟩ := back j u hu
        rw [e3]
        exact h j u0 hj e1
      · right
        have hk2 : k < (tokenize env text).length := by omega
        obtain ⟨u1, e1, e2, e3⟩ := back k _ (List.get?_eq_get hk2)
        rw [hu0] at e1
        cases e1
        refine ⟨k, (tokenize env text).get ⟨k, hk2⟩, hk, List.get?_eq_get hk2,
          e3.trans g1, by rw [e2]; exact g2, ?_⟩
        intro j v hj1 hj2 hv
        obtain ⟨v0, f1, _, f3⟩ := back j v hv
        rw [f3]
        exact g3 j v0 hj1 hj2 f1
  · decide

theorem splitLoop_mark_step (env : Env) (text : GoString) (fuel i : Nat) (q : Bool)
    (cur : GoString) (sents : List GoString) (hi : i < text.length)
    (hch : text.getD i 0 = 33 ∨ text.getD i 0 = 63) :
    splitLoop env text (fuel + 1) i q cur sents = afterSentenceEnd env text fuel i q cur sents := by
  rw [splitLoop, if_pos hi]
  unfold afterSentenceEnd
  dsimp only
  generalize text.getD i 0 = ch at hch ⊢
  have h34 : ch ≠ 34 := by rcases hch with h | h <;> rw [h] <;> decide
  have h46 : ch ≠ 46 := by rcases hch with h | h <;> rw [h] <;> decide
  have hor : (decide (ch = 46) || decide (ch = 33) || decide (ch = 63)) = true := by
    rcases hch with h | h <;> rw [h] <;> rfl
  have hd : decide (ch = 46) = false := decide_eq_false h46
  rw [if_neg h34, hd]
  simp only [Bool.false_and, Bool.false_eq_true, if_false]
  rw [hd] at hor
  rw [if_pos hor]

theorem splitLoop_dot_cases (env : Env) (text : GoString) (fuel i : Nat) (q : Bool)
    (cur : GoString) (sents : List GoString) (hi : i < text.length)
    (hdot : text.getD i 0 = 46) (hnoell : ellipsisAt text i = false) :
    splitLoop env text (fuel + 1) i q cur sents =
      if (sentenceIsAbbreviation env text i && !abbreviationEndsSentence env text i) ||
          (q && !followedBySpaceUppercase text i) then
        splitLoop env text fuel (i + 1) q (cur ++ [46]) sents
      else afterSentenceEnd env text fuel i q cur sents := by
  have hne : ¬ ((decide (text.getD i 0 = 46) && decide (i + 2 < text.length) &&
      decide (text.getD (i + 1) 0 = 46) && decide (text.getD (i + 2) 0 = 46)) = true) := by
    unfold ellipsisAt at hnoell
    rw [hnoell]
    exact Bool.false_ne_true
  rw [splitLoop, if_pos hi]
  dsimp only
  rw [if_neg (by rw [hdot]; decide), if_neg hne]
  unfold afterSentenceEnd
  dsimp only
  rw [hdot]
  generalize sentenceIsAbbreviation env text i = b1
  generalize abbreviationEndsSentence env text i = b2
  generalize followedBySpaceUppercase text i = b3
  cases b1 <;> cases b2 <;> cases q <;> cases b3 <;> rfl

/-- C32 (the claim fails): in the text "a! b" the exclamation mark stands inside
an open quotation and is followed by a space and a lower-case letter, and the
sentence still ends after it. -/
theorem quoted_exclamation_ends_sentence :
    quotedExclamation.getD 0 0 = 34 ∧ quotedExclamation.getD 2 0 = 33 ∧
      followedBySpaceUppercase quotedExclamation 2 = false ∧
      splitSentences bareEnv quotedExclamation = [[34, 97, 33], [98, 34]] := by
  decide

theorem drop_takeWhile_length {α : Type} (p : α → Bool) (l : List α) :
    l.drop (l.takeWhile p).length = l.dropWhile p := by
  induction l with
  | nil => rfl
  | cons a l ih =>
    rw [List.takeWhile_cons, List.dropWhile_cons]
    split_ifs
    · simpa using ih
    · rfl

theorem drop_skipWhile (p : Nat → Bool) (text : GoString) (j : Nat) :
    text.drop (skipWhile p text j) = (text.drop j).dropWhile p := by
  unfold skipWhile
  rw [← List.drop_drop, drop_takeWhile_length]

theorem drop_eq_nil_iff_le (text : GoString) (j : Nat) : text.drop j = [] ↔ j ≥ text.length :=
  List.drop_eq_nil_iff

theorem getD_eq_head_drop (text : GoString) (j c : Nat) (r : GoString)
    (h : text.drop j = c :: r) : text.getD j 0 = c := by
  have h1 : (text.drop j).getD 0 0 = c := by rw [h]; rfl
  rw [List.getD_eq_getElem?_getD, List.getElem?_drop] at h1
  rw [List.getD_eq_getElem?_getD]
  simpa using h1

theorem abbreviationEndsSentence_eq (env : Env) (text : GoString) (i : Nat) :
    abbreviationEndsSentence env text i =
      dotEndsAfter env (isTitleAbbreviation (abbreviationAtDot env text i))
        (text.drop (i + 1)) := by
  unfold abbreviationEndsSentence dotEndsAfter
  dsimp only
  have e1 := drop_skipWhile (fun c => decide (c = 34)) text (i + 1)
  generalize skipWhile (fun c => decide (c = 34)) text (i + 1) = j at e1 ⊢
  rw [← e1]
  cases ha : text.drop j with
  | nil =>
    have : j ≥ text.length := List.drop_eq_nil_iff.mp ha
    rw [if_pos this]
  | cons c r =>
    have hj : ¬ j ≥ text.length := by
      intro h
      rw [List.drop_eq_nil_iff.mpr h] at ha
      exact List.noConfusion ha
    have hc := getD_eq_head_drop text j c r ha
    rw [if_neg hj, hc]
    dsimp only
    by_cases hs : unicodeIsSpace c = true
    · have hns : ¬ ((!unicodeIsSpace c) = true) := by rw [hs]; decide
      rw [if_neg hns, if_neg hns]
      by_cases hnl : (decide (c = 10) || decide (c = 13)) = true
      · rw [if_pos hnl]
        have : ((c :: r).takeWhile unicodeIsSpace).any (fun c => decide (c = 10) || decide (c = 13)) =
            true := by
          rw [List.takeWhile_cons, if_pos hs, List.any_cons, hnl]
          rfl
        rw [if_pos this]
      · rw [if_neg hnl]
        by_cases hw : ((c :: r).takeWhile unicodeIsSpace).any
            (fun c => decide (c = 10) || decide (c = 13)) = true
        · rw [if_pos hw, if_pos hw]
        · rw [if_neg hw, if_neg hw]
          have e2 := drop_skipWhile (fun c => decide (c = 34)) text
            (j + ((c :: r).takeWhile unicodeIsSpace).length)
          have e3 : text.drop (j + ((c :: r).takeWhile unicodeIsSpace).length) =
              (c :: r).dropWhile unicodeIsSpace := by
            rw [← List.drop_drop, ha, drop_takeWhile_length]
          rw [e3] at e2
          generalize skipWhile (fun c => decide (c = 34)) text
            (j + ((c :: r).takeWhile unicodeIsSpace).length) = j2 at e2 ⊢
          rw [← e2]
          cases hb : text.drop j2 with
          | nil =>
            have : j2 ≥ text.length := List.drop_eq_nil_iff.mp hb
            rw [if_pos this]
          | cons b s =>
            have hj2 : ¬ j2 ≥ text.length := by
              intro h
              rw [List.drop_eq_nil_iff.mpr h] at hb
              exact List.noConfusion hb
            rw [if_neg hj2]
            dsimp only
            cases unicodeIsUpper env (decodeRune (b :: s)).1 <;> rfl
    · have hs2 : unicodeIsSpace c = false := by simpa using hs
      have hnn : ¬ ((decide (c = 10) || decide (c = 13)) = true) := by
        intro h
        simp only [Bool.or_eq_true, decide_eq_true_eq] at h
        rcases h with h | h <;> subst h <;> exact absurd hs2 (by decide)
      rw [if_neg hnn, hs2]
      rfl

theorem dotEndsAfter_false_iff (env : Env) (title : Bool) (after : GoString) :
    dotEndsAfter env title after = false ↔
      ((after.dropWhile (fun c => c = 34)) ≠ [] ∧
          unicodeIsSpace ((after.dropWhile (fun c => c = 34)).headD 0) = false) ∨
        ((after.dropWhile (fun c => c = 34)).takeWhile unicodeIsSpace ≠ [] ∧
          ((after.dropWhile (fun c => c = 34)).takeWhile unicodeIsSpace).any
            (fun c => c = 10 || c = 13) = false ∧
          ((after.dropWhile (fun c => c = 34)).dropWhile unicodeIsSpace).dropWhile
            (fun c => c = 34) ≠ [] ∧
          (unicodeIsUpper env (decodeRune
            (((after.dropWhile (fun c => c = 34)).dropWhile unicodeIsSpace).dropWhile
              (fun c => c = 34))).1 = false ∨ title = true)) := by
  unfold dotEndsAfter
  generalize after.dropWhile (fun c => decide (c = 34)) = a
  cases a with
  | nil => simp
  | cons c r =>
    dsimp only
    by_cases hs : unicodeIsSpace c = true
    · have hns : ¬ ((!unicodeIsSpace c) = true) := by rw [hs]; decide
      have hws : (c :: r).takeWhile unicodeIsSpace ≠ [] := by
        rw [List.takeWhile_cons, if_pos hs]
        exact List.cons_ne_nil _ _
      rw [if_neg hns]
      simp only [List.headD_cons, hs, Bool.true_eq_false, and_false, false_or, ne_eq, hws,
        not_false_eq_true, true_and]
      by_cases hw : ((c :: r).takeWhile unicodeIsSpace).any
          (fun c => decide (c = 10) || decide (c = 13)) = true
      · rw [if_pos hw, hw]
        simp
      · rw [if_neg hw]
        have hw2 : ((c :: r).takeWhile unicodeIsSpace).any
            (fun c => decide (c = 10) || decide (c = 13)) = false := by simpa using hw
        rw [hw2]
        simp only [true_and]
        generalize ((c :: r).dropWhile unicodeIsSpace).dropWhile (fun c => decide (c = 34)) = b
        cases b with
        | nil => simp
        | cons b0 s =>
          dsimp only
          cases unicodeIsUpper env (decodeRune (b0 :: s)).1 <;> cases title <;> simp
    · have hs2 : unicodeIsSpace c = false := by simpa using hs
      rw [hs2]
      simp [hs2]

/-- C33 (the claim fails): in the text "e.g." B the second dot ends the known
abbreviation e.g. and is directly followed by a character that is no white
space, the closing quote, and the sentence still ends there. -/
theorem abbreviation_dot_before_quote_ends :
    quotedAbbreviation.getD 4 0 = 46 ∧ sentenceIsAbbreviation witnessEnv quotedAbbreviation 4 = true ∧
      quotedAbbreviation.getD 5 0 = 34 ∧ unicodeIsSpace 34 = false ∧
      splitSentences witnessEnv quotedAbbreviation = [[34, 101, 46, 103, 46, 34], [66]] := by
  decide

theorem assessText_parts (env : Env) (text : GoString) (cfg : config)
    (hc : (tokenize env text).any isContent = true) :
    (assessText env text cfg).1.Score =
        clampScore ((assessText env text cfg).1.Vocab.Score * cfg.vocabWeight +
          (assessText env text cfg).1.Syntax.Score * cfg.syntaxWeight +
          (assessText env text cfg).1.Readability.Score * cfg.readabilityWeight) ∧
      (assessText env text cfg).1.Vocab = analyzeVocab env (tokenize env text) ∧
      (assessText env text cfg).1.Syntax =
        analyzeSyntax env (tokenize env text) (splitSentences env text) ∧
      ∃ w s syl c, (assessText env text cfg).1.Readability = analyzeReadability w s syl c := by
  unfold assessText
  simp only [hc, Bool.not_true, Bool.false_eq_true, if_false]
  exact ⟨trivial, trivial, trivial, _, _, _, _, rfl⟩

theorem fused_of_parts (cfg : config) (r : Result)
    (hv : 0 ≤ cfg.vocabWeight) (hs : 0 ≤ cfg.syntaxWeight) (hr : 0 ≤ cfg.readabilityWeight)
    (hsum : cfg.vocabWeight + cfg.syntaxWeight + cfg.readabilityWeight = 1)
    (e : r.Score = clampScore (r.Vocab.Score * cfg.vocabWeight +
      r.Syntax.Score * cfg.syntaxWeight + r.Readability.Score * cfg.readabilityWeight))
    (h1 : 1 ≤ r.Vocab.Score ∧ r.Vocab.Score ≤ 6)
    (h2 : 1 ≤ r.Syntax.Score ∧ r.Syntax.Score ≤ 6)
    (h3 : 1 ≤ r.Readability.Score ∧ r.Readability.Score ≤ 6) : fusedResult cfg r := by
  unfold fusedResult
  have lo : 1 ≤ r.Vocab.Score * cfg.vocabWeight + r.Syntax.Score * cfg.syntaxWeight +
      r.Readability.Score * cfg.readabilityWeight := by
    nlinarith [mul_nonneg hv (sub_nonneg.mpr h1.1), mul_nonneg hs (sub_nonneg.mpr h2.1),
      mul_nonneg hr (sub_nonneg.mpr h3.1)]
  have hi : r.Vocab.Score * cfg.vocabWeight + r.Syntax.Score * cfg.syntaxWeight +
      r.Readability.Score * cfg.readabilityWeight ≤ 6 := by
    nlinarith [mul_nonneg hv (sub_nonneg.mpr h1.2), mul_nonneg hs (sub_nonneg.mpr h2.2),
      mul_nonneg hr (sub_nonneg.mpr h3.2)]
  rw [clampScore_of_mem _ lo hi] at e
  rw [e]
  refine ⟨by ring, lo, hi⟩

theorem assessText_fused (env : Env) (text : GoString) (cfg : config)
    (hv : 0 ≤ cfg.vocabWeight) (hs : 0 ≤ cfg.syntaxWeight) (hr : 0 ≤ cfg.readabilityWeight)
    (hsum : cfg.vocabWeight + cfg.syntaxWeight + cfg.readabilityWeight = 1)
    (hok : (assessText env text cfg).2 = none) :
    fusedResult cfg (assessText env text cfg).1 := by
  have hc : (tokenize env text).any isContent = true := by
    cases h : (tokenize env text).any isContent
    · rw [assessText_fail env text cfg h] at hok
      exact absurd hok (by simp)
    · rfl
  obtain ⟨e, eV, eS, w, s, syl, c, eR⟩ := assessText_parts env text cfg hc
  have h1 := analyzeVocab_range env (tokenize env text)
  have h2 := analyzeSyntax_range env (tokenize env text) (splitSentences env text)
  have h3 := analyzeReadability_range w s syl c
  rw [← eV] at h1
  rw [← eS] at h2
  rw [← eR] at h3
  exact fused_of_parts cfg _ hv hs hr hsum e h1 h2 h3

theorem fused_sum (cfg : config) (results : List Result)
    (h : ∀ r ∈ results, fusedResult cfg r) :
    (results.map (fun r => r.Score)).sum =
        cfg.vocabWeight * (results.map (fun r => r.Vocab.Score)).sum +
          cfg.syntaxWeight * (results.map (fun r => r.Syntax.Score)).sum +
          cfg.readabilityWeight * (results.map (fun r => r.Readability.Score)).sum ∧
      (results.length : ℚ) ≤ (results.map (fun r => r.Score)).sum ∧
      (results.map (fun r => r.Score)).sum ≤ 6 * (results.length : ℚ) := by
  induction results with
  | nil => simp
  | cons r rest ih =>
    obtain ⟨i1, i2, i3⟩ := ih (fun x hx => h x (List.mem_cons_of_mem _ hx))
    obtain ⟨e, lo, hi⟩ := h r (List.mem_cons_self _ _)
    simp only [List.map_cons, List.sum_cons, List.length_cons, Nat.cast_add, Nat.cast_one]
    refine ⟨?_, by linarith, by linarith⟩
    rw [i1, e]
    ring

theorem merge_fused_score (cfg : config) (results : List Result) (hn : 2 ≤ results.length)
    (h : ∀ r ∈ results, fusedResult cfg r) :
    (mergeSampledResults results cfg).Score = mean (results.map (fun r => r.Score)) ∧
      clampScore (mean (results.map (fun r => r.Score))) =
        mean (results.map (fun r => r.Score)) ∧
      mean (results.map (fun r => r.Score)) =
        cfg.vocabWeight * mean (results.map (fun r => r.Vocab.Score)) +
          cfg.syntaxWeight * mean (results.map (fun r => r.Syntax.Score)) +
          cfg.readabilityWeight * mean (results.map (fun r => r.Readability.Score)) := by
  have h0 : ¬ results.length = 0 := by omega
  have h1 : ¬ results.length = 1 := by omega
  have hpos : (0 : ℚ) < (results.length : ℚ) := by
    have : 0 < results.length := by omega
    exact_mod_cast this
  obtain ⟨e, lo, hi⟩ := fused_sum cfg results h
  have hm : mean (results.map (fun r => r.Score)) =
      cfg.vocabWeight * ((results.map (fun r => r.Vocab.Score)).sum / (results.length : ℚ)) +
        cfg.syntaxWeight * ((results.map (fun r => r.Syntax.Score)).sum / (results.length : ℚ)) +
        cfg.readabilityWeight *
          ((results.map (fun r => r.Readability.Score)).sum / (results.length : ℚ)) := by
    unfold mean
    rw [List.length_map, e]
    field_simp
  have hlo : 1 ≤ mean (results.map (fun r => r.Score)) := by
    unfold mean
    rw [List.length_map, le_div_iff hpos]
    linarith
  have hhi : mean (results.map (fun r => r.Score)) ≤ 6 := by
    unfold mean
    rw [List.length_map, div_le_iff hpos]
    linarith
  refine ⟨?_, clampScore_of_mem _ hlo hhi, ?_⟩
  · unfold mergeSampledResults
    rw [if_neg h0, if_neg h1]
    dsimp only
    rw [← hm]
    exact clampScore_of_mem _ hlo hhi
  · rw [hm]
    unfold mean
    simp only [List.length_map]

/-- C39: for weights that are non-negative and sum to exactly 1, the merge of
the results of at least two successfully assessed segments has as Score the
arithmetic mean of the segment scores, which is the fusion of the mean
sub-scores; clamping takes no effect. -/
theorem mergeSampledResults_score_is_mean (env : Env) (cfg : config) (segs : List GoString)
    (hv : 0 ≤ cfg.vocabWeight) (hs : 0 ≤ cfg.syntaxWeight) (hr : 0 ≤ cfg.readabilityWeight)
    (hsum : cfg.vocabWeight + cfg.syntaxWeight + cfg.readabilityWeight = 1)
    (hn : 2 ≤ segs.length) (hok : ∀ s ∈ segs, (assessText env s cfg).2 = none) :
    (mergeSampledResults (segs.map (fun s => (assessText env s cfg).1)) cfg).Score =
        mean ((segs.map (fun s => (assessText env s cfg).1)).map (fun r => r.Score)) ∧
      clampScore
          (mean ((segs.map (fun s => (assessText env s cfg).1)).map (fun r => r.Score))) =
        mean ((segs.map (fun s => (assessText env s cfg).1)).map (fun r => r.Score)) ∧
      mean ((segs.map (fun s => (assessText env s cfg).1)).map (fun r => r.Score)) =
        cfg.vocabWeight *
            mean ((segs.map (fun s => (assessText env s cfg).1)).map (fun r => r.Vocab.Score)) +
          cfg.syntaxWeight *
            mean ((segs.map (fun s => (assessText env s cfg).1)).map
              (fun r => r.Syntax.Score)) +
          cfg.readabilityWeight *
            mean ((segs.map (fun s => (assessText env s cfg).1)).map
              (fun r => r.Readability.Score)) := by
  apply merge_fused_score cfg _ (by rw [List.length_map]; exact hn)
  intro r hr2
  obtain ⟨s, hs2, rfl⟩ := List.mem_map.mp hr2
  exact assessText_fused env s cfg hv hs hr hsum (hok s hs2)

theorem mergeSampledResults_score_is_mean_witness :
    (0 : ℚ) ≤ defaultConfig.vocabWeight ∧
      defaultConfig.vocabWeight + defaultConfig.syntaxWeight +
        defaultConfig.readabilityWeight = 1 ∧
      2 ≤ [ascii "The cat sat.", ascii "A study."].length ∧
      (mergeSampledResults
          ([ascii "The cat sat.", ascii "A study."].map
            (fun s => (assessText witnessEnv s defaultConfig).1)) defaultConfig).Score =
        mean (([ascii "The cat sat.", ascii "A study."].map
          (fun s => (assessText witnessEnv s defaultConfig).1)).map (fun r => r.Score)) :=
  ⟨by norm_num [defaultConfig], by norm_num [defaultConfig], by decide,
    (mergeSampledResults_score_is_mean witnessEnv defaultConfig
      [ascii "The cat sat.", ascii "A study."] (by norm_num [defaultConfig])
      (by norm_num [defaultConfig]) (by norm_num [defaultConfig])
      (by norm_num [defaultConfig]) (by decide)
      (by
        intro s hs
        simp only [List.mem_cons, List.mem_singleton, List.not_mem_nil, or_false] at hs
        rcases hs with h | h <;> subst h
        · exact (assessText_ok witnessEnv _ defaultConfig (by decide)).1
        · exact (assessText_ok witnessEnv _ defaultConfig (by decide)).1)).1⟩

theorem drop_eq_getD_cons (text : GoString) (i : Nat) (hi : i < text.length) :
    text.drop i = text.getD i 0 :: text.drop (i + 1) := by
  rw [List.drop_eq_getElem_cons hi, List.getD_eq_getElem?_getD, List.getElem?_eq_getElem hi]
  rfl

theorem getD_of_drop (text : GoString) (i : Nat) (l : GoString) (h : text.drop i = l) (k : Nat) :
    text.getD (i + k) 0 = l.getD k 0 := by
  rw [← h, List.getD_eq_getElem?_getD, List.getD_eq_getElem?_getD, List.getElem?_drop]

theorem ellipsisAt_iff (text : GoString) (i : Nat) :
    ellipsisAt text i = true ↔ [46, 46, 46] <+: text.drop i := by
  unfold ellipsisAt
  simp only [Bool.and_eq_true, decide_eq_true_eq]
  constructor
  · rintro ⟨⟨⟨h0, h1⟩, h2⟩, h3⟩
    have e0 := drop_eq_getD_cons text i (by omega)
    have e1 := drop_eq_getD_cons text (i + 1) (by omega)
    have e2 := drop_eq_getD_cons text (i + 2) (by omega)
    rw [h0] at e0
    rw [h2] at e1
    rw [h3] at e2
    refine ⟨text.drop (i + 3), ?_⟩
    rw [e0, e1, e2]
    rfl
  · rintro ⟨r, hr⟩
    have g0 := getD_of_drop text i _ hr.symm 0
    have g1 := getD_of_drop text i _ hr.symm 1
    have g2 := getD_of_drop text i _ hr.symm 2
    have hl : (text.drop i).length = 3 + r.length := by rw [← hr]; simp; omega
    rw [List.length_drop] at hl
    refine ⟨⟨⟨?_, by omega⟩, ?_⟩, ?_⟩
    · rw [Nat.add_zero] at g0; rw [g0]; rfl
    · rw [g1]; rfl
    · rw [g2]; rfl

theorem takeWhile_all {α : Type} (p : α → Bool) (l : List α) : ∀ x ∈ l.takeWhile p, p x = true :=
  fun _ hx => List.mem_takeWhile_imp hx

theorem drop_add (text : GoString) (a k : Nat) : text.drop (a + k) = (text.drop a).drop k := by
  rw [List.drop_drop]

theorem afterSentenceEnd_eq (env : Env) (text : GoString) (fuel i : Nat) (q : Bool)
    (cur : GoString) (sents : List GoString) (hi : i < text.length) :
    ∃ tail rest q2, text.drop i = text.getD i 0 :: tail ++ rest ∧
      (∀ c ∈ tail, c = 46 ∨ c = 33 ∨ c = 63 ∨ c = 34) ∧
      afterSentenceEnd env text fuel i q cur sents =
        splitLoop env text fuel (i + 1 + tail.length) q2 []
          (flushSentence (cur ++ text.getD i 0 :: tail) sents) := by
  unfold afterSentenceEnd
  dsimp only
  have e1 : text.drop (i + 1) =
      (text.drop (i + 1)).takeWhile (fun c => c = 33 || c = 63 || c = 46) ++
        text.drop (i + 1 + ((text.drop (i + 1)).takeWhile
          (fun c => c = 33 || c = 63 || c = 46)).length) := by
    rw [drop_add text (i + 1), drop_takeWhile_length, List.takeWhile_append_dropWhile]
  have hp : ∀ c ∈ (text.drop (i + 1)).takeWhile (fun c => c = 33 || c = 63 || c = 46),
      c = 46 ∨ c = 33 ∨ c = 63 ∨ c = 34 := by
    intro c hc
    have := takeWhile_all _ _ c hc
    simp only [Bool.or_eq_true, decide_eq_true_eq] at this
    rcases this with (h | h) | h
    · exact Or.inr (Or.inl h)
    · exact Or.inr (Or.inr (Or.inl h))
    · exact Or.inl h
  generalize (text.drop (i + 1)).takeWhile (fun c => c = 33 || c = 63 || c = 46) = punct
    at e1 hp ⊢
  have e2 : text.drop (i + 1 + punct.length) =
      (text.drop (i + 1 + punct.length)).takeWhile (fun c => c = 34) ++
        text.drop (i + 1 + punct.length + ((text.drop (i + 1 + punct.length)).takeWhile
          (fun c => c = 34)).length) := by
    rw [drop_add text (i + 1 + punct.length), drop_takeWhile_length,
      List.takeWhile_append_dropWhile]
  have hq : ∀ c ∈ (text.drop (i + 1 + punct.length)).takeWhile (fun c => c = 34),
      c = 46 ∨ c = 33 ∨ c = 63 ∨ c = 34 := by
    intro c hc
    have := takeWhile_all _ _ c hc
    simp only [decide_eq_true_eq] at this
    exact Or.inr (Or.inr (Or.inr this))
  generalize (text.drop (i + 1 + punct.length)).takeWhile (fun c => c = 34) = quotes
    at e2 hq ⊢
  refine ⟨punct ++ quotes, text.drop (i + 1 + punct.length + quotes.length),
    (if quotes.length % 2 = 1 then !q else q), ?_, ?_, ?_⟩
  · rw [drop_eq_getD_cons text i hi]
    conv_lhs => rw [e1, e2]
    simp
  · intro c hc
    rcases List.mem_append.mp hc with h | h
    · exact hp c h
    · exact hq c h
  · rw [List.length_append, ← Nat.add_assoc]
    have e3 : cur ++ [text.getD i 0] ++ punct ++ quotes =
        cur ++ text.getD i 0 :: (punct ++ quotes) := by simp
    rw [e3]

/-- An invariant rule for the loop of splitSentences: a property P of the
index, the builder and the sentences found that is kept when a byte is
appended to the builder and when a sentence is ended after a mark and the
marks and quotes taken with it, gives Q of the result when it gives Q at the
end of the text. -/
theorem splitLoop_rule (env : Env) (text : GoString)
    (P : Nat → GoString → List GoString → Prop) (Q : List GoString → Prop)
    (hchar : ∀ i cur sents c rest, P i cur sents → text.drop i = c :: rest →
      ¬ ([46, 46, 46] <+: c :: rest) → P (i + 1) (cur ++ [c]) sents)
    (hflush : ∀ i cur sents m tail rest, P i cur sents → text.drop i = m :: tail ++ rest →
      (m = 46 ∨ m = 33 ∨ m = 63) → (∀ c ∈ tail, c = 46 ∨ c = 33 ∨ c = 63 ∨ c = 34) →
      P (i + 1 + tail.length) [] (flushSentence (cur ++ m :: tail) sents))
    (hfin : ∀ i cur sents, P i cur sents → text.drop i = [] → Q (flushSentence cur sents)) :
    ∀ fuel i q cur sents, P i cur sents → text.length < fuel + i →
      Q (splitLoop env text fuel i q cur sents) := by
  intro fuel
  induction fuel with
  | zero =>
    intro i q cur sents hP hf
    rw [splitLoop]
    exact hfin i cur sents hP (List.drop_eq_nil_iff.mpr (by omega))
  | succ fuel ih =>
    intro i q cur sents hP hf
    by_cases hi : i < text.length
    · have hd := drop_eq_getD_cons text i hi
      have hend : (text.getD i 0 = 46 ∨ text.getD i 0 = 33 ∨ text.getD i 0 = 63) →
          Q (afterSentenceEnd env text fuel i q cur sents) := by
        intro hm
        obtain ⟨tail, rest, q2, e1, e2, e3⟩ := afterSentenceEnd_eq env text fuel i q cur sents hi
        rw [e3]
        exact ih _ _ _ _ (hflush i cur sents _ tail rest hP e1 hm e2) (by omega)
      by_cases h46 : text.getD i 0 = 46
      · by_cases hel : ellipsisAt text i = true
        · obtain ⟨r, hr⟩ := (ellipsisAt_iff text i).mp hel
          have hstep : splitLoop env text (fuel + 1) i q cur sents =
              splitLoop env text fuel (i + 3) q [] (flushSentence (cur ++ [46, 46, 46]) sents) := by
            rw [splitLoop, if_pos hi]
            dsimp only
            unfold ellipsisAt at hel
            rw [if_neg (by rw [h46]; decide), if_pos hel]
          rw [hstep]
          have := hflush i cur sents 46 [46, 46] r hP hr.symm (Or.inl rfl)
            (by
              intro c hc
              simp only [List.mem_cons, List.mem_singleton, List.not_mem_nil, or_false,
                or_self] at hc
              exact Or.inl hc)
          have this2 : P (i + 3) [] (flushSentence (cur ++ [46, 46, 46]) sents) := this
          exact ih _ _ _ _ this2 (by omega)
        · have hel2 : ellipsisAt text i = false := by simpa using hel
          have hnp : ¬ ([46, 46, 46] <+: text.getD i 0 :: text.drop (i + 1)) := by
            rw [← hd]
            exact fun h => hel ((ellipsisAt_iff text i).mpr h)
          rw [splitLoop_dot_cases env text fuel i q cur sents hi h46 hel2]
          split_ifs
          · have := hchar i cur sents _ _ hP hd hnp
            rw [h46] at this
            exact ih _ _ _ _ this (by omega)
          · exact hend (Or.inl h46)
      · have hnp : ¬ ([46, 46, 46] <+: text.getD i 0 :: text.drop (i + 1)) := by
          rintro ⟨r, hr⟩
          exact h46 (List.cons.inj hr).1.symm
        by_cases hm : text.getD i 0 = 33 ∨ text.getD i 0 = 63
        · rw [splitLoop_mark_step env text fuel i q cur sents hi hm]
          exact hend (Or.inr hm)
        · have hstep : splitLoop env text (fuel + 1) i q cur sents =
              splitLoop env text fuel (i + 1) (if text.getD i 0 = 34 then !q else q)
                (cur ++ [text.getD i 0]) sents := by
            rw [splitLoop, if_pos hi]
            dsimp only
            have h33 : text.getD i 0 ≠ 33 := fun h => hm (Or.inl h)
            have h63 : text.getD i 0 ≠ 63 := fun h => hm (Or.inr h)
            generalize text.getD i 0 = ch at h46 h33 h63 ⊢
            by_cases h34 : ch = 34
            · rw [if_pos h34, if_pos h34]
            · rw [if_neg h34, if_neg h34, decide_eq_false h46, decide_eq_false h33,
                decide_eq_false h63]
              simp only [Bool.false_and, Bool.or_self, Bool.false_eq_true, if_false]
          rw [hstep]
          exact ih _ _ _ _ (hchar i cur sents _ _ hP hd hnp) (by omega)
    · rw [splitLoop]
      cases fuel <;> simp only [hi, if_false] <;>
        exact hfin i cur sents hP (List.drop_eq_nil_iff.mpr (by omega))

theorem trimLeftSpaceAux_drop (fuel : Nat) :
    ∀ s : GoString, ∃ m, trimLeftSpaceAux fuel s = s.drop m := by
  induction fuel with
  | zero => intro s; exact ⟨0, rfl⟩
  | succ n ih =>
    intro s
    unfold trimLeftSpaceAux
    dsimp only
    split_ifs
    · obtain ⟨m, hm⟩ := ih (s.drop (decodeRune s).2)
      exact ⟨(decodeRune s).2 + m, by rw [hm, List.drop_drop]⟩
    · exact ⟨0, rfl⟩

theorem TrimSpace_infix (s : GoString) : ∃ l r, s = l ++ TrimSpace s ++ r := by
  unfold TrimSpace
  dsimp only
  obtain ⟨m, hm⟩ := trimLeftSpaceAux_drop s.length s
  obtain ⟨k, hk⟩ := trimRightSpaceAux_take (trimLeftSpaceAux s.length s).length
    (trimLeftSpaceAux s.length s)
  rw [hk, hm]
  refine ⟨s.take m, (s.drop m).drop k, ?_⟩
  rw [List.append_assoc, List.take_append_drop, List.take_append_drop]

theorem endsAfterEllipsis_TrimSpace (b : GoString) (h : endsAfterEllipsis b) :
    endsAfterEllipsis (TrimSpace b) := by
  obtain ⟨l, r, hb⟩ := TrimSpace_infix b
  intro pre post hs c hc
  apply h (l ++ pre) (post ++ r) _ c (List.mem_append_left _ hc)
  rw [hb, hs]
  simp

theorem endsAfterEllipsis_flush (cur tail rest : GoString)
    (h : noEllipsisStart cur (tail ++ rest))
    (ht : ∀ c ∈ tail, c = 46 ∨ c = 33 ∨ c = 63 ∨ c = 34) : endsAfterEllipsis (cur ++ tail) := by
  intro pre post hs c hc
  rw [List.append_assoc] at hs
  rcases List.append_eq_append_iff.mp hs with ⟨a, h1, h2⟩ | ⟨b, h1, h2⟩
  · exact ht c (by rw [h2]; simp [hc])
  · by_cases hb : b = []
    · subst hb
      rw [List.nil_append] at h2
      exact ht c (by rw [← h2]; simp [hc])
    · exfalso
      apply h pre b h1 hb
      refine ⟨post ++ rest, ?_⟩
      rw [← List.append_assoc b, ← h2, List.append_assoc]

theorem noEllipsisStart_nil (rest : GoString) : noEllipsisStart [] rest := by
  intro a b h hb
  have := List.append_eq_nil.mp h.symm
  exact absurd this.2 hb

theorem noEllipsisStart_snoc (cur rest : GoString) (c : Nat)
    (h : noEllipsisStart cur (c :: rest)) (hc : ¬ ([46, 46, 46] <+: c :: rest)) :
    noEllipsisStart (cur ++ [c]) rest := by
  intro a b hab hb
  rcases List.eq_nil_or_concat b with h0 | ⟨b1, x, h0⟩
  · exact absurd h0 hb
  · subst h0
    rw [List.concat_eq_append, ← List.append_assoc] at hab
    obtain ⟨e1, e2⟩ := List.append_inj' hab rfl
    have ex : x = c := (List.cons.inj e2).1.symm
    subst ex
    rw [List.concat_eq_append, List.append_assoc]
    by_cases hb1 : b1 = []
    · subst hb1
      exact hc
    · exact h a b1 e1 hb1

theorem flushSentence_endsAfterEllipsis (cur : GoString) (sents : List GoString)
    (hs : ∀ s ∈ sents, endsAfterEllipsis s) (hc : endsAfterEllipsis cur) :
    ∀ s ∈ flushSentence cur sents, endsAfterEllipsis s := by
  intro s hmem
  unfold flushSentence at hmem
  dsimp only at hmem
  split_ifs at hmem
  · rcases List.mem_append.mp hmem with h | h
    · exact hs s h
    · rw [List.mem_singleton.mp h]
      exact endsAfterEllipsis_TrimSpace cur hc
  · exact hs s hmem

theorem splitLoop_endsAfterEllipsis (env : Env) (text : GoString) :
    ∀ s ∈ splitLoop env text (text.length + 1) 0 false [] [], endsAfterEllipsis s := by
  apply splitLoop_rule env text
    (fun i cur sents => (∀ s ∈ sents, endsAfterEllipsis s) ∧ noEllipsisStart cur (text.drop i))
    (fun L => ∀ s ∈ L, endsAfterEllipsis s)
  · rintro i cur sents c rest ⟨h1, h2⟩ hd hnp
    refine ⟨h1, ?_⟩
    have : text.drop (i + 1) = rest := by rw [drop_add, hd]; rfl
    rw [this]
    rw [hd] at h2
    exact noEllipsisStart_snoc cur rest c h2 hnp
  · rintro i cur sents m tail rest ⟨h1, h2⟩ hd hm ht
    refine ⟨?_, noEllipsisStart_nil _⟩
    apply flushSentence_endsAfterEllipsis _ _ h1
    rw [hd] at h2
    apply endsAfterEllipsis_flush cur (m :: tail) rest h2
    intro c hc
    rcases List.mem_cons.mp hc with h | h
    · rw [h]
      rcases hm with h | h | h
      · exact Or.inl h
      · exact Or.inr (Or.inl h)
      · exact Or.inr (Or.inr (Or.inl h))
    · exact ht c h
  · rintro i cur sents ⟨h1, h2⟩ hd
    apply flushSentence_endsAfterEllipsis _ _ h1
    rw [hd] at h2
    have := endsAfterEllipsis_flush cur [] [] h2 (by simp)
    rwa [List.append_nil] at this
  · exact ⟨by simp, noEllipsisStart_nil _⟩
  · omega

/-- C34: three consecutive dots always end a sentence: at an ellipsis the scan
ends the sentence in either quotation state, and in every returned sentence
three dots are followed only by '.', '!', '?' or '"'; every returned sentence
is non-empty without white space at either end, and a blank text gives no
sentence. -/
theorem splitSentences_ellipsis (env : Env) (text : GoString) :
    (∀ s ∈ splitSentences env text, endsAfterEllipsis s ∧ trimmedNonempty s) ∧
      (∀ fuel i q cur sents, ellipsisAt text i = true →
        splitLoop env text (fuel + 1) i q cur sents =
          splitLoop env text fuel (i + 3) q [] (flushSentence (cur ++ [46, 46, 46]) sents)) ∧
      (TrimSpace text = [] → splitSentences env text = []) ∧
      splitSentences bareEnv (ascii "He said... and left.") =
        [ascii "He said...", ascii "and left."] := by
  refine ⟨?_, ?_, ?_, ?_⟩
  · intro s hs
    refine ⟨?_, splitSentences_trimmed env text s hs⟩
    unfold splitSentences at hs
    dsimp only at hs
    split_ifs at hs
    · simp at hs
    · exact splitLoop_endsAfterEllipsis env _ s hs
  · intro fuel i q cur sents hel
    have hi : i < text.length := by
      unfold ellipsisAt at hel
      simp only [Bool.and_eq_true, decide_eq_true_eq] at hel
      omega
    have h46 : text.getD i 0 = 46 := by
      unfold ellipsisAt at hel
      simp only [Bool.and_eq_true, decide_eq_true_eq] at hel
      exact hel.1.1.1
    rw [splitLoop, if_pos hi]
    dsimp only
    unfold ellipsisAt at hel
    rw [if_neg (by rw [h46]; decide), if_pos hel]
  · intro h
    unfold splitSentences
    dsimp only
    rw [if_pos h]
  · decide

theorem secondLo_ge (b0 : Nat) : 0x80 ≤ secondLo b0 := by
  unfold secondLo
  split_ifs <;> decide

theorem secondHi_le (b0 : Nat) : secondHi b0 ≤ 0xBF := by
  unfold secondHi
  split_ifs <;> decide

theorem not_second_of_break (b0 c : Nat) (hc : isCont c = false) :
    ¬ (secondLo b0 ≤ c ∧ c ≤ secondHi b0) := by
  have h1 := secondLo_ge b0
  have h2 := secondHi_le b0
  unfold isCont at hc
  simp only [Bool.and_eq_false_imp, decide_eq_true_eq, decide_eq_false_iff_not] at hc
  intro h
  exact hc (by omega) (by omega)

theorem decode2_append_break (b0 c : Nat) (hc : isCont c = false) (r y : GoString) :
    decode2 b0 (r ++ c :: y) = decode2 b0 r := by
  cases r with
  | nil => simp [decode2, hc]
  | cons b1 r => rfl

theorem decode3_append_break (b0 c : Nat) (hc : isCont c = false) (r y : GoString) :
    decode3 b0 (r ++ c :: y) = decode3 b0 r := by
  have hno := not_second_of_break b0 c hc
  match r with
  | [] =>
    cases y with
    | nil => simp [decode3]
    | cons d y =>
      simp only [List.nil_append, decode3]
      rw [if_neg]
      simp only [Bool.and_eq_true, decide_eq_true_eq]
      exact fun h => hno h.1
  | [b1] => simp [decode3, hc]
  | b1 :: b2 :: r => rfl

theorem decode4_append_break (b0 c : Nat) (hc : isCont c = false) (r y : GoString) :
    decode4 b0 (r ++ c :: y) = decode4 b0 r := by
  have hno := not_second_of_break b0 c hc
  match r with
  | [] =>
    match y with
    | [] => simp [decode4]
    | [_] => simp [decode4]
    | d :: e :: y =>
      simp only [List.nil_append, decode4]
      rw [if_neg]
      simp only [Bool.and_eq_true, decide_eq_true_eq]
      exact fun h => hno h.1.1
  | [b1] =>
    cases y with
    | nil => simp [decode4]
    | cons d y => simp [decode4, hc]
  | [b1, b2] => simp [decode4, hc]
  | b1 :: b2 :: b3 :: r => rfl

theorem decodeRune_append_break (a y : GoString) (c : Nat) (hc : isCont c = false)
    (ha : a ≠ []) : decodeRune (a ++ c :: y) = decodeRune a := by
  cases a with
  | nil => exact absurd rfl ha
  | cons b0 r =>
    simp only [List.cons_append, decodeRune, decode2_append_break b0 c hc,
      decode3_append_break b0 c hc, decode4_append_break b0 c hc]

theorem runeChunks_nil : runeChunks [] = [] := rfl

theorem runeChunks_append_break (n : Nat) (c : Nat) (hc : isCont c = false) :
    ∀ (a y : GoString), a.length ≤ n →
      runeChunks (a ++ c :: y) = runeChunks a ++ runeChunks (c :: y) := by
  induction n with
  | zero =>
    intro a y h
    have : a = [] := List.length_eq_zero.mp (Nat.le_zero.mp h)
    subst this
    rfl
  | succ n ih =>
    intro a y h
    cases a with
    | nil => rfl
    | cons b r =>
      have hd := decodeRune_append_break (b :: r) y c hc (by simp)
      have hw := decodeRune_width_pos b r
      have hle := decodeRune_width_le (b :: r)
      rw [List.cons_append] at hd
      rw [List.cons_append, runeChunks_cons, hd, runeChunks_cons b r]
      have e1 : (b :: (r ++ c :: y)).take (decodeRune (b :: r)).2 =
          (b :: r).take (decodeRune (b :: r)).2 := by
        rw [← List.cons_append, List.take_append_of_le_length hle]
      have e2 : (b :: (r ++ c :: y)).drop (decodeRune (b :: r)).2 =
          (b :: r).drop (decodeRune (b :: r)).2 ++ c :: y := by
        rw [← List.cons_append, List.drop_append_of_le_length hle]
      rw [e1, e2, ih _ y (by rw [List.length_drop]; simp only [List.length_cons] at h ⊢; omega)]
      rfl

theorem runeChunks_append_of_break (a b : GoString)
    (hb : b = [] ∨ isCont (b.headD 0) = false) :
    runeChunks (a ++ b) = runeChunks a ++ runeChunks b := by
  cases b with
  | nil => simp [runeChunks_nil]
  | cons c y =>
    rcases hb with h | h
    · exact absurd h (List.cons_ne_nil _ _)
    · exact runeChunks_append_break a.length c h a y (le_refl _)

theorem isCont_ascii (c : Nat) (h : c < 128) : isCont c = false := by
  unfold isCont
  simp only [Bool.and_eq_false_imp, decide_eq_true_eq, decide_eq_false_iff_not]
  intro h2
  omega

theorem runeChunks_single_ascii (c : Nat) (h : c < 128) : runeChunks [c] = [(c, [c])] := by
  rw [runeChunks_cons, decodeRune_head_ascii c [] h]
  rfl

theorem runeChunks_append_asciiEnd (a b : GoString) (ha : asciiEnd a) :
    runeChunks (a ++ b) = runeChunks a ++ runeChunks b := by
  rcases ha with h | ⟨a0, c, h, hc⟩
  · subst h; rfl
  · subst h
    have hb := isCont_ascii c hc
    rw [List.append_assoc, runeChunks_append_of_break a0 ([c] ++ b) (Or.inr hb),
      runeChunks_append_of_break a0 [c] (Or.inr hb), List.append_assoc]
    congr 1
    show runeChunks (c :: b) = _
    rw [runeChunks_cons, decodeRune_head_ascii c b hc, runeChunks_single_ascii c hc]
    rfl

theorem deleteSpace_append_asciiEnd (a b : GoString) (ha : asciiEnd a) :
    deleteSpace (a ++ b) = deleteSpace a ++ deleteSpace b := by
  unfold deleteSpace
  rw [runeChunks_append_asciiEnd a b ha, List.filter_append, List.flatMap_append]

theorem deleteSpace_nil : deleteSpace [] = [] := rfl

theorem deleteSpace_trimLeft (fuel : Nat) :
    ∀ s : GoString, deleteSpace (trimLeftSpaceAux fuel s) = deleteSpace s := by
  induction fuel with
  | zero => intro s; rfl
  | succ n ih =>
    intro s
    unfold trimLeftSpaceAux
    dsimp only
    split_ifs with h
    · rw [ih]
      simp only [Bool.and_eq_true, decide_eq_true_eq] at h
      cases s with
      | nil => simp [decodeRune] at h
      | cons b rest =>
        conv_rhs => rw [deleteSpace, runeChunks_cons]
        rw [List.filter_cons, if_neg (by simp [h.2])]
        rfl
    · rfl

theorem decodeLastRune_split (s : GoString)
    (h : (0 < (decodeLastRune s).2 && unicodeIsSpace (decodeLastRune s).1) = true) :
    runeChunks s = runeChunks (s.take (s.length - (decodeLastRune s).2)) ++
      [((decodeLastRune s).1, s.drop (s.length - (decodeLastRune s).2))] := by
  have hRE : unicodeIsSpace RuneError = false := by decide
  simp only [Bool.and_eq_true, decide_eq_true_eq] at h
  obtain ⟨hw, hsp⟩ := h
  unfold decodeLastRune at hw hsp ⊢
  dsimp only at hw hsp ⊢
  by_cases hn : s.length = 0
  · rw [if_pos hn] at hw
    exact absurd hw (by decide)
  · rw [if_neg hn] at hw hsp ⊢
    by_cases hlast : s.getD (s.length - 1) 0 < 0x80
    · rw [if_pos hlast] at hsp ⊢
      dsimp only
      have hd : s.drop (s.length - 1) = [s.getD (s.length - 1) 0] := by
        rw [drop_eq_getD_cons s (s.length - 1) (by omega)]
        have : s.length - 1 + 1 = s.length := by omega
        rw [this, List.drop_length]
      rw [hd]
      conv_lhs => rw [← List.take_append_drop (s.length - 1) s, hd]
      rw [runeChunks_append_of_break _ [s.getD (s.length - 1) 0]
          (Or.inr (isCont_ascii _ hlast)), runeChunks_single_ascii _ hlast]
    · rw [if_neg hlast] at hsp ⊢
      generalize hst : (if (decide (2 ≤ s.length) && !isCont (s.getD (s.length - 2) 0)) = true
        then some (s.length - 2)
        else if (decide (3 ≤ s.length) && !isCont (s.getD (s.length - 3) 0)) = true
          then some (s.length - 3)
          else if (decide (4 ≤ s.length) && !isCont (s.getD (s.length - 4) 0)) = true
            then some (s.length - 4) else none) = start at hsp ⊢
      cases start with
      | none =>
        dsimp only at hsp
        rw [hRE] at hsp
        exact absurd hsp Bool.false_ne_true
      | some st =>
        dsimp only at hsp ⊢
        have hstp : st < s.length ∧ isCont (s.getD st 0) = false := by
          split_ifs at hst with h2 h3 h4
          · simp only [Bool.and_eq_true, decide_eq_true_eq, Bool.not_eq_true'] at h2
            cases hst
            exact ⟨by omega, h2.2⟩
          · simp only [Bool.and_eq_true, decide_eq_true_eq, Bool.not_eq_true'] at h3
            cases hst
            exact ⟨by omega, h3.2⟩
          · simp only [Bool.and_eq_true, decide_eq_true_eq, Bool.not_eq_true'] at h4
            cases hst
            exact ⟨by omega, h4.2⟩
        by_cases hfull : st + (decodeRune (s.drop st)).2 = s.length
        · rw [if_pos hfull] at hsp ⊢
          have hlen : s.length - (decodeRune (s.drop st)).2 = st := by omega
          rw [hlen]
          have hd := drop_eq_getD_cons s st hstp.1
          conv_lhs => rw [← List.take_append_drop st s]
          rw [runeChunks_append_of_break _ _ (Or.inr (by rw [hd]; exact hstp.2))]
          congr 1
          rw [hd, runeChunks_cons, ← hd]
          have hw2 : (decodeRune (s.drop st)).2 = (s.drop st).length := by
            rw [List.length_drop]; omega
          rw [hw2, List.take_length, List.drop_length, runeChunks_nil]
        · rw [if_neg hfull] at hsp
          dsimp only at hsp
          rw [hRE] at hsp
          exact absurd hsp Bool.false_ne_true

theorem deleteSpace_trimRight (fuel : Nat) :
    ∀ s : GoString, deleteSpace (trimRightSpaceAux fuel s) = deleteSpace s := by
  induction fuel with
  | zero => intro s; rfl
  | succ n ih =>
    intro s
    unfold trimRightSpaceAux
    dsimp only
    split_ifs with h
    · rw [ih]
      have hs := decodeLastRune_split s h
      simp only [Bool.and_eq_true, decide_eq_true_eq] at h
      conv_rhs => rw [deleteSpace, hs]
      rw [List.filter_append, List.flatMap_append, List.filter_cons, if_neg (by simp [h.2])]
      simp [deleteSpace]
    · rfl

theorem deleteSpace_TrimSpace (s : GoString) : deleteSpace (TrimSpace s) = deleteSpace s := by
  unfold TrimSpace
  dsimp only
  rw [deleteSpace_trimRight, deleteSpace_trimLeft]

theorem trimLeft_keeps_last (c : Nat) (hc : c < 128) (hns : unicodeIsSpace c = false)
    (fuel : Nat) : ∀ b0 : GoString, ∃ t0, trimLeftSpaceAux fuel (b0 ++ [c]) = t0 ++ [c] := by
  induction fuel with
  | zero => intro b0; exact ⟨b0, rfl⟩
  | succ n ih =>
    intro b0
    unfold trimLeftSpaceAux
    dsimp only
    split_ifs with h
    · cases b0 with
      | nil =>
        exfalso
        rw [List.nil_append, decodeRune_head_ascii c [] hc] at h
        simp [hns] at h
      | cons b r =>
        have hd := decodeRune_append_break (b :: r) [] c (isCont_ascii c hc) (by simp)
        have hle := decodeRune_width_le (b :: r)
        rw [hd, List.drop_append_of_le_length hle]
        exact ih _
    · exact ⟨b0, rfl⟩

theorem noTrailSpace_ascii_last (t0 : GoString) (c : Nat) (hc : c < 128)
    (hns : unicodeIsSpace c = false) : noTrailSpace (t0 ++ [c]) := by
  unfold noTrailSpace decodeLastRune
  dsimp only
  have hl : (t0 ++ [c]).length ≠ 0 := by simp
  have hg : (t0 ++ [c]).getD ((t0 ++ [c]).length - 1) 0 = c := by
    have : (t0 ++ [c]).length - 1 = t0.length := by simp
    rw [this]
    exact getD_append_at t0 c []
  rw [if_neg hl, hg, if_pos hc]
  simp [hns]

theorem TrimSpace_keeps_last (b0 : GoString) (c : Nat) (hc : c < 128)
    (hns : unicodeIsSpace c = false) : ∃ t0, TrimSpace (b0 ++ [c]) = t0 ++ [c] := by
  unfold TrimSpace
  dsimp only
  obtain ⟨t0, ht⟩ := trimLeft_keeps_last c hc hns (b0 ++ [c]).length b0
  rw [ht, trimRightSpaceAux_fix _ _ (noTrailSpace_ascii_last t0 c hc hns)]
  exact ⟨t0, rfl⟩

theorem take_add_of_drop (text : GoString) (i : Nat) (pre rest : GoString)
    (h : text.drop i = pre ++ rest) : text.take (i + pre.length) = text.take i ++ pre := by
  by_cases hi : i ≤ text.length
  · have h1 : text = text.take i ++ (pre ++ rest) := by rw [← h, List.take_append_drop]
    have hl : (text.take i).length = i := by rw [List.length_take]; omega
    have h4 : i + pre.length = (text.take i ++ pre).length := by rw [List.length_append, hl]
    conv_lhs => rw [h1, ← List.append_assoc, h4, List.take_left]
  · have : text.drop i = [] := List.drop_eq_nil_iff.mpr (by omega)
    rw [this] at h
    have h2 := List.append_eq_nil.mp h.symm
    rw [h2.1, List.length_nil, Nat.add_zero, List.append_nil]

theorem mark_last (m : Nat) (tail : GoString) (hm : m = 46 ∨ m = 33 ∨ m = 63)
    (ht : ∀ c ∈ tail, c = 46 ∨ c = 33 ∨ c = 63 ∨ c = 34) :
    ∃ x z, m :: tail = x ++ [z] ∧ z < 128 ∧ unicodeIsSpace z = false := by
  have hall : ∀ c ∈ m :: tail, c = 46 ∨ c = 33 ∨ c = 63 ∨ c = 34 := by
    intro c hc
    rcases List.mem_cons.mp hc with h | h
    · rw [h]
      rcases hm with h | h | h
      · exact Or.inl h
      · exact Or.inr (Or.inl h)
      · exact Or.inr (Or.inr (Or.inl h))
    · exact ht c h
  rcases List.eq_nil_or_concat (m :: tail) with h | ⟨x, z, h⟩
  · exact absurd h (List.cons_ne_nil _ _)
  · rw [List.concat_eq_append] at h
    have hz := hall z (by rw [h]; simp)
    refine ⟨x, z, h, ?_, ?_⟩
    · rcases hz with h | h | h | h <;> omega
    · rcases hz with h | h | h | h <;> subst h <;> decide

theorem flatten_flush (cur : GoString) (sents : List GoString) :
    (flushSentence cur sents).flatten = sents.flatten ++ TrimSpace cur := by
  unfold flushSentence
  dsimp only
  split_ifs with h
  · simp
  · have : TrimSpace cur = [] := by simpa using h
    rw [this, List.append_nil]

theorem splitLoop_deleteSpace (env : Env) (text : GoString) :
    deleteSpace (splitLoop env text (text.length + 1) 0 false [] []).flatten =
      deleteSpace text := by
  apply splitLoop_rule env text
    (fun i cur sents => ∃ done, text.take i = done ++ cur ∧ asciiEnd done ∧
      asciiEnd sents.flatten ∧ deleteSpace sents.flatten = deleteSpace done)
    (fun L => deleteSpace L.flatten = deleteSpace text)
  · rintro i cur sents c rest ⟨done, h1, h2, h3, h4⟩ hd _
    refine ⟨done, ?_, h2, h3, h4⟩
    have := take_add_of_drop text i [c] rest hd
    rw [List.length_singleton] at this
    rw [this, h1, List.append_assoc]
  · rintro i cur sents m tail rest ⟨done, h1, h2, h3, h4⟩ hd hm ht
    obtain ⟨x, z, hx, hz, hzs⟩ := mark_last m tail hm ht
    have htake := take_add_of_drop text i (m :: tail) rest hd
    rw [List.length_cons] at htake
    have e0 : i + 1 + tail.length = i + (tail.length + 1) := by omega
    have hB : cur ++ m :: tail = (cur ++ x) ++ [z] := by rw [hx, List.append_assoc]
    obtain ⟨t0, ht0⟩ := TrimSpace_keeps_last (cur ++ x) z hz hzs
    refine ⟨done ++ (cur ++ m :: tail), ?_, ?_, ?_, ?_⟩
    · rw [e0, htake, h1, List.append_nil, List.append_assoc]
    · right
      exact ⟨done ++ (cur ++ x), z, by rw [hB]; simp, hz⟩
    · rw [flatten_flush, hB, ht0]
      right
      exact ⟨sents.flatten ++ t0, z, by rw [List.append_assoc], hz⟩
    · rw [flatten_flush, deleteSpace_append_asciiEnd _ _ h3, deleteSpace_TrimSpace, h4,
        ← deleteSpace_append_asciiEnd _ _ h2]
  · rintro i cur sents ⟨done, h1, h2, h3, h4⟩ hd
    have hi : text.length ≤ i := List.drop_eq_nil_iff.mp hd
    rw [List.take_of_length_le hi] at h1
    rw [flatten_flush, deleteSpace_append_asciiEnd _ _ h3, deleteSpace_TrimSpace, h4,
      ← deleteSpace_append_asciiEnd _ _ h2, ← h1]
  · exact ⟨[], rfl, Or.inl rfl, Or.inl rfl, rfl⟩
  · omega

theorem splitLoop_no_marks (env : Env) (t : GoString)
    (hno : ∀ c ∈ t, c ≠ 46 ∧ c ≠ 33 ∧ c ≠ 63) :
    splitLoop env t (t.length + 1) 0 false [] [] = flushSentence t [] := by
  apply splitLoop_rule env t (fun i cur sents => sents = [] ∧ cur = t.take i)
    (fun L => L = flushSentence t [])
  · rintro i cur sents c rest ⟨h1, h2⟩ hd _
    refine ⟨h1, ?_⟩
    have := take_add_of_drop t i [c] rest hd
    rw [List.length_singleton] at this
    rw [this, h2]
  · rintro i cur sents m tail rest ⟨_, _⟩ hd hm _
    exfalso
    have hmem : m ∈ t := by
      have : m ∈ t.drop i := by rw [hd]; simp
      exact List.mem_of_mem_drop this
    have := hno m hmem
    rcases hm with h | h | h
    · exact this.1 h
    · exact this.2.1 h
    · exact this.2.2 h
  · rintro i cur sents ⟨h1, h2⟩ hd
    have hi : t.length ≤ i := List.drop_eq_nil_iff.mp hd
    rw [h1, h2, List.take_of_length_le hi]
  · exact ⟨rfl, rfl⟩
  · omega

/-- C40 (amended): splitSentences loses and invents no text: the returned
sentences, concatenated in order and with all white space deleted, are the
text with all white space deleted; a text without '.', '!' and '?' is returned
as the single sentence equal to the trimmed text when it is not blank, and as
no sentence when it is blank. -/
theorem splitSentences_keeps_text (env : Env) (text : GoString) :
    deleteSpace (splitSentences env text).flatten = deleteSpace text ∧
      ((∀ c ∈ text, c ≠ 46 ∧ c ≠ 33 ∧ c ≠ 63) → TrimSpace text ≠ [] →
        splitSentences env text = [TrimSpace text]) ∧
      (TrimSpace text = [] → splitSentences env text = []) ∧
      deleteSpace [32, 97, 0xC2, 0xA0, 98, 10, 0xE3, 0x80, 0x80, 0xC3, 0xA9] =
        [97, 98, 0xC3, 0xA9] := by
  refine ⟨?_, ?_, ?_, ?_⟩
  · unfold splitSentences
    dsimp only
    split_ifs with h
    · rw [← deleteSpace_TrimSpace text, h]
      rfl
    · rw [splitLoop_deleteSpace, deleteSpace_TrimSpace]
  · intro hno hne
    unfold splitSentences
    dsimp only
    rw [if_neg hne, splitLoop_no_marks env _ (fun c hc => hno c (TrimSpace_subset text c hc))]
    unfold flushSentence
    dsimp only
    have ht := TrimSpace_of_trimmed _ (TrimSpace_trimmed text hne)
    rw [ht, if_pos hne]
    rfl
  · intro h
    unfold splitSentences
    dsimp only
    rw [if_pos h]
  · decide

/-- C40 (the claim fails): the blank text of two spaces contains none of '.',
'!' and '?', and splitSentences returns no sentence for it, not the single
sentence equal to the trimmed text. -/
theorem splitSentences_blank_no_sentence :
    (∀ c ∈ ascii "  ", c ≠ 46 ∧ c ≠ 33 ∧ c ≠ 63) ∧ splitSentences bareEnv (ascii "  ") = [] ∧
      splitSentences bareEnv (ascii "  ") ≠ [TrimSpace (ascii "  ")] := by
  decide

theorem float64_WithWeights_num (a b c : ℚ) (k : config) :
    F64.WithWeights (.num a) (.num b) (.num c) k.toFloat64 = (WithWeights a b c k).toFloat64 := by
  unfold F64.WithWeights WithWeights
  simp only [Float64.lt, Float64.add, Float64.sub, Float64.neg, Float64.abs, Bool.or_eq_true,
    decide_eq_true_eq]
  by_cases h1 : a < 0 ∨ b < 0 ∨ c < 0
  · rw [if_pos h1, if_pos (by tauto)]
  · rw [if_neg h1, if_neg (by tauto)]
    have e : a + b + c + -1 = a + b + c - 1 := by ring
    rw [e]
    by_cases h2 : |a + b + c - 1| > 1 / 1000
    · rw [if_pos h2, if_pos h2]
    · rw [if_neg h2, if_neg h2]
      rfl

theorem float64_clampScore_num (q : ℚ) : F64.clampScore (.num q) = .num (clampScore q) := by
  unfold F64.clampScore clampScore
  simp only [Float64.lt, decide_eq_true_eq]
  split_ifs <;> rfl

theorem float64_scoreToLevel_num (q : ℚ) : F64.scoreToLevel (.num q) = scoreToLevel q := by
  unfold F64.scoreToLevel scoreToLevel
  rw [float64_clampScore_num]
  simp only [Float64.lt, decide_eq_true_eq]

theorem float64_lt_num (a b : ℚ) : Float64.lt (.num a) (.num b) = decide (a < b) := rfl

theorem float64_mul_num (a b : ℚ) : Float64.mul (.num a) (.num b) = .num (a * b) := rfl

theorem float64_sub_num (a b : ℚ) : Float64.sub (.num a) (.num b) = .num (a - b) := by
  unfold Float64.sub Float64.neg Float64.add
  dsimp only
  rw [sub_eq_add_neg]

theorem float64_num_ite (c : Prop) [Decidable c] (a b : ℚ) :
    (if c then Float64.num a else Float64.num b) = Float64.num (if c then a else b) := by
  split_ifs <;> rfl

theorem float64_calcConfidence_num (w s : Int) (v : ℚ) :
    F64.calcConfidence w s (.num v) = .num (calcConfidence w s v) := by
  unfold F64.calcConfidence calcConfidence
  dsimp only
  simp only [float64_lt_num, float64_sub_num, float64_mul_num, float64_num_ite,
    decide_eq_true_eq, gt_iff_lt]

theorem float64_assessText_num (env : Env) (text : GoString) (k : config) :
    (F64.assessText env text k.toFloat64).2 = (assessText env text k).2 ∧
      ((assessText env text k).2 = none →
        (F64.assessText env text k.toFloat64).1 = (assessText env text k).1.toFloat64) := by
  unfold F64.assessText assessText
  dsimp only
  by_cases h : (!(tokenize env text).any isContent) = true
  · rw [if_pos h, if_pos h]
    exact ⟨rfl, fun h2 => by simp at h2⟩
  · rw [if_neg h, if_neg h]
    refine ⟨rfl, fun _ => ?_⟩
    simp only [config.toFloat64, float64_mul_num, Float64.add, float64_clampScore_num,
      float64_scoreToLevel_num, Result.toFloat64]

theorem float64ConfigOk_of (k : config) (h : configOk k) : float64ConfigOk k.toFloat64 :=
  ⟨k.vocabWeight, k.syntaxWeight, k.readabilityWeight, rfl, rfl, rfl, h.1, h.2.1, h.2.2.1,
    h.2.2.2.1, h.2.2.2.2⟩

theorem float64ConfigOk_iff (c : F64.config) :
    float64ConfigOk c ↔ ∃ k : config, c = k.toFloat64 ∧ configOk k := by
  constructor
  · rintro ⟨v, s, r, h1, h2, h3, h4, h5, h6, h7, h8⟩
    refine ⟨(⟨v, s, r, c.fullAnalysis, c.samplingThreshold⟩ : config), ?_,
      h4, h5, h6, h7, h8⟩
    cases c
    simp only [config.toFloat64] at h1 h2 h3 ⊢
    rw [h1, h2, h3]
  · rintro ⟨k, rfl, hk⟩
    exact float64ConfigOk_of k hk

theorem float64_WithWeights_inf (v s r : Float64) (c : F64.config)
    (hv : v ≠ .nan) (hs : s ≠ .nan) (hr : r ≠ .nan)
    (h : (∃ b, v = .inf b) ∨ (∃ b, s = .inf b) ∨ (∃ b, r = .inf b)) :
    F64.WithWeights v s r c = c := by
  unfold F64.WithWeights
  rcases v with _ | (_ | _) | qv
  · exact absurd rfl hv
  all_goals rcases s with _ | (_ | _) | qs
  all_goals first | exact absurd rfl hs | skip
  all_goals rcases r with _ | (_ | _) | qr
  all_goals first | exact absurd rfl hr | skip
  all_goals first
    | (exfalso; rcases h with ⟨b, hb⟩ | ⟨b, hb⟩ | ⟨b, hb⟩ <;> exact Float64.noConfusion hb)
    | simp [Float64.lt, Float64.add, Float64.sub, Float64.neg, Float64.abs]

theorem float64ConfigOk_step (c : F64.config) (o : F64.config → F64.config)
    (hc : float64ConfigOk c) (ho : F64.BuiltOption o) : float64ConfigOk (o c) := by
  cases ho with
  | weights v s r hv hs hr =>
    by_cases hinf : (∃ b, v = .inf b) ∨ (∃ b, s = .inf b) ∨ (∃ b, r = .inf b)
    · rw [float64_WithWeights_inf v s r c hv hs hr hinf]
      exact hc
    · rcases v with _ | bv | qv
      · exact absurd rfl hv
      · exact absurd (Or.inl ⟨bv, rfl⟩) hinf
      rcases s with _ | bs | qs
      · exact absurd rfl hs
      · exact absurd (Or.inr (Or.inl ⟨bs, rfl⟩)) hinf
      rcases r with _ | br | qr
      · exact absurd rfl hr
      · exact absurd (Or.inr (Or.inr ⟨br, rfl⟩)) hinf
      obtain ⟨k, rfl, hk⟩ := (float64ConfigOk_iff c).mp hc
      rw [float64_WithWeights_num]
      exact float64ConfigOk_of _ (configOk_step k _ hk (BuiltOption.weights qv qs qr))
  | full =>
    obtain ⟨v, s, r, h⟩ := hc
    exact ⟨v, s, r, h⟩
  | threshold n =>
    unfold F64.WithSamplingThreshold
    by_cases hn : n > 0
    · rw [if_pos hn]
      obtain ⟨v, s, r, h1, h2, h3, h4, h5, h6, h7, _⟩ := hc
      exact ⟨v, s, r, h1, h2, h3, h4, h5, h6, h7, hn⟩
    · rw [if_neg hn]; exact hc

theorem float64ConfigOk_applyOptions (opts : List (F64.config → F64.config)) (c : F64.config)
    (hc : float64ConfigOk c) (h : ∀ o ∈ opts, F64.BuiltOption o) :
    float64ConfigOk (F64.applyOptions c opts) := by
  induction opts generalizing c with
  | nil => exact hc
  | cons o rest ih =>
    unfold F64.applyOptions
    rw [List.foldl_cons]
    exact ih (o c) (float64ConfigOk_step c o hc (h o (List.mem_cons_self o rest)))
      (fun o2 ho2 => h o2 (List.mem_cons_of_mem o ho2))

theorem float64ConfigOk_default : float64ConfigOk F64.defaultConfig :=
  float64ConfigOk_of defaultConfig configOk_default

/-- C9 (amended): in every config obtained from defaultConfig() by a finite
sequence of options WithWeights, WithFullAnalysis, WithSamplingThreshold whose
weight arguments are any float64 values other than NaN (numbers or
infinities), each weight is a number in [0, 1.001], the weights sum to 1.0
within 0.001, and samplingThreshold is positive. -/
theorem config_invariant_float64 (opts : List (F64.config → F64.config))
    (h : ∀ o ∈ opts, F64.BuiltOption o) :
    float64ConfigOk (F64.applyOptions F64.defaultConfig opts) :=
  float64ConfigOk_applyOptions opts F64.defaultConfig float64ConfigOk_default h

theorem config_invariant_float64_witness :
    (∀ o ∈ [F64.WithWeights (.num (3 / 5)) (.num (1 / 4)) (.num (3 / 20)),
        F64.WithWeights (.inf false) (.num 0) (.num 0), F64.WithFullAnalysis,
        F64.WithSamplingThreshold 10], F64.BuiltOption o) ∧
      float64ConfigOk (F64.applyOptions F64.defaultConfig
        [F64.WithWeights (.num (3 / 5)) (.num (1 / 4)) (.num (3 / 20)),
          F64.WithWeights (.inf false) (.num 0) (.num 0), F64.WithFullAnalysis,
          F64.WithSamplingThreshold 10]) :=
  have hb : ∀ o ∈ [F64.WithWeights (.num (3 / 5)) (.num (1 / 4)) (.num (3 / 20)),
      F64.WithWeights (.inf false) (.num 0) (.num 0), F64.WithFullAnalysis,
      F64.WithSamplingThreshold 10], F64.BuiltOption o := by
    intro o ho
    simp only [List.mem_cons, List.mem_singleton, List.not_mem_nil, or_false] at ho
    rcases ho with h | h | h | h
    · rw [h]; exact F64.BuiltOption.weights _ _ _ (by simp) (by simp) (by simp)
    · rw [h]; exact F64.BuiltOption.weights _ _ _ (by simp) (by simp) (by simp)
    · rw [h]; exact F64.BuiltOption.full
    · rw [h]; exact F64.BuiltOption.threshold _
  ⟨hb, config_invariant_float64 _ hb⟩

theorem float64_mul_nan (x : Float64) : Float64.mul x .nan = .nan := by
  cases x <;> rfl

theorem float64_nan_add (x : Float64) : Float64.add .nan x = .nan := by
  cases x <;> rfl

theorem float64_add_nan (x : Float64) : Float64.add x .nan = .nan := by
  cases x <;> rfl

theorem float64_lt_nan (x : Float64) : Float64.lt x .nan = false := by
  cases x <;> rfl

theorem float64_nan_lt (x : Float64) : Float64.lt .nan x = false := by
  cases x <;> rfl

theorem float64_clampScore_nan : F64.clampScore .nan = .nan := by
  unfold F64.clampScore
  rw [float64_nan_lt, float64_lt_nan]
  rfl

theorem float64_scoreToLevel_nan : F64.scoreToLevel .nan = "C2" := by
  unfold F64.scoreToLevel
  dsimp only
  rw [float64_clampScore_nan]
  simp only [float64_nan_lt, Bool.false_eq_true, if_false]
  decide

theorem float64_WithWeights_nan (s r : ℚ) (hs : 0 ≤ s) (hr : 0 ≤ r) (c : F64.config) :
    (F64.WithWeights .nan (.num s) (.num r) c).vocabWeight = .nan := by
  unfold F64.WithWeights
  have h1 : (Float64.lt .nan (.num 0) || Float64.lt (.num s) (.num 0) ||
      Float64.lt (.num r) (.num 0)) = false := by
    rw [float64_nan_lt, float64_lt_num, float64_lt_num, decide_eq_false (not_lt.mpr hs),
      decide_eq_false (not_lt.mpr hr)]
    rfl
  have h2 : Float64.lt (.num (1 / 1000)) (Float64.abs (Float64.sub
      (Float64.add (Float64.add .nan (.num s)) (.num r)) (.num 1))) = false := rfl
  rw [h1, h2]
  rfl

theorem float64_assessText_nan (env : Env) (text : GoString) (cfg : F64.config)
    (hv : cfg.vocabWeight = .nan) (hc : (tokenize env text).any isContent = true) :
    (F64.assessText env text cfg).2 = none ∧ (F64.assessText env text cfg).1.Score = .nan ∧
      (F64.assessText env text cfg).1.Level = "C2" := by
  have hn : ¬ ((!(tokenize env text).any isContent) = true) := by
    rw [hc]; decide
  unfold F64.assessText
  dsimp only
  rw [if_neg hn, hv]
  simp only [float64_mul_nan, float64_nan_add, float64_clampScore_nan, float64_scoreToLevel_nan,
    and_self]

theorem float64_calcConfidence_nan (w s : Int) : F64.calcConfidence w s .nan = .nan := by
  unfold F64.calcConfidence
  dsimp only
  have h1 : Float64.sub (.num 1) .nan = .nan := rfl
  rw [h1]
  simp only [float64_nan_lt, float64_lt_nan, float64_mul_nan, Bool.false_eq_true, if_false]

/-- C1 (code bug): WithWeights(NaN, 0.5, 0.5) passes both guards of option.go,
so the vocabulary weight of the config is NaN; with that config assessText
returns no error for "The cat sat on the mat." and the score NaN, for which
neither 1 <= Score nor Score <= 6 holds, with the level C2; and Assess with
the default options returns no error for this text. -/
theorem WithWeights_nan_score :
    (F64.applyOptions F64.defaultConfig
        [F64.WithWeights .nan (.num (1 / 2)) (.num (1 / 2))]).vocabWeight = .nan ∧
      (F64.assessText witnessEnv (ascii "The cat sat on the mat.")
        (F64.applyOptions F64.defaultConfig
          [F64.WithWeights .nan (.num (1 / 2)) (.num (1 / 2))])).2 = none ∧
      (F64.assessText witnessEnv (ascii "The cat sat on the mat.")
        (F64.applyOptions F64.defaultConfig
          [F64.WithWeights .nan (.num (1 / 2)) (.num (1 / 2))])).1.Score = .nan ∧
      (F64.assessText witnessEnv (ascii "The cat sat on the mat.")
        (F64.applyOptions F64.defaultConfig
          [F64.WithWeights .nan (.num (1 / 2)) (.num (1 / 2))])).1.Level = "C2" ∧
      Float64.le (.num 1) .nan = false ∧ Float64.le .nan (.num 6) = false ∧
      (Assess witnessEnv (ascii "The cat sat on the mat.") []).2 = none := by
  have hv : (F64.applyOptions F64.defaultConfig
      [F64.WithWeights .nan (.num (1 / 2)) (.num (1 / 2))]).vocabWeight = .nan :=
    float64_WithWeights_nan (1 / 2) (1 / 2) (by norm_num) (by norm_num) F64.defaultConfig
  have h := float64_assessText_nan witnessEnv (ascii "The cat sat on the mat.") _ hv (by decide)
  exact ⟨hv, h.1, h.2.1, h.2.2, rfl, rfl, by decide⟩

/-- C6 (code bug): calcConfidence(10, 1, NaN) is NaN, for which neither
0 <= c nor c <= 1 holds; for a variance that is a number, calcConfidence over
float64 values is the calcConfidence of the rational development. -/
theorem calcConfidence_nan :
    F64.calcConfidence 10 1 .nan = .nan ∧
      Float64.le (.num 0) (F64.calcConfidence 10 1 .nan) = false ∧
      Float64.le (F64.calcConfidence 10 1 .nan) (.num 1) = false ∧
      (∀ (w s : Int) (v : ℚ), F64.calcConfidence w s (.num v) = .num (calcConfidence w s v)) := by
  rw [float64_calcConfidence_nan]
  exact ⟨rfl, rfl, rfl, float64_calcConfidence_num⟩

/-- C7 (code bug): for the variance NaN and the word counts 10 <= 20,
calcConfidence(10, 1, NaN) <= calcConfidence(20, 1, NaN) does not hold: both
values are NaN. -/
theorem calcConfidence_nan_not_monotone :
    (10 : Int) ≤ 20 ∧ F64.calcConfidence 20 1 .nan = .nan ∧
      Float64.le (F64.calcConfidence 10 1 .nan) (F64.calcConfidence 20 1 .nan) = false := by
  rw [float64_calcConfidence_nan, float64_calcConfidence_nan]
  exact ⟨by decide, rfl, rfl⟩

theorem quoteOpen_append (a b : GoString) :
    quoteOpen (a ++ b) = (quoteOpen a != quoteOpen b) := by
  unfold quoteOpen
  rw [List.count_append]
  rcases Nat.mod_two_eq_zero_or_one (List.count 34 a) with h1 | h1 <;>
    rcases Nat.mod_two_eq_zero_or_one (List.count 34 b) with h2 | h2 <;>
    simp [Nat.add_mod, h1, h2]

theorem quoteOpen_single (c : Nat) : quoteOpen [c] = decide (c = 34) := by
  unfold quoteOpen
  by_cases h : c = 34
  · subst h; rfl
  · rw [List.count_singleton, decide_eq_false h]
    simp [h]

theorem quoteOpen_absorbed (post : GoString) :
    quoteOpen (absorbedAfter post) =
      decide (((post.dropWhile (fun c => c = 33 || c = 63 || c = 46)).takeWhile
        (fun c => c = 34)).length % 2 = 1) := by
  unfold quoteOpen absorbedAfter
  have h1 : List.count 34 (post.takeWhile (fun c => c = 33 || c = 63 || c = 46)) = 0 := by
    rw [List.count_eq_zero]
    intro hmem
    have := takeWhile_all _ _ 34 hmem
    simp at this
  have h2 : List.count 34 ((post.dropWhile (fun c => c = 33 || c = 63 || c = 46)).takeWhile
      (fun c => c = 34)) =
      ((post.dropWhile (fun c => c = 33 || c = 63 || c = 46)).takeWhile
        (fun c => c = 34)).length := by
    rw [List.count_eq_length]
    intro b hb
    have := takeWhile_all _ _ b hb
    simp only [decide_eq_true_eq] at this
    exact this.symm
  rw [List.count_append, h1, h2, Nat.zero_add]

theorem afterSentenceEnd_absorbed (env : Env) (text : GoString) (fuel i : Nat) (q : Bool)
    (cur : GoString) (sents : List GoString) :
    afterSentenceEnd env text fuel i q cur sents =
      splitLoop env text fuel (i + 1 + (absorbedAfter (text.drop (i + 1))).length)
        (q != quoteOpen (absorbedAfter (text.drop (i + 1)))) []
        (flushSentence (cur ++ text.getD i 0 :: absorbedAfter (text.drop (i + 1))) sents) := by
  unfold afterSentenceEnd
  dsimp only
  have e1 : text.drop (i + 1 + ((text.drop (i + 1)).takeWhile
      (fun c => c = 33 || c = 63 || c = 46)).length) =
      (text.drop (i + 1)).dropWhile (fun c => c = 33 || c = 63 || c = 46) := by
    rw [drop_add, drop_takeWhile_length]
  rw [e1, quoteOpen_absorbed]
  have e2 : absorbedAfter (text.drop (i + 1)) =
      (text.drop (i + 1)).takeWhile (fun c => c = 33 || c = 63 || c = 46) ++
        ((text.drop (i + 1)).dropWhile (fun c => c = 33 || c = 63 || c = 46)).takeWhile
          (fun c => c = 34) := rfl
  rw [e2]
  generalize (text.drop (i + 1)).takeWhile (fun c => c = 33 || c = 63 || c = 46) = punct
  generalize ((text.drop (i + 1)).dropWhile (fun c => c = 33 || c = 63 || c = 46)).takeWhile
    (fun c => c = 34) = quotes
  have e3 : cur ++ [text.getD i 0] ++ punct ++ quotes =
      cur ++ text.getD i 0 :: (punct ++ quotes) := by simp
  have e4 : i + 1 + punct.length + quotes.length = i + 1 + (punct ++ quotes).length := by
    rw [List.length_append]; omega
  have e5 : (if quotes.length % 2 = 1 then !q else q) =
      (q != decide (quotes.length % 2 = 1)) := by
    by_cases h : quotes.length % 2 = 1
    · rw [if_pos h, decide_eq_true h]; cases q <;> rfl
    · rw [if_neg h, decide_eq_false h]; cases q <;> rfl
  rw [e3, e4, e5]

theorem splitLoop_step (env : Env) (text : GoString) (fuel i : Nat) (q : Bool)
    (hi : i < text.length) :
    (text.getD i 0 ≠ 33 ∧ text.getD i 0 ≠ 63 ∧ ellipsisAt text i = false ∧
      (text.getD i 0 = 46 → dotContinues env text i q = true) ∧
      ∀ cur sents, splitLoop env text (fuel + 1) i q cur sents =
        splitLoop env text fuel (i + 1) (q != quoteOpen [text.getD i 0])
          (cur ++ [text.getD i 0]) sents) ∨
    (ellipsisAt text i = true ∧
      ∀ cur sents, splitLoop env text (fuel + 1) i q cur sents =
        splitLoop env text fuel (i + 3) q [] (flushSentence (cur ++ [46, 46, 46]) sents)) ∨
    ((text.getD i 0 = 46 ∨ text.getD i 0 = 33 ∨ text.getD i 0 = 63) ∧
      ellipsisAt text i = false ∧
      (text.getD i 0 = 46 → dotContinues env text i q = false) ∧
      ∀ cur sents, splitLoop env text (fuel + 1) i q cur sents =
        splitLoop env text fuel (i + 1 + (absorbedAfter (text.drop (i + 1))).length)
          (q != quoteOpen (absorbedAfter (text.drop (i + 1)))) []
          (flushSentence (cur ++ text.getD i 0 :: absorbedAfter (text.drop (i + 1))) sents)) := by
  by_cases h46 : text.getD i 0 = 46
  · by_cases hel : ellipsisAt text i = true
    · refine Or.inr (Or.inl ⟨hel, ?_⟩)
      intro cur sents
      rw [splitLoop, if_pos hi]
      dsimp only
      unfold ellipsisAt at hel
      rw [if_neg (by rw [h46]; decide), if_pos hel]
    · have hel2 : ellipsisAt text i = false := by simpa using hel
      by_cases hc : dotContinues env text i q = true
      · refine Or.inl ⟨by rw [h46]; decide, by rw [h46]; decide, hel2, fun _ => hc, ?_⟩
        intro cur sents
        rw [splitLoop_dot_cases env text fuel i q cur sents hi h46 hel2]
        unfold dotContinues at hc
        rw [if_pos hc, h46]
        have : quoteOpen [46] = false := rfl
        rw [this]
        cases q <;> rfl
      · have hc2 : dotContinues env text i q = false := by simpa using hc
        refine Or.inr (Or.inr ⟨Or.inl h46, hel2, fun _ => hc2, ?_⟩)
        intro cur sents
        rw [splitLoop_dot_cases env text fuel i q cur sents hi h46 hel2]
        unfold dotContinues at hc
        rw [if_neg hc, afterSentenceEnd_absorbed]
  · have hel2 : ellipsisAt text i = false := by
      unfold ellipsisAt
      rw [decide_eq_false h46]
      rfl
    by_cases hm : text.getD i 0 = 33 ∨ text.getD i 0 = 63
    · refine Or.inr (Or.inr ⟨Or.inr hm, hel2, fun h => absurd h h46, ?_⟩)
      intro cur sents
      rw [splitLoop_mark_step env text fuel i q cur sents hi hm, afterSentenceEnd_absorbed]
    · have h33 : text.getD i 0 ≠ 33 := fun h => hm (Or.inl h)
      have h63 : text.getD i 0 ≠ 63 := fun h => hm (Or.inr h)
      refine Or.inl ⟨h33, h63, hel2, fun h => absurd h h46, ?_⟩
      intro cur sents
      rw [splitLoop, if_pos hi, quoteOpen_single]
      dsimp only
      generalize text.getD i 0 = ch at h46 h33 h63 ⊢
      by_cases h34 : ch = 34
      · rw [if_pos h34, decide_eq_true h34]
        cases q <;> rfl
      · rw [if_neg h34, decide_eq_false h46, decide_eq_false h33, decide_eq_false h63,
          decide_eq_false h34]
        simp only [Bool.false_and, Bool.or_self, Bool.false_eq_true, if_false]
        cases q <;> rfl
theorem flushSentence_append (cur : GoString) (sents : List GoString) :
    flushSentence cur sents = sents ++ flushSentence cur [] := by
  unfold flushSentence
  dsimp only
  split_ifs <;> simp

theorem splitLoop_append (env : Env) (text : GoString) :
    ∀ fuel i q cur sents,
      splitLoop env text fuel i q cur sents = sents ++ splitLoop env text fuel i q cur [] := by
  intro fuel
  induction fuel with
  | zero =>
    intro i q cur sents
    rw [splitLoop, splitLoop]
    exact flushSentence_append cur sents
  | succ fuel ih =>
    intro i q cur sents
    by_cases hi : i < text.length
    · rcases splitLoop_step env text fuel i q hi with ⟨_, _, _, _, h⟩ | ⟨_, h⟩ | ⟨_, _, _, h⟩
      · rw [h cur sents, h cur [], ih]
      · rw [h cur sents, h cur [], ih, ih _ _ _ (flushSentence _ []), flushSentence_append,
          List.append_assoc]
      · rw [h cur sents, h cur [], ih, ih _ _ _ (flushSentence _ []), flushSentence_append,
          List.append_assoc]
    · rw [splitLoop, splitLoop, if_neg hi, if_neg hi]
      exact flushSentence_append cur sents

theorem absorbedAfter_split (post : GoString) :
    post = absorbedAfter post ++ post.drop (absorbedAfter post).length := by
  unfold absorbedAfter
  rw [List.length_append, ← List.drop_drop, drop_takeWhile_length, drop_takeWhile_length,
    List.append_assoc, List.takeWhile_append_dropWhile, List.takeWhile_append_dropWhile]

theorem absorbedAfter_mem (post : GoString) :
    ∀ c ∈ absorbedAfter post, c = 46 ∨ c = 33 ∨ c = 63 ∨ c = 34 := by
  intro c hc
  unfold absorbedAfter at hc
  rcases List.mem_append.mp hc with h | h
  · have := takeWhile_all _ _ c h
    simp only [Bool.or_eq_true, decide_eq_true_eq] at this
    rcases this with (h | h) | h
    · exact Or.inr (Or.inl h)
    · exact Or.inr (Or.inr (Or.inl h))
    · exact Or.inl h
  · have := takeWhile_all _ _ c h
    simp only [decide_eq_true_eq] at this
    exact Or.inr (Or.inr (Or.inr this))

theorem scanFrom_start (text : GoString) (j : Nat) : scanFrom text j j [] [] :=
  ⟨[], by simp, Or.inl rfl, Or.inl rfl, rfl⟩

theorem scanFrom_char (text : GoString) (j i : Nat) (cur : GoString) (sents : List GoString)
    (hi : i < text.length) (h : scanFrom text j i cur sents) :
    scanFrom text j (i + 1) (cur ++ [text.getD i 0]) sents := by
  obtain ⟨done, h1, h2, h3, h4⟩ := h
  refine ⟨done, ?_, h2, h3, h4⟩
  have := take_add_of_drop text i [text.getD i 0] (text.drop (i + 1))
    (drop_eq_getD_cons text i hi)
  rw [List.length_singleton] at this
  rw [this, h1]
  simp

theorem scanFrom_flush (text : GoString) (j i : Nat) (cur : GoString) (sents : List GoString)
    (m : Nat) (tail rest : GoString) (h : scanFrom text j i cur sents)
    (hd : text.drop i = m :: tail ++ rest) (hm : m = 46 ∨ m = 33 ∨ m = 63)
    (ht : ∀ c ∈ tail, c = 46 ∨ c = 33 ∨ c = 63 ∨ c = 34) :
    scanFrom text j (i + 1 + tail.length) [] (flushSentence (cur ++ m :: tail) sents) := by
  obtain ⟨done, h1, h2, h3, h4⟩ := h
  obtain ⟨x, z, hx, hz, hzs⟩ := mark_last m tail hm ht
  have htake := take_add_of_drop text i (m :: tail) rest hd
  rw [List.length_cons] at htake
  have e0 : i + 1 + tail.length = i + (tail.length + 1) := by omega
  have hB : cur ++ m :: tail = (cur ++ x) ++ [z] := by rw [hx, List.append_assoc]
  obtain ⟨t0, ht0⟩ := TrimSpace_keeps_last (cur ++ x) z hz hzs
  refine ⟨done ++ (cur ++ m :: tail), ?_, ?_, ?_, ?_⟩
  · rw [e0, htake, h1]
    simp
  · right
    exact ⟨done ++ (cur ++ x), z, by rw [hB]; simp, hz⟩
  · rw [flatten_flush, hB, ht0]
    right
    exact ⟨sents.flatten ++ t0, z, by rw [List.append_assoc], hz⟩
  · rw [flatten_flush, deleteSpace_append_asciiEnd _ _ h3, deleteSpace_TrimSpace, h4,
      ← deleteSpace_append_asciiEnd _ _ h2]

theorem scanFrom_end (text : GoString) (j i : Nat) (cur : GoString) (sents : List GoString)
    (h : scanFrom text j i cur sents) (hi : text.length ≤ i) :
    deleteSpace (flushSentence cur sents).flatten = deleteSpace (text.drop j) := by
  obtain ⟨done, h1, h2, h3, h4⟩ := h
  rw [List.take_of_length_le hi] at h1
  have h5 : text.drop j = done ++ cur := by
    have h6 : text.take j ++ text.drop j = text.take j ++ (done ++ cur) :=
      (List.take_append_drop j text).trans h1
    exact List.append_cancel_left h6
  rw [flatten_flush, deleteSpace_append_asciiEnd _ _ h3, deleteSpace_TrimSpace, h4,
    ← deleteSpace_append_asciiEnd _ _ h2, h5]

theorem splitLoop_deleteSpace_from (env : Env) (text : GoString) (fuel j : Nat) (q : Bool)
    (hf : text.length < fuel + j) :
    deleteSpace (splitLoop env text fuel j q [] []).flatten = deleteSpace (text.drop j) := by
  apply splitLoop_rule env text (fun i cur sents => scanFrom text j i cur sents)
    (fun L => deleteSpace L.flatten = deleteSpace (text.drop j))
  · intro i cur sents c rest hP hd _
    have hi : i < text.length := by
      by_contra hc
      rw [List.drop_eq_nil_iff.mpr (by omega)] at hd
      exact List.noConfusion hd
    have hc : text.getD i 0 = c := getD_eq_head_drop text i c rest hd
    have := scanFrom_char text j i cur sents hi hP
    rw [hc] at this
    exact this
  · intro i cur sents m tail rest hP hd hm ht
    exact scanFrom_flush text j i cur sents m tail rest hP hd hm ht
  · intro i cur sents hP hd
    exact scanFrom_end text j i cur sents hP (List.drop_eq_nil_iff.mp hd)
  · exact scanFrom_start text j
  · exact hf
theorem absorbedAfter_index (post : GoString) (d : Nat) (hd : d < (absorbedAfter post).length) :
    (absorbedAfter post).getD d 0 = 34 ∨
      ∀ e, e + 1 = d → ((absorbedAfter post).getD e 0 = 46 ∨ (absorbedAfter post).getD e 0 = 33 ∨
        (absorbedAfter post).getD e 0 = 63) := by
  unfold absorbedAfter at hd ⊢
  generalize hp : post.takeWhile (fun c => c = 33 || c = 63 || c = 46) = punct at hd ⊢
  generalize hq : (post.dropWhile (fun c => c = 33 || c = 63 || c = 46)).takeWhile
    (fun c => c = 34) = quotes at hd ⊢
  have hpm : ∀ c ∈ punct, c = 46 ∨ c = 33 ∨ c = 63 := by
    intro c hc
    rw [← hp] at hc
    have := takeWhile_all _ _ c hc
    simp only [Bool.or_eq_true, decide_eq_true_eq] at this
    rcases this with (h | h) | h
    · exact Or.inr (Or.inl h)
    · exact Or.inr (Or.inr h)
    · exact Or.inl h
  have hqm : ∀ c ∈ quotes, c = 34 := by
    intro c hc
    rw [← hq] at hc
    have := takeWhile_all _ _ c hc
    simpa using this
  rw [List.length_append] at hd
  by_cases h : d ≤ punct.length
  · right
    intro e he
    have hel : e < punct.length := by omega
    have : (punct ++ quotes).getD e 0 = punct[e] := by
      rw [List.getD_eq_getElem?_getD, List.getElem?_append_left hel, List.getElem?_eq_getElem hel]
      rfl
    rw [this]
    exact hpm _ (List.getElem_mem hel)
  · left
    have hdl : d - punct.length < quotes.length := by omega
    have : (punct ++ quotes).getD d 0 = quotes[d - punct.length] := by
      rw [List.getD_eq_getElem?_getD, List.getElem?_append_right (by omega),
        List.getElem?_eq_getElem hdl]
      rfl
    rw [this]
    exact hqm _ (List.getElem_mem hdl)

theorem quoteOpen_mark_cons (c : Nat) (A : GoString) (hc : c = 46 ∨ c = 33 ∨ c = 63) :
    quoteOpen (c :: A) = quoteOpen A := by
  have h : ¬ c = 34 := by rcases hc with h | h | h <;> omega
  have e : c :: A = [c] ++ A := rfl
  rw [e, quoteOpen_append, quoteOpen_single, decide_eq_false h]
  cases quoteOpen A <;> rfl

theorem splitLoop_reach (env : Env) (text : GoString) (k : Nat) (hk : k < text.length)
    (hmark : text.getD k 0 = 46 ∨ text.getD k 0 = 33 ∨ text.getD k 0 = 63)
    (hprev : ∀ j, j + 1 = k → ¬ (text.getD j 0 = 46 ∨ text.getD j 0 = 33 ∨ text.getD j 0 = 63))
    (Q : List GoString → Prop)
    (hat : ∀ fuel cur sents, text.length < fuel + k → scanFrom text 0 k cur sents →
      Q (splitLoop env text fuel k (quoteOpen (text.take k)) cur sents)) :
    ∀ fuel i cur sents, i ≤ k → text.length < fuel + i → scanFrom text 0 i cur sents →
      Q (splitLoop env text fuel i (quoteOpen (text.take i)) cur sents) := by
  intro fuel
  induction fuel with
  | zero =>
    intro i cur sents hik hf _
    omega
  | succ fuel ih =>
    intro i cur sents hik hf hP
    by_cases hek : i = k
    · subst hek
      exact hat (fuel + 1) cur sents hf hP
    · have hi : i < text.length := by omega
      have hd := drop_eq_getD_cons text i hi
      rcases splitLoop_step env text fuel i (quoteOpen (text.take i)) hi with
        ⟨_, _, _, _, h⟩ | ⟨hel, h⟩ | ⟨hm, _, _, h⟩
      · rw [h cur sents]
        have htk := take_add_of_drop text i [text.getD i 0] (text.drop (i + 1)) hd
        rw [List.length_singleton] at htk
        rw [← quoteOpen_append, ← htk]
        exact ih (i + 1) _ _ (by omega) (by omega) (scanFrom_char text 0 i cur sents hi hP)
      · rw [h cur sents]
        obtain ⟨r, hr⟩ := (ellipsisAt_iff text i).mp hel
        have g0 := getD_of_drop text i _ hr.symm 0
        have g1 := getD_of_drop text i _ hr.symm 1
        have h0 : text.getD i 0 = 46 := by rw [Nat.add_zero] at g0; rw [g0]; rfl
        have h1 : text.getD (i + 1) 0 = 46 := by rw [g1]; rfl
        have hk1 : i + 1 ≠ k := fun e => hprev i e (Or.inl h0)
        have hk2 : i + 2 ≠ k := fun e => hprev (i + 1) e (Or.inl h1)
        have htk := take_add_of_drop text i [46, 46, 46] r hr.symm
        have hq : quoteOpen (text.take (i + 3)) = quoteOpen (text.take i) := by
          have e3 : i + 3 = i + [46, 46, 46].length := rfl
          rw [e3, htk, quoteOpen_append]
          have : quoteOpen [46, 46, 46] = false := rfl
          rw [this]
          cases quoteOpen (text.take i) <;> rfl
        rw [← hq]
        have hs := scanFrom_flush text 0 i cur sents 46 [46, 46] r hP hr.symm (Or.inl rfl)
          (by
            intro c hc
            simp only [List.mem_cons, List.mem_singleton, List.not_mem_nil, or_false,
              or_self] at hc
            exact Or.inl hc)
        have hs2 : scanFrom text 0 (i + 3) [] (flushSentence (cur ++ [46, 46, 46]) sents) := hs
        exact ih (i + 3) _ _ (by omega) (by omega) hs2
      · rw [h cur sents]
        have hsplit := absorbedAfter_split (text.drop (i + 1))
        generalize hA : absorbedAfter (text.drop (i + 1)) = A at hsplit ⊢
        have hd2 : text.drop i = text.getD i 0 :: A ++ (text.drop (i + 1)).drop A.length := by
          rw [List.cons_append, ← hsplit]
          exact hd
        have hle : i + 1 + A.length ≤ k := by
          by_contra hc
          have hdl : k - (i + 1) < A.length := by omega
          have hget : ∀ e, e < A.length → text.getD (i + 1 + e) 0 = A.getD e 0 := by
            intro e he
            rw [getD_of_drop text (i + 1) _ hsplit e, List.getD_eq_getElem?_getD,
              List.getElem?_append_left he, ← List.getD_eq_getElem?_getD]
          have hkk : text.getD k 0 = A.getD (k - (i + 1)) 0 := by
            rw [← hget _ hdl]
            congr 1
            omega
          rw [← hA] at hdl hkk hget
          rcases absorbedAfter_index _ _ hdl with h34 | hpm
          · rw [h34] at hkk
            rcases hmark with h | h | h <;> omega
          · by_cases hz : k = i + 1
            · exact hprev i hz.symm hm
            · have hp := hpm (k - (i + 1) - 1) (by omega)
              rw [← hget _ (by rw [hA] at hdl ⊢; omega)] at hp
              exact hprev (i + 1 + (k - (i + 1) - 1)) (by omega) hp
        have htk := take_add_of_drop text i (text.getD i 0 :: A) _ hd2
        rw [List.length_cons] at htk
        have e0 : i + 1 + A.length = i + (A.length + 1) := by omega
        have hq : quoteOpen (text.take (i + 1 + A.length)) =
            (quoteOpen (text.take i) != quoteOpen A) := by
          rw [e0, htk, quoteOpen_append, quoteOpen_mark_cons _ _ hm]
        rw [← hq]
        exact ih _ _ _ hle (by omega)
          (scanFrom_flush text 0 i cur sents _ A _ hP hd2 hm (by rw [← hA]; exact absorbedAfter_mem _))
theorem deleteSpace_ascii_mem (u v : GoString) (c : Nat) (hc : c < 128)
    (hns : unicodeIsSpace c = false) :
    deleteSpace (u ++ c :: v) = deleteSpace u ++ c :: deleteSpace v := by
  have e : u ++ c :: v = (u ++ [c]) ++ v := by simp
  rw [e, deleteSpace_append_asciiEnd _ _ (Or.inr ⟨u, c, rfl, hc⟩)]
  have h2 : deleteSpace (u ++ [c]) = deleteSpace u ++ [c] := by
    unfold deleteSpace
    rw [runeChunks_append_of_break u [c] (Or.inr (isCont_ascii c hc)),
      runeChunks_single_ascii c hc, List.filter_append, List.flatMap_append]
    simp [hns]
  rw [h2]
  simp

theorem TrimSpace_ne_nil_of_ascii (u v : GoString) (c : Nat) (hc : c < 128)
    (hns : unicodeIsSpace c = false) : TrimSpace (u ++ c :: v) ≠ [] := by
  intro h
  have h1 := deleteSpace_TrimSpace (u ++ c :: v)
  rw [h, deleteSpace_ascii_mem u v c hc hns] at h1
  have h2 : deleteSpace ([] : GoString) = [] := rfl
  rw [h2] at h1
  have := congrArg List.length h1
  simp at this
  omega

theorem flushSentence_mark (a b : GoString) (m : Nat) (hm : m = 46 ∨ m = 33 ∨ m = 63) :
    flushSentence (a ++ m :: b) [] = [TrimSpace (a ++ m :: b)] := by
  have hc : m < 128 := by rcases hm with h | h | h <;> omega
  have hns : unicodeIsSpace m = false := by rcases hm with h | h | h <;> subst h <;> decide
  unfold flushSentence
  dsimp only
  rw [if_pos (TrimSpace_ne_nil_of_ascii a b m hc hns)]
  rfl

theorem mark_last_mem (m : Nat) (tail : GoString) (hm : m = 46 ∨ m = 33 ∨ m = 63)
    (ht : ∀ c ∈ tail, c = 46 ∨ c = 33 ∨ c = 63 ∨ c = 34) :
    ∃ x z, m :: tail = x ++ [z] ∧ (z = 46 ∨ z = 33 ∨ z = 63 ∨ z = 34) := by
  have hall : ∀ c ∈ m :: tail, c = 46 ∨ c = 33 ∨ c = 63 ∨ c = 34 := by
    intro c hc
    rcases List.mem_cons.mp hc with h | h
    · rw [h]
      rcases hm with h | h | h
      · exact Or.inl h
      · exact Or.inr (Or.inl h)
      · exact Or.inr (Or.inr (Or.inl h))
    · exact ht c h
  rcases List.eq_nil_or_concat (m :: tail) with h | ⟨x, z, h⟩
  · exact absurd h (List.cons_ne_nil _ _)
  · rw [List.concat_eq_append] at h
    exact ⟨x, z, h, hall z (by rw [h]; simp)⟩

theorem splitLoop_first_sentence (env : Env) (text : GoString) :
    ∀ fuel i q cur, text.length < fuel + i →
      ∃ b p1 L2, text.drop i = b ++ p1 ∧ (i < text.length → b ≠ []) ∧
        (p1 = [] ∨ ∃ x z, b = x ++ [z] ∧ (z = 46 ∨ z = 33 ∨ z = 63 ∨ z = 34)) ∧
        splitLoop env text fuel i q cur [] = flushSentence (cur ++ b) [] ++ L2 ∧
        deleteSpace L2.flatten = deleteSpace p1 := by
  intro fuel
  induction fuel with
  | zero =>
    intro i q cur hf
    refine ⟨[], [], [], ?_, fun h => by omega, Or.inl rfl, ?_, rfl⟩
    · rw [List.drop_eq_nil_iff.mpr (by omega)]
      rfl
    · rw [splitLoop, List.append_nil, List.append_nil]
  | succ fuel ih =>
    intro i q cur hf
    by_cases hi : i < text.length
    · have hd := drop_eq_getD_cons text i hi
      rcases splitLoop_step env text fuel i q hi with ⟨_, _, _, _, h⟩ | ⟨hel, h⟩ | ⟨hm, _, _, h⟩
      · obtain ⟨b, p1, L2, e1, _, e3, e4, e5⟩ :=
          ih (i + 1) (q != quoteOpen [text.getD i 0]) (cur ++ [text.getD i 0]) (by omega)
        refine ⟨text.getD i 0 :: b, p1, L2, ?_, fun _ => List.cons_ne_nil _ _, ?_, ?_, e5⟩
        · rw [hd, e1]
          rfl
        · rcases e3 with e3 | ⟨x, z, hx, hz⟩
          · exact Or.inl e3
          · exact Or.inr ⟨text.getD i 0 :: x, z, by rw [hx]; rfl, hz⟩
        · rw [h cur [], e4]
          simp
      · obtain ⟨r, hr⟩ := (ellipsisAt_iff text i).mp hel
        have hr3 : text.drop (i + 3) = r := by
          rw [drop_add, ← hr]
          rfl
        refine ⟨[46, 46, 46], text.drop (i + 3), splitLoop env text fuel (i + 3) q [] [], ?_,
          fun _ => List.cons_ne_nil _ _, Or.inr ⟨[46, 46], 46, rfl, Or.inl rfl⟩, ?_,
          splitLoop_deleteSpace_from env text fuel (i + 3) q (by omega)⟩
        · rw [hr3, ← hr]
        · rw [h cur [], splitLoop_append]
      · have hsplit := absorbedAfter_split (text.drop (i + 1))
        obtain ⟨x, z, hx, hz⟩ := mark_last_mem (text.getD i 0)
          (absorbedAfter (text.drop (i + 1))) hm (absorbedAfter_mem _)
        refine ⟨text.getD i 0 :: absorbedAfter (text.drop (i + 1)),
          text.drop (i + 1 + (absorbedAfter (text.drop (i + 1))).length),
          splitLoop env text fuel (i + 1 + (absorbedAfter (text.drop (i + 1))).length)
            (q != quoteOpen (absorbedAfter (text.drop (i + 1)))) [] [], ?_,
          fun _ => List.cons_ne_nil _ _, Or.inr ⟨x, z, hx, hz⟩, ?_,
          splitLoop_deleteSpace_from env text fuel _ _ (by omega)⟩
        · rw [drop_add text (i + 1), List.cons_append, ← hsplit]
          exact hd
        · rw [h cur [], splitLoop_append]
    · refine ⟨[], [], [], ?_, fun h => absurd h hi, Or.inl rfl, ?_, rfl⟩
      · rw [List.drop_eq_nil_iff.mpr (by omega)]
        rfl
      · rw [splitLoop, if_neg hi, List.append_nil, List.append_nil]
theorem getD_append_cons (pre post : GoString) (m : Nat) :
    (pre ++ m :: post).getD pre.length 0 = m := by
  rw [List.getD_eq_getElem?_getD, List.getElem?_append_right (le_refl _), Nat.sub_self]
  simp

theorem prev_not_mark (pre post : GoString) (m : Nat)
    (hprev : ∀ p c, pre = p ++ [c] → ¬ (c = 46 ∨ c = 33 ∨ c = 63)) :
    ∀ j, j + 1 = pre.length →
      ¬ ((pre ++ m :: post).getD j 0 = 46 ∨ (pre ++ m :: post).getD j 0 = 33 ∨
        (pre ++ m :: post).getD j 0 = 63) := by
  intro j hj
  rcases List.eq_nil_or_concat pre with h | ⟨p, c, h⟩
  · rw [h] at hj
    simp at hj
  · rw [List.concat_eq_append] at h
    have hl : p.length = j := by
      rw [h, List.length_append, List.length_singleton] at hj
      omega
    have hg : (pre ++ m :: post).getD j 0 = c := by
      rw [h, List.append_assoc, ← hl]
      exact getD_append_cons p ([] ++ m :: post) c
    rw [hg]
    exact hprev p c h

theorem splitLoop_at_mark (env : Env) (pre post : GoString) (m : Nat)
    (hm : m = 46 ∨ m = 33 ∨ m = 63)
    (hprev : ∀ p c, pre = p ++ [c] → ¬ (c = 46 ∨ c = 33 ∨ c = 63))
    (Q : List GoString → Prop)
    (hat : ∀ fuel p0 a L1, (pre ++ m :: post).length < fuel + 1 + pre.length → pre = p0 ++ a →
      deleteSpace L1.flatten = deleteSpace p0 →
      Q (L1 ++ splitLoop env (pre ++ m :: post) (fuel + 1) pre.length (quoteOpen pre) a [])) :
    Q (splitLoop env (pre ++ m :: post) ((pre ++ m :: post).length + 1) 0 false [] []) := by
  have hk : pre.length < (pre ++ m :: post).length := by
    rw [List.length_append, List.length_cons]; omega
  have hq0 : quoteOpen ((pre ++ m :: post).take 0) = false := rfl
  have htake : (pre ++ m :: post).take pre.length = pre := List.take_left pre _
  rw [← hq0]
  apply splitLoop_reach env (pre ++ m :: post) pre.length hk
    (by rw [getD_append_cons]; exact hm) (prev_not_mark pre post m hprev) Q
  · intro fuel cur sents hf hs
    obtain ⟨done, h1, _, _, h4⟩ := hs
    rw [htake] at h1 ⊢
    rw [List.take_zero, List.nil_append] at h1
    cases fuel with
    | zero => omega
    | succ f =>
      rw [splitLoop_append]
      exact hat f done cur sents (by omega) h1 h4
  · exact Nat.zero_le _
  · omega
  · exact scanFrom_start _ 0

theorem splitLoop_mark_ends (env : Env) (pre post : GoString) (m : Nat)
    (hm : m = 46 ∨ m = 33 ∨ m = 63)
    (hprev : ∀ p c, pre = p ++ [c] → ¬ (c = 46 ∨ c = 33 ∨ c = 63))
    (hell : ¬ ([46, 46, 46] <+: m :: post))
    (hdot : m = 46 → dotContinues env (pre ++ m :: post) pre.length (quoteOpen pre) = false) :
    sentenceThrough (splitLoop env (pre ++ m :: post) ((pre ++ m :: post).length + 1) 0 false [] [])
      pre m post (absorbedAfter post) := by
  have hk : pre.length < (pre ++ m :: post).length := by
    rw [List.length_append, List.length_cons]; omega
  have hg : (pre ++ m :: post).getD pre.length 0 = m := getD_append_cons pre post m
  have hdrop : (pre ++ m :: post).drop (pre.length + 1) = post := by
    have e : pre ++ m :: post = (pre ++ [m]) ++ post := by simp
    have e2 : pre.length + 1 = (pre ++ [m]).length := by simp
    rw [e, e2, List.drop_left]
  have hdrop0 : (pre ++ m :: post).drop pre.length = m :: post := List.drop_left pre _
  refine splitLoop_at_mark env pre post m hm hprev
    (fun L => sentenceThrough L pre m post (absorbedAfter post)) ?_
  intro fuel p0 a L1 hf hpre hpin
  rcases splitLoop_step env (pre ++ m :: post) fuel pre.length (quoteOpen pre) hk with
    ⟨h33, h63, _, hc, _⟩ | ⟨hel, _⟩ | ⟨_, _, _, h⟩
  · exfalso
    rw [hg] at h33 h63 hc
    rcases hm with h | h | h
    · have := hc h
      rw [hdot h] at this
      exact Bool.false_ne_true this
    · exact h33 h
    · exact h63 h
  · exfalso
    have := (ellipsisAt_iff _ _).mp hel
    rw [hdrop0] at this
    exact hell this
  · rw [h a [], hg, hdrop, splitLoop_append, flushSentence_mark a _ m hm]
    refine ⟨L1, p0, a, post.drop (absorbedAfter post).length,
      splitLoop env (pre ++ m :: post) fuel (pre.length + 1 + (absorbedAfter post).length)
        (quoteOpen pre != quoteOpen (absorbedAfter post)) [] [],
      hpre, absorbedAfter_split post, by simp, hpin, ?_⟩
    have := splitLoop_deleteSpace_from env (pre ++ m :: post) fuel
      (pre.length + 1 + (absorbedAfter post).length)
      (quoteOpen pre != quoteOpen (absorbedAfter post)) (by omega)
    rw [this, drop_add, hdrop]

theorem splitLoop_dot_continues (env : Env) (pre post : GoString)
    (hprev : ∀ p c, pre = p ++ [c] → ¬ (c = 46 ∨ c = 33 ∨ c = 63))
    (hell : ¬ ([46, 46, 46] <+: 46 :: post)) (hpost : post ≠ [])
    (hdot : dotContinues env (pre ++ 46 :: post) pre.length (quoteOpen pre) = true) :
    ∃ b, b ≠ [] ∧ (b = post ∨ ∃ x z, b = x ++ [z] ∧ (z = 46 ∨ z = 33 ∨ z = 63 ∨ z = 34)) ∧
      sentenceThrough
        (splitLoop env (pre ++ 46 :: post) ((pre ++ 46 :: post).length + 1) 0 false [] [])
        pre 46 post b := by
  have hk : pre.length < (pre ++ 46 :: post).length := by
    rw [List.length_append, List.length_cons]; omega
  have hk1 : pre.length + 1 < (pre ++ 46 :: post).length := by
    rw [List.length_append, List.length_cons]
    have : 0 < post.length := List.length_pos.mpr hpost
    omega
  have hg : (pre ++ 46 :: post).getD pre.length 0 = 46 := getD_append_cons pre post 46
  have hdrop : (pre ++ 46 :: post).drop (pre.length + 1) = post := by
    have e : pre ++ 46 :: post = (pre ++ [46]) ++ post := by simp
    have e2 : pre.length + 1 = (pre ++ [46]).length := by simp
    rw [e, e2, List.drop_left]
  have hdrop0 : (pre ++ 46 :: post).drop pre.length = 46 :: post := List.drop_left pre _
  refine splitLoop_at_mark env pre post 46 (Or.inl rfl) hprev
    (fun L => ∃ b, b ≠ [] ∧
      (b = post ∨ ∃ x z, b = x ++ [z] ∧ (z = 46 ∨ z = 33 ∨ z = 63 ∨ z = 34)) ∧
      sentenceThrough L pre 46 post b) ?_
  intro fuel p0 a L1 hf hpre hpin
  rcases splitLoop_step env (pre ++ 46 :: post) fuel pre.length (quoteOpen pre) hk with
    ⟨_, _, _, _, h⟩ | ⟨hel, _⟩ | ⟨_, _, hc, _⟩
  · rw [h a [], hg]
    obtain ⟨b, p1, L2, e1, e2, e3, e4, e5⟩ := splitLoop_first_sentence env (pre ++ 46 :: post)
      fuel (pre.length + 1) (quoteOpen pre != quoteOpen [46]) (a ++ [46]) (by omega)
    rw [hdrop] at e1
    refine ⟨b, e2 hk1, ?_, L1, p0, a, p1, L2, hpre, e1, ?_, hpin, e5⟩
    · rcases e3 with e3 | e3
      · left
        rw [e1, e3, List.append_nil]
      · exact Or.inr e3
    · rw [e4]
      have e6 : a ++ [46] ++ b = a ++ 46 :: b := by simp
      rw [e6, flushSentence_mark a b 46 (Or.inl rfl)]
      simp
  · exfalso
    have := (ellipsisAt_iff _ _).mp hel
    rw [hdrop0] at this
    exact hell this
  · exfalso
    have := hc hg
    rw [hdot] at this
    exact Bool.noConfusion this
theorem followedBySpaceUppercase_eq (text : GoString) (pos : Nat) :
    followedBySpaceUppercase text pos = spaceUppercaseAfter (text.drop (pos + 1)) := by
  unfold followedBySpaceUppercase spaceUppercaseAfter
  dsimp only
  have e1 := drop_skipWhile (fun c => decide (c = 34)) text (pos + 1)
  generalize skipWhile (fun c => decide (c = 34)) text (pos + 1) = j at e1 ⊢
  rw [← e1]
  cases ha : text.drop j with
  | nil =>
    have : ¬ j < text.length := by
      have := List.drop_eq_nil_iff.mp ha
      omega
    simp [this]
  | cons s r =>
    have hj : j < text.length := by
      by_contra h
      rw [List.drop_eq_nil_iff.mpr (by omega)] at ha
      exact List.noConfusion ha
    have hs := getD_eq_head_drop text j s r ha
    have hr : text.drop (j + 1) = r := by
      rw [drop_add, ha]
      rfl
    cases hb : r with
    | nil =>
      rw [hb] at hr
      have : ¬ j + 1 < text.length := by
        have := List.drop_eq_nil_iff.mp hr
        omega
      simp [this]
    | cons c r2 =>
      rw [hb] at hr
      have hj1 : j + 1 < text.length := by
        by_contra h
        rw [List.drop_eq_nil_iff.mpr (by omega)] at hr
        exact List.noConfusion hr
      have hc := getD_eq_head_drop text (j + 1) c r2 hr
      rw [hs, hc]
      simp only [hj, hj1, decide_True, Bool.true_and]
      by_cases h32 : s = 32
      · simp [h32]
      · simp [h32]

theorem spanBefore_eq_drop (pre : GoString) :
    spanBefore pre = pre.drop (pre.length - (spanBefore pre).length) := by
  unfold spanBefore
  rw [List.length_reverse]
  have hp : pre.reverse.takeWhile isLetterOrDot <+: pre.reverse := List.takeWhile_prefix _
  have h1 : pre.reverse.takeWhile isLetterOrDot =
      pre.reverse.take (pre.reverse.takeWhile isLetterOrDot).length :=
    List.prefix_iff_eq_take.mp hp
  generalize (pre.reverse.takeWhile isLetterOrDot).length = n at h1 ⊢
  conv_lhs => rw [h1]
  rw [List.take_reverse, List.reverse_reverse]

theorem spanBefore_length_le (pre : GoString) : (spanBefore pre).length ≤ pre.length := by
  unfold spanBefore
  rw [List.length_reverse]
  have hp : pre.reverse.takeWhile isLetterOrDot <+: pre.reverse := List.takeWhile_prefix _
  have := hp.length_le
  rw [List.length_reverse] at this
  exact this

theorem scanBack_eq (pre post : GoString) (m : Nat) :
    scanBack (pre ++ m :: post) pre.length = pre.length - (spanBefore pre).length := by
  unfold scanBack spanBefore
  rw [List.take_left, List.length_reverse]

theorem slice_span (pre post rest : GoString) :
    slice (pre ++ post ++ rest) (pre.length - (spanBefore pre).length)
      (pre.length + post.length) = spanBefore pre ++ post := by
  unfold slice
  have e : pre.length + post.length = (pre ++ post).length := by simp
  rw [e, List.take_left, List.drop_append_of_le_length (by omega), ← spanBefore_eq_drop]

theorem sentenceIsAbbreviation_eq (env : Env) (pre post : GoString) :
    sentenceIsAbbreviation env (pre ++ 46 :: post) pre.length = knownAbbreviationDot env pre post := by
  unfold sentenceIsAbbreviation knownAbbreviationDot
  dsimp only
  rw [scanBack_eq]
  have hle := spanBefore_length_le pre
  have hstop : skipWhile isLetterOrDot (pre ++ 46 :: post) (pre.length + 1) =
      pre.length + (46 :: spanAfter post).length := by
    unfold skipWhile spanAfter
    have e : pre ++ 46 :: post = (pre ++ [46]) ++ post := by simp
    have e2 : pre.length + 1 = (pre ++ [46]).length := by simp
    rw [e, e2, List.drop_left, List.length_cons]
    simp
    omega
  have hfull : slice (pre ++ 46 :: post) (pre.length - (spanBefore pre).length)
      (skipWhile isLetterOrDot (pre ++ 46 :: post) (pre.length + 1)) =
      spanBefore pre ++ 46 :: spanAfter post := by
    rw [hstop]
    have e : pre ++ 46 :: post =
        pre ++ (46 :: spanAfter post) ++ post.dropWhile isLetterOrDot := by
      unfold spanAfter
      rw [List.append_assoc, List.cons_append, List.takeWhile_append_dropWhile]
    rw [e]
    exact slice_span pre (46 :: spanAfter post) _
  have hword : slice (pre ++ 46 :: post) (pre.length - (spanBefore pre).length)
      (pre.length + 1) = spanBefore pre ++ [46] := by
    have e : pre ++ 46 :: post = pre ++ [46] ++ post := by simp
    rw [e]
    exact slice_span pre [46] post
  rw [hfull, hword]
  by_cases hnil : spanBefore pre = []
  · have : pre.length - (spanBefore pre).length = pre.length := by
      rw [hnil]; rfl
    rw [if_pos this, hnil]
    rfl
  · have hpos : 0 < (spanBefore pre).length := List.length_pos.mpr hnil
    have : ¬ pre.length - (spanBefore pre).length = pre.length := by omega
    rw [if_neg this, decide_eq_true hnil, Bool.true_and]
    cases env.abbreviations (ToLower env (spanBefore pre ++ 46 :: spanAfter post)) <;> rfl

theorem abbreviationAtDot_eq (env : Env) (pre post : GoString) :
    abbreviationAtDot env (pre ++ 46 :: post) pre.length = ToLower env (spanBefore pre ++ [46]) := by
  unfold abbreviationAtDot
  dsimp only
  rw [scanBack_eq]
  have hle := spanBefore_length_le pre
  rw [if_neg (by omega)]
  have e : pre ++ 46 :: post = pre ++ [46] ++ post := by simp
  rw [e]
  exact congrArg (ToLower env) (slice_span pre [46] post)
theorem endsInMark_false (pre : GoString) (h : endsInMark pre = false) :
    ∀ p c, pre = p ++ [c] → ¬ (c = 46 ∨ c = 33 ∨ c = 63) := by
  intro p c hp
  subst hp
  unfold endsInMark at h
  have e : (p ++ [c]).getLast? = some c := by simp
  rw [e] at h
  simp only [Bool.or_eq_false_iff, decide_eq_false_iff_not] at h
  tauto

theorem splitSentences_of_trim (env : Env) (text t : GoString) (h : TrimSpace text = t)
    (hne : t ≠ []) :
    splitSentences env text = splitLoop env t (t.length + 1) 0 false [] [] := by
  unfold splitSentences
  dsimp only
  rw [h, if_neg hne]

theorem not_ellipsis_cons (post : GoString) (h : ¬ ([46, 46] <+: post)) :
    ¬ ([46, 46, 46] <+: 46 :: post) := by
  intro hp
  exact h (List.cons_prefix_cons.mp hp).2

/-- C32 (amended): in the trimmed text pre ++ m :: post, where pre does not
end in '.', '!' or '?': when m is a dot inside an open quotation (pre holds an
odd number of double quotes) that does not begin an ellipsis, is not followed
by optional closing quotes, a space and an upper-case ASCII letter, and is not
the end of the text, the dot does not end a sentence: the returned sentence
that holds the dot goes on after it, up to the end of the text or to a later
mark or closing quote; when m is an exclamation or question mark, the sentence
that holds it ends with it and the marks and closing quotes that directly
follow it, in either quotation state. The text He said "I love N.Y. very
much." is returned as one sentence; in "a!. b" the dot is taken into the
sentence that the exclamation mark ends, and in "a... b" the three dots end
the sentence. -/
theorem splitSentences_quoted_period (env : Env) (text pre post : GoString) (m : Nat)
    (ht : TrimSpace text = pre ++ m :: post) (hprev : endsInMark pre = false) :
    (m = 46 → quoteOpen pre = true → ¬ ([46, 46] <+: post) →
        spaceUppercaseAfter post = false → post ≠ [] →
        ∃ b, b ≠ [] ∧
          (b = post ∨ ∃ x z, b = x ++ [z] ∧ (z = 46 ∨ z = 33 ∨ z = 63 ∨ z = 34)) ∧
          sentenceThrough (splitSentences env text) pre 46 post b) ∧
      (m = 33 ∨ m = 63 →
        sentenceThrough (splitSentences env text) pre m post (absorbedAfter post)) ∧
      splitSentences abbrevEnv quotedPeriodText = [quotedPeriodText] ∧
      splitSentences bareEnv [34, 97, 33, 46, 32, 98, 34] = [[34, 97, 33, 46], [98, 34]] ∧
      splitSentences bareEnv [34, 97, 46, 46, 46, 32, 98, 34] =
        [[34, 97, 46, 46, 46], [98, 34]] := by
  have hp := endsInMark_false pre hprev
  have hs := splitSentences_of_trim env text _ ht (by simp)
  refine ⟨?_, ?_, by decide, by decide, by decide⟩
  · intro hm hq hell hnext hpost
    subst hm
    rw [hs]
    apply splitLoop_dot_continues env pre post hp (not_ellipsis_cons post hell) hpost
    unfold dotContinues
    have hdrop : (pre ++ 46 :: post).drop (pre.length + 1) = post := by
      have e : pre ++ 46 :: post = (pre ++ [46]) ++ post := by simp
      have e2 : pre.length + 1 = (pre ++ [46]).length := by simp
      rw [e, e2, List.drop_left]
    rw [followedBySpaceUppercase_eq, hdrop, hnext, hq]
    simp
  · intro hm
    rw [hs]
    apply splitLoop_mark_ends env pre post m (Or.inr hm) hp
    · rintro ⟨r, hr⟩
      have := (List.cons.inj hr).1
      rcases hm with h | h <;> omega
    · intro h46
      rcases hm with h | h <;> omega

theorem splitSentences_quoted_period_witness :
    TrimSpace quotedPeriodText =
        (ascii "He said " ++ [34] ++ ascii "I love N") ++ 46 :: (ascii "Y. very much." ++ [34]) ∧
      endsInMark (ascii "He said " ++ [34] ++ ascii "I love N") = false ∧
      quoteOpen (ascii "He said " ++ [34] ++ ascii "I love N") = true ∧
      spaceUppercaseAfter (ascii "Y. very much." ++ [34]) = false ∧
      (∃ b, b ≠ [] ∧
        (b = ascii "Y. very much." ++ [34] ∨
          ∃ x z, b = x ++ [z] ∧ (z = 46 ∨ z = 33 ∨ z = 63 ∨ z = 34)) ∧
        sentenceThrough (splitSentences abbrevEnv quotedPeriodText)
          (ascii "He said " ++ [34] ++ ascii "I love N") 46 (ascii "Y. very much." ++ [34]) b) ∧
      TrimSpace quotedExclamation = [34, 97] ++ 33 :: [32, 98, 34] ∧
      sentenceThrough (splitSentences bareEnv quotedExclamation) [34, 97] 33 [32, 98, 34]
        (absorbedAfter [32, 98, 34]) :=
  ⟨by decide, by decide, by decide, by decide,
    (splitSentences_quoted_period abbrevEnv quotedPeriodText
      (ascii "He said " ++ [34] ++ ascii "I love N") (ascii "Y. very much." ++ [34]) 46
      (by decide) (by decide)).1 rfl (by decide) (by decide) (by decide) (by decide),
    by decide,
    (splitSentences_quoted_period bareEnv quotedExclamation [34, 97] [32, 98, 34] 33
      (by decide) (by decide)).2.1 (Or.inl rfl)⟩

/-- C33 (amended): in the trimmed text pre ++ '.' ++ post, where pre does not
end in '.', '!' or '?', for a dot that does not begin an ellipsis and
terminates a known abbreviation (the span of letters and dots around the dot,
or the span ending at the dot, is in the table in lower case), the decision is
read from the text after the dot: when dotEndsAfter is false, that is when,
after optional closing quotes, the text goes on with a character that is no
white space, or with white space without line break followed (after optional
quotes) by a character that is no upper-case letter, or by any character when
the abbreviation is a title, the dot does not end a sentence in either
quotation state: the returned sentence that holds the dot goes on after it;
in every other case the sentence that holds the dot ends with it and the marks
and closing quotes that directly follow it, when the dot stands outside a
quotation. "Mr. Smith went home." is one sentence, "We used tools, etc. This
is enough." is two, and in "etc... and" the three dots end the sentence. -/
theorem splitSentences_abbreviation_dot (env : Env) (text pre post : GoString)
    (ht : TrimSpace text = pre ++ 46 :: post) (hprev : endsInMark pre = false)
    (hell : ¬ ([46, 46] <+: post)) (habbr : knownAbbreviationDot env pre post = true) :
    (dotEndsAfter env (titleBefore env pre) post = false →
        ∃ b, b ≠ [] ∧
          (b = post ∨ ∃ x z, b = x ++ [z] ∧ (z = 46 ∨ z = 33 ∨ z = 63 ∨ z = 34)) ∧
          sentenceThrough (splitSentences env text) pre 46 post b) ∧
      (dotEndsAfter env (titleBefore env pre) post = true → quoteOpen pre = false →
        sentenceThrough (splitSentences env text) pre 46 post (absorbedAfter post)) ∧
      (dotEndsAfter env (titleBefore env pre) post = false ↔
        ((post.dropWhile (fun c => c = 34)) ≠ [] ∧
            unicodeIsSpace ((post.dropWhile (fun c => c = 34)).headD 0) = false) ∨
          ((post.dropWhile (fun c => c = 34)).takeWhile unicodeIsSpace ≠ [] ∧
            ((post.dropWhile (fun c => c = 34)).takeWhile unicodeIsSpace).any
              (fun c => c = 10 || c = 13) = false ∧
            ((post.dropWhile (fun c => c = 34)).dropWhile unicodeIsSpace).dropWhile
              (fun c => c = 34) ≠ [] ∧
            (unicodeIsUpper env (decodeRune
              (((post.dropWhile (fun c => c = 34)).dropWhile unicodeIsSpace).dropWhile
                (fun c => c = 34))).1 = false ∨ titleBefore env pre = true))) ∧
      splitSentences abbrevEnv (ascii "Mr. Smith went home.") =
        [ascii "Mr. Smith went home."] ∧
      splitSentences abbrevEnv (ascii "We used tools, etc. This is enough.") =
        [ascii "We used tools, etc.", ascii "This is enough."] ∧
      splitSentences abbrevEnv (ascii "etc... and") = [ascii "etc...", ascii "and"] := by
  have hp := endsInMark_false pre hprev
  have hs := splitSentences_of_trim env text _ ht (by simp)
  have hdrop : (pre ++ 46 :: post).drop (pre.length + 1) = post := by
    have e : pre ++ 46 :: post = (pre ++ [46]) ++ post := by simp
    have e2 : pre.length + 1 = (pre ++ [46]).length := by simp
    rw [e, e2, List.drop_left]
  have hends : abbreviationEndsSentence env (pre ++ 46 :: post) pre.length =
      dotEndsAfter env (titleBefore env pre) post := by
    rw [abbreviationEndsSentence_eq, abbreviationAtDot_eq, hdrop]
    rfl
  refine ⟨?_, ?_, dotEndsAfter_false_iff env _ _, by decide, by decide, by decide⟩
  · intro hd
    have hpost : post ≠ [] := by
      intro h
      rw [h] at hd
      have : dotEndsAfter env (titleBefore env pre) [] = true := rfl
      rw [this] at hd
      exact Bool.noConfusion hd
    rw [hs]
    apply splitLoop_dot_continues env pre post hp (not_ellipsis_cons post hell) hpost
    unfold dotContinues
    rw [sentenceIsAbbreviation_eq, habbr, hends, hd]
    rfl
  · intro hd hq
    rw [hs]
    apply splitLoop_mark_ends env pre post 46 (Or.inl rfl) hp (not_ellipsis_cons post hell)
    intro _
    unfold dotContinues
    rw [sentenceIsAbbreviation_eq, habbr, hends, hd, hq]
    rfl

theorem splitSentences_abbreviation_dot_witness :
    TrimSpace (ascii "Mr. Smith went home.") = ascii "Mr" ++ 46 :: ascii " Smith went home." ∧
      endsInMark (ascii "Mr") = false ∧ ¬ ([46, 46] <+: ascii " Smith went home.") ∧
      knownAbbreviationDot abbrevEnv (ascii "Mr") (ascii " Smith went home.") = true ∧
      dotEndsAfter abbrevEnv (titleBefore abbrevEnv (ascii "Mr")) (ascii " Smith went home.") =
        false ∧
      (∃ b, b ≠ [] ∧
        (b = ascii " Smith went home." ∨
          ∃ x z, b = x ++ [z] ∧ (z = 46 ∨ z = 33 ∨ z = 63 ∨ z = 34)) ∧
        sentenceThrough (splitSentences abbrevEnv (ascii "Mr. Smith went home."))
          (ascii "Mr") 46 (ascii " Smith went home.") b) ∧
      TrimSpace (ascii "We used tools, etc. This is enough.") =
        ascii "We used tools, etc" ++ 46 :: ascii " This is enough." ∧
      knownAbbreviationDot abbrevEnv (ascii "We used tools, etc") (ascii " This is enough.") =
        true ∧
      dotEndsAfter abbrevEnv (titleBefore abbrevEnv (ascii "We used tools, etc"))
        (ascii " This is enough.") = true ∧
      quoteOpen (ascii "We used tools, etc") = false ∧
      sentenceThrough (splitSentences abbrevEnv (ascii "We used tools, etc. This is enough."))
        (ascii "We used tools, etc") 46 (ascii " This is enough.")
        (absorbedAfter (ascii " This is enough.")) :=
  ⟨by decide, by decide, by decide, by decide, by decide,
    (splitSentences_abbreviation_dot abbrevEnv (ascii "Mr. Smith went home.") (ascii "Mr")
      (ascii " Smith went home.") (by decide) (by decide) (by decide) (by decide)).1 (by decide),
    by decide, by decide, by decide, by decide,
    (splitSentences_abbreviation_dot abbrevEnv (ascii "We used tools, etc. This is enough.")
      (ascii "We used tools, etc") (ascii " This is enough.") (by decide) (by decide)
      (by decide) (by decide)).2.1 (by decide) (by decide)⟩

end Cefr
